import Mathlib

/-!
# Citation graph (`src/5_graf_cytowan/src/citation_graph.h`)

A shallow embedding of `CitationGraph<Publication>`.

* A `std::shared_ptr<Node>` / `std::weak_ptr<Node>` is the address of the node it
  points to (a natural number).  `std::make_shared` hands out the address
  `next` and increments it, so an address is never reused.  An allocator may hand
  out the address of a destroyed node again, so the source does not fix where a
  new node comes to stand among the old ones in a set ordered by address; what is
  stated about the lists after a call of `create` leaves that place open.
* The heap maps an address to the node stored there; `none` means that the node
  has been destroyed, so a `weak_ptr` is expired exactly when the heap has no
  node at its address.
* `std::set<std::shared_ptr<Node>>` and
  `std::set<std::weak_ptr<Node>, std::owner_less<...>>` are duplicate-free lists
  kept in increasing address order.
* The use count of a node is not stored: it is the number of `shared_ptr`s that
  point to it, namely the `root` member and the elements of the `children`
  sets of the nodes on the heap (`owned`).  A local `shared_ptr` is released
  at the end of its scope by `release`, which runs the destructor when nothing
  else owns the node.
* Dereferencing a null pointer or erasing through an iterator that was never
  set is undefined behaviour; the model reports it as `Outcome.undefined`.
-/

/-- The three exception classes of the header, and `std::exception` for what a
handler of the header throws again (`throw e` with `e` a `std::exception &`). -/
inductive Exn where
  | PublicationAlreadyCreated
  | PublicationNotFound
  | TriedToRemoveRoot
  | std_exception
  deriving DecidableEq, Repr

/-- The payload: constructed from an id, which `get_id` returns. -/
structure Publication (ι : Type) where
  get_id : ι
  deriving DecidableEq, Repr

/-- The nested class `Node`.  `publicationNodes` (the pointer to the map) is the
map of the graph state; `myMapIterator` is the key of the map entry the iterator
points to, `none` as long as `setMyMapIterator` has not been called. -/
structure CitationGraph.Node (ι : Type) where
  publication : Publication ι
  parents : List Nat
  children : List Nat
  myMapIterator : Option ι
  deriving DecidableEq, Repr

/-- The state of a `CitationGraph` object together with the heap of its nodes. -/
structure CitationGraph (ι : Type) where
  heap : Nat → Option (CitationGraph.Node ι)
  next : Nat
  publicationNodes : ι → Option Nat
  root : Nat

/-- The result of a call that changes the graph: normal return, an exception
(with the state the graph is left in), undefined behaviour, or the cascade of
destructors not finished within the fuel it was given. -/
inductive Outcome (ι : Type) where
  | ok (s : CitationGraph ι)
  | threw (e : Exn) (s : CitationGraph ι)
  | undefined
  | outOfFuel

/-- The result of a `const` member function. -/
inductive Result (α : Type) where
  | ok (a : α)
  | threw (e : Exn)
  | undefined
  deriving DecidableEq, Repr

/-- The state a call leaves behind, when it returns or throws. -/
def Outcome.state {ι : Type} : Outcome ι → Option (CitationGraph ι)
  | .ok s => some s
  | .threw _ s => some s
  | .undefined => none
  | .outOfFuel => none

/-- Whether a call had undefined behaviour. -/
def Outcome.isUndefined {ι : Type} : Outcome ι → Bool
  | .undefined => true
  | _ => false

/-- Whether a call returned normally. -/
def Outcome.isOk {ι : Type} : Outcome ι → Bool
  | .ok _ => true
  | _ => false

namespace CitationGraph

variable {ι : Type} [DecidableEq ι]

/-- The function `std::set::insert` on a set ordered by address. -/
def setInsert (x : Nat) : List Nat → List Nat
  | [] => [x]
  | y :: ys =>
    if x < y then x :: y :: ys
    else if x = y then y :: ys
    else y :: setInsert x ys

/-- The function `std::set::erase(key)`. -/
def setErase (x : Nat) (l : List Nat) : List Nat :=
  l.filter (fun y => y != x)

/-- The call `this->weak_from_this()` inside `~Node`.  `Node` derives from
`std::enable_shared_from_this<Node>` privately (`class Node : std::enable_...`),
so `std::make_shared` does not see the base and never stores the control block
in it: the result is the empty `weak_ptr`, here `none`. -/
def Node.weak_from_this (_n : Node ι) : Option Nat := none

/-- The member `Node::addParent`. -/
def Node.addParent (n : Node ι) (parent : Nat) : Node ι :=
  { n with parents := setInsert parent n.parents }

/-- The member `Node::addChild`. -/
def Node.addChild (n : Node ι) (child : Nat) : Node ι :=
  { n with children := setInsert child n.children }

/-- The member `Node::removeParent`: `parents.erase(parent)`.  The set is ordered by
`owner_less`, and the empty `weak_ptr` is equivalent to no element of it. -/
def Node.removeParent (n : Node ι) (parent : Option Nat) : Node ι :=
  match parent with
  | none => n
  | some p => { n with parents := setErase p n.parents }

/-- The member `Node::removeChild`. -/
def Node.removeChild (n : Node ι) (child : Nat) : Node ι :=
  { n with children := setErase child n.children }

/-- The member `Node::setMyMapIterator`. -/
def Node.setMyMapIterator (n : Node ι) (it : ι) : Node ι :=
  { n with myMapIterator := some it }

/-- Store a node at an address. -/
def setNode (s : CitationGraph ι) (a : Nat) (n : Node ι) : CitationGraph ι :=
  { s with heap := fun b => if b = a then some n else s.heap b }

/-- Apply a member function to the node at an address. -/
def modifyNode (s : CitationGraph ι) (a : Nat) (f : Node ι → Node ι) : CitationGraph ι :=
  { s with heap := fun b => if b = a then (s.heap a).map f else s.heap b }

/-- The node at an address stops existing. -/
def freeNode (s : CitationGraph ι) (a : Nat) : CitationGraph ι :=
  { s with heap := fun b => if b = a then none else s.heap b }

/-- The function `std::map::erase` of the entry with a given key. -/
def eraseEntry (s : CitationGraph ι) (k : ι) : CitationGraph ι :=
  { s with publicationNodes := fun i => if i = k then none else s.publicationNodes i }

/-- The function `std::map::insert`: an existing entry with the same key is kept. -/
def insertEntry (s : CitationGraph ι) (k : ι) (a : Nat) : CitationGraph ι :=
  { s with publicationNodes := fun i =>
      if i = k then (match s.publicationNodes k with
        | some b => some b
        | none => some a)
      else s.publicationNodes i }

/-- Whether some `shared_ptr` other than a local one points to the node at `a`:
the `root` member, or an element of the `children` set of a node on the heap. -/
def owned (s : CitationGraph ι) (a : Nat) : Bool :=
  decide (s.root = a) ||
    (List.range s.next).any (fun p =>
      match s.heap p with
      | some n => decide (a ∈ n.children)
      | none => false)

/-- The constructor `CitationGraph(stem_id)`. -/
def new (stem_id : ι) : CitationGraph ι :=
  { heap := fun a =>
      if a = 0 then
        some { publication := ⟨stem_id⟩, parents := [], children := [],
               myMapIterator := some stem_id }
      else none
    next := 1
    publicationNodes := fun i => if i = stem_id then some 0 else none
    root := 0 }

/-- The member `get_root_id`; `none` stands for dereferencing a dangling `root`. -/
def get_root_id (s : CitationGraph ι) : Option ι :=
  (s.heap s.root).map (fun n => n.publication.get_id)

/-- The private member `find`: the address of the node registered under `id`, or
`none` for `end()` (no entry, or an entry whose `weak_ptr` is expired). -/
def find (s : CitationGraph ι) (id : ι) : Option Nat :=
  match s.publicationNodes id with
  | some a => if (s.heap a).isSome then some a else none
  | none => none

/-- The member `exists`. -/
def «exists» (s : CitationGraph ι) (id : ι) : Bool :=
  (find s id).isSome

/-- The ids of the nodes a list of `shared_ptr`s points to; `none` if one of them
does not point to a node. -/
def idsOf (s : CitationGraph ι) : List Nat → Option (List ι)
  | [] => some []
  | c :: cs =>
    match s.heap c, idsOf s cs with
    | some n, some ids => some (n.publication.get_id :: ids)
    | _, _ => none

/-- The member `get_children`. -/
def get_children (s : CitationGraph ι) (id : ι) : Result (List ι) :=
  match find s id with
  | none => .threw .PublicationNotFound
  | some a =>
    match s.heap a with
    | none => .undefined
    | some n =>
      match idsOf s n.children with
      | some ids => .ok ids
      | none => .undefined

/-- The member `get_parents`: expired parents are skipped. -/
def get_parents (s : CitationGraph ι) (id : ι) : Result (List ι) :=
  match find s id with
  | none => .threw .PublicationNotFound
  | some a =>
    match s.heap a with
    | none => .undefined
    | some n =>
      .ok (n.parents.filterMap (fun p => (s.heap p).map (fun m => m.publication.get_id)))

/-- The member `operator[]`. -/
def index (s : CitationGraph ι) (id : ι) : Result (Publication ι) :=
  match find s id with
  | none => .threw .PublicationNotFound
  | some a =>
    match s.heap a with
    | none => .undefined
    | some n => .ok n.publication

/-- The body of `~Node` for the node at `a`: erase the map entry through
`myMapIterator`, then call `removeParent(toRemoveWeak)` on every child.  The
members are destroyed afterwards, by `cascade`. -/
def dtorBody (s : CitationGraph ι) (a : Nat) : Option (CitationGraph ι) :=
  match s.heap a with
  | none => none
  | some n =>
    match n.myMapIterator with
    | none => none
    | some k =>
      some (n.children.foldl
        (fun t c => modifyNode t c (fun m => m.removeParent n.weak_from_this))
        (eraseEntry s k))

/-- The destructors in progress, innermost first.  The node on top is destroying
its `children` member: each element is taken out of the set and released; if that
was the last `shared_ptr` to the child, the child's destructor starts (its body
runs and it goes on top).  When the set is empty the node is gone.  The elements
are released in increasing address order (the standard leaves the order open).
The first argument bounds the number of steps; `cascade_returns` shows that the
bound `release` passes is never reached. -/
def cascade : Nat → List Nat → CitationGraph ι → Outcome ι
  | _, [], s => .ok s
  | 0, _ :: _, _ => .outOfFuel
  | fuel + 1, a :: stack, s =>
    match s.heap a with
    | none => .undefined
    | some n =>
      match n.children with
      | [] => cascade fuel stack (freeNode s a)
      | c :: cs =>
        let s1 := setNode s a { n with children := cs }
        if owned s1 c then cascade fuel (a :: stack) s1
        else
          match dtorBody s1 c with
          | none => .undefined
          | some s2 => cascade fuel (c :: a :: stack) s2

/-- The number of nodes on the heap plus the number of their owning edges: every
step of `cascade` lowers it by one. -/
def size (s : CitationGraph ι) : Nat :=
  ((List.range s.next).map (fun a =>
    match s.heap a with
    | some n => n.children.length + 1
    | none => 0)).sum

/-- A local `shared_ptr` to the node at `a` goes out of scope. -/
def release (s : CitationGraph ι) (a : Nat) : Outcome ι :=
  if owned s a then .ok s
  else
    match dtorBody s a with
    | none => .undefined
    | some s1 => cascade (size s1 + 1) [a] s1

/-- The first loop after `make_shared` in `create`:
`newNode->addParent(publicationNodes->find(parentId)->second)`. -/
def addParents (a : Nat) : List ι → CitationGraph ι → Option (CitationGraph ι)
  | [], s => some s
  | parentId :: rest, s =>
    match s.publicationNodes parentId with
    | none => none
    | some p => addParents a rest (modifyNode s a (fun n => n.addParent p))

/-- The loop in the `try` block of `create`: `parent.lock()->addChild(newNode)`. -/
def addChildren (a : Nat) : List ι → CitationGraph ι → Option (CitationGraph ι)
  | [], s => some s
  | parentId :: rest, s =>
    match s.publicationNodes parentId with
    | none => none
    | some p =>
      match s.heap p with
      | none => none
      | some _ => addChildren a rest (modifyNode s p (fun n => n.addChild a))

/-- The member `create(id, parent_ids)`, no allocation failing. -/
def create (s : CitationGraph ι) (id : ι) (parent_ids : List ι) : Outcome ι :=
  if s.exists id then .threw .PublicationAlreadyCreated s
  else if parent_ids.any (fun parentId => !s.exists parentId) then
    .threw .PublicationNotFound s
  else
    let newNode := s.next
    let s1 : CitationGraph ι :=
      { setNode s newNode
          { publication := ⟨id⟩, parents := [], children := [], myMapIterator := none }
        with next := s.next + 1 }
    match addParents newNode parent_ids s1 with
    | none => .undefined
    | some s2 =>
      match addChildren newNode parent_ids s2 with
      | none => .undefined
      | some s3 =>
        let s4 := modifyNode (insertEntry s3 id newNode) newNode
          (fun n => n.setMyMapIterator id)
        release s4 newNode

/-- The member `create(id, parent_id)`. -/
def create1 (s : CitationGraph ι) (id : ι) (parent_id : ι) : Outcome ι :=
  create s id [parent_id]

/-- The member `add_citation`, no allocation failing. -/
def add_citation (s : CitationGraph ι) (child_id parent_id : ι) : Outcome ι :=
  if !s.exists child_id || !s.exists parent_id then .threw .PublicationNotFound s
  else
    match s.publicationNodes child_id, s.publicationNodes parent_id with
    | some child, some parent =>
      let s1 := modifyNode s child (fun n => n.addParent parent)
      match s1.heap parent with
      | none => .undefined
      | some _ => release (modifyNode s1 parent (fun n => n.addChild child)) child
    | _, _ => .undefined

/-- The loop of `remove`: `parent.lock().get()->removeChild(toRemove)` for every
element of the parent set of the node to remove; `none` when `lock()` gives a
null pointer. -/
def removeFromParents (toRemove : Nat) : List Nat → CitationGraph ι → Option (CitationGraph ι)
  | [], s => some s
  | parent :: rest, s =>
    match s.heap parent with
    | none => none
    | some _ =>
      removeFromParents toRemove rest (modifyNode s parent (fun n => n.removeChild toRemove))

/-- The member `remove`. -/
def remove (s : CitationGraph ι) (id : ι) : Outcome ι :=
  if !s.exists id then .threw .PublicationNotFound s
  else
    match get_root_id s with
    | none => .undefined
    | some r =>
      if r = id then .threw .TriedToRemoveRoot s
      else
        match s.publicationNodes id with
        | none => .undefined
        | some toRemove =>
          match s.heap toRemove with
          | none => .undefined
          | some n =>
            match removeFromParents toRemove n.parents s with
            | none => .undefined
            | some s1 => release s1 toRemove

/-- The representation invariant of a graph between two calls. -/
structure Inv (s : CitationGraph ι) : Prop where
  bound : ∀ a n, s.heap a = some n → a < s.next
  parentBound : ∀ a n p, s.heap a = some n → p ∈ n.parents → p < s.next
  entry : ∀ id a, s.publicationNodes id = some a →
    ∃ n, s.heap a = some n ∧ n.publication.get_id = id
  iter : ∀ a n, s.heap a = some n → n.myMapIterator = some n.publication.get_id
  registered : ∀ a n, s.heap a = some n → s.publicationNodes n.publication.get_id = some a
  childLive : ∀ p n c, s.heap p = some n → c ∈ n.children → ∃ m, s.heap c = some m
  sorted : ∀ a n, s.heap a = some n →
    n.children.Sorted (· < ·) ∧ n.parents.Sorted (· < ·)
  rootLive : ∃ n, s.heap s.root = some n

/-- The invariant while the destructors of the nodes in `stack` are running:
these nodes are already erased from the map and nothing owns them. -/
structure CInv (s : CitationGraph ι) (stack : List Nat) : Prop where
  bound : ∀ a n, s.heap a = some n → a < s.next
  parentBound : ∀ a n p, s.heap a = some n → p ∈ n.parents → p < s.next
  entry : ∀ id a, s.publicationNodes id = some a →
    a ∉ stack ∧ ∃ n, s.heap a = some n ∧ n.publication.get_id = id
  iter : ∀ a n, s.heap a = some n → n.myMapIterator = some n.publication.get_id
  registered : ∀ a n, s.heap a = some n → a ∉ stack →
    s.publicationNodes n.publication.get_id = some a
  childLive : ∀ p n c, s.heap p = some n → c ∈ n.children → ∃ m, s.heap c = some m
  sorted : ∀ a n, s.heap a = some n →
    n.children.Sorted (· < ·) ∧ n.parents.Sorted (· < ·)
  rootLive : ∃ n, s.heap s.root = some n
  unowned : ∀ x ∈ stack, s.root ≠ x ∧ ∀ p n, s.heap p = some n → x ∉ n.children

/-- Insert a list of addresses into a set, first to last. -/
def insertAll (addrs : List Nat) (l : List Nat) : List Nat :=
  addrs.foldl (fun acc p => setInsert p acc) l

/-- The state in which `child` has been added to the `children` set of every
node whose address is in `addrs`. -/
def linkAll (s : CitationGraph ι) (child : Nat) (addrs : List Nat) : CitationGraph ι :=
  { s with heap := fun b =>
      if b ∈ addrs then (s.heap b).map (fun n => n.addChild child) else s.heap b }

/-- The state in which `child` has been erased from the `children` set of every
node whose address is in `addrs`. -/
def unlinkAll (s : CitationGraph ι) (child : Nat) (addrs : List Nat) : CitationGraph ι :=
  { s with heap := fun b =>
      if b ∈ addrs then (s.heap b).map (fun n => n.removeChild child) else s.heap b }

/-- The state `create` has built when its local `newNode` is about to go out of
scope, for a new id and registered parents. -/
def createdState (s : CitationGraph ι) (id : ι) (parent_ids : List ι) : CitationGraph ι :=
  { heap := fun b =>
      if b = s.next then
        some { publication := ⟨id⟩
               parents := insertAll (parent_ids.filterMap s.publicationNodes) []
               children := []
               myMapIterator := some id }
      else if b ∈ parent_ids.filterMap s.publicationNodes then
        (s.heap b).map (fun n => n.addChild s.next)
      else s.heap b
    next := s.next + 1
    publicationNodes := fun i => if i = id then some s.next else s.publicationNodes i
    root := s.root }

/-- The state `add_citation` has built when its local `child` is about to go out
of scope: the nodes at addresses `child` and `parent` are linked. -/
def citedState (s : CitationGraph ι) (child parent : Nat) : CitationGraph ι :=
  modifyNode (modifyNode s child (fun n => n.addParent parent)) parent
    (fun n => n.addChild child)

/-- The states a graph can be in: constructed, then any calls of `create`,
`add_citation` and `remove` that returned or threw. -/
inductive Reachable : CitationGraph ι → Prop where
  | new (stem_id : ι) : Reachable (new stem_id)
  | create {s t : CitationGraph ι} (id : ι) (parent_ids : List ι) :
      Reachable s → (create s id parent_ids).state = some t → Reachable t
  | add_citation {s t : CitationGraph ι} (child_id parent_id : ι) :
      Reachable s → (add_citation s child_id parent_id).state = some t → Reachable t
  | remove {s t : CitationGraph ι} (id : ι) :
      Reachable s → (remove s id).state = some t → Reachable t

/-- Owning edges and back-references agree, and every node but the root has an
owner.  While destructors run, the nodes in `stack` are exempt from the second and
third statement: their `children` sets are being emptied, and nothing owns them. -/
structure Sym (s : CitationGraph ι) (stack : List Nat) : Prop where
  childParent : ∀ p n c, s.heap p = some n → c ∈ n.children →
    ∃ m, s.heap c = some m ∧ p ∈ m.parents
  parentChild : ∀ p n c m, s.heap p = some n → s.heap c = some m → p ∈ m.parents →
    p ∉ stack → c ∉ stack → c ∈ n.children
  owner : ∀ c m, s.heap c = some m → c ∉ stack → c ≠ s.root →
    ∃ p n, s.heap p = some n ∧ c ∈ n.children

/-- A call of one of the three members that change the graph. -/
inductive Call (ι : Type) where
  | create (id : ι) (parent_ids : List ι)
  | add_citation (child_id parent_id : ι)
  | remove (id : ι)

/-- Perform a call. -/
def Call.run (s : CitationGraph ι) : Call ι → Outcome ι
  | .create id parent_ids => CitationGraph.create s id parent_ids
  | .add_citation child_id parent_id => CitationGraph.add_citation s child_id parent_id
  | .remove id => CitationGraph.remove s id

/-- Perform a list of calls one after the other, an exception being caught by the
caller; `none` when one of them has undefined behaviour or runs out of fuel. -/
def runCalls : List (Call ι) → CitationGraph ι → Option (CitationGraph ι)
  | [], s => some s
  | c :: cs, s =>
    match (c.run s).state with
    | some t => runCalls cs t
    | none => none

/-- The id `b` is in the list `get_children(a)` returns: an owning edge from `a` to
`b`, as a caller sees it. -/
def ChildOf (s : CitationGraph ι) (a b : ι) : Prop :=
  ∃ l, get_children s a = .ok l ∧ b ∈ l

/-- The id `a` is in the list `get_parents(b)` returns. -/
def ParentOf (s : CitationGraph ι) (a b : ι) : Prop :=
  ∃ l, get_parents s b = .ok l ∧ a ∈ l

/-- An owning edge between two addresses of the heap. -/
def Edge (s : CitationGraph ι) (p c : Nat) : Prop :=
  ∃ n, s.heap p = some n ∧ c ∈ n.children

/-- The member `create(id, parent_ids)` when the call `addChild(newNode)` for the
parent at position `failAt` of the list throws: `std::set::insert` cannot allocate
and leaves the set as it was.  Up to there the loop of the `try` block has linked
the parents before that position, and `alreadyAddedTo` holds them and the parent at
`failAt`.  The handler erases the new node from the `children` set of every element
of `alreadyAddedTo` and throws a copy of the exception; then the local `newNode`
goes out of scope.  With `failAt` beyond the list no call fails. -/
def create_failing (s : CitationGraph ι) (id : ι) (parent_ids : List ι) (failAt : Nat) :
    Outcome ι :=
  if failAt < parent_ids.length then
    if s.exists id then .threw .PublicationAlreadyCreated s
    else if parent_ids.any (fun parentId => !s.exists parentId) then
      .threw .PublicationNotFound s
    else
      let newNode := s.next
      let s1 : CitationGraph ι :=
        { setNode s newNode
            { publication := ⟨id⟩, parents := [], children := [], myMapIterator := none }
          with next := s.next + 1 }
      match addParents newNode parent_ids s1 with
      | none => .undefined
      | some s2 =>
        match addChildren newNode (parent_ids.take failAt) s2 with
        | none => .undefined
        | some s3 =>
          let alreadyAddedTo :=
            insertAll ((parent_ids.take (failAt + 1)).filterMap s.publicationNodes) []
          match removeFromParents newNode alreadyAddedTo s3 with
          | none => .undefined
          | some s4 =>
            match release s4 newNode with
            | .ok s5 => .threw .std_exception s5
            | o => o
  else create s id parent_ids

/-- Whether a call is a call of `add_citation`. -/
def Call.isAddCitation : Call ι → Bool
  | .add_citation _ _ => true
  | _ => false

/-- The nodes whose destruction `cascade` completes, in the order in which it
completes them: the log of the calls of `freeNode`, along the same steps. -/
def cascadeLog : Nat → List Nat → CitationGraph ι → List Nat
  | _, [], _ => []
  | 0, _ :: _, _ => []
  | fuel + 1, a :: stack, s =>
    match s.heap a with
    | none => []
    | some n =>
      match n.children with
      | [] => a :: cascadeLog fuel stack (freeNode s a)
      | c :: cs =>
        let s1 := setNode s a { n with children := cs }
        if owned s1 c then cascadeLog fuel (a :: stack) s1
        else
          match dtorBody s1 c with
          | none => []
          | some s2 => cascadeLog fuel (c :: a :: stack) s2

/-- The nodes destroyed when a local `shared_ptr` to the node at `a` goes out of
scope: the log of `release`. -/
def releaseLog (s : CitationGraph ι) (a : Nat) : List Nat :=
  if owned s a then []
  else
    match dtorBody s a with
    | none => []
    | some s1 => cascadeLog (size s1 + 1) [a] s1

end CitationGraph

/-!
# Ternary search tree (`src/7_tst/src/tst.h`)

A shallow embedding of `TST<C>`.

* A `const C*` argument is the list of the characters it points to, without the
  terminator: `charAt str i` is `str[i]`, and it is `'\0'` from the end of the list
  on.  The code reads `str[1]` only after it has seen that `str[0]` differs from
  `'\0'`, so a `'\0'` inside the list ends the string as it does in the code.  The
  `std::basic_string` overloads pass `c_str()`, which is the list of the string.
* A tree is immutable and its nodes are shared, so a `std::shared_ptr<TST<C>>` is
  the tree it points to.  `TST.dflt` is the default-constructed tree (three null
  pointers, `data == '\0'`), which is also what `emptyNode()` points to.
-/

/-- The class `TST<C>`: the default-constructed tree, or the five members. -/
inductive TST (C : Type) where
  | dflt : TST C
  | node (leftNode centerNode rightNode : TST C) (isEndOfWord : Bool) (data : C) : TST C
  deriving DecidableEq, Repr

namespace TST

variable {C : Type} [DecidableEq C] [Zero C] [LT C] [DecidableRel ((· < ·) : C → C → Prop)]

/-- The character `str[i]` of a C string. -/
def charAt (str : List C) (i : Nat) : C :=
  str.getD i 0

/-- The member `data`. -/
def data : TST C → C
  | dflt => 0
  | node _ _ _ _ d => d

/-- The member `empty()`: `data == '\0'`. -/
def empty (t : TST C) : Bool :=
  decide (t.data = 0)

/-- The constructor `TST(const C* str)`. -/
def new : List C → TST C
  | [] => node dflt dflt dflt false 0
  | c :: rest =>
    node dflt
      (if c = 0 ∨ charAt rest 0 = 0 then dflt else new rest)
      dflt
      (if c = 0 then false else decide (charAt rest 0 = 0))
      c

/-- The member `operator+(const C* str)`. -/
def add : TST C → List C → TST C
  | dflt, str => new str
  | node l c r e d, str =>
    if d = 0 then new str
    else if charAt str 0 = 0 then node l c r e d
    else if charAt str 0 = d then node l (add c str.tail) r (decide (charAt str 1 = 0)) d
    else if charAt str 0 < d then node (add l str) c r e d
    else node l c (add r str) e d

/-- The member `exist(const C* str)`. -/
def exist : TST C → List C → Bool
  | dflt, _ => false
  | node l c r e d, str =>
    if charAt str 0 = 0 ∨ d = 0 then false
    else if charAt str 1 = 0 ∧ charAt str 0 = d then e
    else if charAt str 0 = d then exist c str.tail
    else if charAt str 0 < d then exist l str
    else exist r str

/-- The member `prefixHelper(const C* str)`: the length of the longest prefix of
`str` that the tree spells from its root. -/
def prefixHelper : TST C → List C → Nat
  | dflt, _ => 0
  | node l c r _ d, str =>
    if charAt str 0 = 0 ∨ d = 0 then 0
    else if d = charAt str 0 then 1 + prefixHelper c str.tail
    else if charAt str 0 < d then prefixHelper l str
    else prefixHelper r str

/-- The member `prefix(const std::basic_string<C>& str)`:
`str.substr(0, prefixHelper(str.c_str()))`. -/
def prefixOf (t : TST C) (str : List C) : List C :=
  str.take (prefixHelper t str)

end TST

/-!
# String sets (`src/2_strset/src/strset.cc`, `src/2_strset/src/strsetconst.cc`)

A shallow embedding of the module `jnp1::strset_*` with `strset42`.

* A `std::string` is the list of its characters (their codes); `string_compare`
  is `std::string::compare`.  A `const char*` argument is `none` for the null
  pointer and `some` of the string otherwise.
* A `std::set<std::string>` is the list of its elements in iteration order, without
  duplicates; `std::map<unsigned long, std::set<std::string>>` is a partial function.
* The static variables `next_id`, `stored_sets()`, `was_it_created` and `id42` are
  the fields of `State`, and every function takes the state and returns the new one
  next to its result.  What the functions write to `cerr` is left out.
* Dereferencing the `end()` iterator of a set is undefined behaviour.  The one
  place that does it, the call of `std::mismatch` in `compare_two_existing_sets`,
  only compares the object it reads there with an element of the other set; what
  that comparison yields is not fixed by the source and is an argument (`at_end`)
  of the functions that can reach it.
-/

namespace Strset

/-- The type `std::string`. -/
abbrev Str := List Nat

/-- The member `std::string::compare`: negative, zero or positive. -/
def string_compare : Str → Str → Int
  | [], [] => 0
  | [], _ :: _ => -1
  | _ :: _, [] => 1
  | a :: as, b :: bs =>
    if a < b then -1
    else if b < a then 1
    else string_compare as bs

/-- The function `std::set<std::string>::insert`. -/
def insertStr (x : Str) : List Str → List Str
  | [] => [x]
  | y :: ys =>
    if string_compare x y < 0 then x :: y :: ys
    else if x = y then y :: ys
    else y :: insertStr x ys

/-- The function `std::set<std::string>::erase(key)`. -/
def eraseStr (x : Str) (l : List Str) : List Str :=
  l.filter (fun y => y != x)

/-- The static variables of the two translation units. -/
structure State where
  next_id : Nat
  stored_sets : Nat → Option (List Str)
  was_it_created : Bool
  id42 : Nat

/-- The state at program start. -/
def init : State :=
  { next_id := 0, stored_sets := fun _ => none, was_it_created := false, id42 := 0 }

/-- The assignment `stored_sets()[id] = set` and a write through
`iterator->second`. -/
def State.put (s : State) (id : Nat) (set : List Str) : State :=
  { s with stored_sets := fun k => if k = id then some set else s.stored_sets k }

/-- The call `stored_sets().erase(iterator)`. -/
def State.drop (s : State) (id : Nat) : State :=
  { s with stored_sets := fun k => if k = id then none else s.stored_sets k }

/-- The string literal `"42"`. -/
def str42 : Str := [52, 50]

/-- The function `strset_new`; `next_id` is an `unsigned long`. -/
def strset_new (s : State) : Nat × State :=
  let id := s.next_id
  (id, { s with next_id := (s.next_id + 1) % 2 ^ 64 }.put id [])

/-- The body of `strset_insert`, with the function it calls as `strset42()`. -/
def strset_insert_using (strset42 : State → Nat × State) (s : State) (id : Nat)
    (value : Option Str) : State :=
  match value with
  | none => s
  | some element =>
    match s.stored_sets id with
    | none => s
    | some _ =>
      let r := strset42 s
      match r.2.stored_sets id with
      | none => r.2
      | some our_set =>
        if id = r.1 ∧ our_set ≠ [] then r.2
        else if element ∈ our_set then r.2
        else r.2.put id (insertStr element our_set)

/-- The body of `strset42`, with the function it calls as `strset_insert`. -/
def strset42_using (strset_insert : State → Nat → Option Str → State) (s : State) :
    Nat × State :=
  if !s.was_it_created then
    let r := strset_new s
    let s1 := { r.2 with id42 := r.1, was_it_created := true }
    let s2 := strset_insert s1 s1.id42 (some str42)
    (s2.id42, s2)
  else (s.id42, s)

/-- The function `strset42`.  The two functions call each other: `strset42` calls
`strset_insert` after it has set `was_it_created`, so the call of `strset42` inside
that `strset_insert` only returns `id42`, and the innermost argument here is never
called. -/
def strset42 : State → Nat × State :=
  strset42_using (strset_insert_using (strset42_using (fun s _ _ => s)))

/-- The function `strset_insert`. -/
def strset_insert : State → Nat → Option Str → State :=
  strset_insert_using strset42

/-- The function `strset_delete`. -/
def strset_delete (s : State) (id : Nat) : State :=
  match s.stored_sets id with
  | none => s
  | some _ =>
    let r := strset42 s
    if id = r.1 then r.2 else r.2.drop id

/-- The function `strset_size`. -/
def strset_size (s : State) (id : Nat) : Nat :=
  match s.stored_sets id with
  | none => 0
  | some set => set.length

/-- The function `strset_remove`. -/
def strset_remove (s : State) (id : Nat) (value : Option Str) : State :=
  match value with
  | none => s
  | some element =>
    match s.stored_sets id with
    | none => s
    | some _ =>
      let r := strset42 s
      if id = r.1 then r.2
      else
        match r.2.stored_sets id with
        | none => r.2
        | some our_set =>
          if element ∈ our_set then r.2.put id (eraseStr element our_set) else r.2

/-- The function `strset_test`. -/
def strset_test (s : State) (id : Nat) (value : Option Str) : Int :=
  match value with
  | none => 0
  | some element =>
    match s.stored_sets id with
    | none => 0
    | some our_set => if element ∈ our_set then 1 else 0

/-- The function `strset_clear`. -/
def strset_clear (s : State) (id : Nat) : State :=
  match s.stored_sets id with
  | none => s
  | some _ =>
    let r := strset42 s
    if id = r.1 then r.2 else r.2.put id []

/-- The algorithm `std::mismatch(first1, last1, first2)`: what is left of the two
ranges at the first position where they differ.  It compares `*first1` with
`*first2` as long as the first range has an element, also when the second range
has none left: then `*first2` reads through `end()`.  `at_end a` is what the
comparison of the element `a` with the object read there yields in the execution
at hand.  With `some false` the loop stops, the second iterator being `end()`.
With `some true` the loop goes on and steps the second iterator past `end()`, and
`none` is any other course (an implementation with checked iterators aborts); for
both the result is `none`. -/
def mismatch (at_end : Str → Option Bool) : List Str → List Str → Option (List Str × List Str)
  | [], l2 => some ([], l2)
  | a :: l1, [] =>
    match at_end a with
    | some false => some (a :: l1, [])
    | _ => none
  | a :: l1, b :: l2 =>
    if a = b then mismatch at_end l1 l2 else some (a :: l1, b :: l2)

/-- The function `compare_two_existing_sets`, with the values of `comp_result`:
`first_mismatch.first` is `first_set.end()` when the first list of the pair is
empty, and likewise for the second. -/
def compare_two_existing_sets (at_end : Str → Option Bool) (first_set second_set : List Str) :
    Option Int :=
  match mismatch at_end first_set second_set with
  | none => none
  | some first_mismatch =>
    if first_mismatch.1 ≠ [] ∧ first_mismatch.2 = [] then some 1
    else if first_mismatch.1 = [] ∧ first_mismatch.2 ≠ [] then some (-1)
    else if first_mismatch.1 = [] ∧ first_mismatch.2 = [] then some 0
    else
      match first_mismatch.1, first_mismatch.2 with
      | a :: _, b :: _ =>
        let result := string_compare a b
        if result > 0 then some 1
        else if result < 0 then some (-1)
        else some 0
      | _, _ => none

/-- The function `strset_comp`. -/
def strset_comp (at_end : Str → Option Bool) (s : State) (id1 id2 : Nat) : Option Int :=
  let empty_set : List Str := []
  compare_two_existing_sets at_end
    (match s.stored_sets id1 with
      | some set => set
      | none => empty_set)
    (match s.stored_sets id2 with
      | some set => set
      | none => empty_set)

/-- A call that can change the state. -/
inductive Call where
  | strset_new
  | strset_delete (id : Nat)
  | strset_insert (id : Nat) (value : Option Str)
  | strset_remove (id : Nat) (value : Option Str)
  | strset_clear (id : Nat)
  | strset42

/-- The state after a call. -/
def Call.run : Call → State → State
  | .strset_new, s => (Strset.strset_new s).2
  | .strset_delete id, s => Strset.strset_delete s id
  | .strset_insert id value, s => Strset.strset_insert s id value
  | .strset_remove id value, s => Strset.strset_remove s id value
  | .strset_clear id, s => Strset.strset_clear s id
  | .strset42, s => (Strset.strset42 s).2

/-- The state after a list of calls. -/
def runCalls (cs : List Call) (s : State) : State :=
  cs.foldl (fun t c => c.run t) s

/-- The representation invariant: every set is free of duplicates and every id in
use was handed out by `strset_new` (it is below `next_id`). -/
structure Inv (s : State) : Prop where
  nodup : ∀ id set, s.stored_sets id = some set → set.Nodup
  below : ∀ id set, s.stored_sets id = some set → id < s.next_id

end Strset

/-!
# Wallets (`src/3_wallet/src/wallet.cc`)

A shallow embedding of the class `Wallet`.

* The state holds the static member `existing_units` and, for every address, the
  members of the `Wallet` object there and whether it is alive; a constructor takes
  the address `next`.  A call on an object that is not alive is undefined
  behaviour.
* `uint64_t` arithmetic is arithmetic modulo `2 ^ 64`; the `int` argument of
  `operator*=` is an integer, and `n - 1` overflows for the least `int`.
* `Operation(units)` reads the system clock; the time it reads is the argument
  `now` of the call.
* The statements of a function body act on the state one after the other, so two
  references to the same object are handled as the code handles them.
* A function that returns a `Wallet` by value leaves the object at the address
  `next`.
-/

/-- The class `Wallet::Operation`: the units after the operation and its time in
milliseconds. -/
structure Wallet.Operation where
  units : Nat
  time_of_operation : Nat
  deriving DecidableEq, Repr

namespace Wallet

/-- The constant `UNITS_IN_B`. -/
def UNITS_IN_B : Nat := 100000000

/-- The constant `MAX_UNITS_IN_CIRCULATION`, `2.1e7 * UNITS_IN_B`. -/
def MAX_UNITS_IN_CIRCULATION : Nat := 21000000 * UNITS_IN_B

/-- The conversion of an integer to `uint64_t`. -/
def toU64 (i : Int) : Nat := (i % 2 ^ 64).toNat

/-- The sum of two `uint64_t`. -/
def add64 (a b : Nat) : Nat := (a + b) % 2 ^ 64

/-- The difference of two `uint64_t`. -/
def sub64 (a b : Nat) : Nat := (a + (2 ^ 64 - b % 2 ^ 64)) % 2 ^ 64

/-- The product of two `uint64_t`. -/
def mul64 (a b : Nat) : Nat := (a * b) % 2 ^ 64

/-- The static member `existing_units` and the `Wallet` objects: for every address
whether an object is alive there, and its members `units` and `operations`. -/
structure State where
  existing_units : Nat
  alive : Nat → Bool
  units : Nat → Nat
  operations : Nat → List Operation
  next : Nat

/-- The state at program start. -/
def init : State :=
  { existing_units := 0, alive := fun _ => false, units := fun _ => 0,
    operations := fun _ => [], next := 0 }

/-- What a call does: it returns, it throws `std::invalid_argument`, or its
behaviour is undefined. -/
inductive Outcome where
  | ok (s : State)
  | invalid_argument (s : State)
  | undefined

/-- Whether a call has undefined behaviour. -/
def Outcome.isUndefined : Outcome → Bool
  | .undefined => true
  | _ => false

/-- The assignment `w.units = u`. -/
def State.setUnits (s : State) (w : Nat) (u : Nat) : State :=
  { s with units := fun a => if a = w then u else s.units a }

/-- The assignment `w.operations = ops`. -/
def State.setOperations (s : State) (w : Nat) (ops : List Operation) : State :=
  { s with operations := fun a => if a = w then ops else s.operations a }

/-- The call `w.operations.emplace_back(u)`. -/
def State.emplace_back (s : State) (w : Nat) (u : Nat) (now : Nat) : State :=
  s.setOperations w (s.operations w ++ [{ units := u, time_of_operation := now }])

/-- The assignment `Wallet::existing_units = u`. -/
def State.setExisting (s : State) (u : Nat) : State :=
  { s with existing_units := u }

/-- A new object at the address `next`, with its members initialised. -/
def State.construct (s : State) (units : Nat) (operations : List Operation) : State :=
  { s with alive := fun a => if a = s.next then true else s.alive a
           units := fun a => if a = s.next then units else s.units a
           operations := fun a => if a = s.next then operations else s.operations a
           next := s.next + 1 }

/-- The end of the lifetime of the object at `w`. -/
def State.destroy (s : State) (w : Nat) : State :=
  { s with alive := fun a => if a = w then false else s.alive a }

/-- The constructor `Wallet()`. -/
def ctor_default (s : State) (now : Nat) : State :=
  (s.construct 0 []).emplace_back s.next 0 now

/-- The constructor `Wallet(int n)`. -/
def ctor_int (s : State) (n : Int) (now : Nat) : Outcome :=
  if n < 0 then .invalid_argument s
  else
    let number_of_B := toU64 n
    if sub64 MAX_UNITS_IN_CIRCULATION s.existing_units / UNITS_IN_B < number_of_B then
      .invalid_argument s
    else
      let units := mul64 number_of_B UNITS_IN_B
      let s1 := s.construct units []
      let s2 := s1.setExisting (add64 s1.existing_units (s1.units s.next))
      .ok (s2.emplace_back s.next (s2.units s.next) now)

/-- The constructor `Wallet(Wallet &&w)`. -/
def ctor_move (s : State) (w : Nat) (now : Nat) : Outcome :=
  if s.alive w then
    let s1 := s.construct (s.units w) (s.operations w)
    let s2 := s1.setUnits w 0
    let s3 := s2.setOperations w []
    .ok (s3.emplace_back s.next (s3.units s.next) now)
  else .undefined

/-- The algorithm `std::merge` on two histories, with `Operation::operator<`: an
element of the second range goes first when it is earlier than the element of the
first range. -/
def merge : List Operation → List Operation → List Operation
  | [], l2 => l2
  | x :: l1, l2 =>
    l2.takeWhile (fun y => decide (y.time_of_operation < x.time_of_operation)) ++
      x :: merge l1
        (l2.dropWhile (fun y => decide (y.time_of_operation < x.time_of_operation)))

/-- The constructor `Wallet(Wallet &&w1, Wallet &&w2)`.  The vector is made with
`w1.operations.size() + w1.operations.size()` elements, and `std::merge` writes
`w1.operations.size() + w2.operations.size()` elements from its start: past its end
when the second history is the longer one. -/
def ctor_move2 (s : State) (w1 w2 : Nat) (now : Nat) : Outcome :=
  if s.alive w1 && s.alive w2 then
    let s1 := s.construct (add64 (s.units w1) (s.units w2)) []
    let size := (s1.operations w1).length + (s1.operations w1).length
    let merged := merge (s1.operations w1) (s1.operations w2)
    if size < merged.length then .undefined
    else
      let s2 := s1.setOperations s.next
        (merged ++ List.replicate (size - merged.length)
          { units := 0, time_of_operation := 0 })
      let s3 := s2.setUnits s.next (add64 (s2.units w1) (s2.units w2))
      let s4 := s3.emplace_back s.next (s3.units s.next) now
      let s5 := s4.setUnits w1 0
      .ok (s5.setUnits w2 0)
  else .undefined

/-- The function `units_from_string` (and `units_from_const_char`, which has the
same body) after the match of the regular expression
`^\s*([1-9]{1}\d{0,7}|0)((\.|\,)(\d{1,8}))?\s*$`: the digits of group 1 and of
group 4 are given, group 4 empty when there is no fraction. -/
def units_of_groups (whole : Nat) (fraction : Nat) (fraction_length : Nat) : Nat :=
  let units := mul64 whole UNITS_IN_B
  if fraction_length ≠ 0 then
    add64 units (mul64 fraction (UNITS_IN_B / 10 ^ fraction_length))
  else units

/-- The constructors `Wallet(const char *str)` and `Wallet(const std::string &str)`
for a string that matches the regular expression, with the value
`units_from_string` returns for it. -/
def ctor_units (s : State) (units : Nat) (now : Nat) : Outcome :=
  if sub64 MAX_UNITS_IN_CIRCULATION s.existing_units < units then .invalid_argument s
  else
    let s1 := s.construct units []
    let s2 := s1.setExisting (add64 s1.existing_units (s1.units s.next))
    .ok (s2.emplace_back s.next (s2.units s.next) now)

/-- The destructor `~Wallet()`. -/
def dtor (s : State) (w : Nat) : Outcome :=
  if s.alive w then
    .ok ((s.setExisting (sub64 s.existing_units (s.units w))).destroy w)
  else .undefined

/-- The member `operator=(Wallet &&rhs)` of the object at `this`. -/
def move_assign (s : State) (this rhs : Nat) (now : Nat) : Outcome :=
  if s.alive this && s.alive rhs then
    if this ≠ rhs then
      let s1 := (s.setOperations this (s.operations rhs)).setOperations rhs []
      let s2 := s1.setUnits this (s1.units rhs)
      let s3 := s2.emplace_back this (s2.units this) now
      let s4 := s3.setUnits rhs 0
      .ok (s4.setOperations rhs [])
    else .ok s
  else .undefined

/-- The function `operator+(Wallet &&lhs, Wallet &&rhs)`. -/
def plus_rvalue (s : State) (lhs rhs : Nat) (now : Nat) : Outcome :=
  if s.alive lhs && s.alive rhs then
    let result := s.next
    let s1 := ctor_default s now
    let s2 := s1.setUnits result (add64 (s1.units lhs) (s1.units rhs))
    let s3 := s2.setUnits lhs 0
    let s4 := s3.setUnits rhs 0
    .ok (s4.emplace_back result (s4.units result) now)
  else .undefined

/-- The function `operator+(Wallet &&lhs, Wallet &rhs)`. -/
def plus_lvalue (s : State) (lhs rhs : Nat) (now : Nat) : Outcome :=
  if s.alive lhs && s.alive rhs then
    let result := s.next
    let s1 := ctor_default s now
    let s2 := s1.setUnits result (add64 (s1.units lhs) (s1.units rhs))
    let s3 := s2.setUnits lhs 0
    let s4 := s3.setUnits rhs 0
    let s5 := s4.emplace_back rhs (s4.units rhs) now
    .ok (s5.emplace_back result (s5.units result) now)
  else .undefined

/-- The function `operator-(Wallet &&lhs, Wallet &rhs)`. -/
def minus_lvalue (s : State) (lhs rhs : Nat) (now : Nat) : Outcome :=
  if s.alive lhs && s.alive rhs then
    if s.units lhs < s.units rhs then .invalid_argument s
    else
      let result := s.next
      let s1 := ctor_default s now
      let s2 := s1.setUnits result (sub64 (s1.units lhs) (s1.units rhs))
      let s3 := s2.setUnits rhs (mul64 2 (s2.units rhs))
      let s4 := s3.setUnits lhs 0
      let s5 := s4.emplace_back rhs (s4.units rhs) now
      .ok (s5.emplace_back result (s5.units result) now)
  else .undefined

/-- The function `operator-(Wallet &&lhs, Wallet &&rhs)`. -/
def minus_rvalue (s : State) (lhs rhs : Nat) (now : Nat) : Outcome :=
  if s.alive lhs && s.alive rhs then
    if s.units lhs < s.units rhs then .invalid_argument s
    else
      let result := s.next
      let s1 := ctor_default s now
      let s2 := s1.setUnits result (sub64 (s1.units lhs) (s1.units rhs))
      let s3 := s2.setUnits rhs (mul64 2 (s2.units rhs))
      let s4 := s3.setUnits lhs 0
      .ok (s4.emplace_back result (s4.units result) now)
  else .undefined

/-- The functions `operator+=(Wallet &lhs, Wallet &rhs)` and
`operator+=(Wallet &lhs, Wallet &&rhs)`, which have the same body. -/
def plus_assign (s : State) (lhs rhs : Nat) (now : Nat) : Outcome :=
  if s.alive lhs && s.alive rhs then
    let s1 := s.setUnits lhs (add64 (s.units lhs) (s.units rhs))
    let s2 := s1.emplace_back lhs (s1.units lhs) now
    let s3 := s2.setUnits rhs 0
    .ok (s3.emplace_back rhs (s3.units rhs) now)
  else .undefined

/-- The functions `operator-=(Wallet &lhs, Wallet &rhs)` and
`operator-=(Wallet &lhs, Wallet &&rhs)`, which have the same body. -/
def minus_assign (s : State) (lhs rhs : Nat) (now : Nat) : Outcome :=
  if s.alive lhs && s.alive rhs then
    if s.units lhs < s.units rhs then .invalid_argument s
    else
      let s1 := s.setUnits lhs (sub64 (s.units lhs) (s.units rhs))
      let s2 := s1.emplace_back lhs (s1.units lhs) now
      let s3 := s2.setUnits rhs (mul64 2 (s2.units rhs))
      .ok (s3.emplace_back rhs (s3.units rhs) now)
  else .undefined

/-- The functions `operator*(Wallet &w, uint64_t n)` and
`operator*(Wallet &&w, uint64_t n)`, which have the same body, and the two with the
arguments the other way round, which call them; `n` is below `2 ^ 64`. -/
def times (s : State) (w : Nat) (n : Nat) (now : Nat) : Outcome :=
  if s.alive w then
    if n ≠ 0 ∧ sub64 MAX_UNITS_IN_CIRCULATION s.existing_units / n < s.units w then
      .invalid_argument s
    else
      let result := s.next
      let s1 := ctor_default s now
      let s2 := s1.setUnits result (mul64 (s1.units w) n)
      let s3 := s2.setExisting (add64 s2.existing_units (s2.units result))
      .ok (s3.emplace_back result (s3.units result) now)
  else .undefined

/-- The least value of `int`. -/
def INT_MIN : Int := -2147483648

/-- The test `(MAX_UNITS_IN_CIRCULATION - Wallet::existing_units) / (n - 1) < w.units`
of `operator*=`: the difference `n - 1` is computed in `int` and overflows for the
least `int` (`none`); the quotient is taken in `uint64_t`. -/
def times_assign_test (s : State) (w : Nat) (n : Int) : Option Bool :=
  if n = INT_MIN then none
  else
    some (decide
      (sub64 MAX_UNITS_IN_CIRCULATION s.existing_units / toU64 (n - 1) < s.units w))

/-- The function `operator*=(Wallet &w, int n)`; the test is evaluated only for
`n` other than `0` and `1`. -/
def times_assign (s : State) (w : Nat) (n : Int) (now : Nat) : Outcome :=
  if s.alive w then
    match (if n ≠ 0 ∧ n ≠ 1 then times_assign_test s w n else some false) with
    | none => .undefined
    | some true => .invalid_argument s
    | some false =>
      let s1 := s.setExisting (sub64 s.existing_units (s.units w))
      let s2 := s1.setUnits w (mul64 (s1.units w) (toU64 n))
      let s3 := s2.setExisting (add64 s2.existing_units (s2.units w))
      .ok (s3.emplace_back w (s3.units w) now)
  else .undefined

/-- The member `getUnits()`. -/
def getUnits (s : State) (w : Nat) : Nat := s.units w

/-- The member `opSize()`. -/
def opSize (s : State) (w : Nat) : Nat := (s.operations w).length

/-- The units held by the objects that are alive. -/
def liveUnits (s : State) : Nat :=
  ((List.range s.next).map (fun w => if s.alive w then s.units w else 0)).sum

/-- A call on wallets. -/
inductive Call where
  | ctor_default (now : Nat)
  | ctor_int (n : Int) (now : Nat)
  | ctor_units (units : Nat) (now : Nat)
  | ctor_move (w : Nat) (now : Nat)
  | ctor_move2 (w1 w2 : Nat) (now : Nat)
  | dtor (w : Nat)
  | move_assign (this rhs : Nat) (now : Nat)
  | plus_rvalue (lhs rhs : Nat) (now : Nat)
  | plus_lvalue (lhs rhs : Nat) (now : Nat)
  | minus_rvalue (lhs rhs : Nat) (now : Nat)
  | minus_lvalue (lhs rhs : Nat) (now : Nat)
  | plus_assign (lhs rhs : Nat) (now : Nat)
  | minus_assign (lhs rhs : Nat) (now : Nat)
  | times (w : Nat) (n : Nat) (now : Nat)
  | times_assign (w : Nat) (n : Int) (now : Nat)

/-- What a call does. -/
def Call.run : Call → State → Outcome
  | .ctor_default now, s => .ok (Wallet.ctor_default s now)
  | .ctor_int n now, s => Wallet.ctor_int s n now
  | .ctor_units units now, s => Wallet.ctor_units s units now
  | .ctor_move w now, s => Wallet.ctor_move s w now
  | .ctor_move2 w1 w2 now, s => Wallet.ctor_move2 s w1 w2 now
  | .dtor w, s => Wallet.dtor s w
  | .move_assign this rhs now, s => Wallet.move_assign s this rhs now
  | .plus_rvalue lhs rhs now, s => Wallet.plus_rvalue s lhs rhs now
  | .plus_lvalue lhs rhs now, s => Wallet.plus_lvalue s lhs rhs now
  | .minus_rvalue lhs rhs now, s => Wallet.minus_rvalue s lhs rhs now
  | .minus_lvalue lhs rhs now, s => Wallet.minus_lvalue s lhs rhs now
  | .plus_assign lhs rhs now, s => Wallet.plus_assign s lhs rhs now
  | .minus_assign lhs rhs now, s => Wallet.minus_assign s lhs rhs now
  | .times w n now, s => Wallet.times s w n now
  | .times_assign w n now, s => Wallet.times_assign s w n now

/-- The state after a list of calls, each of which returns or throws; `none` when
one of them has undefined behaviour. -/
def runCalls : List Call → State → Option State
  | [], s => some s
  | c :: cs, s =>
    match c.run s with
    | .ok t => runCalls cs t
    | .invalid_argument t => runCalls cs t
    | .undefined => none

/-- Whether the two wallets a call takes are two objects.  The move assignment
tests this itself. -/
def Call.distinct : Call → Bool
  | .ctor_move2 w1 w2 _ => decide (w1 ≠ w2)
  | .plus_rvalue lhs rhs _ => decide (lhs ≠ rhs)
  | .plus_lvalue lhs rhs _ => decide (lhs ≠ rhs)
  | .minus_rvalue lhs rhs _ => decide (lhs ≠ rhs)
  | .minus_lvalue lhs rhs _ => decide (lhs ≠ rhs)
  | .plus_assign lhs rhs _ => decide (lhs ≠ rhs)
  | .minus_assign lhs rhs _ => decide (lhs ≠ rhs)
  | _ => true

/-- Whether the number a call takes is a value of its type: an `int`, an
`uint64_t`, or what `units_from_string` can return. -/
def Call.inRange : Call → Bool
  | .ctor_int n _ => decide (INT_MIN ≤ n ∧ n < 2147483648)
  | .ctor_units units _ => decide (units < 10 ^ 16)
  | .times _ n _ => decide (n < 2 ^ 64)
  | .times_assign _ n _ => decide (INT_MIN ≤ n ∧ n < 2147483648)
  | _ => true

/-- Whether a call is a move assignment. -/
def Call.isMoveAssign : Call → Bool
  | .move_assign _ _ _ => true
  | _ => false

/-- The invariant of the states that calls on distinct wallets reach: no object
is alive from the address `next` on, the wallets that are alive hold at most
`existing_units` units, and `existing_units` is within the limit. -/
structure Inv (s : State) : Prop where
  fresh : ∀ a, s.next ≤ a → s.alive a = false
  sum : liveUnits s ≤ s.existing_units
  limit : s.existing_units ≤ MAX_UNITS_IN_CIRCULATION

end Wallet

/-!
# Space battle (`src/4_starwars/src/battle.h`, `imperialfleet.h`, `rebelfleet.h`)

A shallow embedding of `SpaceBattle<T, t0, t1, S...>`.

* The value types `U` of the ships and the time type `T` are the integers; the
  counters are `size_t`, with arithmetic modulo `2 ^ 64`.
* The tuple of ships is a list, a reference to a ship is its position in the list,
  and the recursion of the templates over the positions is a recursion over them.
* The template parameters `t0` and `t1` are fields of the battle.
* What `tick` writes to `cout` is left out.
-/

namespace SpaceBattle

/-- The enumeration `rebels_settings::kindOfShip`. -/
inductive kindOfShip where
  | EXPLORER
  | STARCRUISER
  | XWING
  deriving DecidableEq, Repr

/-- The classes `ImperialStarship<U>` and `RebelStarship<U, ship>`.  An `Explorer`
is constructed without an attack power, which is never read. -/
inductive Ship where
  | ImperialStarship (shield attackPower : Int)
  | RebelStarship (ship : kindOfShip) (shield speed attackPower : Int)
  deriving DecidableEq, Repr

/-- The static member `isRebelShip()`. -/
def Ship.isRebelShip : Ship → Bool
  | .ImperialStarship _ _ => false
  | .RebelStarship _ _ _ _ => true

/-- The static member `canCounterAttack()` of a rebel ship. -/
def Ship.canCounterAttack : Ship → Bool
  | .ImperialStarship _ _ => false
  | .RebelStarship ship _ _ _ => decide (ship ≠ kindOfShip.EXPLORER)

/-- The member `getShield()`. -/
def Ship.getShield : Ship → Int
  | .ImperialStarship shield _ => shield
  | .RebelStarship _ shield _ _ => shield

/-- The member `getAttackPower()`. -/
def Ship.getAttackPower : Ship → Int
  | .ImperialStarship _ attackPower => attackPower
  | .RebelStarship _ _ _ attackPower => attackPower

/-- The member `takeDamage(damage)`. -/
def Ship.takeDamage : Ship → Int → Ship
  | .ImperialStarship shield attackPower, damage =>
    .ImperialStarship (if shield > damage then shield - damage else 0) attackPower
  | .RebelStarship ship shield speed attackPower, damage =>
    .RebelStarship ship (if shield > damage then shield - damage else 0) speed attackPower

/-- The class `SpaceBattle`, with its template parameters `t0` and `t1`. -/
structure Battle where
  t0 : Int
  t1 : Int
  numberOfRebelShips : Nat
  numberOfImperialShips : Nat
  ships : List Ship
  currentTime : Int
  deriving DecidableEq, Repr

/-- The ship `std::get<n>(ships)`. -/
def Battle.get (b : Battle) (n : Nat) : Ship :=
  b.ships.getD n (.ImperialStarship 0 0)

/-- An assignment to the ship `std::get<n>(ships)`. -/
def Battle.set (b : Battle) (n : Nat) (ship : Ship) : Battle :=
  { b with ships := b.ships.set n ship }

/-- The decrement of a `size_t`. -/
def decrement (n : Nat) : Nat := (n + (2 ^ 64 - 1)) % 2 ^ 64

/-- The increment of a `size_t`. -/
def increment (n : Nat) : Nat := (n + 1) % 2 ^ 64

/-- The member `initializeCounters<n>`, from the position `n` for `count`
positions. -/
def initializeCounters (b : Battle) : (count : Nat) → (n : Nat) → Battle
  | 0, _ => b
  | count + 1, n =>
    let b1 :=
      if (b.get n).isRebelShip then
        if (b.get n).getShield ≠ 0 then
          { b with numberOfRebelShips := increment b.numberOfRebelShips }
        else b
      else
        if (b.get n).getShield ≠ 0 then
          { b with numberOfImperialShips := increment b.numberOfImperialShips }
        else b
    initializeCounters b1 count (n + 1)

/-- The function `attack(imperialShip, rebelShip)` on the ships at the positions
`imperialShip` and `rebelShip`. -/
def attack (b : Battle) (imperialShip rebelShip : Nat) : Battle :=
  let b1 := b.set rebelShip ((b.get rebelShip).takeDamage (b.get imperialShip).getAttackPower)
  if (b1.get rebelShip).canCounterAttack then
    b1.set imperialShip ((b1.get imperialShip).takeDamage (b1.get rebelShip).getAttackPower)
  else b1

/-- The member `rebelsGetAttacked<n>(ships, imperiumShip)`, from the position `n`
for `count` positions. -/
def rebelsGetAttacked (imperiumShip : Nat) : (count : Nat) → (n : Nat) → Battle → Battle
  | 0, _, b => b
  | count + 1, n, b =>
    let b1 :=
      if (b.get n).isRebelShip then
        if (b.get n).getShield ≠ 0 then
          let b2 := attack b imperiumShip n
          let b3 :=
            if (b2.get n).getShield = 0 then
              { b2 with numberOfRebelShips := decrement b2.numberOfRebelShips }
            else b2
          if (b3.get imperiumShip).getShield = 0 then
            { b3 with numberOfImperialShips := decrement b3.numberOfImperialShips }
          else b3
        else b
      else b
    rebelsGetAttacked imperiumShip count (n + 1) b1

/-- The member `imperiumAttacks<n>(ships)`, from the position `n` for `count`
positions. -/
def imperiumAttacks : (count : Nat) → (n : Nat) → Battle → Battle
  | 0, _, b => b
  | count + 1, n, b =>
    let b1 :=
      if !(b.get n).isRebelShip then
        if (b.get n).getShield ≠ 0 then rebelsGetAttacked n b.ships.length 0 b
        else b
      else b
    imperiumAttacks count (n + 1) b1

/-- The member `howMuchSquares<n>()`: the instantiation goes on until
`n * n >= t1`; `steps` bounds the number of instantiations. -/
def howMuchSquaresFrom (t1 : Int) : (steps : Nat) → (n : Nat) → Nat
  | 0, n => n
  | steps + 1, n => if (n : Int) * n ≥ t1 then n else howMuchSquaresFrom t1 steps (n + 1)

/-- The call `howMuchSquares()`, which starts at `n = 0`; `t1` instantiations
are enough. -/
def howMuchSquares (t1 : Int) : Nat :=
  howMuchSquaresFrom t1 t1.toNat 0

/-- The member `squaresTable()`. -/
def squaresTable (t1 : Int) : List Int :=
  (List.range (howMuchSquares t1)).map (fun (i : Nat) => (i : Int) * (i : Int))

/-- The algorithm `std::binary_search` on a table in increasing order. -/
def binary_search (table : List Int) (value : Int) : Bool :=
  table.contains value

/-- The constructor `SpaceBattle(S ... ships)`. -/
def new (t0 t1 : Int) (ships : List Ship) : Battle :=
  initializeCounters
    { t0 := t0, t1 := t1, numberOfRebelShips := 0, numberOfImperialShips := 0,
      ships := ships, currentTime := t0 }
    ships.length 0

/-- The member `countImperialFleet()`. -/
def countImperialFleet (b : Battle) : Nat := b.numberOfImperialShips

/-- The member `countRebelFleet()`. -/
def countRebelFleet (b : Battle) : Nat := b.numberOfRebelShips

/-- The member `tick(timeStep)`; `%=` is the remainder of the division that
truncates. -/
def tick (b : Battle) (timeStep : Int) : Battle :=
  let attackTimes := squaresTable b.t1
  let b1 :=
    if binary_search attackTimes b.currentTime then imperiumAttacks b.ships.length 0 b
    else b
  let b2 := { b1 with currentTime := b1.currentTime + timeStep }
  { b2 with currentTime := Int.tmod b2.currentTime (b2.t1 + 1) }

/-- The number of imperial ships of the battle whose shield is not zero. -/
def imperialShipsLeft (b : Battle) : Nat :=
  (b.ships.filter (fun s => !s.isRebelShip && decide (s.getShield ≠ 0))).length

/-- The number of rebel ships of the battle whose shield is not zero. -/
def rebelShipsLeft (b : Battle) : Nat :=
  (b.ships.filter (fun s => s.isRebelShip && decide (s.getShield ≠ 0))).length

end SpaceBattle

/-! ## Lemmas: the sets, the heap, the invariants, the cascade of destructors -/

namespace CitationGraph

variable {ι : Type} [DecidableEq ι]

set_option linter.unusedSectionVars false

theorem mem_setInsert (x z : Nat) (l : List Nat) : z ∈ setInsert x l ↔ z = x ∨ z ∈ l := by
  induction l with
  | nil => simp [setInsert]
  | cons y ys ih =>
    unfold setInsert
    split
    · simp
    · split
      · subst_vars; simp
      · simp [ih]; tauto

theorem sorted_setInsert (x : Nat) (l : List Nat) (h : l.Sorted (· < ·)) :
    (setInsert x l).Sorted (· < ·) := by
  induction l with
  | nil => simp [setInsert]
  | cons y ys ih =>
    unfold setInsert
    have hy := List.sorted_cons.1 h
    split
    · rename_i hxy
      refine List.sorted_cons.2 ⟨?_, h⟩
      intro b hb
      rcases List.mem_cons.1 hb with rfl | hb
      · exact hxy
      · exact lt_trans hxy (hy.1 b hb)
    · split
      · exact h
      · rename_i h1 h2
        refine List.sorted_cons.2 ⟨?_, ih hy.2⟩
        intro b hb
        rcases (mem_setInsert x b ys).1 hb with rfl | hb
        · omega
        · exact hy.1 b hb

theorem setInsert_idem (x : Nat) (l : List Nat) : setInsert x (setInsert x l) = setInsert x l := by
  induction l with
  | nil => simp [setInsert]
  | cons y ys ih =>
    by_cases h1 : x < y
    · simp [setInsert, h1]
    · by_cases h2 : x = y
      · subst h2; simp [setInsert]
      · simp [setInsert, h1, h2, ih]

theorem setInsert_of_mem (x : Nat) (l : List Nat) (h : l.Sorted (· < ·)) (hx : x ∈ l) :
    setInsert x l = l := by
  induction l with
  | nil => simp at hx
  | cons y ys ih =>
    have hy := List.sorted_cons.1 h
    by_cases h2 : x = y
    · subst h2; simp [setInsert]
    · have hx2 : x ∈ ys := by
        rcases List.mem_cons.1 hx with h | h
        · exact absurd h h2
        · exact h
      have : y < x := hy.1 x hx2
      have h1 : ¬ x < y := by omega
      simp [setInsert, h1, h2, ih hy.2 hx2]

theorem mem_setErase (x z : Nat) (l : List Nat) : z ∈ setErase x l ↔ z ∈ l ∧ z ≠ x := by
  simp [setErase]

theorem sorted_setErase (x : Nat) (l : List Nat) (h : l.Sorted (· < ·)) :
    (setErase x l).Sorted (· < ·) :=
  List.Pairwise.filter _ h

theorem setErase_idem (x : Nat) (l : List Nat) : setErase x (setErase x l) = setErase x l := by
  simp [setErase, List.filter_filter]

@[simp] theorem setNode_heap (s : CitationGraph ι) (a : Nat) (n : Node ι) (b : Nat) :
    (setNode s a n).heap b = if b = a then some n else s.heap b := rfl
@[simp] theorem setNode_next (s : CitationGraph ι) (a : Nat) (n : Node ι) :
    (setNode s a n).next = s.next := rfl
@[simp] theorem setNode_root (s : CitationGraph ι) (a : Nat) (n : Node ι) :
    (setNode s a n).root = s.root := rfl
@[simp] theorem setNode_map (s : CitationGraph ι) (a : Nat) (n : Node ι) :
    (setNode s a n).publicationNodes = s.publicationNodes := rfl
@[simp] theorem modifyNode_heap (s : CitationGraph ι) (a : Nat) (f : Node ι → Node ι) (b : Nat) :
    (modifyNode s a f).heap b = if b = a then (s.heap a).map f else s.heap b := rfl
@[simp] theorem modifyNode_next (s : CitationGraph ι) (a : Nat) (f : Node ι → Node ι) :
    (modifyNode s a f).next = s.next := rfl
@[simp] theorem modifyNode_root (s : CitationGraph ι) (a : Nat) (f : Node ι → Node ι) :
    (modifyNode s a f).root = s.root := rfl
@[simp] theorem modifyNode_map (s : CitationGraph ι) (a : Nat) (f : Node ι → Node ι) :
    (modifyNode s a f).publicationNodes = s.publicationNodes := rfl
@[simp] theorem freeNode_heap (s : CitationGraph ι) (a b : Nat) :
    (freeNode s a).heap b = if b = a then none else s.heap b := rfl
@[simp] theorem freeNode_next (s : CitationGraph ι) (a : Nat) : (freeNode s a).next = s.next := rfl
@[simp] theorem freeNode_root (s : CitationGraph ι) (a : Nat) : (freeNode s a).root = s.root := rfl
@[simp] theorem freeNode_map (s : CitationGraph ι) (a : Nat) :
    (freeNode s a).publicationNodes = s.publicationNodes := rfl
@[simp] theorem eraseEntry_heap (s : CitationGraph ι) (k : ι) : (eraseEntry s k).heap = s.heap := rfl
@[simp] theorem eraseEntry_next (s : CitationGraph ι) (k : ι) : (eraseEntry s k).next = s.next := rfl
@[simp] theorem eraseEntry_root (s : CitationGraph ι) (k : ι) : (eraseEntry s k).root = s.root := rfl
@[simp] theorem eraseEntry_map (s : CitationGraph ι) (k i : ι) :
    (eraseEntry s k).publicationNodes i = if i = k then none else s.publicationNodes i := rfl
@[simp] theorem insertEntry_heap (s : CitationGraph ι) (k : ι) (a : Nat) :
    (insertEntry s k a).heap = s.heap := rfl
@[simp] theorem insertEntry_next (s : CitationGraph ι) (k : ι) (a : Nat) :
    (insertEntry s k a).next = s.next := rfl
@[simp] theorem insertEntry_root (s : CitationGraph ι) (k : ι) (a : Nat) :
    (insertEntry s k a).root = s.root := rfl

theorem ext_state {s t : CitationGraph ι} (h1 : s.heap = t.heap) (h2 : s.next = t.next)
    (h3 : s.publicationNodes = t.publicationNodes) (h4 : s.root = t.root) : s = t := by
  cases s; cases t; simp_all

/-- What `owned` computes. -/
theorem owned_iff (s : CitationGraph ι) (a : Nat) :
    owned s a = true ↔
      s.root = a ∨ ∃ p n, p < s.next ∧ s.heap p = some n ∧ a ∈ n.children := by
  unfold owned
  rw [Bool.or_eq_true, decide_eq_true_iff, List.any_eq_true]
  constructor
  · rintro (h | ⟨p, hp, h⟩)
    · exact Or.inl h
    · right
      cases hn : s.heap p with
      | none => simp [hn] at h
      | some n =>
        simp only [hn, decide_eq_true_iff] at h
        exact ⟨p, n, List.mem_range.1 hp, hn, h⟩
  · rintro (h | ⟨p, n, hp, hn, h⟩)
    · exact Or.inl h
    · right
      exact ⟨p, List.mem_range.2 hp, by simp [hn, h]⟩

/-- Calling `removeParent` with the empty `weak_ptr` changes nothing. -/
theorem modifyNode_removeParent_none (s : CitationGraph ι) (c : Nat) :
    modifyNode s c (fun m => m.removeParent none) = s := by
  refine ext_state ?_ rfl rfl rfl
  funext b
  simp only [modifyNode_heap]
  split
  · subst_vars
    cases s.heap b <;> rfl
  · rfl

theorem dtorBody_eq (s : CitationGraph ι) (a : Nat) (n : Node ι) (k : ι)
    (hn : s.heap a = some n) (hk : n.myMapIterator = some k) :
    dtorBody s a = some (eraseEntry s k) := by
  unfold dtorBody
  simp only [hn, hk, Node.weak_from_this]
  congr 1
  generalize eraseEntry s k = t
  induction n.children generalizing t with
  | nil => rfl
  | cons c cs ih =>
    rw [List.foldl_cons, modifyNode_removeParent_none]
    exact ih t

theorem CInv.toInv {s : CitationGraph ι} (h : CInv s []) : Inv s :=
  { bound := h.bound, parentBound := h.parentBound
    entry := fun id a e => (h.entry id a e).2
    iter := h.iter
    registered := fun a n e => h.registered a n e (List.not_mem_nil a)
    childLive := h.childLive, sorted := h.sorted, rootLive := h.rootLive }

/-- The node on top has no children left: it is freed. -/
theorem CInv.free {s : CitationGraph ι} {a : Nat} {stack : List Nat}
    (h : CInv s (a :: stack)) :
    CInv (freeNode s a) stack := by
  have hua := h.unowned a (List.mem_cons_self _ _)
  refine ⟨?_, ?_, ?_, ?_, ?_, ?_, ?_, ?_, ?_⟩
  · intro b m hb
    simp only [freeNode_heap] at hb
    split at hb
    · cases hb
    · exact h.bound b m hb
  · intro b m p hb
    simp only [freeNode_heap] at hb
    split at hb
    · cases hb
    · exact h.parentBound b m p hb
  · intro id b hb
    obtain ⟨h1, m, h2, h3⟩ := h.entry id b hb
    have hba : b ≠ a := fun e => h1 (e ▸ List.mem_cons_self _ _)
    refine ⟨fun hs => h1 (List.mem_cons_of_mem _ hs), m, ?_, h3⟩
    simp [hba, h2]
  · intro b m hb
    simp only [freeNode_heap] at hb
    split at hb
    · cases hb
    · exact h.iter b m hb
  · intro b m hb hs
    simp only [freeNode_heap] at hb
    split at hb
    · cases hb
    · rename_i hba
      exact h.registered b m hb (by simp [hba, hs])
  · intro p m c hp hc
    simp only [freeNode_heap] at hp
    split at hp
    · cases hp
    · obtain ⟨m2, h2⟩ := h.childLive p m c hp hc
      have hca : c ≠ a := fun e => hua.2 p m hp (e ▸ hc)
      exact ⟨m2, by simp [hca, h2]⟩
  · intro b m hb
    simp only [freeNode_heap] at hb
    split at hb
    · cases hb
    · exact h.sorted b m hb
  · obtain ⟨m, hm⟩ := h.rootLive
    exact ⟨m, by simp [hua.1, hm]⟩
  · intro x hx
    have hux := h.unowned x (List.mem_cons_of_mem _ hx)
    refine ⟨hux.1, ?_⟩
    intro p m hp
    simp only [freeNode_heap] at hp
    split at hp
    · cases hp
    · exact hux.2 p m hp

/-- One element is taken out of the `children` set of the node on top. -/
theorem CInv.pop {s : CitationGraph ι} {a : Nat} {stack : List Nat} {n : Node ι}
    {c : Nat} {cs : List Nat}
    (h : CInv s (a :: stack)) (hn : s.heap a = some n) (hc : n.children = c :: cs) :
    CInv (setNode s a { n with children := cs }) (a :: stack) := by
  have hsub : ∀ x, x ∈ cs → x ∈ n.children := fun x hx => hc ▸ List.mem_cons_of_mem _ hx
  have hua := h.unowned a (List.mem_cons_self _ _)
  have hlive : ∀ x m, s.heap x = some m →
      ∃ m2, (setNode s a { n with children := cs }).heap x = some m2 := by
    intro x m hx
    by_cases e : x = a
    · exact ⟨{ n with children := cs }, by simp [e]⟩
    · exact ⟨m, by simp [e, hx]⟩
  refine ⟨?_, ?_, ?_, ?_, ?_, ?_, ?_, ?_, ?_⟩
  · intro b m hb
    simp only [setNode_heap] at hb
    split at hb
    · subst_vars; exact h.bound _ _ hn
    · exact h.bound b m hb
  · intro b m p hb hp
    simp only [setNode_heap] at hb
    split at hb
    · subst_vars; cases hb; exact h.parentBound _ _ p hn hp
    · exact h.parentBound b m p hb hp
  · intro id b hb
    obtain ⟨h1, m, h2, h3⟩ := h.entry id b hb
    have hba : b ≠ a := fun e => h1 (e ▸ List.mem_cons_self _ _)
    exact ⟨h1, m, by simp [hba, h2], h3⟩
  · intro b m hb
    simp only [setNode_heap] at hb
    split at hb
    · subst_vars; cases hb
      show n.myMapIterator = some n.publication.get_id
      exact h.iter _ _ hn
    · exact h.iter b m hb
  · intro b m hb hs
    simp only [setNode_heap] at hb
    split at hb
    · subst_vars; exact absurd (List.mem_cons_self _ _) hs
    · exact h.registered b m hb hs
  · intro p m x hp hx
    simp only [setNode_heap] at hp
    split at hp
    · subst_vars; cases hp
      obtain ⟨m2, h2⟩ := h.childLive _ _ x hn (hsub x hx)
      exact hlive x m2 h2
    · obtain ⟨m2, h2⟩ := h.childLive p m x hp hx
      exact hlive x m2 h2
  · intro b m hb
    simp only [setNode_heap] at hb
    split at hb
    · subst_vars; cases hb
      have hs := h.sorted _ _ hn
      refine ⟨?_, hs.2⟩
      have := hs.1
      rw [hc] at this
      exact (List.sorted_cons.1 this).2
    · exact h.sorted b m hb
  · obtain ⟨m, hm⟩ := h.rootLive
    exact hlive _ m hm
  · intro x hx
    have hux := h.unowned x hx
    refine ⟨hux.1, ?_⟩
    intro p m hp
    simp only [setNode_heap] at hp
    split at hp
    · subst_vars; cases hp
      exact fun hxc => hux.2 _ _ hn (hsub x hxc)
    · exact hux.2 p m hp

/-- The destructor of a node that nothing owns starts: its map entry is erased. -/
theorem CInv.push {s : CitationGraph ι} {c : Nat} {stack : List Nat} {m : Node ι}
    (h : CInv s stack) (hm : s.heap c = some m) (hcs : c ∉ stack)
    (hown : owned s c = false) :
    CInv (eraseEntry s m.publication.get_id) (c :: stack) := by
  have hno : s.root ≠ c ∧ ∀ p n, s.heap p = some n → c ∉ n.children := by
    constructor
    · intro e
      have : owned s c = true := (owned_iff s c).2 (Or.inl e)
      simp [this] at hown
    · intro p n hp hc
      have : owned s c = true := (owned_iff s c).2 (Or.inr ⟨p, n, h.bound p n hp, hp, hc⟩)
      simp [this] at hown
  refine ⟨h.bound, h.parentBound, ?_, h.iter, ?_, h.childLive, h.sorted, h.rootLive, ?_⟩
  · intro id b hb
    simp only [eraseEntry_map] at hb
    split at hb
    · cases hb
    · rename_i hid
      obtain ⟨h1, m2, h2, h3⟩ := h.entry id b hb
      refine ⟨?_, m2, h2, h3⟩
      intro hmem
      rcases List.mem_cons.1 hmem with e | e
      · subst e
        rw [hm] at h2
        cases h2
        exact hid h3.symm
      · exact h1 e
  · intro b m2 hb hs
    have hbc : b ≠ c := fun e => hs (e ▸ List.mem_cons_self _ _)
    have hbs : b ∉ stack := fun e => hs (List.mem_cons_of_mem _ e)
    have hr := h.registered b m2 hb hbs
    simp only [eraseEntry_map]
    split
    · rename_i e
      rw [e, h.registered c m hm hcs] at hr
      cases hr
      exact absurd rfl hbc
    · exact hr
  · intro x hx
    rcases List.mem_cons.1 hx with e | e
    · subst e; exact hno
    · exact h.unowned x e

/-- A destructor does not throw. -/
theorem cascade_not_threw (fuel : Nat) : ∀ (stack : List Nat) (s t : CitationGraph ι) (e : Exn),
    cascade fuel stack s ≠ .threw e t := by
  induction fuel with
  | zero =>
    intro stack s t e
    cases stack <;> simp [cascade]
  | succ fuel ih =>
    intro stack s t e
    cases stack with
    | nil => simp [cascade]
    | cons a stack =>
      simp only [cascade]
      split
      · simp
      · split
        · exact ih _ _ _ _
        · split
          · exact ih _ _ _ _
          · split
            · simp
            · exact ih _ _ _ _

/-- When the cascade of destructors ends, the invariant holds again. -/
theorem cascade_inv (fuel : Nat) : ∀ (stack : List Nat) (s t : CitationGraph ι),
    CInv s stack → cascade fuel stack s = .ok t → Inv t := by
  induction fuel with
  | zero =>
    intro stack s t h hc
    cases stack with
    | nil => simp only [cascade] at hc; cases hc; exact h.toInv
    | cons a stack => simp [cascade] at hc
  | succ fuel ih =>
    intro stack s t h hc
    cases stack with
    | nil => simp only [cascade] at hc; cases hc; exact h.toInv
    | cons a stack =>
      simp only [cascade] at hc
      cases hn : s.heap a with
      | none => simp [hn] at hc
      | some n =>
        simp only [hn] at hc
        cases hch : n.children with
        | nil =>
          simp only [hch] at hc
          exact ih _ _ _ h.free hc
        | cons c cs =>
          simp only [hch] at hc
          have hpop := h.pop hn hch
          split at hc
          · exact ih _ _ _ hpop hc
          · rename_i hown
            have hua := h.unowned a (List.mem_cons_self _ _)
            have hca : c ≠ a := fun e => hua.2 a n hn (by rw [hch, e]; exact List.mem_cons_self _ _)
            obtain ⟨m, hm⟩ := h.childLive a n c hn (by rw [hch]; exact List.mem_cons_self _ _)
            have hm1 : (setNode s a { n with children := cs }).heap c = some m := by
              simp [hca, hm]
            have hcs : c ∉ a :: stack := by
              intro hmem
              exact (h.unowned c hmem).2 a n hn (by rw [hch]; exact List.mem_cons_self _ _)
            rw [dtorBody_eq _ c m _ hm1 (hpop.iter c m hm1)] at hc
            simp only at hc
            exact ih _ _ _ (hpop.push hm1 hcs (by simpa using hown)) hc

/-- Releasing a local `shared_ptr` keeps the invariant. -/
theorem release_inv {s t : CitationGraph ι} {a : Nat} (h : Inv s)
    (hr : (release s a).state = some t) : Inv t := by
  unfold release at hr
  split at hr
  · simp only [Outcome.state] at hr; cases hr; exact h
  · rename_i hown
    cases hn : s.heap a with
    | none => simp [dtorBody, hn, Outcome.state] at hr
    | some n =>
      rw [dtorBody_eq s a n _ hn (h.iter a n hn)] at hr
      simp only at hr
      have hC : CInv s [] :=
        { bound := h.bound, parentBound := h.parentBound
          entry := fun id b e => ⟨List.not_mem_nil b, h.entry id b e⟩
          iter := h.iter
          registered := fun b m e _ => h.registered b m e
          childLive := h.childLive, sorted := h.sorted, rootLive := h.rootLive
          unowned := fun x hx => absurd hx (List.not_mem_nil x) }
      have hP := hC.push hn (List.not_mem_nil a) (by simpa using hown)
      generalize hco : cascade _ [a] (eraseEntry s n.publication.get_id) = o at hr
      cases o with
      | ok u => simp only [Outcome.state] at hr; cases hr; exact cascade_inv _ _ _ _ hP hco
      | threw e u =>
        exfalso
        exact cascade_not_threw _ _ _ _ _ hco
      | undefined => simp [Outcome.state] at hr
      | outOfFuel => simp [Outcome.state] at hr

@[simp] theorem linkAll_heap (s : CitationGraph ι) (c : Nat) (addrs : List Nat) (b : Nat) :
    (linkAll s c addrs).heap b =
      if b ∈ addrs then (s.heap b).map (fun n => n.addChild c) else s.heap b := rfl
@[simp] theorem unlinkAll_heap (s : CitationGraph ι) (c : Nat) (addrs : List Nat) (b : Nat) :
    (unlinkAll s c addrs).heap b =
      if b ∈ addrs then (s.heap b).map (fun n => n.removeChild c) else s.heap b := rfl

theorem mem_insertAll (addrs l : List Nat) (z : Nat) :
    z ∈ insertAll addrs l ↔ z ∈ addrs ∨ z ∈ l := by
  unfold insertAll
  induction addrs generalizing l with
  | nil => simp
  | cons p ps ih =>
    rw [List.foldl_cons, ih, mem_setInsert, List.mem_cons]
    tauto

theorem sorted_insertAll (addrs l : List Nat) (h : l.Sorted (· < ·)) :
    (insertAll addrs l).Sorted (· < ·) := by
  unfold insertAll
  induction addrs generalizing l with
  | nil => simpa using h
  | cons p ps ih =>
    rw [List.foldl_cons]
    exact ih _ (sorted_setInsert p l h)

theorem exists_iff (s : CitationGraph ι) (id : ι) :
    s.exists id = true ↔ ∃ a n, s.publicationNodes id = some a ∧ s.heap a = some n := by
  unfold CitationGraph.exists find
  cases hm : s.publicationNodes id with
  | none => simp
  | some a =>
    cases hn : s.heap a with
    | none => simp [hn]
    | some n => simp [hn]

theorem Inv.exists_iff_entry {s : CitationGraph ι} (h : Inv s) (id : ι) :
    s.exists id = true ↔ ∃ a, s.publicationNodes id = some a := by
  rw [CitationGraph.exists_iff]
  constructor
  · rintro ⟨a, n, h1, _⟩; exact ⟨a, h1⟩
  · rintro ⟨a, h1⟩
    obtain ⟨n, h2, _⟩ := h.entry id a h1
    exact ⟨a, n, h1, h2⟩

theorem Inv.not_exists {s : CitationGraph ι} (h : Inv s) {id : ι} (he : s.exists id = false) :
    s.publicationNodes id = none := by
  cases hm : s.publicationNodes id with
  | none => rfl
  | some a =>
    have := (h.exists_iff_entry id).2 ⟨a, hm⟩
    simp [this] at he

theorem modifyNode_modifyNode (s : CitationGraph ι) (a : Nat) (f g : Node ι → Node ι) :
    modifyNode (modifyNode s a f) a g = modifyNode s a (fun n => g (f n)) := by
  refine ext_state ?_ rfl rfl rfl
  funext b
  simp only [modifyNode_heap]
  split
  · simp [Option.map_map, Function.comp_def]
  · rfl

/-- The first loop of `create` in closed form. -/
theorem addParents_eq (a : Nat) : ∀ (ps : List ι) (s : CitationGraph ι),
    (∀ pid ∈ ps, ∃ p, s.publicationNodes pid = some p) →
    addParents a ps s = some (modifyNode s a (fun n =>
      { n with parents := insertAll (ps.filterMap s.publicationNodes) n.parents })) := by
  intro ps
  induction ps with
  | nil =>
    intro s _
    simp only [addParents, List.filterMap_nil, insertAll, List.foldl_nil]
    congr 1
    refine ext_state ?_ rfl rfl rfl
    funext b
    simp only [modifyNode_heap]
    split
    · subst_vars; cases s.heap b <;> rfl
    · rfl
  | cons pid rest ih =>
    intro s h
    obtain ⟨p, hp⟩ := h pid (List.mem_cons_self _ _)
    simp only [addParents, hp]
    rw [ih (modifyNode s a (fun n => n.addParent p))
      (fun q hq => h q (List.mem_cons_of_mem _ hq)), modifyNode_modifyNode]
    simp only [modifyNode_map, List.filterMap_cons, hp, insertAll, List.foldl_cons,
      Node.addParent]

theorem linkAll_modifyNode (s : CitationGraph ι) (c p : Nat) (rest : List Nat) :
    linkAll (modifyNode s p (fun n => n.addChild c)) c rest = linkAll s c (p :: rest) := by
  refine ext_state ?_ rfl rfl rfl
  funext b
  simp only [linkAll_heap, modifyNode_heap, List.mem_cons]
  by_cases hb : b = p
  · subst hb
    by_cases hr : b ∈ rest
    · simp only [hr, if_true, true_or, or_true, Option.map_map]
      cases s.heap b with
      | none => rfl
      | some n => simp [Node.addChild, setInsert_idem]
    · simp [hr]
  · simp [hb]

/-- The second loop of `create` in closed form. -/
theorem addChildren_eq (a : Nat) : ∀ (ps : List ι) (s : CitationGraph ι),
    (∀ pid ∈ ps, ∃ p m, s.publicationNodes pid = some p ∧ s.heap p = some m) →
    addChildren a ps s = some (linkAll s a (ps.filterMap s.publicationNodes)) := by
  intro ps
  induction ps with
  | nil =>
    intro s _
    simp only [addChildren, List.filterMap_nil]
    congr 1
  | cons pid rest ih =>
    intro s h
    obtain ⟨p, m, hp, hm⟩ := h pid (List.mem_cons_self _ _)
    simp only [addChildren, hp, hm]
    rw [ih]
    · simp only [modifyNode_map, List.filterMap_cons, hp, linkAll_modifyNode]
    · intro q hq
      obtain ⟨p2, m2, h1, h2⟩ := h q (List.mem_cons_of_mem _ hq)
      by_cases e : p2 = p
      · subst e
        exact ⟨p2, m.addChild a, h1, by simp [hm]⟩
      · exact ⟨p2, m2, h1, by simp [e, h2]⟩

theorem unlinkAll_modifyNode (s : CitationGraph ι) (c p : Nat) (rest : List Nat) :
    unlinkAll (modifyNode s p (fun n => n.removeChild c)) c rest = unlinkAll s c (p :: rest) := by
  refine ext_state ?_ rfl rfl rfl
  funext b
  simp only [unlinkAll_heap, modifyNode_heap, List.mem_cons]
  by_cases hb : b = p
  · subst hb
    by_cases hr : b ∈ rest
    · simp only [hr, if_true, true_or, or_true, Option.map_map]
      cases s.heap b with
      | none => rfl
      | some n => simp [Node.removeChild, setErase_idem]
    · simp [hr]
  · simp [hb]

/-- The loop of `remove` in closed form: it dereferences a null pointer exactly
when some element of the parent set has expired. -/
theorem removeFromParents_eq (a : Nat) : ∀ (ps : List Nat) (s : CitationGraph ι),
    removeFromParents a ps s =
      if ps.all (fun p => (s.heap p).isSome) then some (unlinkAll s a ps) else none := by
  intro ps
  induction ps with
  | nil =>
    intro s
    simp only [removeFromParents, List.all_nil, if_true]
    congr 1
  | cons p rest ih =>
    intro s
    cases hp : s.heap p with
    | none => simp [removeFromParents, hp]
    | some m =>
      simp only [removeFromParents, hp]
      have hfun : (fun q => ((modifyNode s p (fun n => n.removeChild a)).heap q).isSome) =
          fun q => (s.heap q).isSome := by
        funext q
        simp only [modifyNode_heap]
        split
        · subst_vars; simp [hp]
        · rfl
      rw [ih, unlinkAll_modifyNode, hfun]
      simp [hp]

theorem Inv.addr_lt {s : CitationGraph ι} (h : Inv s) {ps : List ι} {b : Nat}
    (hb : b ∈ ps.filterMap s.publicationNodes) : ∃ n, s.heap b = some n ∧ b < s.next := by
  obtain ⟨pid, _, hp⟩ := List.mem_filterMap.1 hb
  obtain ⟨n, hn, _⟩ := h.entry pid b hp
  exact ⟨n, hn, h.bound b n hn⟩

/-- The member `create` for a new id and existing parents, up to the release of
the local `newNode`. -/
theorem create_eq {s : CitationGraph ι} (h : Inv s) (id : ι) (ps : List ι)
    (hid : s.exists id = false) (hps : ∀ p ∈ ps, s.exists p = true) :
    create s id ps = release (createdState s id ps) s.next := by
  have hany : ps.any (fun parentId => !s.exists parentId) = false := by
    rw [List.any_eq_false]
    intro p hp
    simp [hps p hp]
  have hmap : ∀ pid ∈ ps, ∃ p m, s.publicationNodes pid = some p ∧ s.heap p = some m := by
    intro pid hpid
    obtain ⟨a, n, h1, h2⟩ := (CitationGraph.exists_iff s pid).1 (hps pid hpid)
    exact ⟨a, n, h1, h2⟩
  have hnone := h.not_exists hid
  unfold create
  simp only [hid, hany, Bool.false_eq_true, if_false]
  rw [addParents_eq]
  · simp only
    rw [addChildren_eq]
    · simp only
      congr 1
      refine ext_state ?_ rfl ?_ rfl
      · funext b
        simp only [modifyNode_heap, insertEntry_heap, linkAll_heap, modifyNode_map,
          setNode_heap, createdState]
        by_cases hb : b = s.next
        · subst hb
          have : s.next ∉ List.filterMap s.publicationNodes ps := by
            intro hmem
            obtain ⟨n, _, hlt⟩ := h.addr_lt hmem
            exact absurd hlt (lt_irrefl _)
          simp [this, Node.setMyMapIterator]
        · simp [hb]
      · funext i
        simp only [modifyNode_map, insertEntry, linkAll, setNode, createdState, hnone]
    · intro pid hpid
      obtain ⟨p, m, h1, h2⟩ := hmap pid hpid
      have hne : p ≠ s.next := ne_of_lt (h.bound p m h2)
      exact ⟨p, m, h1, by simp [hne, h2]⟩
  · intro pid hpid
    obtain ⟨p, m, h1, _⟩ := hmap pid hpid
    exact ⟨p, h1⟩

/-- The state built by `create` satisfies the invariant. -/
theorem createdState_inv {s : CitationGraph ι} (h : Inv s) (id : ι) (ps : List ι)
    (hid : s.exists id = false) : Inv (createdState s id ps) := by
  have hnone := h.not_exists hid
  have hheap : ∀ b m, (createdState s id ps).heap b = some m →
      (b = s.next ∧ m = { publication := ⟨id⟩
                          parents := insertAll (ps.filterMap s.publicationNodes) []
                          children := []
                          myMapIterator := some id }) ∨
      (b ≠ s.next ∧ ∃ n, s.heap b = some n ∧ (m = n ∨ m = n.addChild s.next)) := by
    intro b m hb
    simp only [createdState] at hb
    split at hb
    · left; cases hb; exact ⟨by assumption, rfl⟩
    · right
      rename_i hbn
      refine ⟨hbn, ?_⟩
      split at hb
      · cases hn : s.heap b with
        | none => simp [hn] at hb
        | some n => simp only [hn, Option.map_some', Option.some.injEq] at hb; exact ⟨n, rfl, Or.inr hb.symm⟩
      · exact ⟨m, hb, Or.inl rfl⟩
  have hlive : ∀ b n, s.heap b = some n → ∃ m, (createdState s id ps).heap b = some m := by
    intro b n hb
    have hne : b ≠ s.next := ne_of_lt (h.bound b n hb)
    simp only [createdState, hne, if_false]
    split
    · exact ⟨n.addChild s.next, by simp [hb]⟩
    · exact ⟨n, hb⟩
  have hnew : (createdState s id ps).heap s.next =
      some { publication := ⟨id⟩
             parents := insertAll (ps.filterMap s.publicationNodes) []
             children := []
             myMapIterator := some id } := by
    simp [createdState]
  have hidne : ∀ n b, s.heap b = some n → n.publication.get_id ≠ id := by
    intro n b hb e
    have := h.registered b n hb
    rw [e, hnone] at this
    cases this
  refine ⟨?_, ?_, ?_, ?_, ?_, ?_, ?_, ?_⟩
  · intro b m hb
    rcases hheap b m hb with ⟨e, _⟩ | ⟨_, n, hn, _⟩
    · simp [createdState, e]
    · have := h.bound b n hn
      simp only [createdState]; omega
  · intro b m p hb hp
    rcases hheap b m hb with ⟨_, e⟩ | ⟨_, n, hn, e⟩
    · rw [e] at hp
      simp only [mem_insertAll, List.not_mem_nil, or_false] at hp
      obtain ⟨_, _, hlt⟩ := h.addr_lt hp
      simp only [createdState]; omega
    · have hp2 : p ∈ n.parents := by
        rcases e with e | e <;> (rw [e] at hp; exact hp)
      have := h.parentBound b n p hn hp2
      simp only [createdState]; omega
  · intro i a hi
    simp only [createdState] at hi
    split at hi
    · cases hi
      rename_i e
      exact ⟨_, hnew, e.symm⟩
    · obtain ⟨n, hn, hn2⟩ := h.entry i a hi
      obtain ⟨m, hm⟩ := hlive a n hn
      refine ⟨m, hm, ?_⟩
      rcases hheap a m hm with ⟨e, _⟩ | ⟨_, n2, hn3, e⟩
      · exact absurd (h.bound a n hn) (by omega)
      · rw [hn] at hn3; cases hn3
        rcases e with e | e <;> rw [e] <;> exact hn2
  · intro b m hb
    rcases hheap b m hb with ⟨_, e⟩ | ⟨_, n, hn, e⟩
    · rw [e]
    · rcases e with e | e <;> rw [e] <;> exact h.iter b n hn
  · intro b m hb
    rcases hheap b m hb with ⟨e1, e⟩ | ⟨_, n, hn, e⟩
    · rw [e]; simp [createdState, e1]
    · have hr := h.registered b n hn
      have hne := hidne n b hn
      have : m.publication.get_id = n.publication.get_id := by
        rcases e with e | e <;> (rw [e]; try rfl)
      simp only [createdState, this, hne, if_false]
      exact hr
  · intro p m c hp hc
    rcases hheap p m hp with ⟨_, e⟩ | ⟨_, n, hn, e⟩
    · rw [e] at hc; simp at hc
    · rcases e with e | e
      · rw [e] at hc
        obtain ⟨m2, h2⟩ := h.childLive p n c hn hc
        exact hlive c m2 h2
      · rw [e] at hc
        simp only [Node.addChild, mem_setInsert] at hc
        rcases hc with e2 | hc
        · rw [e2]; exact ⟨_, hnew⟩
        · obtain ⟨m2, h2⟩ := h.childLive p n c hn hc
          exact hlive c m2 h2
  · intro b m hb
    rcases hheap b m hb with ⟨_, e⟩ | ⟨_, n, hn, e⟩
    · rw [e]
      exact ⟨List.sorted_nil, sorted_insertAll _ _ List.sorted_nil⟩
    · have hs := h.sorted b n hn
      rcases e with e | e
      · rw [e]; exact hs
      · rw [e]; exact ⟨sorted_setInsert _ _ hs.1, hs.2⟩
  · obtain ⟨n, hn⟩ := h.rootLive
    exact hlive _ n hn

theorem create_inv {s t : CitationGraph ι} (h : Inv s) (id : ι) (ps : List ι)
    (hc : (create s id ps).state = some t) : Inv t := by
  by_cases hid : s.exists id = true
  · simp only [create, hid, if_true, Outcome.state] at hc
    cases hc; exact h
  · have hid2 : s.exists id = false := by simpa using hid
    by_cases hany : ps.any (fun parentId => !s.exists parentId) = true
    · simp only [create, hid2, hany, if_true, Outcome.state] at hc
      simp at hc
      cases hc; exact h
    · have hps : ∀ p ∈ ps, s.exists p = true := by
        intro p hp
        by_contra hne
        apply hany
        rw [List.any_eq_true]
        exact ⟨p, hp, by simpa using hne⟩
      rw [create_eq h id ps hid2 hps] at hc
      exact release_inv (createdState_inv h id ps hid2) hc

/-- The invariant is kept by a change of the edge sets alone that leaves them
sorted, with children on the heap and parents below `next`. -/
theorem Inv.of_rel {s t : CitationGraph ι} (h : Inv s) (hnext : t.next = s.next)
    (hmap : t.publicationNodes = s.publicationNodes) (hroot : t.root = s.root)
    (hdom : ∀ b n, s.heap b = some n → ∃ m, t.heap b = some m)
    (hnode : ∀ b m, t.heap b = some m → ∃ n, s.heap b = some n ∧
      m.publication = n.publication ∧ m.myMapIterator = n.myMapIterator ∧
      (∀ x ∈ m.parents, x < s.next) ∧ (∀ c ∈ m.children, ∃ k, s.heap c = some k) ∧
      m.children.Sorted (· < ·) ∧ m.parents.Sorted (· < ·)) : Inv t := by
  refine ⟨?_, ?_, ?_, ?_, ?_, ?_, ?_, ?_⟩
  · intro b m hb
    obtain ⟨n, hn, _⟩ := hnode b m hb
    rw [hnext]; exact h.bound b n hn
  · intro b m p hb hp
    obtain ⟨n, _, _, _, h3, _⟩ := hnode b m hb
    rw [hnext]; exact h3 p hp
  · intro i a hi
    rw [hmap] at hi
    obtain ⟨n, hn, hn2⟩ := h.entry i a hi
    obtain ⟨m, hm⟩ := hdom a n hn
    obtain ⟨n2, hn3, h1, _⟩ := hnode a m hm
    rw [hn] at hn3; cases hn3
    exact ⟨m, hm, by rw [h1]; exact hn2⟩
  · intro b m hb
    obtain ⟨n, hn, h1, h2, _⟩ := hnode b m hb
    rw [h1, h2]; exact h.iter b n hn
  · intro b m hb
    obtain ⟨n, hn, h1, _⟩ := hnode b m hb
    rw [h1, hmap]; exact h.registered b n hn
  · intro p m c hp hc
    obtain ⟨n, _, _, _, _, h4, _⟩ := hnode p m hp
    obtain ⟨k, hk⟩ := h4 c hc
    exact hdom c k hk
  · intro b m hb
    obtain ⟨n, _, _, _, _, _, h5, h6⟩ := hnode b m hb
    exact ⟨h5, h6⟩
  · obtain ⟨n, hn⟩ := h.rootLive
    rw [hroot]; exact hdom _ n hn

theorem citedState_heap (s : CitationGraph ι) (ca pa b : Nat) :
    (citedState s ca pa).heap b =
      (s.heap b).map (fun n =>
        { n with parents := if b = ca then setInsert pa n.parents else n.parents
                 children := if b = pa then setInsert ca n.children else n.children }) := by
  simp only [citedState, modifyNode_heap]
  by_cases h1 : b = pa
  · subst h1
    by_cases h2 : b = ca
    · subst h2
      cases s.heap b <;> simp [Node.addChild, Node.addParent]
    · cases s.heap b <;> simp [Node.addChild, h2]
  · by_cases h2 : b = ca
    · subst h2
      cases s.heap b <;> simp [Node.addParent, h1]
    · cases s.heap b <;> simp [h1, h2]

theorem citedState_inv {s : CitationGraph ι} (h : Inv s) {ca pa : Nat} {nc np : Node ι}
    (hc : s.heap ca = some nc) (hp : s.heap pa = some np) : Inv (citedState s ca pa) := by
  refine h.of_rel rfl rfl rfl ?_ ?_
  · intro b n hb
    rw [citedState_heap, hb]
    exact ⟨_, rfl⟩
  · intro b m hb
    rw [citedState_heap] at hb
    cases hn : s.heap b with
    | none => simp [hn] at hb
    | some n =>
      simp only [hn, Option.map_some', Option.some.injEq] at hb
      subst hb
      have hs := h.sorted b n hn
      refine ⟨n, rfl, rfl, rfl, ?_, ?_, ?_, ?_⟩
      · intro x hx
        simp only at hx
        split at hx
        · rcases (mem_setInsert _ _ _).1 hx with e | e
          · rw [e]; exact h.bound pa np hp
          · exact h.parentBound b n x hn e
        · exact h.parentBound b n x hn hx
      · intro c hcm
        simp only at hcm
        split at hcm
        · rcases (mem_setInsert _ _ _).1 hcm with e | e
          · rw [e]; exact ⟨nc, hc⟩
          · exact h.childLive b n c hn e
        · exact h.childLive b n c hn hcm
      · simp only
        split
        · exact sorted_setInsert _ _ hs.1
        · exact hs.1
      · simp only
        split
        · exact sorted_setInsert _ _ hs.2
        · exact hs.2

/-- The member `add_citation` for two existing ids: it returns, and the graph is
the one with the two nodes linked. -/
theorem add_citation_eq {s : CitationGraph ι} (h : Inv s) {c p : ι} {ca pa : Nat}
    (hc : s.publicationNodes c = some ca) (hp : s.publicationNodes p = some pa) :
    add_citation s c p = .ok (citedState s ca pa) := by
  obtain ⟨nc, hnc, _⟩ := h.entry c ca hc
  obtain ⟨np, hnp, _⟩ := h.entry p pa hp
  have hec := (h.exists_iff_entry c).2 ⟨ca, hc⟩
  have hep := (h.exists_iff_entry p).2 ⟨pa, hp⟩
  have hpl : ∃ m, (modifyNode s ca (fun n => n.addParent pa)).heap pa = some m := by
    by_cases e : pa = ca
    · exact ⟨nc.addParent pa, by simp [e, hnc]⟩
    · exact ⟨np, by simp [e, hnp]⟩
  obtain ⟨m, hm⟩ := hpl
  have hown : owned (citedState s ca pa) ca = true := by
    obtain ⟨k, hk, hkc⟩ : ∃ k, (citedState s ca pa).heap pa = some k ∧ ca ∈ k.children := by
      rw [citedState_heap, hnp]
      exact ⟨_, rfl, by simp [mem_setInsert]⟩
    exact (owned_iff _ _).2 (Or.inr ⟨pa, k, h.bound pa np hnp, hk, hkc⟩)
  simp only [add_citation, hec, hep, hc, hp, hm]
  simp only [Bool.not_true, Bool.or_self, Bool.false_eq_true, if_false]
  show release (citedState s ca pa) ca = _
  simp only [release, hown, if_true]

theorem add_citation_inv {s t : CitationGraph ι} (h : Inv s) (c p : ι)
    (hc : (add_citation s c p).state = some t) : Inv t := by
  by_cases he : s.exists c = true ∧ s.exists p = true
  · obtain ⟨ca, hca⟩ := (h.exists_iff_entry c).1 he.1
    obtain ⟨pa, hpa⟩ := (h.exists_iff_entry p).1 he.2
    obtain ⟨nc, hnc, _⟩ := h.entry c ca hca
    obtain ⟨np, hnp, _⟩ := h.entry p pa hpa
    rw [add_citation_eq h hca hpa] at hc
    simp only [Outcome.state, Option.some.injEq] at hc
    subst hc
    exact citedState_inv h hnc hnp
  · have : (!s.exists c || !s.exists p) = true := by
      rcases not_and_or.1 he with e | e <;> simp [e]
    simp only [add_citation, this, if_true, Outcome.state, Option.some.injEq] at hc
    subst hc; exact h

theorem unlinkAll_inv {s : CitationGraph ι} (h : Inv s) (a : Nat) (ps : List Nat) :
    Inv (unlinkAll s a ps) := by
  refine h.of_rel rfl rfl rfl ?_ ?_
  · intro b n hb
    simp only [unlinkAll_heap, hb]
    split
    · exact ⟨_, rfl⟩
    · exact ⟨_, rfl⟩
  · intro b m hb
    simp only [unlinkAll_heap] at hb
    cases hn : s.heap b with
    | none => simp [hn] at hb
    | some n =>
      have hs := h.sorted b n hn
      simp only [hn, Option.map_some'] at hb
      split at hb
      · cases hb
        refine ⟨n, rfl, rfl, rfl, fun x hx => h.parentBound b n x hn hx, ?_,
          sorted_setErase _ _ hs.1, hs.2⟩
        intro c hc
        exact h.childLive b n c hn ((mem_setErase _ _ _).1 hc).1
      · cases hb
        exact ⟨m, rfl, rfl, rfl, fun x hx => h.parentBound b m x hn hx,
          fun c hc => h.childLive b m c hn hc, hs.1, hs.2⟩

/-- The member `remove` for an existing id that is not the root id, up to the
release of the local `toRemove`. -/
theorem remove_eq {s : CitationGraph ι} (h : Inv s) {id : ι} {a : Nat} {n : Node ι}
    (hid : s.publicationNodes id = some a) (hn : s.heap a = some n)
    (hroot : get_root_id s ≠ some id) :
    remove s id =
      if n.parents.all (fun p => (s.heap p).isSome) then release (unlinkAll s a n.parents) a
      else .undefined := by
  have he := (h.exists_iff_entry id).2 ⟨a, hid⟩
  obtain ⟨r, hr⟩ := h.rootLive
  have hg : get_root_id s = some r.publication.get_id := by simp [get_root_id, hr]
  have hne : r.publication.get_id ≠ id := by
    intro e; apply hroot; rw [hg, e]
  simp only [remove, he, hg, hne, hid, hn, removeFromParents_eq]
  simp only [Bool.not_true, Bool.false_eq_true, if_false]
  by_cases hall : n.parents.all (fun p => (s.heap p).isSome) = true
  · simp only [hall, if_true]
  · simp [hall]

theorem remove_inv {s t : CitationGraph ι} (h : Inv s) (id : ι)
    (hc : (remove s id).state = some t) : Inv t := by
  by_cases he : s.exists id = true
  · obtain ⟨a, ha⟩ := (h.exists_iff_entry id).1 he
    obtain ⟨n, hn, _⟩ := h.entry id a ha
    by_cases hroot : get_root_id s = some id
    · simp only [remove, he, hroot, Outcome.state] at hc
      simp at hc
      subst hc; exact h
    · rw [remove_eq h ha hn hroot] at hc
      split at hc
      · exact release_inv (unlinkAll_inv h a n.parents) hc
      · simp [Outcome.state] at hc
  · have he2 : s.exists id = false := by simpa using he
    simp only [remove, he2, Outcome.state] at hc
    simp at hc
    subst hc; exact h

theorem new_inv (stem_id : ι) : Inv (new stem_id) := by
  refine ⟨?_, ?_, ?_, ?_, ?_, ?_, ?_, ?_⟩
  · intro a n ha
    simp only [new] at ha
    split at ha
    · subst_vars; simp [new]
    · cases ha
  · intro a n p ha hp
    simp only [new] at ha
    split at ha
    · cases ha; simp at hp
    · cases ha
  · intro i a hi
    simp only [new] at hi
    split at hi
    · cases hi; rename_i e; exact ⟨_, by simp [new]; rfl, e.symm⟩
    · cases hi
  · intro a n ha
    simp only [new] at ha
    split at ha
    · cases ha; rfl
    · cases ha
  · intro a n ha
    simp only [new] at ha
    split at ha
    · cases ha; subst_vars; simp [new]
    · cases ha
  · intro a n c ha hc
    simp only [new] at ha
    split at ha
    · cases ha; simp at hc
    · cases ha
  · intro a n ha
    simp only [new] at ha
    split at ha
    · cases ha; exact ⟨List.sorted_nil, List.sorted_nil⟩
    · cases ha
  · exact ⟨_, by simp [new]; rfl⟩

/-- Every reachable state satisfies the invariant. -/
theorem Reachable.inv {s : CitationGraph ι} (h : Reachable s) : Inv s := by
  induction h with
  | new stem_id => exact new_inv stem_id
  | create id ps _ hc ih => exact create_inv ih id ps hc
  | add_citation c p _ hc ih => exact add_citation_inv ih c p hc
  | remove id _ hc ih => exact remove_inv ih id hc

theorem Inv.find_eq {s : CitationGraph ι} (h : Inv s) {id : ι} {a : Nat}
    (hid : s.publicationNodes id = some a) : find s id = some a := by
  obtain ⟨n, hn, _⟩ := h.entry id a hid
  simp [find, hid, hn]

theorem idsOf_eq (s : CitationGraph ι) : ∀ (l : List Nat),
    (∀ c ∈ l, ∃ m, s.heap c = some m) →
    idsOf s l = some (l.filterMap (fun c => (s.heap c).map (fun m => m.publication.get_id))) := by
  intro l
  induction l with
  | nil => intro _; rfl
  | cons c cs ih =>
    intro h
    obtain ⟨m, hm⟩ := h c (List.mem_cons_self _ _)
    have := ih (fun x hx => h x (List.mem_cons_of_mem _ hx))
    simp [idsOf, hm, this]

/-- The list `get_children` returns for a registered id. -/
theorem Inv.get_children_eq {s : CitationGraph ι} (h : Inv s) {id : ι} {a : Nat} {n : Node ι}
    (hid : s.publicationNodes id = some a) (hn : s.heap a = some n) :
    get_children s id =
      .ok (n.children.filterMap (fun c => (s.heap c).map (fun m => m.publication.get_id))) := by
  simp only [get_children, h.find_eq hid, hn]
  rw [idsOf_eq s n.children (fun c hc => h.childLive a n c hn hc)]

/-- The list `get_parents` returns for a registered id. -/
theorem Inv.get_parents_eq {s : CitationGraph ι} (h : Inv s) {id : ι} {a : Nat} {n : Node ι}
    (hid : s.publicationNodes id = some a) (hn : s.heap a = some n) :
    get_parents s id =
      .ok (n.parents.filterMap (fun c => (s.heap c).map (fun m => m.publication.get_id))) := by
  simp only [get_parents, h.find_eq hid, hn]

/-- Two nodes on the heap with the same id are the same node. -/
theorem Inv.addr_inj {s : CitationGraph ι} (h : Inv s) {a b : Nat} {n m : Node ι}
    (ha : s.heap a = some n) (hb : s.heap b = some m)
    (e : n.publication.get_id = m.publication.get_id) : a = b := by
  have h1 := h.registered a n ha
  have h2 := h.registered b m hb
  rw [e, h2] at h1
  exact (Option.some.inj h1).symm

/-- The ids of a duplicate-free list of addresses are duplicate-free. -/
theorem Inv.nodup_ids {s : CitationGraph ι} (h : Inv s) {l : List Nat} (hl : l.Nodup) :
    (l.filterMap (fun c => (s.heap c).map (fun m => m.publication.get_id))).Nodup := by
  refine List.Nodup.filterMap ?_ hl
  intro a b x hxa hxb
  simp only [Option.mem_def, Option.map_eq_some'] at hxa hxb
  obtain ⟨n, hn, e1⟩ := hxa
  obtain ⟨m, hm, e2⟩ := hxb
  exact h.addr_inj hn hm (e1.trans e2.symm)

theorem sorted_nodup {l : List Nat} (h : l.Sorted (· < ·)) : l.Nodup :=
  List.Sorted.nodup h

/-- The state built by `create` from a non-empty parent list owns the new node. -/
theorem createdState_owned {s : CitationGraph ι} (h : Inv s) (id : ι) {ps : List ι}
    (hne : ps ≠ []) (hps : ∀ p ∈ ps, s.exists p = true) :
    owned (createdState s id ps) s.next = true := by
  obtain ⟨p0, rest, rfl⟩ := List.exists_cons_of_ne_nil hne
  obtain ⟨a, n, h1, h2⟩ := (CitationGraph.exists_iff s p0).1 (hps p0 (List.mem_cons_self _ _))
  have hmem : a ∈ (p0 :: rest).filterMap s.publicationNodes :=
    List.mem_filterMap.2 ⟨p0, List.mem_cons_self _ _, h1⟩
  have hlt := h.bound a n h2
  have hne2 : a ≠ s.next := ne_of_lt hlt
  refine (owned_iff _ _).2 (Or.inr ⟨a, n.addChild s.next, ?_, ?_, ?_⟩)
  · simp only [createdState]; omega
  · simp only [createdState, hne2, if_false, hmem, if_true, h2, Option.map_some']
  · simp [Node.addChild, mem_setInsert]

/-- The node on top has no children left and is freed. -/
theorem Sym.free_top {s : CitationGraph ι} {a : Nat} {stack : List Nat} {n : Node ι}
    (hC : CInv s (a :: stack)) (h : Sym s (a :: stack)) (hn : s.heap a = some n)
    (hch : n.children = []) : Sym (freeNode s a) stack := by
  have hua := hC.unowned a (List.mem_cons_self _ _)
  refine ⟨?_, ?_, ?_⟩
  · intro p m c hp hc
    simp only [freeNode_heap] at hp
    split at hp
    · cases hp
    · obtain ⟨k, hk, hpk⟩ := h.childParent p m c hp hc
      have hca : c ≠ a := fun e => hua.2 p m hp (e ▸ hc)
      exact ⟨k, by simp [hca, hk], hpk⟩
  · intro p m c k hp hc hpk hps hcs
    simp only [freeNode_heap] at hp hc
    split at hp
    · cases hp
    · split at hc
      · cases hc
      · rename_i hpa hca
        exact h.parentChild p m c k hp hc hpk (by simp [hpa, hps]) (by simp [hca, hcs])
  · intro c m hc hcs hcr
    simp only [freeNode_heap] at hc
    split at hc
    · cases hc
    · rename_i hca
      obtain ⟨p, k, hp, hck⟩ := h.owner c m hc (by simp [hca, hcs]) hcr
      have hpa : p ≠ a := by
        intro e
        rw [e, hn] at hp
        cases hp
        rw [hch] at hck
        simp at hck
      exact ⟨p, k, by simp [hpa, hp], hck⟩

/-- One element is taken out of the `children` set of the node on top; the
element is exempt afterwards. -/
theorem Sym.pop_child {s : CitationGraph ι} {a : Nat} {stack : List Nat} {n : Node ι}
    {c : Nat} {cs : List Nat}
    (hC : CInv s (a :: stack)) (h : Sym s (a :: stack)) (hn : s.heap a = some n)
    (hch : n.children = c :: cs) :
    Sym (setNode s a { n with children := cs }) (c :: a :: stack) := by
  have hua := hC.unowned a (List.mem_cons_self _ _)
  have hsub : ∀ x, x ∈ cs → x ∈ n.children := fun x hx => hch ▸ List.mem_cons_of_mem _ hx
  refine ⟨?_, ?_, ?_⟩
  · intro p m x hp hx
    have hxa : x ≠ a := by
      intro e
      simp only [setNode_heap] at hp
      split at hp
      · cases hp; exact hua.2 a n hn (e ▸ hsub x hx)
      · exact hua.2 p m hp (e ▸ hx)
    simp only [setNode_heap] at hp
    split at hp
    · cases hp
      obtain ⟨k, hk, hpk⟩ := h.childParent a n x hn (hsub x hx)
      rename_i e
      exact ⟨k, by simp [hxa, hk], e ▸ hpk⟩
    · obtain ⟨k, hk, hpk⟩ := h.childParent p m x hp hx
      exact ⟨k, by simp [hxa, hk], hpk⟩
  · intro p m x k hp hx hpk hps hxs
    have hpa : p ≠ a := fun e => hps (by simp [e])
    have hxa : x ≠ a := fun e => hxs (by simp [e])
    simp only [setNode_heap, hpa, hxa, if_false] at hp hx
    exact h.parentChild p m x k hp hx hpk
      (fun hm => hps (List.mem_cons_of_mem _ hm)) (fun hm => hxs (List.mem_cons_of_mem _ hm))
  · intro x m hx hxs hxr
    have hxa : x ≠ a := fun e => hxs (by simp [e])
    have hxc : x ≠ c := fun e => hxs (by simp [e])
    simp only [setNode_heap, hxa, if_false] at hx
    obtain ⟨p, k, hp, hxk⟩ := h.owner x m hx (fun hm => hxs (List.mem_cons_of_mem _ hm)) hxr
    by_cases hpa : p = a
    · subst hpa
      rw [hn] at hp; cases hp
      rw [hch] at hxk
      rcases List.mem_cons.1 hxk with e | e
      · exact absurd e hxc
      · exact ⟨p, { n with children := cs }, by simp, e⟩
    · exact ⟨p, k, by simp [hpa, hp], hxk⟩

/-- The element taken out still has an owner: it is not exempt. -/
theorem Sym.keep {s : CitationGraph ι} {a : Nat} {stack : List Nat} {n : Node ι}
    {c : Nat} {cs : List Nat}
    (hC : CInv s (a :: stack)) (h : Sym s (a :: stack)) (hn : s.heap a = some n)
    (hch : n.children = c :: cs)
    (hown : owned (setNode s a { n with children := cs }) c = true) :
    Sym (setNode s a { n with children := cs }) (a :: stack) := by
  have hpop := h.pop_child hC hn hch
  have hua := hC.unowned a (List.mem_cons_self _ _)
  refine ⟨hpop.childParent, ?_, ?_⟩
  · intro p m x k hp hx hpk hps hxs
    have hpa : p ≠ a := fun e => hps (by simp [e])
    have hxa : x ≠ a := fun e => hxs (by simp [e])
    simp only [setNode_heap, hpa, hxa, if_false] at hp hx
    exact h.parentChild p m x k hp hx hpk hps hxs
  · intro x m hx hxs hxr
    by_cases hxc : x = c
    · subst hxc
      rcases (owned_iff _ _).1 hown with e | ⟨p, k, _, hp, hk⟩
      · exact absurd e.symm hxr
      · exact ⟨p, k, hp, hk⟩
    · exact hpop.owner x m hx (by
        intro hm
        rcases List.mem_cons.1 hm with e | e
        · exact hxc e
        · exact hxs e) hxr

/-- A wider exemption, and a change of the map, keep the statement. -/
theorem Sym.erase {s : CitationGraph ι} {stack : List Nat} (h : Sym s stack) (k : ι) :
    Sym (eraseEntry s k) stack :=
  ⟨h.childParent, h.parentChild, h.owner⟩

/-- When the cascade of destructors ends, edges and back-references agree on the
nodes that are left, and each of them but the root has an owner. -/
theorem cascade_sym (fuel : Nat) : ∀ (stack : List Nat) (s t : CitationGraph ι),
    CInv s stack → Sym s stack → cascade fuel stack s = .ok t → Sym t [] := by
  induction fuel with
  | zero =>
    intro stack s t hC h hc
    cases stack with
    | nil => simp only [cascade] at hc; cases hc; exact h
    | cons a stack => simp [cascade] at hc
  | succ fuel ih =>
    intro stack s t hC h hc
    cases stack with
    | nil => simp only [cascade] at hc; cases hc; exact h
    | cons a stack =>
      simp only [cascade] at hc
      cases hn : s.heap a with
      | none => simp [hn] at hc
      | some n =>
        simp only [hn] at hc
        cases hch : n.children with
        | nil =>
          simp only [hch] at hc
          exact ih _ _ _ hC.free (h.free_top hC hn hch) hc
        | cons c cs =>
          simp only [hch] at hc
          have hpop := hC.pop hn hch
          split at hc
          · rename_i hown
            exact ih _ _ _ hpop (h.keep hC hn hch hown) hc
          · rename_i hown
            have hua := hC.unowned a (List.mem_cons_self _ _)
            have hca : c ≠ a := fun e => hua.2 a n hn (by rw [hch, e]; exact List.mem_cons_self _ _)
            obtain ⟨m, hm⟩ := hC.childLive a n c hn (by rw [hch]; exact List.mem_cons_self _ _)
            have hm1 : (setNode s a { n with children := cs }).heap c = some m := by
              simp [hca, hm]
            have hcs : c ∉ a :: stack := by
              intro hmem
              exact (hC.unowned c hmem).2 a n hn (by rw [hch]; exact List.mem_cons_self _ _)
            rw [dtorBody_eq _ c m _ hm1 (hpop.iter c m hm1)] at hc
            simp only at hc
            exact ih _ _ _ (hpop.push hm1 hcs (by simpa using hown))
              ((h.pop_child hC hn hch).erase _) hc

/-- The invariant at the start of a destructor cascade from a single node. -/
theorem Inv.start {s : CitationGraph ι} (h : Inv s) {a : Nat} {n : Node ι}
    (hn : s.heap a = some n) (hown : owned s a = false) :
    CInv (eraseEntry s n.publication.get_id) [a] := by
  have hC : CInv s [] :=
    { bound := h.bound, parentBound := h.parentBound
      entry := fun id b e => ⟨List.not_mem_nil b, h.entry id b e⟩
      iter := h.iter
      registered := fun b m e _ => h.registered b m e
      childLive := h.childLive, sorted := h.sorted, rootLive := h.rootLive
      unowned := fun x hx => absurd hx (List.not_mem_nil x) }
  exact hC.push hn (List.not_mem_nil a) hown

/-- What `release` does to a node on the heap of a state with the invariant. -/
theorem Inv.release_eq {s : CitationGraph ι} (h : Inv s) {a : Nat} {n : Node ι}
    (hn : s.heap a = some n) :
    release s a =
      if owned s a then .ok s
      else cascade (size (eraseEntry s n.publication.get_id) + 1) [a]
        (eraseEntry s n.publication.get_id) := by
  unfold release
  split
  · rfl
  · rw [dtorBody_eq s a n _ hn (h.iter a n hn)]

/-- Releasing the last local `shared_ptr` to a node that is only exempt from the
ownership statement restores it for every node. -/
theorem release_sym {s t : CitationGraph ι} {a : Nat} {n : Node ι} (h : Inv s)
    (hn : s.heap a = some n) (hs : Sym s [a])
    (hpc : owned s a = true → ∀ p k c m, s.heap p = some k → s.heap c = some m →
      p ∈ m.parents → c ∈ k.children)
    (hr : release s a = .ok t) : Sym t [] := by
  rw [h.release_eq hn] at hr
  split at hr
  · rename_i hown
    cases hr
    refine ⟨hs.childParent, fun p k c m hp hc hpm _ _ => hpc hown p k c m hp hc hpm, ?_⟩
    intro c m hc _ hcr
    by_cases hca : c = a
    · subst hca
      rcases (owned_iff _ _).1 hown with e | ⟨p, k, _, hp, hk⟩
      · exact absurd e.symm hcr
      · exact ⟨p, k, hp, hk⟩
    · exact hs.owner c m hc (by simp [hca]) hcr
  · rename_i hown
    exact cascade_sym _ _ _ _ (h.start hn (by simpa using hown)) (hs.erase _) hr

theorem new_sym (stem_id : ι) : Sym (new stem_id) [] := by
  refine ⟨?_, ?_, ?_⟩
  · intro p n c hp hc
    simp only [new] at hp
    split at hp
    · cases hp; simp at hc
    · cases hp
  · intro p n c m _ hc hpm
    simp only [new] at hc
    split at hc
    · cases hc; simp at hpm
    · cases hc
  · intro c m hc _ hcr
    simp only [new] at hc hcr
    split at hc
    · rename_i e; exact absurd e hcr
    · cases hc

/-- The nodes of the state built by `create`. -/
theorem createdState_cases {s : CitationGraph ι} (id : ι) (ps : List ι) (b : Nat) (m : Node ι)
    (hb : (createdState s id ps).heap b = some m) :
    (b = s.next ∧ m = { publication := ⟨id⟩
                        parents := insertAll (ps.filterMap s.publicationNodes) []
                        children := []
                        myMapIterator := some id }) ∨
    (b ≠ s.next ∧ ∃ n, s.heap b = some n ∧
      ((b ∉ ps.filterMap s.publicationNodes ∧ m = n) ∨
       (b ∈ ps.filterMap s.publicationNodes ∧ m = n.addChild s.next))) := by
  simp only [createdState] at hb
  split at hb
  · left; cases hb; exact ⟨by assumption, rfl⟩
  · right
    rename_i hbn
    refine ⟨hbn, ?_⟩
    split at hb
    · rename_i hmem
      cases hn : s.heap b with
      | none => simp [hn] at hb
      | some n =>
        simp only [hn, Option.map_some', Option.some.injEq] at hb
        exact ⟨n, rfl, Or.inr ⟨hmem, hb.symm⟩⟩
    · rename_i hmem
      exact ⟨m, hb, Or.inl ⟨hmem, rfl⟩⟩

/-- A node of the old state is still there, with the same parents and no child
lost. -/
theorem createdState_old {s : CitationGraph ι} (h : Inv s) (id : ι) (ps : List ι) (b : Nat)
    (n : Node ι) (hb : s.heap b = some n) :
    ∃ m, (createdState s id ps).heap b = some m ∧ m.parents = n.parents ∧
      m.publication = n.publication ∧ ∀ c ∈ n.children, c ∈ m.children := by
  have hne : b ≠ s.next := ne_of_lt (h.bound b n hb)
  simp only [createdState, hne, if_false]
  split
  · refine ⟨n.addChild s.next, by simp [hb], rfl, rfl, ?_⟩
    intro c hc
    simp [Node.addChild, mem_setInsert, hc]
  · exact ⟨n, hb, rfl, rfl, fun c hc => hc⟩

theorem createdState_sym {s : CitationGraph ι} (h : Inv s) (hs : Sym s []) (id : ι)
    (ps : List ι) :
    Sym (createdState s id ps) [s.next] ∧
    ∀ p k c m, (createdState s id ps).heap p = some k →
      (createdState s id ps).heap c = some m → p ∈ m.parents → c ∈ k.children := by
  have hnew : (createdState s id ps).heap s.next =
      some { publication := ⟨id⟩
             parents := insertAll (ps.filterMap s.publicationNodes) []
             children := []
             myMapIterator := some id } := by
    simp [createdState]
  have hpc : ∀ p k c m, (createdState s id ps).heap p = some k →
      (createdState s id ps).heap c = some m → p ∈ m.parents → c ∈ k.children := by
    intro p k c m hp hc hpm
    rcases createdState_cases id ps c m hc with ⟨e1, e2⟩ | ⟨hcn, nc, hnc, e⟩
    · rw [e2] at hpm
      simp only [mem_insertAll, List.not_mem_nil, or_false] at hpm
      rcases createdState_cases id ps p k hp with ⟨e3, _⟩ | ⟨_, np, _, e4⟩
      · obtain ⟨_, _, hlt⟩ := h.addr_lt hpm
        omega
      · rcases e4 with ⟨hno, _⟩ | ⟨_, e5⟩
        · exact absurd hpm hno
        · rw [e5, e1]; simp [Node.addChild, mem_setInsert]
    · have hpm2 : p ∈ nc.parents := by
        rcases e with ⟨_, e⟩ | ⟨_, e⟩ <;> (rw [e] at hpm; exact hpm)
      have hplt := h.parentBound c nc p hnc hpm2
      rcases createdState_cases id ps p k hp with ⟨e3, _⟩ | ⟨_, np, hnp, e4⟩
      · omega
      · have hold := hs.parentChild p np c nc hnp hnc hpm2 (List.not_mem_nil _)
          (List.not_mem_nil _)
        rcases e4 with ⟨_, e5⟩ | ⟨_, e5⟩
        · rw [e5]; exact hold
        · rw [e5]; simp [Node.addChild, mem_setInsert, hold]
  refine ⟨⟨?_, fun p k c m hp hc hpm _ _ => hpc p k c m hp hc hpm, ?_⟩, hpc⟩
  · intro p k c hp hc
    rcases createdState_cases id ps p k hp with ⟨_, e⟩ | ⟨hpn, np, hnp, e⟩
    · rw [e] at hc; simp at hc
    · have hold : c ∈ np.children → ∃ m, (createdState s id ps).heap c = some m ∧ p ∈ m.parents := by
        intro hc2
        obtain ⟨m, hm, hpm⟩ := hs.childParent p np c hnp hc2
        obtain ⟨m2, hm2, e2, _⟩ := createdState_old h id ps c m hm
        exact ⟨m2, hm2, e2 ▸ hpm⟩
      rcases e with ⟨_, e⟩ | ⟨hmem, e⟩
      · rw [e] at hc; exact hold hc
      · rw [e] at hc
        simp only [Node.addChild, mem_setInsert] at hc
        rcases hc with e2 | hc
        · rw [e2]
          exact ⟨_, hnew, by simp [mem_insertAll, hmem]⟩
        · exact hold hc
  · intro c m hc hcs hcr
    rcases createdState_cases id ps c m hc with ⟨e1, _⟩ | ⟨_, nc, hnc, _⟩
    · exact absurd e1 (by simpa using hcs)
    · obtain ⟨p, np, hnp, hcp⟩ := hs.owner c nc hnc (List.not_mem_nil _) hcr
      obtain ⟨m2, hm2, _, _, hsub⟩ := createdState_old h id ps p np hnp
      exact ⟨p, m2, hm2, hsub c hcp⟩

theorem create_sym {s t : CitationGraph ι} (h : Inv s) (hs : Sym s []) (id : ι) (ps : List ι)
    (hc : (create s id ps).state = some t) : Sym t [] := by
  by_cases hid : s.exists id = true
  · simp only [create, hid, if_true, Outcome.state] at hc
    cases hc; exact hs
  · have hid2 : s.exists id = false := by simpa using hid
    by_cases hany : ps.any (fun parentId => !s.exists parentId) = true
    · simp only [create, hid2, hany, if_true, Outcome.state] at hc
      simp at hc
      cases hc; exact hs
    · have hps : ∀ p ∈ ps, s.exists p = true := by
        intro p hp
        by_contra hne
        apply hany
        rw [List.any_eq_true]
        exact ⟨p, hp, by simpa using hne⟩
      rw [create_eq h id ps hid2 hps] at hc
      have hI := createdState_inv h id ps hid2
      have hS := createdState_sym h hs id ps
      have hnew : (createdState s id ps).heap s.next =
          some { publication := ⟨id⟩
                 parents := insertAll (ps.filterMap s.publicationNodes) []
                 children := []
                 myMapIterator := some id } := by
        simp [createdState]
      generalize ho : release (createdState s id ps) s.next = o at hc
      cases o with
      | ok u =>
        simp only [Outcome.state, Option.some.injEq] at hc
        subst hc
        exact release_sym hI hnew hS.1 (fun _ => hS.2) ho
      | threw e u =>
        exfalso
        rw [hI.release_eq hnew] at ho
        split at ho
        · cases ho
        · exact cascade_not_threw _ _ _ _ _ ho
      | undefined => simp [Outcome.state] at hc
      | outOfFuel => simp [Outcome.state] at hc

theorem citedState_sym {s : CitationGraph ι} (hs : Sym s []) {ca : Nat} (pa : Nat)
    {nc : Node ι} (hca : s.heap ca = some nc) : Sym (citedState s ca pa) [] := by
  have hget : ∀ b m, (citedState s ca pa).heap b = some m → ∃ n, s.heap b = some n ∧
      m.parents = (if b = ca then setInsert pa n.parents else n.parents) ∧
      m.children = (if b = pa then setInsert ca n.children else n.children) := by
    intro b m hb
    rw [citedState_heap] at hb
    cases hn : s.heap b with
    | none => simp [hn] at hb
    | some n =>
      simp only [hn, Option.map_some', Option.some.injEq] at hb
      exact ⟨n, rfl, by rw [← hb], by rw [← hb]⟩
  have hput : ∀ b n, s.heap b = some n → ∃ m, (citedState s ca pa).heap b = some m ∧
      (∀ x ∈ n.parents, x ∈ m.parents) ∧ (∀ x ∈ n.children, x ∈ m.children) ∧
      (b = ca → pa ∈ m.parents) ∧ (b = pa → ca ∈ m.children) := by
    intro b n hb
    rw [citedState_heap, hb]
    refine ⟨_, rfl, ?_, ?_, ?_, ?_⟩
    · intro x hx
      simp only
      split
      · exact (mem_setInsert _ _ _).2 (Or.inr hx)
      · exact hx
    · intro x hx
      simp only
      split
      · exact (mem_setInsert _ _ _).2 (Or.inr hx)
      · exact hx
    · intro e; simp [e, mem_setInsert]
    · intro e; simp [e, mem_setInsert]
  refine ⟨?_, ?_, ?_⟩
  · intro p m c hp hc
    obtain ⟨n, hn, _, e2⟩ := hget p m hp
    rw [e2] at hc
    have hold : c ∈ n.children → ∃ k, (citedState s ca pa).heap c = some k ∧ p ∈ k.parents := by
      intro hc2
      obtain ⟨k, hk, hpk⟩ := hs.childParent p n c hn hc2
      obtain ⟨k2, hk2, hsub, _⟩ := hput c k hk
      exact ⟨k2, hk2, hsub p hpk⟩
    split at hc
    · rename_i e
      rcases (mem_setInsert _ _ _).1 hc with e2 | hc2
      · obtain ⟨k2, hk2, _, _, h3, _⟩ := hput ca nc hca
        rw [e2, e]
        exact ⟨k2, hk2, h3 rfl⟩
      · exact hold hc2
    · exact hold hc
  · intro p k c m hp hc hpm _ _
    obtain ⟨n, hn, e1, _⟩ := hget c m hc
    obtain ⟨n2, hn2, _, _⟩ := hget p k hp
    obtain ⟨k2, hk2, _, hsub, _, h4⟩ := hput p n2 hn2
    rw [hp] at hk2; cases hk2
    rw [e1] at hpm
    have hold : p ∈ n.parents → c ∈ k.children := fun hpn =>
      hsub c (hs.parentChild p n2 c n hn2 hn hpn (List.not_mem_nil _) (List.not_mem_nil _))
    split at hpm
    · rename_i e
      rcases (mem_setInsert _ _ _).1 hpm with e2 | hpn
      · rw [e]; exact h4 e2
      · exact hold hpn
    · exact hold hpm
  · intro c m hc _ hcr
    obtain ⟨n, hn, _, _⟩ := hget c m hc
    obtain ⟨p, np2, hnp2, hcp⟩ := hs.owner c n hn (List.not_mem_nil _) hcr
    obtain ⟨k2, hk2, _, hsub, _, _⟩ := hput p np2 hnp2
    exact ⟨p, k2, hk2, hsub c hcp⟩

theorem add_citation_sym {s t : CitationGraph ι} (h : Inv s) (hs : Sym s []) (c p : ι)
    (hc : (add_citation s c p).state = some t) : Sym t [] := by
  by_cases he : s.exists c = true ∧ s.exists p = true
  · obtain ⟨ca, hca⟩ := (h.exists_iff_entry c).1 he.1
    obtain ⟨pa, hpa⟩ := (h.exists_iff_entry p).1 he.2
    obtain ⟨nc, hnc, _⟩ := h.entry c ca hca
    obtain ⟨np, hnp, _⟩ := h.entry p pa hpa
    rw [add_citation_eq h hca hpa] at hc
    simp only [Outcome.state, Option.some.injEq] at hc
    subst hc
    exact citedState_sym hs pa hnc
  · have : (!s.exists c || !s.exists p) = true := by
      rcases not_and_or.1 he with e | e <;> simp [e]
    simp only [add_citation, this, if_true, Outcome.state, Option.some.injEq] at hc
    subst hc; exact hs

/-- After the loop of `remove` nothing owns the node to remove, and the other
nodes are as consistent as before. -/
theorem unlinkAll_sym {s : CitationGraph ι} (hs : Sym s []) {a : Nat} {n : Node ι}
    (hn : s.heap a = some n) (hroot : s.root ≠ a) :
    Sym (unlinkAll s a n.parents) [a] ∧ owned (unlinkAll s a n.parents) a = false := by
  have hget : ∀ b m, (unlinkAll s a n.parents).heap b = some m → ∃ k, s.heap b = some k ∧
      m.parents = k.parents ∧
      m.children = (if b ∈ n.parents then setErase a k.children else k.children) := by
    intro b m hb
    simp only [unlinkAll_heap] at hb
    cases hk : s.heap b with
    | none => simp [hk] at hb
    | some k =>
      simp only [hk, Option.map_some'] at hb
      split at hb
      · cases hb
        rename_i hmem
        exact ⟨k, rfl, rfl, by simp [hmem, Node.removeChild]⟩
      · cases hb
        rename_i hmem
        exact ⟨m, rfl, rfl, by simp [hmem]⟩
  have hput : ∀ b k, s.heap b = some k → ∃ m, (unlinkAll s a n.parents).heap b = some m ∧
      m.parents = k.parents ∧ ∀ x ∈ k.children, x ≠ a → x ∈ m.children := by
    intro b k hb
    simp only [unlinkAll_heap, hb]
    split
    · refine ⟨k.removeChild a, rfl, rfl, ?_⟩
      intro x hx hxa
      exact (mem_setErase _ _ _).2 ⟨hx, hxa⟩
    · exact ⟨k, rfl, rfl, fun x hx _ => hx⟩
  have hsubc : ∀ b m k, (unlinkAll s a n.parents).heap b = some m → s.heap b = some k →
      ∀ x ∈ m.children, x ∈ k.children := by
    intro b m k hb hk x hx
    obtain ⟨k2, hk2, _, e⟩ := hget b m hb
    rw [hk] at hk2; cases hk2
    rw [e] at hx
    split at hx
    · exact ((mem_setErase _ _ _).1 hx).1
    · exact hx
  refine ⟨⟨?_, ?_, ?_⟩, ?_⟩
  · intro p m c hp hc
    obtain ⟨k, hk, _, _⟩ := hget p m hp
    obtain ⟨k2, hk2, hpk⟩ := hs.childParent p k c hk (hsubc p m k hp hk c hc)
    obtain ⟨m2, hm2, e, _⟩ := hput c k2 hk2
    exact ⟨m2, hm2, e ▸ hpk⟩
  · intro p k c m hp hc hpm _ hcs
    have hca : c ≠ a := by simpa using hcs
    obtain ⟨k0, hk0, _, _⟩ := hget p k hp
    obtain ⟨m0, hm0, e, _⟩ := hget c m hc
    obtain ⟨k2, hk2, _, hsub⟩ := hput p k0 hk0
    rw [hp] at hk2; cases hk2
    exact hsub c (hs.parentChild p k0 c m0 hk0 hm0 (e ▸ hpm) (List.not_mem_nil _)
      (List.not_mem_nil _)) hca
  · intro c m hc hcs hcr
    have hca : c ≠ a := by simpa using hcs
    obtain ⟨m0, hm0, _, _⟩ := hget c m hc
    obtain ⟨p, k, hk, hck⟩ := hs.owner c m0 hm0 (List.not_mem_nil _) hcr
    obtain ⟨k2, hk2, _, hsub⟩ := hput p k hk
    exact ⟨p, k2, hk2, hsub c hck hca⟩
  · cases hown : owned (unlinkAll s a n.parents) a with
    | false => rfl
    | true =>
      exfalso
      rcases (owned_iff _ _).1 hown with e | ⟨p, m, _, hp, hm⟩
      · exact hroot e
      · obtain ⟨k, hk, _, e⟩ := hget p m hp
        rw [e] at hm
        split at hm
        · exact ((mem_setErase _ _ _).1 hm).2 rfl
        · rename_i hno
          obtain ⟨k2, hk2, hpk⟩ := hs.childParent p k a hk hm
          rw [hn] at hk2; cases hk2
          exact hno hpk

/-- The address of the node registered under an id other than the root id is not
the root address. -/
theorem Inv.root_ne {s : CitationGraph ι} (h : Inv s) {id : ι} {a : Nat}
    (hid : s.publicationNodes id = some a) (hroot : get_root_id s ≠ some id) : s.root ≠ a := by
  intro e
  obtain ⟨m, hm, hm2⟩ := h.entry id a hid
  apply hroot
  simp [get_root_id, e, hm, hm2]

theorem remove_sym {s t : CitationGraph ι} (h : Inv s) (hs : Sym s []) (id : ι)
    (hc : (remove s id).state = some t) : Sym t [] := by
  by_cases he : s.exists id = true
  · obtain ⟨a, ha⟩ := (h.exists_iff_entry id).1 he
    obtain ⟨n, hn, _⟩ := h.entry id a ha
    by_cases hroot : get_root_id s = some id
    · simp only [remove, he, hroot, Outcome.state] at hc
      simp at hc
      subst hc; exact hs
    · rw [remove_eq h ha hn hroot] at hc
      split at hc
      · have hI := unlinkAll_inv h a n.parents
        obtain ⟨hS, hown⟩ := unlinkAll_sym hs hn (h.root_ne ha hroot)
        obtain ⟨m, hm⟩ : ∃ m, (unlinkAll s a n.parents).heap a = some m := by
          simp only [unlinkAll_heap, hn]
          split
          · exact ⟨_, rfl⟩
          · exact ⟨_, rfl⟩
        generalize ho : release (unlinkAll s a n.parents) a = o at hc
        cases o with
        | ok u =>
          simp only [Outcome.state, Option.some.injEq] at hc
          subst hc
          exact release_sym hI hm hS (fun e => by rw [hown] at e; cases e) ho
        | threw e u =>
          exfalso
          rw [hI.release_eq hm, hown] at ho
          exact cascade_not_threw _ _ _ _ _ ho
        | undefined => simp [Outcome.state] at hc
        | outOfFuel => simp [Outcome.state] at hc
      · simp [Outcome.state] at hc
  · have he2 : s.exists id = false := by simpa using he
    simp only [remove, he2, Outcome.state] at hc
    simp at hc
    subst hc; exact hs

/-- In every reachable state, owning edges and back-references agree on the nodes
on the heap, and every node but the root has an owner. -/
theorem Reachable.sym {s : CitationGraph ι} (h : Reachable s) : Sym s [] := by
  induction h with
  | new stem_id => exact new_sym stem_id
  | create id ps hr hc ih => exact create_sym hr.inv ih id ps hc
  | add_citation c p hr hc ih => exact add_citation_sym hr.inv ih c p hc
  | remove id hr hc ih => exact remove_sym hr.inv ih id hc

theorem dtorBody_some {s t : CitationGraph ι} {a : Nat} (h : dtorBody s a = some t) :
    ∃ n k, s.heap a = some n ∧ n.myMapIterator = some k ∧ t = eraseEntry s k := by
  cases hn : s.heap a with
  | none => simp [dtorBody, hn] at h
  | some n =>
    cases hk : n.myMapIterator with
    | none => simp [dtorBody, hn, hk] at h
    | some k =>
      rw [dtorBody_eq s a n k hn hk] at h
      cases h
      exact ⟨n, k, rfl, hk, rfl⟩

/-- What a finished cascade of destructors leaves: the nodes whose destructor
was running are gone, and every other node is gone or untouched. -/
theorem cascade_frame (fuel : Nat) : ∀ (stack : List Nat) (s t : CitationGraph ι),
    cascade fuel stack s = .ok t →
    t.next = s.next ∧ t.root = s.root ∧ (∀ x ∈ stack, t.heap x = none) ∧
    (∀ b, s.heap b = none → t.heap b = none) ∧
    (∀ b, t.heap b = none ∨ t.heap b = s.heap b) := by
  induction fuel with
  | zero =>
    intro stack s t hc
    cases stack with
    | nil =>
      simp only [cascade] at hc; cases hc
      exact ⟨rfl, rfl, fun x hx => absurd hx (List.not_mem_nil x), fun _ hb => hb,
        fun _ => Or.inr rfl⟩
    | cons a stack => simp [cascade] at hc
  | succ fuel ih =>
    intro stack s t hc
    cases stack with
    | nil =>
      simp only [cascade] at hc; cases hc
      exact ⟨rfl, rfl, fun x hx => absurd hx (List.not_mem_nil x), fun _ hb => hb,
        fun _ => Or.inr rfl⟩
    | cons a stack =>
      simp only [cascade] at hc
      cases hn : s.heap a with
      | none => simp [hn] at hc
      | some n =>
        simp only [hn] at hc
        have key : ∀ (u : CitationGraph ι) (st : List Nat), u.next = s.next → u.root = s.root →
            (∀ b, b ≠ a → u.heap b = s.heap b) → (u.heap a = none ∨ a ∈ st) →
            (∀ x ∈ stack, x ∈ st) → cascade fuel st u = .ok t →
            t.next = s.next ∧ t.root = s.root ∧ (∀ x ∈ a :: stack, t.heap x = none) ∧
            (∀ b, s.heap b = none → t.heap b = none) ∧
            (∀ b, t.heap b = none ∨ t.heap b = s.heap b) := by
          intro u st h1 h2 h3 h4 h5 hu
          obtain ⟨i1, i2, i3, i4, i5⟩ := ih st u t hu
          have hta : t.heap a = none := by
            rcases h4 with e | e
            · exact i4 a e
            · exact i3 a e
          refine ⟨i1.trans h1, i2.trans h2, ?_, ?_, ?_⟩
          · intro x hx
            rcases List.mem_cons.1 hx with e | e
            · rw [e]; exact hta
            · exact i3 x (h5 x e)
          · intro b hb
            have hba : b ≠ a := by
              intro e; rw [e, hn] at hb; cases hb
            exact i4 b (by rw [h3 b hba]; exact hb)
          · intro b
            by_cases hba : b = a
            · left; rw [hba]; exact hta
            · rcases i5 b with e | e
              · exact Or.inl e
              · right; rw [e, h3 b hba]
        cases hch : n.children with
        | nil =>
          simp only [hch] at hc
          exact key (freeNode s a) stack rfl rfl (fun b hb => by simp [hb])
            (Or.inl (by simp)) (fun x hx => hx) hc
        | cons c cs =>
          simp only [hch] at hc
          split at hc
          · exact key (setNode s a { n with children := cs }) (a :: stack) rfl rfl
              (fun b hb => by simp [hb])
              (Or.inr (List.mem_cons_self _ _)) (fun x hx => List.mem_cons_of_mem _ hx) hc
          · cases hd : dtorBody (setNode s a { n with children := cs }) c with
            | none => simp [hd] at hc
            | some s2 =>
              simp only [hd] at hc
              obtain ⟨_, k, _, _, e⟩ := dtorBody_some hd
              subst e
              exact key (eraseEntry (setNode s a { n with children := cs }) k)
                (c :: a :: stack) rfl rfl (fun b hb => by simp [hb])
                (Or.inr (by simp)) (fun x hx => by simp [hx]) hc

/-- A call of `remove` that returns has run the destructor of the node. -/
theorem remove_ok_cases {s t : CitationGraph ι} (h : Inv s) (hs : Sym s []) {id : ι}
    (hr : remove s id = .ok t) :
    ∃ a n, s.publicationNodes id = some a ∧ s.heap a = some n ∧ s.root ≠ a ∧
      (∀ p ∈ n.parents, ∃ m, s.heap p = some m) ∧
      cascade (size (eraseEntry (unlinkAll s a n.parents) id) + 1) [a]
        (eraseEntry (unlinkAll s a n.parents) id) = .ok t := by
  by_cases he : s.exists id = true
  · obtain ⟨a, ha⟩ := (h.exists_iff_entry id).1 he
    obtain ⟨n, hn, hnid⟩ := h.entry id a ha
    by_cases hroot : get_root_id s = some id
    · simp [remove, he, hroot] at hr
    · rw [remove_eq h ha hn hroot] at hr
      split at hr
      · rename_i hall
        have hI := unlinkAll_inv h a n.parents
        obtain ⟨_, hown⟩ := unlinkAll_sym hs hn (h.root_ne ha hroot)
        obtain ⟨m, hm, hmid⟩ : ∃ m, (unlinkAll s a n.parents).heap a = some m ∧
            m.publication.get_id = id := by
          simp only [unlinkAll_heap, hn]
          split
          · exact ⟨_, rfl, hnid⟩
          · exact ⟨_, rfl, hnid⟩
        rw [hI.release_eq hm, hown, hmid] at hr
        refine ⟨a, n, ha, hn, h.root_ne ha hroot, ?_, hr⟩
        intro p hp
        have := List.all_eq_true.1 hall p hp
        exact Option.isSome_iff_exists.1 this
      · cases hr
  · have he2 : s.exists id = false := by simpa using he
    simp [remove, he2] at hr

/-- The frame of a call of `remove` that returns: the node is gone; every other node
is gone or has lost at most the removed node from its `children` set. -/
theorem remove_frame {s t : CitationGraph ι} (h : Inv s) (hs : Sym s []) {id : ι}
    (hr : remove s id = .ok t) :
    ∃ a n, s.publicationNodes id = some a ∧ s.heap a = some n ∧ t.heap a = none ∧
      t.root = s.root ∧ t.next = s.next ∧
      (∀ p ∈ n.parents, ∃ m, s.heap p = some m) ∧
      (∀ b, s.heap b = none → t.heap b = none) ∧
      (∀ b m, t.heap b = some m → ∃ k, s.heap b = some k ∧ m.publication = k.publication ∧
        m.parents = k.parents ∧ (∀ c, c ∈ m.children ↔ c ∈ k.children ∧ c ≠ a)) := by
  obtain ⟨a, n, ha, hn, hroot, hall, hc⟩ := remove_ok_cases h hs hr
  obtain ⟨f1, f2, f3, f4, f5⟩ := cascade_frame _ _ _ _ hc
  refine ⟨a, n, ha, hn, f3 a (List.mem_cons_self _ _), f2, f1, hall, ?_, ?_⟩
  · intro b hb
    apply f4
    simp only [eraseEntry_heap, unlinkAll_heap, hb]
    split <;> rfl
  · intro b m hb
    rcases f5 b with e | e
    · rw [e] at hb; cases hb
    · rw [e] at hb
      simp only [eraseEntry_heap, unlinkAll_heap] at hb
      cases hk : s.heap b with
      | none => simp [hk] at hb
      | some k =>
        simp only [hk, Option.map_some'] at hb
        split at hb
        · cases hb
          exact ⟨k, rfl, rfl, rfl, fun c => by simp [Node.removeChild, mem_setErase]⟩
        · cases hb
          rename_i hno
          refine ⟨m, rfl, rfl, rfl, fun c => ⟨fun hcm => ⟨hcm, ?_⟩, fun hcm => hcm.1⟩⟩
          intro e2
          obtain ⟨k2, hk2, hbk⟩ := hs.childParent b m c hk hcm
          rw [e2, hn] at hk2; cases hk2
          exact hno hbk

/-- A node of the old state exists by id in the new state exactly when it is
still on the heap, if the new heap is a part of the old one. -/
theorem exists_after {s t : CitationGraph ι} (hI : Inv s) (hIt : Inv t)
    (hpres : ∀ b m, t.heap b = some m →
      ∃ k, s.heap b = some k ∧ m.publication = k.publication)
    {b : Nat} {k : Node ι} (hk : s.heap b = some k) :
    t.exists k.publication.get_id = true ↔ ∃ m, t.heap b = some m := by
  constructor
  · intro he
    obtain ⟨y, hy⟩ := (hIt.exists_iff_entry _).1 he
    obtain ⟨my, hmy, hid⟩ := hIt.entry _ y hy
    obtain ⟨ky, hky, e⟩ := hpres y my hmy
    have : y = b := hI.addr_inj hky hk (by rw [← e, hid])
    exact ⟨my, this ▸ hmy⟩
  · rintro ⟨m, hm⟩
    obtain ⟨k2, hk2, e⟩ := hpres b m hm
    rw [hk] at hk2; cases hk2
    have := hIt.registered b m hm
    rw [e] at this
    exact (hIt.exists_iff_entry _).2 ⟨b, this⟩

/-- The ids of the parents that are left, in terms of the ids before. -/
theorem parents_after {s t : CitationGraph ι} (hI : Inv s) (hIt : Inv t)
    (hdead : ∀ b, s.heap b = none → t.heap b = none)
    (hpres : ∀ b m, t.heap b = some m →
      ∃ k, s.heap b = some k ∧ m.publication = k.publication) :
    ∀ l : List Nat,
      l.filterMap (fun c => (t.heap c).map (fun m => m.publication.get_id)) =
        (l.filterMap (fun c => (s.heap c).map (fun m => m.publication.get_id))).filter
          (fun x => t.exists x) := by
  intro l
  induction l with
  | nil => rfl
  | cons x xs ih =>
    cases hk : s.heap x with
    | none =>
      simp only [List.filterMap_cons, hk, hdead x hk, Option.map_none']
      exact ih
    | some k =>
      have hiff := exists_after hI hIt hpres hk
      cases hm : t.heap x with
      | none =>
        have hno : t.exists k.publication.get_id = false := by
          cases he : t.exists k.publication.get_id with
          | false => rfl
          | true =>
            obtain ⟨m, hm2⟩ := hiff.1 he
            rw [hm] at hm2; cases hm2
        simp only [List.filterMap_cons, hk, hm, Option.map_none', Option.map_some',
          List.filter_cons, hno, Bool.false_eq_true, if_false]
        exact ih
      | some m =>
        obtain ⟨k2, hk2, e⟩ := hpres x m hm
        rw [hk] at hk2; cases hk2
        have hyes : t.exists k.publication.get_id = true := hiff.2 ⟨m, hm⟩
        simp only [List.filterMap_cons, hk, hm, Option.map_some', List.filter_cons, hyes,
          if_true, e]
        rw [ih]

/-- After a call of `remove` that returns, the id does not exist and is in no list
that `get_children` returns. -/
theorem remove_ok_gone (s t : CitationGraph ι) (id : ι) (hs : Reachable s)
    (hr : remove s id = .ok t) :
    t.exists id = false ∧ ∀ p l, get_children t p = .ok l → id ∉ l := by
  have hI := hs.inv
  have hIt : Inv t := (Reachable.remove id hs (by rw [hr]; rfl)).inv
  obtain ⟨a, n, ha, hn, hta, _, _, _, _, hpres⟩ := remove_frame hI hs.sym hr
  obtain ⟨n2, hn2, hnid⟩ := hI.entry id a ha
  rw [hn] at hn2; cases hn2
  have hgone : t.exists id = false := by
    cases he : t.exists id with
    | false => rfl
    | true =>
      rw [← hnid] at he
      obtain ⟨m, hm⟩ := (exists_after hI hIt (fun b m hb => by
        obtain ⟨k, hk, e, _⟩ := hpres b m hb
        exact ⟨k, hk, e⟩) hn).1 he
      rw [hta] at hm; cases hm
  refine ⟨hgone, ?_⟩
  intro p l hl hmem
  cases hf : find t p with
  | none => simp [get_children, hf] at hl
  | some b =>
    cases hb : t.heap b with
    | none => simp [get_children, hf, hb] at hl
    | some m =>
      simp only [get_children, hf, hb] at hl
      rw [idsOf_eq t m.children (fun c hc => hIt.childLive b m c hb hc)] at hl
      simp only [Result.ok.injEq] at hl
      subst hl
      simp only [List.mem_filterMap, Option.map_eq_some'] at hmem
      obtain ⟨c, _, mc, hmc, hcid⟩ := hmem
      have := hIt.registered c mc hmc
      rw [hcid] at this
      have he : t.exists id = true := (hIt.exists_iff_entry id).2 ⟨c, this⟩
      rw [hgone] at he; cases he

/-- What `get_parents` returning a list says about the heap. -/
theorem Inv.get_parents_ok {s : CitationGraph ι} (h : Inv s) {id : ι} {l : List ι}
    (hl : get_parents s id = .ok l) :
    ∃ c n, s.publicationNodes id = some c ∧ s.heap c = some n ∧ n.publication.get_id = id ∧
      l = n.parents.filterMap (fun p => (s.heap p).map (fun m => m.publication.get_id)) := by
  cases hm : s.publicationNodes id with
  | none => simp [get_parents, find, hm] at hl
  | some c =>
    obtain ⟨n, hn, hid⟩ := h.entry id c hm
    rw [h.get_parents_eq hm hn] at hl
    cases hl
    exact ⟨c, n, rfl, hn, hid, rfl⟩

theorem Reachable.run {s t : CitationGraph ι} (c : Call ι) (h : Reachable s)
    (hc : (c.run s).state = some t) : Reachable t := by
  cases c with
  | create id ps => exact Reachable.create id ps h hc
  | add_citation a b => exact Reachable.add_citation a b h hc
  | remove id => exact Reachable.remove id h hc

/-- The state after a list of calls on a reachable state is reachable. -/
theorem Reachable.runCalls : ∀ (cs : List (Call ι)) {s t : CitationGraph ι},
    Reachable s → runCalls cs s = some t → Reachable t := by
  intro cs
  induction cs with
  | nil =>
    intro s t h hc
    simp only [CitationGraph.runCalls, Option.some.injEq] at hc
    exact hc ▸ h
  | cons c cs ih =>
    intro s t h hc
    simp only [CitationGraph.runCalls] at hc
    cases hu : (c.run s).state with
    | none => simp [hu] at hc
    | some u =>
      simp only [hu] at hc
      exact ih (h.run c hu) hc

/-- A test evaluated on the state after a list of calls. -/
theorem runCalls_test (cs : List (Call ι)) (s0 : CitationGraph ι) (P : CitationGraph ι → Bool)
    (h : (runCalls cs s0).map P = some true) : ∃ s, runCalls cs s0 = some s ∧ P s = true := by
  cases hs : runCalls cs s0 with
  | none => simp [hs] at h
  | some s => exact ⟨s, rfl, by simpa [hs] using h⟩

theorem isUndefined_iff (o : Outcome ι) : o.isUndefined = true ↔ o = .undefined := by
  cases o <;> simp [Outcome.isUndefined]

theorem citedState_idAt (s : CitationGraph ι) (ca pa b : Nat) :
    ((citedState s ca pa).heap b).map (fun m => m.publication.get_id) =
      (s.heap b).map (fun m => m.publication.get_id) := by
  rw [citedState_heap]
  cases s.heap b <;> rfl

theorem citedState_find (s : CitationGraph ι) (ca pa : Nat) (x : ι) :
    find (citedState s ca pa) x = find s x := by
  unfold find
  have hm : (citedState s ca pa).publicationNodes = s.publicationNodes := rfl
  rw [hm]
  cases s.publicationNodes x with
  | none => rfl
  | some a =>
    simp only [citedState_heap]
    cases s.heap a <;> rfl

theorem idsOf_congr {s t : CitationGraph ι}
    (h : ∀ b, (t.heap b).map (fun m => m.publication.get_id) =
      (s.heap b).map (fun m => m.publication.get_id)) :
    ∀ l, idsOf t l = idsOf s l := by
  intro l
  induction l with
  | nil => rfl
  | cons c cs ih =>
    have hc := h c
    cases ht : t.heap c with
    | none =>
      cases hs : s.heap c with
      | none => simp [idsOf, ht, hs]
      | some n => simp [ht, hs] at hc
    | some m =>
      cases hs : s.heap c with
      | none => simp [ht, hs] at hc
      | some n =>
        simp only [ht, hs, Option.map_some', Option.some.injEq] at hc
        cases hi : idsOf s cs <;> simp [idsOf, ht, hs, ih, hi, hc]

/-- Linking two nodes that are linked already changes nothing. -/
theorem citedState_of_edge {s : CitationGraph ι} (h : Inv s) (hs : Sym s []) {ca pa : Nat}
    {np : Node ι} (hnp : s.heap pa = some np) (hedge : ca ∈ np.children) :
    citedState s ca pa = s := by
  obtain ⟨nc, hnc, hpar⟩ := hs.childParent pa np ca hnp hedge
  refine ext_state ?_ rfl rfl rfl
  funext b
  rw [citedState_heap]
  cases hb : s.heap b with
  | none => rfl
  | some n =>
    simp only [Option.map_some', Option.some.injEq]
    have e1 : (if b = ca then setInsert pa n.parents else n.parents) = n.parents := by
      split
      · rename_i e
        rw [e, hnc] at hb; cases hb
        exact setInsert_of_mem _ _ (h.sorted ca nc hnc).2 hpar
      · rfl
    have e2 : (if b = pa then setInsert ca n.children else n.children) = n.children := by
      split
      · rename_i e
        rw [e, hnp] at hb; cases hb
        exact setInsert_of_mem _ _ (h.sorted pa np hnp).1 hedge
      · rfl
    rw [e1, e2]

theorem sum_range_update (f g : Nat → Nat) (a : Nat) (hfg : ∀ b, b ≠ a → f b = g b) :
    ∀ N, a < N →
      ((List.range N).map f).sum + g a = ((List.range N).map g).sum + f a := by
  have hsame : ∀ N, N ≤ a → ((List.range N).map f).sum = ((List.range N).map g).sum := by
    intro N
    induction N with
    | zero => intro _; rfl
    | succ N ih =>
      intro hN
      rw [List.range_succ, List.map_append, List.map_append, List.sum_append, List.sum_append,
        ih (by omega), List.map_singleton, List.map_singleton, hfg N (by omega)]
  intro N
  induction N with
  | zero => intro h; omega
  | succ N ih =>
    intro hN
    rw [List.range_succ, List.map_append, List.map_append, List.sum_append, List.sum_append,
      List.map_singleton, List.map_singleton, List.sum_singleton, List.sum_singleton]
    by_cases e : a = N
    · subst e
      rw [hsame a (le_refl a)]
      omega
    · have := ih (by omega)
      rw [hfg N (fun h => e h.symm)]
      omega

/-- Freeing a node without children lowers the size by one. -/
theorem size_freeNode {s : CitationGraph ι} {a : Nat} {n : Node ι} (hn : s.heap a = some n)
    (hlt : a < s.next) (hch : n.children = []) : size (freeNode s a) + 1 = size s := by
  have := sum_range_update
    (fun b => match (freeNode s a).heap b with
      | some n => n.children.length + 1
      | none => 0)
    (fun b => match s.heap b with
      | some n => n.children.length + 1
      | none => 0) a (by
        intro b hb
        simp [hb]) s.next hlt
  simp only [freeNode_heap, if_true, hn, hch, List.length_nil] at this
  simp only [size, freeNode_next, freeNode_heap]
  omega

/-- Taking one element out of a `children` set lowers the size by one. -/
theorem size_pop {s : CitationGraph ι} {a : Nat} {n : Node ι} {c : Nat} {cs : List Nat}
    (hn : s.heap a = some n) (hlt : a < s.next) (hch : n.children = c :: cs) :
    size (setNode s a { n with children := cs }) + 1 = size s := by
  have := sum_range_update
    (fun b => match (setNode s a { n with children := cs }).heap b with
      | some n => n.children.length + 1
      | none => 0)
    (fun b => match s.heap b with
      | some n => n.children.length + 1
      | none => 0) a (by
        intro b hb
        simp [hb]) s.next hlt
  simp only [setNode_heap, if_true, hn, hch, List.length_cons] at this
  simp only [size, setNode_next, setNode_heap]
  omega

/-- The cascade of destructors ends: with more fuel than the size of the state
it returns a state. -/
theorem cascade_returns (fuel : Nat) : ∀ (stack : List Nat) (s : CitationGraph ι),
    CInv s stack → stack.Nodup → (∀ x ∈ stack, ∃ n, s.heap x = some n) → size s < fuel →
    ∃ t, cascade fuel stack s = .ok t := by
  induction fuel with
  | zero => intro stack s _ _ _ h; omega
  | succ fuel ih =>
    intro stack s hC hnd hlive hsize
    cases stack with
    | nil => exact ⟨s, by simp [cascade]⟩
    | cons a stack =>
      obtain ⟨n, hn⟩ := hlive a (List.mem_cons_self _ _)
      have hlt := hC.bound a n hn
      have hnd2 := List.nodup_cons.1 hnd
      simp only [cascade, hn]
      cases hch : n.children with
      | nil =>
        simp only
        refine ih _ _ hC.free hnd2.2 ?_ (by have := size_freeNode hn hlt hch; omega)
        intro x hx
        obtain ⟨m, hm⟩ := hlive x (List.mem_cons_of_mem _ hx)
        have hxa : x ≠ a := fun e => hnd2.1 (e ▸ hx)
        exact ⟨m, by simp [hxa, hm]⟩
      | cons c cs =>
        simp only
        have hpop := hC.pop hn hch
        have hsz := size_pop hn hlt hch
        have hlive1 : ∀ x ∈ a :: stack,
            ∃ m, (setNode s a { n with children := cs }).heap x = some m := by
          intro x hx
          by_cases hxa : x = a
          · exact ⟨{ n with children := cs }, by simp [hxa]⟩
          · obtain ⟨m, hm⟩ := hlive x hx
            exact ⟨m, by simp [hxa, hm]⟩
        split
        · exact ih _ _ hpop hnd hlive1 (by omega)
        · rename_i hown
          have hua := hC.unowned a (List.mem_cons_self _ _)
          have hca : c ≠ a := fun e => hua.2 a n hn (by rw [hch, e]; exact List.mem_cons_self _ _)
          obtain ⟨m, hm⟩ := hC.childLive a n c hn (by rw [hch]; exact List.mem_cons_self _ _)
          have hm1 : (setNode s a { n with children := cs }).heap c = some m := by
            simp [hca, hm]
          have hcs : c ∉ a :: stack := by
            intro hmem
            exact (hC.unowned c hmem).2 a n hn (by rw [hch]; exact List.mem_cons_self _ _)
          rw [dtorBody_eq _ c m _ hm1 (hpop.iter c m hm1)]
          simp only
          refine ih _ _ (hpop.push hm1 hcs (by simpa using hown)) (List.nodup_cons.2 ⟨hcs, hnd⟩)
            ?_ (by
              have : size (eraseEntry (setNode s a { n with children := cs })
                  m.publication.get_id) = size (setNode s a { n with children := cs }) := rfl
              omega)
          intro x hx
          rcases List.mem_cons.1 hx with e | e
          · exact ⟨m, by rw [e]; exact hm1⟩
          · exact hlive1 x e

/-- Releasing a local `shared_ptr` to a node on the heap returns. -/
theorem release_returns {s : CitationGraph ι} (h : Inv s) {a : Nat} {n : Node ι}
    (hn : s.heap a = some n) : ∃ t, release s a = .ok t := by
  rw [h.release_eq hn]
  split
  · exact ⟨s, rfl⟩
  · rename_i hown
    exact cascade_returns _ _ _ (h.start hn (by simpa using hown)) (List.nodup_singleton a)
      (fun x hx => by
        rw [List.mem_singleton.1 hx]
        exact ⟨n, hn⟩) (Nat.lt_succ_self _)

/-- When `remove` of an existing id other than the root id returns: exactly when
no element of the parent set of the node has expired; otherwise the behaviour is
undefined. -/
theorem remove_returns_iff {s : CitationGraph ι} (hs : Reachable s) {id : ι} {a : Nat}
    {n : Node ι} (hid : s.publicationNodes id = some a) (hn : s.heap a = some n)
    (hroot : get_root_id s ≠ some id) :
    ((∀ p ∈ n.parents, ∃ m, s.heap p = some m) → ∃ t, remove s id = .ok t) ∧
    ((∃ p ∈ n.parents, s.heap p = none) → remove s id = .undefined) := by
  have h := hs.inv
  rw [remove_eq h hid hn hroot]
  constructor
  · intro hall
    have : n.parents.all (fun p => (s.heap p).isSome) = true := by
      rw [List.all_eq_true]
      intro p hp
      obtain ⟨m, hm⟩ := hall p hp
      simp [hm]
    simp only [this, if_true]
    obtain ⟨m, hm⟩ : ∃ m, (unlinkAll s a n.parents).heap a = some m := by
      simp only [unlinkAll_heap, hn]
      split
      · exact ⟨_, rfl⟩
      · exact ⟨_, rfl⟩
    exact release_returns (unlinkAll_inv h a n.parents) hm
  · rintro ⟨p, hp, hnone⟩
    have : ¬ n.parents.all (fun p => (s.heap p).isSome) = true := by
      rw [List.all_eq_true]
      intro hall
      have := hall p hp
      simp [hnone] at this
    simp [this]

/-- The root id is registered at the root address and exists. -/
theorem Inv.root_exists {s : CitationGraph ι} (h : Inv s) :
    ∃ r, get_root_id s = some r ∧ s.exists r = true ∧ s.publicationNodes r = some s.root := by
  obtain ⟨n, hn⟩ := h.rootLive
  have hreg := h.registered _ n hn
  exact ⟨n.publication.get_id, by simp [get_root_id, hn], (h.exists_iff_entry _).2 ⟨_, hreg⟩, hreg⟩

/-- What `get_children` returning a list says about the heap. -/
theorem Inv.get_children_ok {s : CitationGraph ι} (h : Inv s) {id : ι} {l : List ι}
    (hl : get_children s id = .ok l) :
    ∃ c n, s.publicationNodes id = some c ∧ s.heap c = some n ∧ n.publication.get_id = id ∧
      l = n.children.filterMap (fun p => (s.heap p).map (fun m => m.publication.get_id)) := by
  cases hm : s.publicationNodes id with
  | none => simp [get_children, find, hm] at hl
  | some c =>
    obtain ⟨n, hn, hid⟩ := h.entry id c hm
    rw [h.get_children_eq hm hn] at hl
    cases hl
    exact ⟨c, n, rfl, hn, hid, rfl⟩

/-- An owning edge between ids is an owning edge between their nodes. -/
theorem Inv.childOf_iff {s : CitationGraph ι} (h : Inv s) (a b : ι) :
    ChildOf s a b ↔ ∃ pa n cb m, s.publicationNodes a = some pa ∧ s.heap pa = some n ∧
      cb ∈ n.children ∧ s.heap cb = some m ∧ m.publication.get_id = b := by
  constructor
  · rintro ⟨l, hl, hb⟩
    obtain ⟨pa, n, hpa, hn, _, rfl⟩ := h.get_children_ok hl
    simp only [List.mem_filterMap, Option.map_eq_some'] at hb
    obtain ⟨cb, hcb, m, hm, hmid⟩ := hb
    exact ⟨pa, n, cb, m, hpa, hn, hcb, hm, hmid⟩
  · rintro ⟨pa, n, cb, m, hpa, hn, hcb, hm, hmid⟩
    refine ⟨_, h.get_children_eq hpa hn, ?_⟩
    simp only [List.mem_filterMap, Option.map_eq_some']
    exact ⟨cb, hcb, m, hm, hmid⟩

/-- A back-reference between ids is a back-reference between their nodes, to a
node that has not expired. -/
theorem Inv.parentOf_iff {s : CitationGraph ι} (h : Inv s) (a b : ι) :
    ParentOf s a b ↔ ∃ cb m pa n, s.publicationNodes b = some cb ∧ s.heap cb = some m ∧
      pa ∈ m.parents ∧ s.heap pa = some n ∧ n.publication.get_id = a := by
  constructor
  · rintro ⟨l, hl, ha⟩
    obtain ⟨cb, m, hcb, hm, _, rfl⟩ := h.get_parents_ok hl
    simp only [List.mem_filterMap, Option.map_eq_some'] at ha
    obtain ⟨pa, hpa, n, hn, hnid⟩ := ha
    exact ⟨cb, m, pa, n, hcb, hm, hpa, hn, hnid⟩
  · rintro ⟨cb, m, pa, n, hcb, hm, hpa, hn, hnid⟩
    refine ⟨_, h.get_parents_eq hcb hm, ?_⟩
    simp only [List.mem_filterMap, Option.map_eq_some']
    exact ⟨pa, hpa, n, hn, hnid⟩

/-- A child, as a caller sees it, exists. -/
theorem Inv.childOf_exists {s : CitationGraph ι} (h : Inv s) {a b : ι} (hab : ChildOf s a b) :
    s.exists b = true := by
  obtain ⟨pa, n, cb, m, _, _, _, hm, hmid⟩ := (h.childOf_iff a b).1 hab
  have := h.registered cb m hm
  rw [hmid] at this
  exact (h.exists_iff_entry b).2 ⟨cb, this⟩

/-- A parent, as a caller sees it, exists. -/
theorem Inv.parentOf_exists {s : CitationGraph ι} (h : Inv s) {a b : ι} (hab : ParentOf s a b) :
    s.exists a = true := by
  obtain ⟨cb, m, pa, n, _, _, _, hn, hnid⟩ := (h.parentOf_iff a b).1 hab
  have := h.registered pa n hn
  rw [hnid] at this
  exact (h.exists_iff_entry a).2 ⟨pa, this⟩

/-- Owning edges and back-references agree, as a caller sees them. -/
theorem childOf_iff_parentOf {s : CitationGraph ι} (h : Inv s) (hs : Sym s []) (a b : ι) :
    ChildOf s a b ↔ ParentOf s a b := by
  rw [h.childOf_iff, h.parentOf_iff]
  constructor
  · rintro ⟨pa, n, cb, m, hpa, hn, hcb, hm, hmid⟩
    obtain ⟨m2, hm2, hpar⟩ := hs.childParent pa n cb hn hcb
    rw [hm] at hm2; cases hm2
    obtain ⟨n2, hn2, hnid⟩ := h.entry a pa hpa
    rw [hn] at hn2; cases hn2
    have hreg := h.registered cb m hm
    rw [hmid] at hreg
    exact ⟨cb, m, pa, n, hreg, hm, hpar, hn, hnid⟩
  · rintro ⟨cb, m, pa, n, hcb, hm, hpa, hn, hnid⟩
    have hch := hs.parentChild pa n cb m hn hm hpa (List.not_mem_nil _) (List.not_mem_nil _)
    obtain ⟨m2, hm2, hmid⟩ := h.entry b cb hcb
    rw [hm] at hm2; cases hm2
    have hreg := h.registered pa n hn
    rw [hnid] at hreg
    exact ⟨pa, n, cb, m, hreg, hn, hch, hm, hmid⟩

/-- A release that leaves a state returned normally. -/
theorem Inv.release_state {u t : CitationGraph ι} (h : Inv u) {a : Nat} {n : Node ι}
    (hn : u.heap a = some n) (hr : (release u a).state = some t) : release u a = .ok t := by
  cases ho : release u a with
  | ok v => rw [ho] at hr; simp only [Outcome.state, Option.some.injEq] at hr; rw [hr]
  | threw e v =>
    exfalso
    rw [h.release_eq hn] at ho
    split at ho
    · cases ho
    · exact cascade_not_threw _ _ _ _ _ ho
  | undefined => rw [ho] at hr; cases hr
  | outOfFuel => rw [ho] at hr; cases hr

/-- The frame of a release: every node is gone or untouched. -/
theorem release_frame {u t : CitationGraph ι} (h : Inv u) {a : Nat} {n : Node ι}
    (hn : u.heap a = some n) (hr : release u a = .ok t) :
    t.root = u.root ∧ t.next = u.next ∧ (∀ b, u.heap b = none → t.heap b = none) ∧
      ∀ b, t.heap b = none ∨ t.heap b = u.heap b := by
  rw [h.release_eq hn] at hr
  split at hr
  · cases hr
    exact ⟨rfl, rfl, fun _ hb => hb, fun _ => Or.inr rfl⟩
  · obtain ⟨f1, f2, _, f4, f5⟩ := cascade_frame _ _ _ _ hr
    exact ⟨f2, f1, f4, f5⟩

/-- How a call of `create` can leave a state. -/
theorem create_cases {s t : CitationGraph ι} (h : Inv s) {id : ι} {ps : List ι}
    (hc : (create s id ps).state = some t) :
    t = s ∨ (s.exists id = false ∧ (∀ p ∈ ps, s.exists p = true) ∧
      create s id ps = .ok t ∧ release (createdState s id ps) s.next = .ok t) := by
  by_cases hid : s.exists id = true
  · simp only [create, hid, if_true, Outcome.state] at hc
    cases hc; exact Or.inl rfl
  · have hid2 : s.exists id = false := by simpa using hid
    by_cases hany : ps.any (fun parentId => !s.exists parentId) = true
    · simp only [create, hid2, hany, if_true, Outcome.state] at hc
      simp at hc
      cases hc; exact Or.inl rfl
    · have hps : ∀ p ∈ ps, s.exists p = true := by
        intro p hp
        by_contra hne
        apply hany
        rw [List.any_eq_true]
        exact ⟨p, hp, by simpa using hne⟩
      right
      have he := create_eq h id ps hid2 hps
      rw [he] at hc
      have hnew : (createdState s id ps).heap s.next =
          some { publication := ⟨id⟩
                 parents := insertAll (ps.filterMap s.publicationNodes) []
                 children := []
                 myMapIterator := some id } := by
        simp [createdState]
      have := (createdState_inv h id ps hid2).release_state hnew hc
      exact ⟨hid2, hps, he.trans this, this⟩

/-- How a call of `add_citation` can leave a state. -/
theorem add_citation_cases {s t : CitationGraph ι} (h : Inv s) {c p : ι}
    (hc : (add_citation s c p).state = some t) :
    t = s ∨ ∃ ca pa, s.publicationNodes c = some ca ∧ s.publicationNodes p = some pa ∧
      add_citation s c p = .ok t ∧ t = citedState s ca pa := by
  by_cases he : s.exists c = true ∧ s.exists p = true
  · obtain ⟨ca, hca⟩ := (h.exists_iff_entry c).1 he.1
    obtain ⟨pa, hpa⟩ := (h.exists_iff_entry p).1 he.2
    have heq := add_citation_eq h hca hpa
    rw [heq] at hc
    simp only [Outcome.state, Option.some.injEq] at hc
    subst hc
    exact Or.inr ⟨ca, pa, hca, hpa, heq, rfl⟩
  · have : (!s.exists c || !s.exists p) = true := by
      rcases not_and_or.1 he with e | e <;> simp [e]
    simp only [add_citation, this, if_true, Outcome.state, Option.some.injEq] at hc
    exact Or.inl hc.symm

/-- How a call of `remove` can leave a state. -/
theorem remove_cases {s t : CitationGraph ι} (h : Inv s) {id : ι}
    (hc : (remove s id).state = some t) : t = s ∨ remove s id = .ok t := by
  by_cases he : s.exists id = true
  · obtain ⟨a, ha⟩ := (h.exists_iff_entry id).1 he
    obtain ⟨n, hn, _⟩ := h.entry id a ha
    by_cases hroot : get_root_id s = some id
    · simp only [remove, he, hroot, Outcome.state] at hc
      simp at hc
      exact Or.inl hc.symm
    · right
      have heq := remove_eq h ha hn hroot
      rw [heq] at hc ⊢
      split at hc
      · rename_i hall
        simp only [hall, if_true]
        obtain ⟨m, hm⟩ : ∃ m, (unlinkAll s a n.parents).heap a = some m := by
          simp only [unlinkAll_heap, hn]
          split
          · exact ⟨_, rfl⟩
          · exact ⟨_, rfl⟩
        exact (unlinkAll_inv h a n.parents).release_state hm hc
      · simp [Outcome.state] at hc
  · have he2 : s.exists id = false := by simpa using he
    simp only [remove, he2, Outcome.state] at hc
    simp at hc
    exact Or.inl hc.symm

/-- The frame of a call: the root pointer stays; a node that is on the heap before
and after keeps its publication, and keeps its parent set unless the call is an
`add_citation` with the id of the node as child. -/
theorem run_frame {s t : CitationGraph ι} (hs : Reachable s) (c : Call ι)
    (hc : (c.run s).state = some t) :
    t.root = s.root ∧ ∀ b m k, t.heap b = some m → s.heap b = some k →
      m.publication = k.publication ∧
        ((∀ p, c ≠ .add_citation k.publication.get_id p) → m.parents = k.parents) := by
  have h := hs.inv
  have hsame : t = s → t.root = s.root ∧ ∀ b m k, t.heap b = some m → s.heap b = some k →
      m.publication = k.publication ∧
        ((∀ p, c ≠ .add_citation k.publication.get_id p) → m.parents = k.parents) := by
    intro e
    subst e
    refine ⟨rfl, ?_⟩
    intro b m k hm hk
    rw [hm] at hk; cases hk
    exact ⟨rfl, fun _ => rfl⟩
  cases c with
  | create id ps =>
    rcases create_cases h hc with e | ⟨hid, _, _, hr⟩
    · exact hsame e
    · have hnew : (createdState s id ps).heap s.next =
          some { publication := ⟨id⟩
                 parents := insertAll (ps.filterMap s.publicationNodes) []
                 children := []
                 myMapIterator := some id } := by
        simp [createdState]
      obtain ⟨f1, _, _, f4⟩ := release_frame (createdState_inv h id ps hid) hnew hr
      refine ⟨f1, ?_⟩
      intro b m k hm hk
      rcases f4 b with e | e
      · rw [e] at hm; cases hm
      · rw [e] at hm
        obtain ⟨m2, hm2, e1, e2, _⟩ := createdState_old h id ps b k hk
        rw [hm] at hm2; cases hm2
        exact ⟨e2, fun _ => e1⟩
  | add_citation cid pid =>
    rcases add_citation_cases h hc with e | ⟨ca, pa, hca, _, _, e⟩
    · exact hsame e
    · subst e
      refine ⟨rfl, ?_⟩
      intro b m k hm hk
      rw [citedState_heap, hk] at hm
      simp only [Option.map_some', Option.some.injEq] at hm
      subst hm
      refine ⟨rfl, ?_⟩
      intro hne
      simp only
      split
      · rename_i hb
        exfalso
        obtain ⟨k2, hk2, hid⟩ := h.entry cid ca hca
        rw [← hb, hk] at hk2; cases hk2
        exact hne pid (by rw [hid])
      · rfl
  | remove id =>
    rcases remove_cases h hc with e | hr
    · exact hsame e
    · obtain ⟨a, n, _, _, _, f1, _, _, _, hpres⟩ := remove_frame h hs.sym hr
      refine ⟨f1, ?_⟩
      intro b m k hm hk
      obtain ⟨k2, hk2, e1, e2, _⟩ := hpres b m hm
      rw [hk] at hk2; cases hk2
      exact ⟨e1, fun _ => e2⟩

/-- Over any list of calls the root node keeps its publication, and keeps its
parent set when none of the calls is an `add_citation` with the root id as
child. -/
theorem runCalls_root : ∀ (cs : List (Call ι)) {s t : CitationGraph ι} {n : Node ι},
    Reachable s → runCalls cs s = some t → s.heap s.root = some n →
    ∃ m, t.heap t.root = some m ∧ m.publication = n.publication ∧
      ((∀ c ∈ cs, ∀ p, c ≠ .add_citation n.publication.get_id p) → m.parents = n.parents) := by
  intro cs
  induction cs with
  | nil =>
    intro s t n _ hc hn
    simp only [runCalls, Option.some.injEq] at hc
    subst hc
    exact ⟨n, hn, rfl, fun _ => rfl⟩
  | cons c cs ih =>
    intro s t n hs hc hn
    simp only [runCalls] at hc
    cases hu : (c.run s).state with
    | none => simp [hu] at hc
    | some u =>
      simp only [hu] at hc
      have hRu := hs.run c hu
      obtain ⟨f1, f2⟩ := run_frame hs c hu
      obtain ⟨k, hk⟩ := hRu.inv.rootLive
      have hk2 : u.heap s.root = some k := f1 ▸ hk
      obtain ⟨e1, e2⟩ := f2 s.root k n hk2 hn
      obtain ⟨m, hm, e3, e4⟩ := ih hRu hc hk
      refine ⟨m, hm, e3.trans e1, ?_⟩
      intro hno
      rw [e4 (fun c2 hc2 p => by
        rw [e1]
        exact hno c2 (List.mem_cons_of_mem _ hc2) p),
        e2 (fun p => hno c (List.mem_cons_self _ _) p)]

/-- An owning edge between two nodes is an owning edge between their ids. -/
theorem Inv.edge_childOf {s : CitationGraph ι} (h : Inv s) {x y : Nat} {nx : Node ι}
    (hx : s.heap x = some nx) (he : Edge s x y) :
    ∃ ny, s.heap y = some ny ∧ ChildOf s nx.publication.get_id ny.publication.get_id := by
  obtain ⟨n, hn, hy⟩ := he
  rw [hx] at hn; cases hn
  obtain ⟨ny, hny⟩ := h.childLive x nx y hx hy
  exact ⟨ny, hny, (h.childOf_iff _ _).2 ⟨x, nx, y, ny, h.registered x nx hx, hx, hy, hny, rfl⟩⟩

/-- A path of owning edges between nodes is a path between their ids. -/
theorem Inv.path_childOf {s : CitationGraph ι} (h : Inv s) {x y : Nat}
    (hp : Relation.TransGen (Edge s) x y) :
    ∀ nx, s.heap x = some nx → ∃ ny, s.heap y = some ny ∧
      Relation.TransGen (ChildOf s) nx.publication.get_id ny.publication.get_id := by
  induction hp with
  | single he =>
    intro nx hx
    obtain ⟨ny, hny, hc⟩ := h.edge_childOf hx he
    exact ⟨ny, hny, Relation.TransGen.single hc⟩
  | tail _ he ih =>
    intro nx hx
    obtain ⟨nm, hnm, hc⟩ := ih nx hx
    obtain ⟨ny, hny, hc2⟩ := h.edge_childOf hnm he
    exact ⟨ny, hny, Relation.TransGen.tail hc hc2⟩

/-- When no id is reachable from itself along owning edges, every node on the
heap is reachable from the root node: following owners upwards cannot go on for
ever in a finite heap. -/
theorem reach_of_acyclic {s : CitationGraph ι} (h : Inv s) (hs : Sym s [])
    (hac : ∀ x, ¬ Relation.TransGen (ChildOf s) x x) :
    ∀ y n, s.heap y = some n → Relation.ReflTransGen (Edge s) s.root y := by
  let r : Fin s.next → Fin s.next → Prop := fun a b => Relation.TransGen (Edge s) a.val b.val
  have htrans : IsTrans (Fin s.next) r := ⟨fun a b c hab hbc => Relation.TransGen.trans hab hbc⟩
  have hirr : IsIrrefl (Fin s.next) r := by
    refine ⟨fun a haa => ?_⟩
    have hlive : ∃ n, s.heap a.val = some n := by
      rcases Relation.TransGen.head'_iff.1 haa with ⟨c, ⟨n, hn, _⟩, _⟩
      exact ⟨n, hn⟩
    obtain ⟨n, hn⟩ := hlive
    obtain ⟨n2, hn2, hc⟩ := h.path_childOf haa n hn
    rw [hn] at hn2; cases hn2
    exact hac _ hc
  have hwf : WellFounded r := Finite.wellFounded_of_trans_of_irrefl r
  have key : ∀ y : Fin s.next, ∀ n, s.heap y.val = some n →
      Relation.ReflTransGen (Edge s) s.root y.val := by
    intro y
    induction y using hwf.induction with
    | _ y ih =>
      intro n hn
      by_cases hr : y.val = s.root
      · rw [hr]
      · obtain ⟨p, np, hnp, hyp⟩ := hs.owner y.val n hn (List.not_mem_nil _) hr
        have hedge : Edge s p y.val := ⟨np, hnp, hyp⟩
        have hp := ih ⟨p, h.bound p np hnp⟩ (Relation.TransGen.single hedge) np hnp
        exact Relation.ReflTransGen.tail hp hedge
  intro y n hn
  exact key ⟨y, h.bound y n hn⟩ n hn

/-- A path of owning edges from a node on the heap, read on ids. -/
theorem Inv.reach_childOf {s : CitationGraph ι} (h : Inv s) {x y : Nat} {nx : Node ι}
    (hx : s.heap x = some nx) (hp : Relation.ReflTransGen (Edge s) x y) :
    ∃ ny, s.heap y = some ny ∧
      Relation.ReflTransGen (ChildOf s) nx.publication.get_id ny.publication.get_id := by
  induction hp with
  | refl => exact ⟨nx, hx, Relation.ReflTransGen.refl⟩
  | tail _ he ih =>
    obtain ⟨nm, hnm, hc⟩ := ih
    obtain ⟨ny, hny, hc2⟩ := h.edge_childOf hnm he
    exact ⟨ny, hny, Relation.ReflTransGen.tail hc hc2⟩

/-- Every id reachable along owning edges from an existing id exists. -/
theorem Inv.reach_exists {s : CitationGraph ι} (h : Inv s) {a b : ι} (ha : s.exists a = true)
    (hp : Relation.ReflTransGen (ChildOf s) a b) : s.exists b = true := by
  induction hp with
  | refl => exact ha
  | tail _ he _ => exact h.childOf_exists he

/-- When the last `shared_ptr` to a node whose `myMapIterator` was never set goes
away, the destructor erases through that iterator. -/
theorem release_unregistered (t : CitationGraph ι) (a : Nat) (n : Node ι)
    (hn : t.heap a = some n) (hit : n.myMapIterator = none) (hown : owned t a = false) :
    release t a = .undefined := by
  unfold release dtorBody
  simp [hown, hn, hit]

/-- In every reachable state, for a new id and existing parents, a call of
`create` in which `addChild` throws for some parent of the list has undefined
behaviour: the handler takes the new node out of the `children` sets again, nothing
owns the node when the local `newNode` goes out of scope, and its destructor erases
through `myMapIterator`, which is set only after the last `addChild`. -/
theorem create_link_failure_undefined (s : CitationGraph ι) (id : ι) (ps : List ι) (k : Nat)
    (hs : Reachable s) (hid : s.exists id = false) (hps : ∀ p ∈ ps, s.exists p = true)
    (hk : k < ps.length) : create_failing s id ps k = .undefined := by
  have h := hs.inv
  have hany : ps.any (fun parentId => !s.exists parentId) = false := by
    rw [List.any_eq_false]
    intro p hp
    simp [hps p hp]
  have hmap : ∀ pid ∈ ps, ∃ p m, s.publicationNodes pid = some p ∧ s.heap p = some m := by
    intro pid hpid
    obtain ⟨a, n, h1, h2⟩ := (CitationGraph.exists_iff s pid).1 (hps pid hpid)
    exact ⟨a, n, h1, h2⟩
  have htake : ∀ j, ∀ b ∈ (ps.take j).filterMap s.publicationNodes,
      ∃ n, s.heap b = some n ∧ b ≠ s.next := by
    intro j b hb
    obtain ⟨pid, hpid, hp⟩ := List.mem_filterMap.1 hb
    obtain ⟨n, hn, _⟩ := h.entry pid b hp
    exact ⟨n, hn, ne_of_lt (h.bound b n hn)⟩
  have hsub : ∀ b ∈ (ps.take k).filterMap s.publicationNodes,
      b ∈ (ps.take (k + 1)).filterMap s.publicationNodes := by
    intro b hb
    obtain ⟨pid, hpid, hp⟩ := List.mem_filterMap.1 hb
    exact List.mem_filterMap.2
      ⟨pid, (List.take_subset_take_left ps (Nat.le_succ k)) hpid, hp⟩
  have key : ∀ s3 : CitationGraph ι,
      (∀ b, s3.heap b =
        if b = s.next then
          some { publication := ⟨id⟩
                 parents := insertAll (ps.filterMap s.publicationNodes) []
                 children := []
                 myMapIterator := none }
        else if b ∈ (ps.take k).filterMap s.publicationNodes then
          (s.heap b).map (fun n => n.addChild s.next)
        else s.heap b) →
      s3.next = s.next + 1 → s3.root = s.root →
      (match
          (if (insertAll ((ps.take (k + 1)).filterMap s.publicationNodes) []).all
              (fun p => (s3.heap p).isSome) = true
            then some (unlinkAll s3 s.next
              (insertAll ((ps.take (k + 1)).filterMap s.publicationNodes) []))
            else none) with
        | none => Outcome.undefined
        | some s4 =>
          match release s4 s.next with
          | .ok s5 => .threw .std_exception s5
          | o => o) = Outcome.undefined := by
    intro s3 hheap hnext hroot
    have hall : (insertAll ((ps.take (k + 1)).filterMap s.publicationNodes) []).all
        (fun p => (s3.heap p).isSome) = true := by
      rw [List.all_eq_true]
      intro p hp
      rw [mem_insertAll] at hp
      rcases hp with hp | hp
      · obtain ⟨n, hn, hne⟩ := htake (k + 1) p hp
        rw [hheap]
        simp only [hne, if_false]
        split <;> simp [hn]
      · simp at hp
    rw [if_pos hall]
    simp only
    rw [release_unregistered _ s.next
      { publication := ⟨id⟩
        parents := insertAll (ps.filterMap s.publicationNodes) []
        children := []
        myMapIterator := none }]
    · rw [unlinkAll_heap, hheap]
      have hnot : s.next ∉ insertAll ((ps.take (k + 1)).filterMap s.publicationNodes) [] := by
        intro hmem
        rw [mem_insertAll] at hmem
        rcases hmem with hmem | hmem
        · obtain ⟨_, _, hne⟩ := htake (k + 1) s.next hmem
          exact hne rfl
        · simp at hmem
      simp [hnot]
    · rfl
    · cases ho : owned (unlinkAll s3 s.next
          (insertAll ((ps.take (k + 1)).filterMap s.publicationNodes) [])) s.next with
      | false => rfl
      | true =>
        exfalso
        rcases (owned_iff _ _).1 ho with hr | ⟨p, n, _, hn, hc⟩
        · obtain ⟨m, hm⟩ := h.rootLive
          have : s.root < s.next := h.bound _ m hm
          have e : s.root = s.next := by rw [← hroot]; exact hr
          omega
        · rw [unlinkAll_heap, hheap] at hn
          by_cases hp : p = s.next
          · subst hp
            simp only [if_true] at hn
            split at hn
            · simp only [Option.map_some', Option.some.injEq] at hn
              subst hn
              simp [Node.removeChild, setErase] at hc
            · simp only [Option.some.injEq] at hn
              subst hn
              simp at hc
          · simp only [hp, if_false] at hn
            have hold : ∀ m, s.heap p = some m → s.next ∉ m.children := by
              intro m hm hmem
              obtain ⟨c, hc2⟩ := h.childLive p m s.next hm hmem
              exact absurd (h.bound _ c hc2) (lt_irrefl _)
            by_cases hpk : p ∈ (ps.take k).filterMap s.publicationNodes
            · have hpa : p ∈ insertAll ((ps.take (k + 1)).filterMap s.publicationNodes) [] :=
                (mem_insertAll _ _ _).2 (Or.inl (hsub p hpk))
              simp only [hpa, hpk, if_true] at hn
              cases hm : s.heap p with
              | none => simp [hm] at hn
              | some m =>
                simp only [hm, Option.map_some', Option.some.injEq] at hn
                subst hn
                simp only [Node.removeChild, Node.addChild] at hc
                rw [mem_setErase] at hc
                exact hc.2 rfl
            · simp only [hpk, if_false] at hn
              split at hn
              · cases hm : s.heap p with
                | none => simp [hm] at hn
                | some m =>
                  simp only [hm, Option.map_some', Option.some.injEq] at hn
                  subst hn
                  simp only [Node.removeChild] at hc
                  rw [mem_setErase] at hc
                  exact hc.2 rfl
              · exact hold n hn hc
  unfold create_failing
  simp only [hk, if_true, hid, hany, Bool.false_eq_true, if_false]
  rw [addParents_eq]
  · simp only
    rw [addChildren_eq]
    · simp only [modifyNode_map, setNode]
      rw [removeFromParents_eq]
      refine key _ ?_ rfl rfl
      intro b
      simp only [linkAll_heap, modifyNode_heap]
      by_cases hb : b = s.next
      · subst hb
        have : s.next ∉ (ps.take k).filterMap s.publicationNodes := by
          intro hmem
          obtain ⟨_, _, hne⟩ := htake k s.next hmem
          exact hne rfl
        simp [this]
      · simp [hb]
    · intro pid hpid
      obtain ⟨p, m, h1, h2⟩ := hmap pid (List.mem_of_mem_take hpid)
      have hne : p ≠ s.next := ne_of_lt (h.bound p m h2)
      exact ⟨p, m, h1, by simp [hne, h2]⟩
  · intro pid hpid
    obtain ⟨p, m, h1, _⟩ := hmap pid hpid
    exact ⟨p, h1⟩

/-- The set built by `insertAll` does not depend on the order of the insertions. -/
theorem insertAll_perm {l1 l2 : List Nat} (h : l1.Perm l2) :
    insertAll l1 [] = insertAll l2 [] := by
  refine List.eq_of_perm_of_sorted ?_ (sorted_insertAll l1 [] List.sorted_nil)
    (sorted_insertAll l2 [] List.sorted_nil)
  refine (List.perm_ext_iff_of_nodup
    (sorted_nodup (sorted_insertAll l1 [] List.sorted_nil))
    (sorted_nodup (sorted_insertAll l2 [] List.sorted_nil))).2 ?_
  intro x
  simp only [mem_insertAll, h.mem_iff]

/-- The state built by `create` does not depend on the order of the parent list. -/
theorem createdState_perm (s : CitationGraph ι) (id : ι) {ps1 ps2 : List ι}
    (h : ps1.Perm ps2) : createdState s id ps1 = createdState s id ps2 := by
  have hf := h.filterMap s.publicationNodes
  refine ext_state ?_ rfl rfl rfl
  funext b
  simp only [createdState, insertAll_perm hf, hf.mem_iff]

/-- Every node a cascade of destructors takes off the heap is reached along owning
edges from a node whose destructor was running at the start. -/
theorem cascade_reach (fuel : Nat) : ∀ (stack : List Nat) (s t : CitationGraph ι),
    cascade fuel stack s = .ok t →
    ∀ b m, s.heap b = some m → t.heap b = none →
      ∃ x ∈ stack, Relation.ReflTransGen (Edge s) x b := by
  induction fuel with
  | zero =>
    intro stack s t hc b m hb hgone
    cases stack with
    | nil =>
      simp only [cascade] at hc; cases hc
      rw [hb] at hgone; cases hgone
    | cons a stack => simp [cascade] at hc
  | succ fuel ih =>
    intro stack s t hc b m hb hgone
    cases stack with
    | nil =>
      simp only [cascade] at hc; cases hc
      rw [hb] at hgone; cases hgone
    | cons a stack =>
      simp only [cascade] at hc
      cases hn : s.heap a with
      | none => simp [hn] at hc
      | some n =>
        simp only [hn] at hc
        cases hch : n.children with
        | nil =>
          simp only [hch] at hc
          by_cases hba : b = a
          · exact ⟨a, List.mem_cons_self _ _, hba ▸ Relation.ReflTransGen.refl⟩
          · have hb2 : (freeNode s a).heap b = some m := by simp [hba, hb]
            obtain ⟨x, hx, hp⟩ := ih stack _ t hc b m hb2 hgone
            refine ⟨x, List.mem_cons_of_mem _ hx, Relation.ReflTransGen.mono ?_ hp⟩
            rintro p c ⟨k, hk, hck⟩
            simp only [freeNode_heap] at hk
            split at hk
            · cases hk
            · exact ⟨k, hk, hck⟩
        | cons c cs =>
          simp only [hch] at hc
          have hsub : ∀ p q, Edge (setNode s a { n with children := cs }) p q → Edge s p q := by
            rintro p q ⟨k, hk, hck⟩
            simp only [setNode_heap] at hk
            split at hk
            · cases hk
              subst_vars
              exact ⟨n, hn, by rw [hch]; exact List.mem_cons_of_mem _ hck⟩
            · exact ⟨k, hk, hck⟩
          have hlive : ∃ m2, (setNode s a { n with children := cs }).heap b = some m2 := by
            simp only [setNode_heap]
            split
            · exact ⟨_, rfl⟩
            · exact ⟨m, hb⟩
          obtain ⟨m2, hm2⟩ := hlive
          split at hc
          · obtain ⟨x, hx, hp⟩ := ih (a :: stack) _ t hc b m2 hm2 hgone
            exact ⟨x, hx, Relation.ReflTransGen.mono hsub hp⟩
          · cases hd : dtorBody (setNode s a { n with children := cs }) c with
            | none => simp [hd] at hc
            | some s2 =>
              simp only [hd] at hc
              obtain ⟨_, k, _, _, e⟩ := dtorBody_some hd
              subst e
              obtain ⟨x, hx, hp⟩ := ih (c :: a :: stack) _ t hc b m2
                (by simpa using hm2) hgone
              have hp2 : Relation.ReflTransGen (Edge s) x b := by
                refine Relation.ReflTransGen.mono ?_ hp
                rintro p q ⟨k2, hk2, hck⟩
                exact hsub p q ⟨k2, by simpa using hk2, hck⟩
              rcases List.mem_cons.1 hx with e | hx2
              · subst e
                exact ⟨a, List.mem_cons_self _ _, Relation.ReflTransGen.head
                  ⟨n, hn, by rw [hch]; exact List.mem_cons_self _ _⟩ hp2⟩
              · exact ⟨x, hx2, hp2⟩

/-- Taking the entries of one address out of a set of live addresses takes one id
out of the list of their ids. -/
theorem filterMap_ids_filter (s : CitationGraph ι) (h : Inv s) {a : Nat} {n : Node ι}
    (hn : s.heap a = some n) : ∀ (l : List Nat), (∀ c ∈ l, ∃ m, s.heap c = some m) →
    (l.filter (fun y => y != a)).filterMap
        (fun c => (s.heap c).map (fun m => m.publication.get_id)) =
      (l.filterMap (fun c => (s.heap c).map (fun m => m.publication.get_id))).filter
        (fun x => x != n.publication.get_id) := by
  intro l
  induction l with
  | nil => intro _; rfl
  | cons c cs ih =>
    intro hl
    obtain ⟨m, hm⟩ := hl c (List.mem_cons_self _ _)
    have ih2 := ih (fun x hx => hl x (List.mem_cons_of_mem _ hx))
    by_cases hca : c = a
    · subst hca
      rw [hn] at hm; cases hm
      simp [hn, ih2]
    · have hne : m.publication.get_id ≠ n.publication.get_id :=
        fun e => hca (h.addr_inj hm hn e)
      simp [hca, hm, hne, ih2]

/-- What `create` with an empty parent list does to a state: the node is allocated
and registered, nothing owns it when the local `newNode` goes out of scope, so its
destructor takes it out of the map again.  Only the next free address moves on. -/
theorem create_nil_eq (s : CitationGraph ι) (id : ι) (hs : Reachable s)
    (hid : s.exists id = false) :
    create s id [] = .ok { s with next := s.next + 1 } := by
  have h := hs.inv
  have hu := createdState_inv h id [] hid
  have hnew : (createdState s id []).heap s.next =
      some { publication := ⟨id⟩, parents := [], children := [], myMapIterator := some id } := by
    simp [createdState, insertAll]
  have hold : ∀ b, b ≠ s.next → (createdState s id []).heap b = s.heap b := by
    intro b hb
    simp [createdState, hb]
  have hfree : s.heap s.next = none := by
    cases hsn : s.heap s.next with
    | none => rfl
    | some n => exact absurd (h.bound _ n hsn) (lt_irrefl _)
  have hown : owned (createdState s id []) s.next = false := by
    cases ho : owned (createdState s id []) s.next with
    | false => rfl
    | true =>
      exfalso
      rcases (owned_iff _ _).1 ho with hr | ⟨p, n, _, hp, hc⟩
      · obtain ⟨nr, hnr⟩ := h.rootLive
        have : (createdState s id []).root = s.root := rfl
        rw [this] at hr
        rw [hr, hfree] at hnr
        cases hnr
      · by_cases hpn : p = s.next
        · subst hpn
          rw [hnew] at hp
          cases hp
          simp at hc
        · rw [hold p hpn] at hp
          obtain ⟨m, hm⟩ := h.childLive p n s.next hp hc
          rw [hfree] at hm
          cases hm
  rw [create_eq h id [] hid (by simp), hu.release_eq hnew]
  simp only [hown, Bool.false_eq_true, if_false]
  have hstep : ∀ fuel, cascade (fuel + 1) [s.next] (eraseEntry (createdState s id []) id) =
      .ok (freeNode (eraseEntry (createdState s id []) id) s.next) := by
    intro fuel
    have hheap : (eraseEntry (createdState s id []) id).heap s.next =
        some { publication := ⟨id⟩, parents := [], children := [],
               myMapIterator := some id } := hnew
    simp only [cascade, hheap]
  rw [hstep]
  congr 1
  apply ext_state
  · funext b
    by_cases hb : b = s.next
    · subst hb
      simp [freeNode, hfree]
    · simp only [freeNode, hb, if_false]
      exact hold b hb
  · rfl
  · funext i
    by_cases hi : i = id
    · subst hi
      simp [freeNode, eraseEntry, h.not_exists hid]
    · simp [freeNode, eraseEntry, createdState, hi]
  · rfl

/-- An address above all elements of a set is inserted at its end. -/
theorem setInsert_last (x : Nat) : ∀ (l : List Nat), (∀ y ∈ l, y < x) → setInsert x l = l ++ [x]
  | [], _ => rfl
  | y :: ys, h => by
    have hy : y < x := h y (List.mem_cons_self _ _)
    have h1 : ¬ x < y := by omega
    have h2 : ¬ x = y := by omega
    simp only [setInsert, h1, h2, if_false, List.cons_append]
    rw [setInsert_last x ys (fun z hz => h z (List.mem_cons_of_mem _ hz))]

/-- The nodes `create` finds on the heap keep their ids. -/
theorem createdState_idAt (s : CitationGraph ι) (id : ι) (ps : List ι) (b : Nat)
    (hb : b ≠ s.next) :
    ((createdState s id ps).heap b).map (fun m => m.publication.get_id) =
      (s.heap b).map (fun m => m.publication.get_id) := by
  simp only [createdState, hb, if_false]
  split
  · cases s.heap b <;> rfl
  · rfl

/-- The ids of a list of addresses `create` found on the heap are as before. -/
theorem createdState_ids (s : CitationGraph ι) (id : ι) (ps : List ι) (l : List Nat)
    (hl : ∀ c ∈ l, c < s.next) :
    l.filterMap (fun c => ((createdState s id ps).heap c).map (fun m => m.publication.get_id)) =
      l.filterMap (fun c => (s.heap c).map (fun m => m.publication.get_id)) := by
  induction l with
  | nil => rfl
  | cons c cs ih =>
    have hc : c ≠ s.next := ne_of_lt (hl c (List.mem_cons_self _ _))
    simp only [List.filterMap_cons, createdState_idAt s id ps c hc]
    rw [ih (fun z hz => hl z (List.mem_cons_of_mem _ hz))]

/-- A query on an id that does not exist throws. -/
theorem get_children_of_not_exists (s : CitationGraph ι) (x : ι) (h : s.exists x = false) :
    get_children s x = .threw .PublicationNotFound := by
  unfold CitationGraph.exists at h
  cases hf : find s x with
  | none => simp only [get_children, hf]
  | some a => rw [hf] at h; cases h

theorem get_parents_of_not_exists (s : CitationGraph ι) (x : ι) (h : s.exists x = false) :
    get_parents s x = .threw .PublicationNotFound := by
  unfold CitationGraph.exists at h
  cases hf : find s x with
  | none => simp only [get_parents, hf]
  | some a => rw [hf] at h; cases h

/-- A call of `create` that returns was given an id that does not exist and
parents that exist, and it returns the state it has built unless the parent list
is empty. -/
theorem create_ok_eq {s t : CitationGraph ι} (h : Inv s) {id : ι} {ps : List ι} (hne : ps ≠ [])
    (hc : create s id ps = .ok t) :
    s.exists id = false ∧ (∀ p ∈ ps, s.exists p = true) ∧ t = createdState s id ps := by
  have hid : s.exists id = false := by
    cases he : s.exists id with
    | false => rfl
    | true => simp [create, he] at hc
  have hps : ∀ p ∈ ps, s.exists p = true := by
    intro p hp
    cases he : s.exists p with
    | true => rfl
    | false =>
      have hany : ps.any (fun parentId => !s.exists parentId) = true :=
        List.any_eq_true.2 ⟨p, hp, by simp [he]⟩
      simp [create, hid, hany] at hc
  refine ⟨hid, hps, ?_⟩
  rw [create_eq h id ps hid hps] at hc
  simp only [release, createdState_owned h id hne hps, if_true, Outcome.ok.injEq] at hc
  exact hc.symm

/-- A call of `create` with an id that does not exist and a parent list that is not
empty, of ids that exist, returns the state it has built. -/
theorem create_returns {s : CitationGraph ι} (h : Inv s) (id : ι) {ps : List ι} (hne : ps ≠ [])
    (hid : s.exists id = false) (hps : ∀ p ∈ ps, s.exists p = true) :
    create s id ps = .ok (createdState s id ps) := by
  rw [create_eq h id ps hid hps]
  simp only [release, createdState_owned h id hne hps, if_true]

/-- The frame of `create` with a parent list that is not empty.  The new node has
the highest address of the heap, so it is the last child of each parent here. -/
theorem createdState_frame {s : CitationGraph ι} (h : Inv s) (id : ι) (ps : List ι)
    (hid : s.exists id = false) (hps : ∀ p ∈ ps, s.exists p = true) :
    (∀ x, (createdState s id ps).exists x = (s.exists x || decide (x = id))) ∧
    get_children (createdState s id ps) id = .ok [] ∧
    (∀ p ∈ ps, ∃ l, get_children s p = .ok l ∧
      get_children (createdState s id ps) p = .ok (l ++ [id])) ∧
    (∀ x, x ≠ id → x ∉ ps → get_children (createdState s id ps) x = get_children s x) ∧
    (∀ x, x ≠ id → get_parents (createdState s id ps) x = get_parents s x) := by
  have ht := createdState_inv h id ps hid
  have hmapid : (createdState s id ps).publicationNodes id = some s.next := by
    simp [createdState]
  have hmap : ∀ x, x ≠ id → (createdState s id ps).publicationNodes x = s.publicationNodes x := by
    intro x hx
    simp [createdState, hx]
  have hnew : (createdState s id ps).heap s.next =
      some { publication := ⟨id⟩
             parents := insertAll (ps.filterMap s.publicationNodes) []
             children := []
             myMapIterator := some id } := by
    simp [createdState]
  have hex : ∀ x, (createdState s id ps).exists x = (s.exists x || decide (x = id)) := by
    intro x
    rw [Bool.eq_iff_iff, Bool.or_eq_true, decide_eq_true_iff, ht.exists_iff_entry,
      h.exists_iff_entry]
    by_cases hx : x = id
    · subst hx
      exact ⟨fun _ => Or.inr rfl, fun _ => ⟨_, hmapid⟩⟩
    · rw [hmap x hx]
      exact ⟨fun hh => Or.inl hh, fun hh => hh.resolve_right hx⟩
  have hkids : ∀ (a : Nat) (n : Node ι), s.heap a = some n →
      n.children.filterMap
          (fun c => ((createdState s id ps).heap c).map (fun m => m.publication.get_id)) =
        n.children.filterMap (fun c => (s.heap c).map (fun m => m.publication.get_id)) := by
    intro a n hn
    apply createdState_ids
    intro c hc
    obtain ⟨m, hm⟩ := h.childLive a n c hn hc
    exact h.bound c m hm
  refine ⟨hex, ?_, ?_, ?_, ?_⟩
  · rw [ht.get_children_eq hmapid hnew]
    rfl
  · intro p hp
    obtain ⟨a, n, h1, h2⟩ := (CitationGraph.exists_iff s p).1 (hps p hp)
    have hne2 : p ≠ id := by
      intro e; rw [e, h.not_exists hid] at h1; cases h1
    have hane : a ≠ s.next := ne_of_lt (h.bound a n h2)
    have hmem : a ∈ ps.filterMap s.publicationNodes := List.mem_filterMap.2 ⟨p, hp, h1⟩
    have hnode : (createdState s id ps).heap a = some (n.addChild s.next) := by
      simp only [createdState, hane, if_false, hmem, if_true, h2, Option.map_some']
    have hlast : (n.addChild s.next).children = n.children ++ [s.next] := by
      simp only [Node.addChild]
      apply setInsert_last
      intro c hc
      obtain ⟨m, hm⟩ := h.childLive a n c h2 hc
      exact h.bound c m hm
    refine ⟨_, h.get_children_eq h1 h2, ?_⟩
    rw [ht.get_children_eq (by rw [hmap p hne2]; exact h1) hnode, hlast, List.filterMap_append,
      hkids a n h2]
    simp [hnew]
  · intro x hx hxps
    cases hxe : s.exists x with
    | false =>
      rw [get_children_of_not_exists s x hxe, get_children_of_not_exists]
      rw [hex x, hxe]
      simp [hx]
    | true =>
      obtain ⟨a, n, h1, h2⟩ := (CitationGraph.exists_iff s x).1 hxe
      have hane : a ≠ s.next := ne_of_lt (h.bound a n h2)
      have hmem : a ∉ ps.filterMap s.publicationNodes := by
        intro hm
        obtain ⟨pid, hpid, hpa⟩ := List.mem_filterMap.1 hm
        obtain ⟨n1, hn1, e1⟩ := h.entry pid a hpa
        obtain ⟨n2, hn2, e2⟩ := h.entry x a h1
        rw [hn1] at hn2; cases hn2
        rw [e1] at e2
        exact hxps (e2 ▸ hpid)
      have hnode : (createdState s id ps).heap a = some n := by
        simp only [createdState, hane, if_false, hmem, h2]
      rw [ht.get_children_eq (by rw [hmap x hx]; exact h1) hnode, h.get_children_eq h1 h2,
        hkids a n h2]
  · intro x hx
    cases hxe : s.exists x with
    | false =>
      rw [get_parents_of_not_exists s x hxe, get_parents_of_not_exists]
      rw [hex x, hxe]
      simp [hx]
    | true =>
      obtain ⟨a, n, h1, h2⟩ := (CitationGraph.exists_iff s x).1 hxe
      obtain ⟨m, hm, hpar, _, _⟩ := createdState_old h id ps a n h2
      rw [ht.get_parents_eq (by rw [hmap x hx]; exact h1) hm, h.get_parents_eq h1 h2, hpar]
      congr 1
      apply createdState_ids
      intro c hc
      exact h.parentBound a n c h2 hc

/-- The owning edges after a call of `remove` that returns are owning edges of the
state before. -/
theorem remove_childOf {s t : CitationGraph ι} {x : ι} (hs : Reachable s)
    (hr : remove s x = .ok t) : ∀ a b, ChildOf t a b → ChildOf s a b := by
  intro a b hab
  have hI := hs.inv
  have hIt : Inv t := (Reachable.remove x hs (by rw [hr]; rfl)).inv
  obtain ⟨_, _, _, _, _, _, _, _, _, hpres⟩ := remove_frame hI hs.sym hr
  obtain ⟨pa, n, cb, m, hpa, hn, hcb, hm, hmb⟩ := (hIt.childOf_iff a b).1 hab
  obtain ⟨k, hk, hkp, _, hkc⟩ := hpres pa n hn
  obtain ⟨k2, hk2, hkp2, _, _⟩ := hpres cb m hm
  obtain ⟨n2, hn2, hna⟩ := hIt.entry a pa hpa
  rw [hn] at hn2; cases hn2
  refine (hI.childOf_iff a b).2 ⟨pa, k, cb, k2, ?_, hk, ((hkc cb).1 hcb).1, hk2, ?_⟩
  · have := hI.registered pa k hk
    rwa [← hkp, hna] at this
  · rw [← hkp2]; exact hmb

/-- A call of `remove` that returns leaves the root id as it was. -/
theorem remove_root_id {s t : CitationGraph ι} {x : ι} (hs : Reachable s)
    (hr : remove s x = .ok t) : get_root_id t = get_root_id s := by
  have hIt : Inv t := (Reachable.remove x hs (by rw [hr]; rfl)).inv
  obtain ⟨_, _, _, _, _, hroot, _, _, _, hpres⟩ := remove_frame hs.inv hs.sym hr
  obtain ⟨m, hm⟩ := hIt.rootLive
  obtain ⟨k, hk, hkp, _, _⟩ := hpres t.root m hm
  rw [hroot] at hk hm
  simp only [get_root_id, hm, hk, hroot, Option.map_some', hkp]

/-- A relation without a cycle stays so when edges into a point without outgoing
edges are added. -/
theorem acyclic_of_sink {α : Type} {R S : α → α → Prop} (z : α) (hz : ∀ b, ¬ R z b)
    (hRS : ∀ a b, R a b → b = z ∨ S a b) (hS : ∀ x, ¬ Relation.TransGen S x x) :
    ∀ x, ¬ Relation.TransGen R x x := by
  have key : ∀ x y, Relation.TransGen R x y → y = z ∨ Relation.TransGen S x y := by
    intro x y hxy
    induction hxy with
    | single h =>
      rcases hRS _ _ h with e | h2
      · exact Or.inl e
      · exact Or.inr (Relation.TransGen.single h2)
    | tail _ h ih =>
      rcases hRS _ _ h with e | h2
      · exact Or.inl e
      · rcases ih with e | ih2
        · subst e
          exact absurd h (hz _)
        · exact Or.inr (Relation.TransGen.tail ih2 h2)
  intro x hx
  rcases key x x hx with e | h2
  · subst e
    rcases Relation.TransGen.head'_iff.1 hx with ⟨c, hc, _⟩
    exact hz c hc
  · exact hS x h2

/-- A call of `create` or `remove` on a reachable state without a cycle of owning
edges leaves a state without such a cycle, whether it returns or throws. -/
theorem run_acyclic {s t : CitationGraph ι} (c : Call ι) (hs : Reachable s)
    (hc : c.isAddCitation = false) (hrun : (c.run s).state = some t)
    (hac : ∀ x, ¬ Relation.TransGen (ChildOf s) x x) :
    ∀ x, ¬ Relation.TransGen (ChildOf t) x x := by
  cases c with
  | add_citation a b => cases hc
  | remove id =>
    rcases remove_cases hs.inv hrun with e | hr
    · rw [e]; exact hac
    · intro x hx
      exact hac x (Relation.TransGen.mono (remove_childOf hs hr) hx)
  | create id ps =>
    rcases create_cases hs.inv hrun with e | ⟨hid, hps, hok, _⟩
    · rw [e]; exact hac
    · by_cases hne : ps = []
      · subst hne
        rw [create_nil_eq s id hs hid] at hok
        cases hok
        have hi : ∀ l, idsOf { s with next := s.next + 1 } l = idsOf s l :=
          idsOf_congr (fun _ => rfl)
        have hsame : ∀ a b, ChildOf { s with next := s.next + 1 } a b → ChildOf s a b := by
          rintro a b ⟨l, hl, hb⟩
          refine ⟨l, ?_, hb⟩
          rw [← hl]
          simp only [get_children, find, hi]
        intro x hx
        exact hac x (Relation.TransGen.mono hsame hx)
      · obtain ⟨_, _, e⟩ := create_ok_eq hs.inv hne hok
        subst e
        obtain ⟨_, hnew, hpar, hother, _⟩ := createdState_frame hs.inv id ps hid hps
        refine acyclic_of_sink id ?_ ?_ hac
        · rintro b ⟨l, hl, hb⟩
          rw [hnew] at hl
          cases hl
          exact List.not_mem_nil _ hb
        · rintro a b ⟨l, hl, hb⟩
          by_cases hbid : b = id
          · exact Or.inl hbid
          · right
            by_cases ha : a = id
            · subst ha
              rw [hnew] at hl
              cases hl
              exact absurd hb (List.not_mem_nil _)
            · by_cases hap : a ∈ ps
              · obtain ⟨l0, hl0, hl1⟩ := hpar a hap
                rw [hl1] at hl
                cases hl
                refine ⟨l0, hl0, ?_⟩
                rcases List.mem_append.1 hb with h1 | h1
                · exact h1
                · exact absurd (List.mem_singleton.1 h1) hbid
              · exact ⟨l, by rw [← hother a ha hap]; exact hl, hb⟩

/-- A freshly constructed graph has no owning edge. -/
theorem new_childOf (r : ι) (a b : ι) : ¬ ChildOf (new r) a b := by
  rintro ⟨l, hl, hb⟩
  obtain ⟨c, n, hc, hn, _, e⟩ := (new_inv r).get_children_ok hl
  have hn0 : n.children = [] := by
    by_cases h0 : c = 0
    · subst h0
      simp only [new, if_true, Option.some.injEq] at hn
      rw [← hn]
    · simp [new, h0] at hn
  rw [hn0] at e
  rw [e] at hb
  exact List.not_mem_nil _ hb

/-- Calls of `create` and `remove` from a reachable state without a cycle of owning
edges lead to states without such a cycle. -/
theorem runCalls_acyclic : ∀ (cs : List (Call ι)) {s t : CitationGraph ι},
    Reachable s → (∀ c ∈ cs, c.isAddCitation = false) → runCalls cs s = some t →
    (∀ x, ¬ Relation.TransGen (ChildOf s) x x) →
    ∀ x, ¬ Relation.TransGen (ChildOf t) x x := by
  intro cs
  induction cs with
  | nil =>
    intro s t _ _ hrun hac
    simp only [CitationGraph.runCalls, Option.some.injEq] at hrun
    exact hrun ▸ hac
  | cons c cs ih =>
    intro s t hs hcs hrun hac
    simp only [CitationGraph.runCalls] at hrun
    cases hu : (c.run s).state with
    | none => simp [hu] at hrun
    | some u =>
      simp only [hu] at hrun
      exact ih (hs.run c hu) (fun c2 h2 => hcs c2 (List.mem_cons_of_mem _ h2)) hrun
        (run_acyclic c hs (hcs c (List.mem_cons_self _ _)) hu hac)

/-- In a reachable state without a cycle of owning edges, every existing id is
reachable from the root id along owning edges. -/
theorem Reachable.reach_of_exists {s : CitationGraph ι} (hs : Reachable s) {r : ι}
    (hr : get_root_id s = some r) (hac : ∀ x, ¬ Relation.TransGen (ChildOf s) x x)
    {id : ι} (he : s.exists id = true) : Relation.ReflTransGen (ChildOf s) r id := by
  have h := hs.inv
  obtain ⟨r2, hr2, _, hmap⟩ := h.root_exists
  rw [hr] at hr2
  cases hr2
  obtain ⟨a, ha⟩ := (h.exists_iff_entry id).1 he
  obtain ⟨n, hn, hid⟩ := h.entry id a ha
  obtain ⟨nr, hnr, hrid⟩ := h.entry r s.root hmap
  obtain ⟨n2, hn2, hp⟩ := h.reach_childOf hnr (reach_of_acyclic h hs.sym hac a n hn)
  rw [hn] at hn2; cases hn2
  rwa [hrid, hid] at hp

/-- The log of a cascade that returns lists every node the cascade has taken off the
heap, each once. -/
theorem cascadeLog_spec (fuel : Nat) : ∀ (stack : List Nat) (s t : CitationGraph ι),
    cascade fuel stack s = .ok t →
    (cascadeLog fuel stack s).Nodup ∧
      ∀ b, b ∈ cascadeLog fuel stack s ↔ ((s.heap b).isSome = true ∧ t.heap b = none) := by
  induction fuel with
  | zero =>
    intro stack s t hc
    cases stack with
    | nil =>
      simp only [cascade, Outcome.ok.injEq] at hc
      subst hc
      refine ⟨by simp [cascadeLog], fun b => ?_⟩
      simp only [cascadeLog, List.not_mem_nil, false_iff, not_and]
      intro h1 h2
      rw [h2] at h1
      cases h1
    | cons a stack => simp [cascade] at hc
  | succ fuel ih =>
    intro stack s t hc
    cases stack with
    | nil =>
      simp only [cascade, Outcome.ok.injEq] at hc
      subst hc
      refine ⟨by simp [cascadeLog], fun b => ?_⟩
      simp only [cascadeLog, List.not_mem_nil, false_iff, not_and]
      intro h1 h2
      rw [h2] at h1
      cases h1
    | cons a stack =>
      cases hn : s.heap a with
      | none => simp [cascade, hn] at hc
      | some n =>
        cases hch : n.children with
        | nil =>
          simp only [cascade, hn, hch] at hc
          obtain ⟨hnd, hmem⟩ := ih stack (freeNode s a) t hc
          obtain ⟨_, _, _, hdead, _⟩ := cascade_frame fuel stack (freeNode s a) t hc
          have hta : t.heap a = none := hdead a (by simp [freeNode])
          have hlog : cascadeLog (fuel + 1) (a :: stack) s =
              a :: cascadeLog fuel stack (freeNode s a) := by
            simp only [cascadeLog, hn, hch]
          rw [hlog]
          refine ⟨List.nodup_cons.2 ⟨?_, hnd⟩, fun b => ?_⟩
          · intro ha
            have := ((hmem a).1 ha).1
            simp [freeNode] at this
          · rw [List.mem_cons, hmem b]
            by_cases hb : b = a
            · subst hb
              simp [hn, hta]
            · simp [freeNode, hb]
        | cons c cs =>
          simp only [cascade, hn, hch] at hc
          have hsome : ∀ b, ((setNode s a { n with children := cs }).heap b).isSome =
              (s.heap b).isSome := by
            intro b
            by_cases hb : b = a
            · subst hb; simp [hn]
            · simp [hb]
          cases hown : owned (setNode s a { n with children := cs }) c with
          | true =>
            simp only [hown, if_true] at hc
            obtain ⟨hnd, hmem⟩ := ih (a :: stack) _ t hc
            have hlog : cascadeLog (fuel + 1) (a :: stack) s =
                cascadeLog fuel (a :: stack) (setNode s a { n with children := cs }) := by
              simp only [cascadeLog, hn, hch, hown, if_true]
            rw [hlog]
            exact ⟨hnd, fun b => by rw [hmem b, hsome b]⟩
          | false =>
            simp only [hown, Bool.false_eq_true, if_false] at hc
            cases hd : dtorBody (setNode s a { n with children := cs }) c with
            | none => simp [hd] at hc
            | some s2 =>
              simp only [hd] at hc
              obtain ⟨hnd, hmem⟩ := ih (c :: a :: stack) s2 t hc
              obtain ⟨m, k, _, _, e⟩ := dtorBody_some hd
              have hlog : cascadeLog (fuel + 1) (a :: stack) s =
                  cascadeLog fuel (c :: a :: stack) s2 := by
                simp only [cascadeLog, hn, hch, hown, Bool.false_eq_true, if_false, hd]
              rw [hlog]
              refine ⟨hnd, fun b => ?_⟩
              rw [hmem b, ← hsome b, e]
              rfl

/-- The log of `release` lists every node the call has taken off the heap, each
once. -/
theorem releaseLog_spec {s t : CitationGraph ι} {a : Nat} (hr : release s a = .ok t) :
    (releaseLog s a).Nodup ∧
      ∀ b, b ∈ releaseLog s a ↔ ((s.heap b).isSome = true ∧ t.heap b = none) := by
  unfold release at hr
  unfold releaseLog
  cases hown : owned s a with
  | true =>
    simp only [hown, if_true, Outcome.ok.injEq] at hr
    subst hr
    simp only [if_true]
    refine ⟨List.nodup_nil, fun b => ?_⟩
    simp only [List.not_mem_nil, false_iff, not_and]
    intro h1 h2
    rw [h2] at h1
    cases h1
  | false =>
    simp only [hown, Bool.false_eq_true, if_false] at hr ⊢
    cases hd : dtorBody s a with
    | none => simp [hd] at hr
    | some s1 =>
      simp only [hd] at hr ⊢
      obtain ⟨hnd, hmem⟩ := cascadeLog_spec _ _ _ _ hr
      obtain ⟨m, k, _, _, e⟩ := dtorBody_some hd
      refine ⟨hnd, fun b => ?_⟩
      rw [hmem b, e]
      rfl

/-! ## The claims about the citation graph -/

/-- C1: in every reachable state, `create` with an id that does not exist and a
non-empty list of distinct existing parents returns normally; afterwards the id
exists, `get_parents` of it returns exactly the given parents (each once, so
the list is a permutation of the given one), and `get_children` of every given parent
contains the id. -/
theorem create_links_new_node (s : CitationGraph ι) (id : ι) (ps : List ι)
    (hs : Reachable s) (hid : s.exists id = false) (hne : ps ≠ []) (hnd : ps.Nodup)
    (hps : ∀ p ∈ ps, s.exists p = true) :
    ∃ t, create s id ps = .ok t ∧ t.exists id = true ∧
      (∃ l, get_parents t id = .ok l ∧ (∀ x, x ∈ l ↔ x ∈ ps) ∧ l.Perm ps) ∧
      ∀ p ∈ ps, ∃ l, get_children t p = .ok l ∧ id ∈ l := by
  have h := hs.inv
  have ht := createdState_inv h id ps hid
  have hmapid : (createdState s id ps).publicationNodes id = some s.next := by
    simp [createdState]
  have hnew : (createdState s id ps).heap s.next =
      some { publication := ⟨id⟩
             parents := insertAll (ps.filterMap s.publicationNodes) []
             children := []
             myMapIterator := some id } := by
    simp [createdState]
  refine ⟨createdState s id ps, ?_, ?_, ?_, ?_⟩
  · rw [create_eq h id ps hid hps]
    simp only [release, createdState_owned h id hne hps, if_true]
  · exact (ht.exists_iff_entry id).2 ⟨_, hmapid⟩
  · refine ⟨_, ht.get_parents_eq hmapid hnew, ?_⟩
    have hmem : ∀ x, x ∈ (insertAll (ps.filterMap s.publicationNodes) []).filterMap
        (fun c => ((createdState s id ps).heap c).map (fun m => m.publication.get_id)) ↔
        x ∈ ps := by
      intro x
      simp only [List.mem_filterMap, mem_insertAll, List.not_mem_nil, or_false,
        Option.map_eq_some']
      constructor
      · rintro ⟨a, ⟨pid, hpid, hpa⟩, m, hm, hx⟩
        obtain ⟨m2, hm2, hx2⟩ := ht.entry pid a (by
          have hne2 : pid ≠ id := by
            intro e; rw [e, h.not_exists hid] at hpa; cases hpa
          simpa [createdState, hne2] using hpa)
        rw [hm] at hm2; cases hm2
        rw [← hx, hx2]; exact hpid
      · intro hx
        obtain ⟨a, n, h1, h2⟩ := (CitationGraph.exists_iff s x).1 (hps x hx)
        have hne2 : x ≠ id := by
          intro e; rw [e, h.not_exists hid] at h1; cases h1
        obtain ⟨m2, hm2, hx2⟩ := ht.entry x a (by simpa [createdState, hne2] using h1)
        exact ⟨a, ⟨x, hx, h1⟩, m2, hm2, hx2⟩
    have hnodup := ht.nodup_ids
      (sorted_nodup (sorted_insertAll (ps.filterMap s.publicationNodes) [] List.sorted_nil))
    exact ⟨hmem, (List.perm_ext_iff_of_nodup hnodup hnd).2 hmem⟩
  · intro p hp
    obtain ⟨a, n, h1, h2⟩ := (CitationGraph.exists_iff s p).1 (hps p hp)
    have hne2 : p ≠ id := by
      intro e; rw [e, h.not_exists hid] at h1; cases h1
    have hmapp : (createdState s id ps).publicationNodes p = some a := by
      simpa [createdState, hne2] using h1
    have hane : a ≠ s.next := ne_of_lt (h.bound a n h2)
    have hmem : a ∈ ps.filterMap s.publicationNodes := List.mem_filterMap.2 ⟨p, hp, h1⟩
    have hnode : (createdState s id ps).heap a = some (n.addChild s.next) := by
      simp only [createdState, hane, if_false, hmem, if_true, h2, Option.map_some']
    refine ⟨_, ht.get_children_eq hmapp hnode, ?_⟩
    simp only [List.mem_filterMap, Option.map_eq_some']
    exact ⟨s.next, by simp [Node.addChild, mem_setInsert], _, hnew, rfl⟩

theorem create_links_new_node_witness :
    Reachable (new (0 : Nat)) ∧ (new (0 : Nat)).exists 1 = false ∧ [0] ≠ [] ∧ [0].Nodup ∧
      (∀ p ∈ [0], (new (0 : Nat)).exists p = true) ∧
      ∃ t, create (new (0 : Nat)) 1 [0] = .ok t ∧ t.exists 1 = true ∧
        (∃ l, get_parents t 1 = .ok l ∧ (∀ x, x ∈ l ↔ x ∈ [0]) ∧ l.Perm [0]) ∧
        ∀ p ∈ [0], ∃ l, get_children t p = .ok l ∧ 1 ∈ l :=
  ⟨Reachable.new 0, by decide, by decide, by decide, by decide,
    create_links_new_node (new 0) 1 [0] (Reachable.new 0) (by decide) (by decide) (by decide)
      (by decide)⟩

/-- C2: `create` with a new id and a parent list naming an id that does not exist
throws `PublicationNotFound` and leaves the graph as it was: the state after the
throw is the state before the call, so `exists`, `get_children` and `get_parents`
answer as before for every id. -/
theorem create_missing_parent_throws (s : CitationGraph ι) (id : ι) (ps : List ι)
    (hid : s.exists id = false) (hps : ∃ p ∈ ps, s.exists p = false) :
    create s id ps = .threw .PublicationNotFound s := by
  obtain ⟨p, hp, he⟩ := hps
  have hany : ps.any (fun parentId => !s.exists parentId) = true :=
    List.any_eq_true.2 ⟨p, hp, by simp [he]⟩
  simp only [create, hid, hany, Bool.false_eq_true, if_false, if_true]

theorem create_missing_parent_throws_witness :
    (new (0 : Nat)).exists 1 = false ∧ (∃ p ∈ [0, 2], (new (0 : Nat)).exists p = false) ∧
      create (new (0 : Nat)) 1 [0, 2] = .threw .PublicationNotFound (new 0) :=
  ⟨by decide, ⟨2, by decide, by decide⟩,
    create_missing_parent_throws (new 0) 1 [0, 2] (by decide) ⟨2, by decide, by decide⟩⟩

/-- C3: `create` with an id that already exists (the root id included) throws
`PublicationAlreadyCreated`, whatever the parent list, and leaves the graph as it
was: the state after the throw is the state before the call. -/
theorem create_existing_id_throws (s : CitationGraph ι) (id : ι) (ps : List ι)
    (hid : s.exists id = true) :
    create s id ps = .threw .PublicationAlreadyCreated s := by
  simp only [create, hid, if_true]

theorem create_existing_id_throws_witness :
    (new (0 : Nat)).exists 0 = true ∧
      create (new (0 : Nat)) 0 [7] = .threw .PublicationAlreadyCreated (new 0) :=
  ⟨by decide, create_existing_id_throws (new 0) 0 [7] (by decide)⟩

/-- C4, the code at a failing input: after `create(1,[0])`, `create(2,[0])`,
`create(3,[1])`, `add_citation(3,2)` and `remove(1)` on the graph with root `0`, the
id `3` exists, is not the root id and has the parent list `[2]`, and `remove(3)` has
undefined behaviour: the parent set of the node still holds the expired `weak_ptr`
to the node of `1`, and `lock()` on it gives a null pointer. -/
theorem remove_after_parent_reclaimed_undefined :
    ∃ s : CitationGraph Nat,
      runCalls [.create 1 [0], .create 2 [0], .create 3 [1], .add_citation 3 2, .remove 1]
        (new 0) = some s ∧
      Reachable s ∧ s.exists 3 = true ∧ get_root_id s = some 0 ∧
      get_parents s 3 = .ok [2] ∧ remove s 3 = .undefined := by
  obtain ⟨s, hs, hP⟩ := runCalls_test
    [.create 1 [0], .create 2 [0], .create 3 [1], .add_citation 3 2, .remove 1] (new (0 : Nat))
    (fun s => s.exists 3 && decide (get_root_id s = some 0) &&
      decide (get_parents s 3 = .ok [2]) && (remove s 3).isUndefined) (by decide)
  simp only [Bool.and_eq_true, decide_eq_true_iff, isUndefined_iff] at hP
  exact ⟨s, hs, (Reachable.new 0).runCalls _ hs, hP.1.1.1, hP.1.1.2, hP.1.2, hP.2⟩

/-- C5 fails as stated: after `create(1,[0])` and `add_citation(0,1)` on the graph
with root `0`, `get_parents(0)` is `[1]` and `1` exists and is not the root id;
`remove(1)` returns, and the root id `0` still exists. -/
theorem remove_only_parent_of_root :
    ∃ s t : CitationGraph Nat,
      runCalls [.create 1 [0], .add_citation 0 1] (new 0) = some s ∧ Reachable s ∧
      s.exists 1 = true ∧ get_root_id s = some 0 ∧ s.exists 0 = true ∧
      get_parents s 0 = .ok [1] ∧ remove s 1 = .ok t ∧ t.exists 0 = true := by
  obtain ⟨s, hs, hP⟩ := runCalls_test [.create 1 [0], .add_citation 0 1] (new (0 : Nat))
    (fun s => s.exists 1 && decide (get_root_id s = some 0) && s.exists 0 &&
      decide (get_parents s 0 = .ok [1]) &&
      (match remove s 1 with
        | .ok t => t.exists 0
        | _ => false)) (by decide)
  simp only [Bool.and_eq_true, decide_eq_true_iff] at hP
  obtain ⟨⟨⟨⟨h1, h2⟩, h3⟩, h4⟩, h5⟩ := hP
  cases hr : remove s 1 with
  | ok t =>
    rw [hr] at h5
    exact ⟨s, t, hs, (Reachable.new 0).runCalls _ hs, h1, h2, h3, h4, hr, h5⟩
  | threw e t => rw [hr] at h5; cases h5
  | undefined => rw [hr] at h5; cases h5
  | outOfFuel => rw [hr] at h5; cases h5

/-- The amended C5: in every reachable state, if `get_parents(C)` is `[A]`, `C` is
not the root id and `remove(A)` returns, then `C` does not exist afterwards: a
node whose only parent is removed is reclaimed with it. -/
theorem remove_only_parent_reclaims_child (s t : CitationGraph ι) (A C : ι)
    (hs : Reachable s) (hl : get_parents s C = .ok [A]) (hroot : get_root_id s ≠ some C)
    (hr : remove s A = .ok t) : t.exists C = false := by
  have hI := hs.inv
  have ht : Reachable t := Reachable.remove A hs (by rw [hr]; rfl)
  have hIt := ht.inv
  obtain ⟨a, na, ha, hna, hta, hroot2, _, _, hdead, hpres⟩ := remove_frame hI hs.sym hr
  obtain ⟨c, nc, hc, hnc, hcid, hlist⟩ := hI.get_parents_ok hl
  have hpres2 : ∀ b m, t.heap b = some m →
      ∃ k, s.heap b = some k ∧ m.publication = k.publication := by
    intro b m hb
    obtain ⟨k, hk, e, _⟩ := hpres b m hb
    exact ⟨k, hk, e⟩
  cases he : t.exists C with
  | false => rfl
  | true =>
    exfalso
    rw [← hcid] at he
    obtain ⟨mc, hmc⟩ := (exists_after hI hIt hpres2 hnc).1 he
    have hcr : c ≠ t.root := by
      rw [hroot2]
      exact (hI.root_ne hc hroot).symm
    obtain ⟨p, mp, hmp, hcp⟩ := ht.sym.owner c mc hmc (List.not_mem_nil _) hcr
    obtain ⟨mc2, hmc2, hpmc⟩ := ht.sym.childParent p mp c hmp hcp
    rw [hmc] at hmc2; cases hmc2
    obtain ⟨kc, hkc, _, epar, _⟩ := hpres c mc hmc
    rw [hnc] at hkc; cases hkc
    obtain ⟨kp, hkp, _⟩ := hpres p mp hmp
    have hmem : kp.publication.get_id ∈
        nc.parents.filterMap (fun p => (s.heap p).map (fun m => m.publication.get_id)) :=
      List.mem_filterMap.2 ⟨p, epar ▸ hpmc, by simp [hkp]⟩
    rw [← hlist] at hmem
    have hpA : kp.publication.get_id = A := by simpa using hmem
    have hreg := hI.registered p kp hkp
    rw [hpA, ha] at hreg
    cases hreg
    rw [hta] at hmp
    cases hmp

theorem remove_only_parent_reclaims_child_witness :
    ∃ s t : CitationGraph Nat,
      Reachable s ∧ get_parents s 2 = .ok [1] ∧ get_root_id s ≠ some 2 ∧
      remove s 1 = .ok t ∧ t.exists 2 = false := by
  obtain ⟨s, hs, hP⟩ := runCalls_test [.create 1 [0], .create 2 [1]] (new (0 : Nat))
    (fun s => decide (get_parents s 2 = .ok [1]) && decide (get_root_id s ≠ some 2) &&
      (remove s 1).isOk) (by decide)
  simp only [Bool.and_eq_true, decide_eq_true_iff] at hP
  obtain ⟨⟨h1, h2⟩, h3⟩ := hP
  have hR := (Reachable.new 0).runCalls _ hs
  cases hr : remove s 1 with
  | ok t =>
    exact ⟨s, t, hR, h1, h2, hr, remove_only_parent_reclaims_child s t 1 2 hR h1 h2 hr⟩
  | threw e t => rw [hr] at h3; cases h3
  | undefined => rw [hr] at h3; cases h3
  | outOfFuel => rw [hr] at h3; cases h3

/-- C6 fails as stated: after `create(1,[0])` and `add_citation(1,1)` on the graph
with root `0`, the node of `1` has the parents `0` and `1`; `remove(1)` returns and
the other parent `0` still exists, but `1` does not. -/
theorem remove_own_parent :
    ∃ s t : CitationGraph Nat,
      runCalls [.create 1 [0], .add_citation 1 1] (new 0) = some s ∧ Reachable s ∧
      s.exists 1 = true ∧ get_root_id s = some 0 ∧
      get_parents s 1 = .ok [0, 1] ∧ remove s 1 = .ok t ∧ t.exists 0 = true ∧
      t.exists 1 = false := by
  obtain ⟨s, hs, hP⟩ := runCalls_test [.create 1 [0], .add_citation 1 1] (new (0 : Nat))
    (fun s => s.exists 1 && decide (get_root_id s = some 0) &&
      decide (get_parents s 1 = .ok [0, 1]) &&
      (match remove s 1 with
        | .ok t => t.exists 0 && !t.exists 1
        | _ => false)) (by decide)
  simp only [Bool.and_eq_true, decide_eq_true_iff] at hP
  obtain ⟨⟨⟨h1, h2⟩, h3⟩, h5⟩ := hP
  cases hr : remove s 1 with
  | ok t =>
    rw [hr] at h5
    simp only [Bool.and_eq_true, Bool.not_eq_true'] at h5
    exact ⟨s, t, hs, (Reachable.new 0).runCalls _ hs, h1, h2, h3, hr, h5.1, h5.2⟩
  | threw e t => rw [hr] at h5; cases h5
  | undefined => rw [hr] at h5; cases h5
  | outOfFuel => rw [hr] at h5; cases h5

/-- The amended C6: in every reachable state, for a node `C` other than `A` with
parents `l`: if `remove(A)` returns and a parent `B` of `C` exists afterwards, then
`C` still exists and `get_parents(C)` is then the list of the former parents that
still exist; it contains `B` and not `A`. -/
theorem remove_keeps_child_of_live_parent (s t : CitationGraph ι) (A B C : ι) (l : List ι)
    (hs : Reachable s) (hCA : C ≠ A) (hl : get_parents s C = .ok l) (hBl : B ∈ l)
    (hr : remove s A = .ok t) (hB : t.exists B = true) :
    t.exists C = true ∧
      ∃ l2, get_parents t C = .ok l2 ∧ B ∈ l2 ∧ A ∉ l2 ∧ l2 = l.filter (fun x => t.exists x) := by
  have hI := hs.inv
  have ht : Reachable t := Reachable.remove A hs (by rw [hr]; rfl)
  have hIt := ht.inv
  obtain ⟨a, na, ha, hna, hta, _, _, _, hdead, hpres⟩ := remove_frame hI hs.sym hr
  obtain ⟨c, nc, hc, hnc, hcid, hlist⟩ := hI.get_parents_ok hl
  have hpres2 : ∀ b m, t.heap b = some m →
      ∃ k, s.heap b = some k ∧ m.publication = k.publication := by
    intro b m hb
    obtain ⟨k, hk, e, _⟩ := hpres b m hb
    exact ⟨k, hk, e⟩
  have hgone := (remove_ok_gone s t A hs hr).1
  -- the parent `B` of `C`
  rw [hlist] at hBl
  obtain ⟨b, hbmem, hbid⟩ := List.mem_filterMap.1 hBl
  obtain ⟨nb, hnb, hnbid⟩ := Option.map_eq_some'.1 hbid
  rw [← hnbid] at hB
  obtain ⟨mb, hmb⟩ := (exists_after hI hIt hpres2 hnb).1 hB
  -- `C` is still a child of `B`
  have hca : c ≠ a := by
    intro e
    obtain ⟨n1, hn1, hid1⟩ := hI.entry A a ha
    rw [e, hn1] at hnc
    cases hnc
    exact hCA (hcid.symm.trans hid1)
  have hcb : c ∈ nb.children :=
    hs.sym.parentChild b nb c nc hnb hnc hbmem (List.not_mem_nil _) (List.not_mem_nil _)
  obtain ⟨kb, hkb, _, _, hch⟩ := hpres b mb hmb
  rw [hnb] at hkb; cases hkb
  obtain ⟨mc, hmc⟩ := hIt.childLive b mb c hmb ((hch c).2 ⟨hcb, hca⟩)
  obtain ⟨kc, hkc, epub, epar, _⟩ := hpres c mc hmc
  rw [hnc] at hkc; cases hkc
  have hmapC : t.publicationNodes C = some c := by
    have := hIt.registered c mc hmc
    rwa [epub, hcid] at this
  have hl2 := hIt.get_parents_eq hmapC hmc
  rw [epar, parents_after hI hIt hdead hpres2, ← hlist] at hl2
  refine ⟨(hIt.exists_iff_entry C).2 ⟨c, hmapC⟩, _, hl2, ?_, ?_, rfl⟩
  · rw [hlist]
    exact List.mem_filter.2 ⟨hBl, by rw [← hnbid]; exact hB⟩
  · intro hmem
    have := (List.mem_filter.1 hmem).2
    rw [hgone] at this
    cases this

theorem remove_keeps_child_of_live_parent_witness :
    ∃ s t : CitationGraph Nat,
      Reachable s ∧ (3 : Nat) ≠ 1 ∧ get_parents s 3 = .ok [1, 2] ∧ 2 ∈ [1, 2] ∧
      remove s 1 = .ok t ∧ t.exists 2 = true ∧
      (t.exists 3 = true ∧
        ∃ l2, get_parents t 3 = .ok l2 ∧ 2 ∈ l2 ∧ 1 ∉ l2 ∧
          l2 = [1, 2].filter (fun x => t.exists x)) := by
  obtain ⟨s, hs, hP⟩ := runCalls_test [.create 1 [0], .create 2 [0], .create 3 [1, 2]]
    (new (0 : Nat))
    (fun s => decide (get_parents s 3 = .ok [1, 2]) &&
      (match remove s 1 with
        | .ok t => t.exists 2
        | _ => false)) (by decide)
  simp only [Bool.and_eq_true, decide_eq_true_iff] at hP
  obtain ⟨h1, h5⟩ := hP
  have hR := (Reachable.new 0).runCalls _ hs
  cases hr : remove s 1 with
  | ok t =>
    rw [hr] at h5
    exact ⟨s, t, hR, by decide, h1, by decide, hr, h5,
      remove_keeps_child_of_live_parent s t 1 2 3 [1, 2] hR (by decide) h1 (by decide) hr h5⟩
  | threw e t => rw [hr] at h5; cases h5
  | undefined => rw [hr] at h5; cases h5
  | outOfFuel => rw [hr] at h5; cases h5

/-- C7: in every reachable state the root id exists, `remove` of an id that does
not exist throws `PublicationNotFound`, `remove` of the root id throws
`TriedToRemoveRoot`, and in both cases the state after the throw is the state
before the call. -/
theorem remove_rejected_leaves_graph (s : CitationGraph ι) (id : ι) (hs : Reachable s) :
    (∃ r, get_root_id s = some r ∧ s.exists r = true) ∧
    (s.exists id = false → remove s id = .threw .PublicationNotFound s) ∧
    (get_root_id s = some id → remove s id = .threw .TriedToRemoveRoot s) := by
  have h := hs.inv
  obtain ⟨r, hr⟩ := h.rootLive
  have hg : get_root_id s = some r.publication.get_id := by simp [get_root_id, hr]
  have hex : s.exists r.publication.get_id = true :=
    (h.exists_iff_entry _).2 ⟨_, h.registered _ r hr⟩
  refine ⟨⟨_, hg, hex⟩, ?_, ?_⟩
  · intro he
    simp only [remove, he, Bool.not_false, if_true]
  · intro hroot
    rw [hg] at hroot
    cases hroot
    simp only [remove, hex, hg, Bool.not_true, Bool.false_eq_true, if_false, if_true]

theorem remove_rejected_leaves_graph_witness :
    Reachable (new (0 : Nat)) ∧
      (∃ r, get_root_id (new (0 : Nat)) = some r ∧ (new (0 : Nat)).exists r = true) ∧
      (new (0 : Nat)).exists 5 = false ∧
      remove (new (0 : Nat)) 5 = .threw .PublicationNotFound (new 0) ∧
      get_root_id (new (0 : Nat)) = some 0 ∧
      remove (new (0 : Nat)) 0 = .threw .TriedToRemoveRoot (new 0) :=
  ⟨Reachable.new 0, (remove_rejected_leaves_graph (new 0) 5 (Reachable.new 0)).1, by decide,
    (remove_rejected_leaves_graph (new 0) 5 (Reachable.new 0)).2.1 (by decide), by decide,
    (remove_rejected_leaves_graph (new 0) 0 (Reachable.new 0)).2.2 (by decide)⟩

/-- C8: on a new graph with root `R` and distinct ids `A`, `B`, `C`, the calls
`create(A,[R])`, `create(B,[R])`, `create(C,[A,B])` return and the parents of `C`
are exactly `A` and `B`; then `remove(A)` returns, after which `A` does not exist,
`C` exists and `get_parents(C)` is `[B]`; then `remove(B)` returns, after which
neither `B` nor `C` exists. -/
theorem end_to_end_two_parents (R A B C : ι) (hRA : R ≠ A) (hRB : R ≠ B) (hRC : R ≠ C)
    (hAB : A ≠ B) (hAC : A ≠ C) (hBC : B ≠ C) :
    ∃ s1 s2 s3 s4 s5,
      create (new R) A [R] = .ok s1 ∧ create s1 B [R] = .ok s2 ∧
      create s2 C [A, B] = .ok s3 ∧
      (∃ l, get_parents s3 C = .ok l ∧ l.Nodup ∧ ∀ x, x ∈ l ↔ x = A ∨ x = B) ∧
      remove s3 A = .ok s4 ∧ s4.exists A = false ∧ s4.exists C = true ∧
      get_parents s4 C = .ok [B] ∧
      remove s4 B = .ok s5 ∧ s5.exists B = false ∧ s5.exists C = false := by
  simp [create, remove, CitationGraph.exists, find, new, hRA, hRB, hRC, hAB, hAC, hBC,
    hRA.symm, hRB.symm, hRC.symm, hAB.symm, hAC.symm, hBC.symm, addParents, addChildren,
    release, owned, setNode, modifyNode, insertEntry, Node.addParent, Node.addChild, setInsert,
    Node.setMyMapIterator, List.range, List.range.loop, get_parents, get_root_id,
    removeFromParents, Node.removeChild, setErase, dtorBody, cascade, size, eraseEntry,
    freeNode, Node.removeParent, Node.weak_from_this]

theorem end_to_end_two_parents_witness :
    (0 : Nat) ≠ 1 ∧ (0 : Nat) ≠ 2 ∧ (0 : Nat) ≠ 3 ∧ (1 : Nat) ≠ 2 ∧ (1 : Nat) ≠ 3 ∧
      (2 : Nat) ≠ 3 ∧
      ∃ s1 s2 s3 s4 s5,
        create (new (0 : Nat)) 1 [0] = .ok s1 ∧ create s1 2 [0] = .ok s2 ∧
        create s2 3 [1, 2] = .ok s3 ∧
        (∃ l, get_parents s3 3 = .ok l ∧ l.Nodup ∧ ∀ x, x ∈ l ↔ x = 1 ∨ x = 2) ∧
        remove s3 1 = .ok s4 ∧ s4.exists 1 = false ∧ s4.exists 3 = true ∧
        get_parents s4 3 = .ok [2] ∧
        remove s4 2 = .ok s5 ∧ s5.exists 2 = false ∧ s5.exists 3 = false :=
  ⟨by decide, by decide, by decide, by decide, by decide, by decide,
    end_to_end_two_parents 0 1 2 3 (by decide) (by decide) (by decide) (by decide) (by decide)
      (by decide)⟩

/-- C9: in every reachable state, `add_citation(c,p)` for existing ids returns
normally; afterwards `get_children(p)` holds the old children and `c`,
`get_parents(c)` holds the old parents and `p` (both without duplicates), the same
ids exist, and `get_children` of every other id and `get_parents` of every other
id answer as before. -/
theorem add_citation_links_pair (s : CitationGraph ι) (c p : ι) (hs : Reachable s)
    (hc : s.exists c = true) (hp : s.exists p = true) :
    ∃ t, add_citation s c p = .ok t ∧
      (∀ x, t.exists x = s.exists x) ∧
      (∃ l l2, get_children s p = .ok l ∧ get_children t p = .ok l2 ∧ l2.Nodup ∧
        ∀ x, x ∈ l2 ↔ x ∈ l ∨ x = c) ∧
      (∃ l l2, get_parents s c = .ok l ∧ get_parents t c = .ok l2 ∧ l2.Nodup ∧
        ∀ x, x ∈ l2 ↔ x ∈ l ∨ x = p) ∧
      (∀ x, x ≠ p → get_children t x = get_children s x) ∧
      (∀ x, x ≠ c → get_parents t x = get_parents s x) := by
  have h := hs.inv
  obtain ⟨ca, hca⟩ := (h.exists_iff_entry c).1 hc
  obtain ⟨pa, hpa⟩ := (h.exists_iff_entry p).1 hp
  obtain ⟨nc, hnc, hcid⟩ := h.entry c ca hca
  obtain ⟨np, hnp, hpid⟩ := h.entry p pa hpa
  have ht := citedState_inv h hnc hnp
  have hidAt : (fun b => ((citedState s ca pa).heap b).map (fun m => m.publication.get_id)) =
      fun b => (s.heap b).map (fun m => m.publication.get_id) :=
    funext (citedState_idAt s ca pa)
  refine ⟨citedState s ca pa, add_citation_eq h hca hpa, ?_, ?_, ?_, ?_, ?_⟩
  · intro x
    simp only [CitationGraph.exists, citedState_find]
  · have hnode : (citedState s ca pa).heap pa = some
        { np with parents := if pa = ca then setInsert pa np.parents else np.parents
                  children := setInsert ca np.children } := by
      rw [citedState_heap, hnp]; simp
    refine ⟨_, _, h.get_children_eq hpa hnp, ht.get_children_eq (s := citedState s ca pa) hpa hnode,
      ht.nodup_ids (sorted_nodup (ht.sorted pa _ hnode).1), ?_⟩
    intro x
    simp only [hidAt, List.mem_filterMap, mem_setInsert, Option.map_eq_some']
    constructor
    · rintro ⟨b, hb | hb, m, hm, hx⟩
      · right
        rw [hb, hnc] at hm; cases hm
        exact hx.symm.trans hcid
      · exact Or.inl ⟨b, hb, m, hm, hx⟩
    · rintro (⟨b, hb, m, hm, hx⟩ | hx)
      · exact ⟨b, Or.inr hb, m, hm, hx⟩
      · exact ⟨ca, Or.inl rfl, nc, hnc, hcid.trans hx.symm⟩
  · have hnode : (citedState s ca pa).heap ca = some
        { nc with parents := setInsert pa nc.parents
                  children := if ca = pa then setInsert ca nc.children else nc.children } := by
      rw [citedState_heap, hnc]; simp
    refine ⟨_, _, h.get_parents_eq hca hnc, ht.get_parents_eq (s := citedState s ca pa) hca hnode,
      ht.nodup_ids (sorted_nodup (ht.sorted ca _ hnode).2), ?_⟩
    intro x
    simp only [hidAt, List.mem_filterMap, mem_setInsert, Option.map_eq_some']
    constructor
    · rintro ⟨b, hb | hb, m, hm, hx⟩
      · right
        rw [hb, hnp] at hm; cases hm
        exact hx.symm.trans hpid
      · exact Or.inl ⟨b, hb, m, hm, hx⟩
    · rintro (⟨b, hb, m, hm, hx⟩ | hx)
      · exact ⟨b, Or.inr hb, m, hm, hx⟩
      · exact ⟨pa, Or.inl rfl, np, hnp, hpid.trans hx.symm⟩
  · intro x hx
    simp only [get_children, citedState_find]
    cases hf : find s x with
    | none => rfl
    | some a =>
      have hmx : s.publicationNodes x = some a := by
        unfold find at hf
        cases hm : s.publicationNodes x with
        | none => simp [hm] at hf
        | some b =>
          simp only [hm] at hf
          split at hf
          · cases hf; rfl
          · cases hf
      obtain ⟨n, hn, hnid⟩ := h.entry x a hmx
      have hne : a ≠ pa := by
        intro e
        rw [e, hnp] at hn; cases hn
        exact hx (hnid.symm.trans hpid)
      simp only [citedState_heap, hn, Option.map_some', hne, if_false]
      rw [idsOf_congr (citedState_idAt s ca pa)]
  · intro x hx
    simp only [get_parents, citedState_find]
    cases hf : find s x with
    | none => rfl
    | some a =>
      have hmx : s.publicationNodes x = some a := by
        unfold find at hf
        cases hm : s.publicationNodes x with
        | none => simp [hm] at hf
        | some b =>
          simp only [hm] at hf
          split at hf
          · cases hf; rfl
          · cases hf
      obtain ⟨n, hn, hnid⟩ := h.entry x a hmx
      have hne : a ≠ ca := by
        intro e
        rw [e, hnc] at hn; cases hn
        exact hx (hnid.symm.trans hcid)
      simp only [hidAt]
      rw [citedState_heap, hn]
      simp only [Option.map_some', hne, if_false]

theorem add_citation_links_pair_witness :
    ∃ s : CitationGraph Nat, Reachable s ∧ s.exists 2 = true ∧ s.exists 1 = true ∧
      ∃ t, add_citation s 2 1 = .ok t ∧
        (∀ x, t.exists x = s.exists x) ∧
        (∃ l l2, get_children s 1 = .ok l ∧ get_children t 1 = .ok l2 ∧ l2.Nodup ∧
          ∀ x, x ∈ l2 ↔ x ∈ l ∨ x = 2) ∧
        (∃ l l2, get_parents s 2 = .ok l ∧ get_parents t 2 = .ok l2 ∧ l2.Nodup ∧
          ∀ x, x ∈ l2 ↔ x ∈ l ∨ x = 1) ∧
        (∀ x, x ≠ 1 → get_children t x = get_children s x) ∧
        (∀ x, x ≠ 2 → get_parents t x = get_parents s x) := by
  obtain ⟨s, hs, hP⟩ := runCalls_test [.create 1 [0], .create 2 [0]] (new (0 : Nat))
    (fun s => s.exists 2 && s.exists 1) (by decide)
  simp only [Bool.and_eq_true] at hP
  have hR := (Reachable.new 0).runCalls _ hs
  exact ⟨s, hR, hP.1, hP.2, add_citation_links_pair s 2 1 hR hP.1 hP.2⟩

/-- C10: in every reachable state, `add_citation(c,p)` for existing ids, called a
second time, returns the graph the first call returned; in that graph `c` is once
in `get_children(p)` and `p` once in `get_parents(c)`.  And whenever `c` is already
in `get_children(p)`, from `create` or otherwise, `add_citation(c,p)` returns the
graph unchanged. -/
theorem add_citation_twice (s : CitationGraph ι) (c p : ι) (hs : Reachable s)
    (hc : s.exists c = true) (hp : s.exists p = true) :
    (∃ t, add_citation s c p = .ok t ∧ add_citation t c p = .ok t ∧
      (∃ l, get_children t p = .ok l ∧ l.count c = 1) ∧
      (∃ l, get_parents t c = .ok l ∧ l.count p = 1)) ∧
    (∀ l, get_children s p = .ok l → c ∈ l → add_citation s c p = .ok s) := by
  have h := hs.inv
  obtain ⟨ca, hca⟩ := (h.exists_iff_entry c).1 hc
  obtain ⟨pa, hpa⟩ := (h.exists_iff_entry p).1 hp
  obtain ⟨nc, hnc, hcid⟩ := h.entry c ca hca
  obtain ⟨np, hnp, hpid⟩ := h.entry p pa hpa
  have hR : Reachable (citedState s ca pa) :=
    Reachable.add_citation c p hs (by rw [add_citation_eq h hca hpa]; rfl)
  have ht := hR.inv
  have hnodeP : (citedState s ca pa).heap pa = some
      { np with parents := if pa = ca then setInsert pa np.parents else np.parents
                children := setInsert ca np.children } := by
    rw [citedState_heap, hnp]; simp
  have hnodeC : (citedState s ca pa).heap ca = some
      { nc with parents := setInsert pa nc.parents
                children := if ca = pa then setInsert ca nc.children else nc.children } := by
    rw [citedState_heap, hnc]; simp
  refine ⟨⟨citedState s ca pa, add_citation_eq h hca hpa, ?_, ?_, ?_⟩, ?_⟩
  · rw [add_citation_eq (s := citedState s ca pa) ht hca hpa,
      citedState_of_edge ht hR.sym hnodeP (by simp [mem_setInsert])]
  · refine ⟨_, ht.get_children_eq (s := citedState s ca pa) hpa hnodeP, ?_⟩
    apply List.count_eq_one_of_mem
      (ht.nodup_ids (sorted_nodup (ht.sorted pa _ hnodeP).1))
    simp only [List.mem_filterMap, Option.map_eq_some']
    exact ⟨ca, by simp [mem_setInsert], _, hnodeC, hcid⟩
  · refine ⟨_, ht.get_parents_eq (s := citedState s ca pa) hca hnodeC, ?_⟩
    apply List.count_eq_one_of_mem
      (ht.nodup_ids (sorted_nodup (ht.sorted ca _ hnodeC).2))
    simp only [List.mem_filterMap, Option.map_eq_some']
    exact ⟨pa, by simp [mem_setInsert], _, hnodeP, hpid⟩
  · intro l hl hmem
    rw [h.get_children_eq hpa hnp] at hl
    cases hl
    simp only [List.mem_filterMap, Option.map_eq_some'] at hmem
    obtain ⟨b, hb, m, hm, hmid⟩ := hmem
    have hbc : b = ca := h.addr_inj hm hnc (hmid.trans hcid.symm)
    rw [add_citation_eq h hca hpa, citedState_of_edge h hs.sym hnp (hbc ▸ hb)]

theorem add_citation_twice_witness :
    ∃ s : CitationGraph Nat, Reachable s ∧ s.exists 2 = true ∧ s.exists 1 = true ∧
      (∃ t, add_citation s 2 1 = .ok t ∧ add_citation t 2 1 = .ok t ∧
        (∃ l, get_children t 1 = .ok l ∧ l.count 2 = 1) ∧
        (∃ l, get_parents t 2 = .ok l ∧ l.count 1 = 1)) ∧
      get_children s 1 = .ok [2] ∧ 2 ∈ [2] ∧ add_citation s 2 1 = .ok s := by
  obtain ⟨s, hs, hP⟩ := runCalls_test [.create 1 [0], .create 2 [0, 1]] (new (0 : Nat))
    (fun s => s.exists 2 && s.exists 1 && decide (get_children s 1 = .ok [2])) (by decide)
  simp only [Bool.and_eq_true, decide_eq_true_iff] at hP
  have hR := (Reachable.new 0).runCalls _ hs
  exact ⟨s, hR, hP.1.1, hP.1.2, (add_citation_twice s 2 1 hR hP.1.1 hP.1.2).1, hP.2,
    by decide, (add_citation_twice s 2 1 hR hP.1.1 hP.1.2).2 [2] hP.2 (by decide)⟩

/-- C11: in every reachable state, `add_citation(child_id,parent_id)` throws
`PublicationNotFound` exactly when one of the two ids does not exist; it throws
nothing else, the state after the throw is the state before the call, and when both
ids exist it returns normally. -/
theorem add_citation_throws_iff_missing (s : CitationGraph ι) (c p : ι) (hs : Reachable s) :
    ((∃ t, add_citation s c p = .threw .PublicationNotFound t) ↔
      (s.exists c = false ∨ s.exists p = false)) ∧
    (∀ e t, add_citation s c p = .threw e t → e = .PublicationNotFound ∧ t = s) ∧
    (s.exists c = true → s.exists p = true → ∃ t, add_citation s c p = .ok t) := by
  have h := hs.inv
  have hok : s.exists c = true → s.exists p = true → ∃ t, add_citation s c p = .ok t := by
    intro hc hp
    obtain ⟨ca, hca⟩ := (h.exists_iff_entry c).1 hc
    obtain ⟨pa, hpa⟩ := (h.exists_iff_entry p).1 hp
    exact ⟨_, add_citation_eq h hca hpa⟩
  have hthrow : (s.exists c = false ∨ s.exists p = false) →
      add_citation s c p = .threw .PublicationNotFound s := by
    intro hm
    have : (!s.exists c || !s.exists p) = true := by
      rcases hm with e | e <;> simp [e]
    simp only [add_citation, this, if_true]
  have hcases : (s.exists c = false ∨ s.exists p = false) ∨
      (s.exists c = true ∧ s.exists p = true) := by
    cases s.exists c <;> cases s.exists p <;> simp
  refine ⟨⟨?_, fun hm => ⟨s, hthrow hm⟩⟩, ?_, hok⟩
  · rintro ⟨t, ht⟩
    rcases hcases with hm | ⟨hc, hp⟩
    · exact hm
    · obtain ⟨u, hu⟩ := hok hc hp
      rw [hu] at ht; cases ht
  · intro e t ht
    rcases hcases with hm | ⟨hc, hp⟩
    · rw [hthrow hm] at ht
      cases ht
      exact ⟨rfl, rfl⟩
    · obtain ⟨u, hu⟩ := hok hc hp
      rw [hu] at ht; cases ht

theorem add_citation_throws_iff_missing_witness :
    Reachable (new (0 : Nat)) ∧
      ((∃ t, add_citation (new (0 : Nat)) 0 5 = .threw .PublicationNotFound t) ↔
        ((new (0 : Nat)).exists 0 = false ∨ (new (0 : Nat)).exists 5 = false)) ∧
      add_citation (new (0 : Nat)) 0 5 = .threw .PublicationNotFound (new 0) ∧
      (new (0 : Nat)).exists 0 = true ∧ ∃ t, add_citation (new (0 : Nat)) 0 0 = .ok t :=
  ⟨Reachable.new 0, (add_citation_throws_iff_missing (new 0) 0 5 (Reachable.new 0)).1,
    by
      obtain ⟨t, ht⟩ := (add_citation_throws_iff_missing (new (0 : Nat)) 0 5
        (Reachable.new 0)).1.2 (Or.inr (by decide))
      have := ((add_citation_throws_iff_missing (new (0 : Nat)) 0 5
        (Reachable.new 0)).2.1 _ _ ht).2
      rw [this] at ht
      exact ht,
    by decide,
    (add_citation_throws_iff_missing (new 0) 0 0 (Reachable.new 0)).2.2 (by decide) (by decide)⟩

/-- C12: in every reachable state, each of `get_children(id)`, `get_parents(id)` and
`operator[](id)` throws `PublicationNotFound` if and only if `exists(id)` is false
(so for a missing id none of them returns a list or a publication), and for an
existing id each of them returns. -/
theorem queries_throw_iff_missing (s : CitationGraph ι) (id : ι) (hs : Reachable s) :
    (get_children s id = .threw .PublicationNotFound ↔ s.exists id = false) ∧
    (get_parents s id = .threw .PublicationNotFound ↔ s.exists id = false) ∧
    (index s id = .threw .PublicationNotFound ↔ s.exists id = false) ∧
    (s.exists id = true →
      (∃ l, get_children s id = .ok l) ∧ (∃ l, get_parents s id = .ok l) ∧
        index s id = .ok ⟨id⟩) := by
  have h := hs.inv
  have hyes : s.exists id = true →
      (∃ l, get_children s id = .ok l) ∧ (∃ l, get_parents s id = .ok l) ∧
        index s id = .ok ⟨id⟩ := by
    intro he
    obtain ⟨a, ha⟩ := (h.exists_iff_entry id).1 he
    obtain ⟨n, hn, hid⟩ := h.entry id a ha
    refine ⟨⟨_, h.get_children_eq ha hn⟩, ⟨_, h.get_parents_eq ha hn⟩, ?_⟩
    simp only [index, h.find_eq ha, hn]
    cases hp : n.publication
    rw [hp] at hid
    simp only at hid
    rw [hid]
  have hno : s.exists id = false →
      get_children s id = .threw .PublicationNotFound ∧
      get_parents s id = .threw .PublicationNotFound ∧
      index s id = .threw .PublicationNotFound := by
    intro he
    have hf : find s id = none := by
      simpa [CitationGraph.exists] using he
    simp [get_children, get_parents, index, hf]
  cases he : s.exists id with
  | false =>
    obtain ⟨h1, h2, h3⟩ := hno he
    simp [h1, h2, h3]
  | true =>
    obtain ⟨⟨l1, h1⟩, ⟨l2, h2⟩, h3⟩ := hyes he
    refine ⟨?_, ?_, ?_, fun _ => ⟨⟨l1, h1⟩, ⟨l2, h2⟩, h3⟩⟩ <;> simp [h1, h2, h3]

theorem queries_throw_iff_missing_witness :
    Reachable (new (0 : Nat)) ∧
      (get_children (new (0 : Nat)) 7 = .threw .PublicationNotFound ↔
        (new (0 : Nat)).exists 7 = false) ∧
      (get_parents (new (0 : Nat)) 7 = .threw .PublicationNotFound ↔
        (new (0 : Nat)).exists 7 = false) ∧
      (index (new (0 : Nat)) 7 = .threw .PublicationNotFound ↔
        (new (0 : Nat)).exists 7 = false) ∧
      (new (0 : Nat)).exists 0 = true ∧
      (∃ l, get_children (new (0 : Nat)) 0 = .ok l) ∧ (∃ l, get_parents (new (0 : Nat)) 0 = .ok l) ∧
      index (new (0 : Nat)) 0 = .ok ⟨0⟩ :=
  ⟨Reachable.new 0, (queries_throw_iff_missing (new 0) 7 (Reachable.new 0)).1,
    (queries_throw_iff_missing (new 0) 7 (Reachable.new 0)).2.1,
    (queries_throw_iff_missing (new 0) 7 (Reachable.new 0)).2.2.1, by decide,
    (queries_throw_iff_missing (new 0) 0 (Reachable.new 0)).2.2.2 (by decide)⟩

/-- C13 fails as stated: after `create(1,[0])`, `create(2,[1])`, `create(3,[2])`,
`add_citation(2,3)` and `remove(1)` on the graph with root `0`, the nodes of `2` and
`3` own each other; `2` exists, but the root has no children, so `2` is not
reachable from the root along owning edges. -/
theorem cycle_outlives_its_ancestor :
    ∃ s : CitationGraph Nat,
      runCalls [.create 1 [0], .create 2 [1], .create 3 [2], .add_citation 2 3, .remove 1]
        (new 0) = some s ∧
      Reachable s ∧ get_root_id s = some 0 ∧ s.exists 2 = true ∧
      get_children s 0 = .ok [] ∧ ¬ Relation.ReflTransGen (ChildOf s) 0 2 := by
  obtain ⟨s, hs, hP⟩ := runCalls_test
    [.create 1 [0], .create 2 [1], .create 3 [2], .add_citation 2 3, .remove 1] (new (0 : Nat))
    (fun s => decide (get_root_id s = some 0) && s.exists 2 &&
      decide (get_children s 0 = .ok [])) (by decide)
  simp only [Bool.and_eq_true, decide_eq_true_iff] at hP
  refine ⟨s, hs, (Reachable.new 0).runCalls _ hs, hP.1.1, hP.1.2, hP.2, ?_⟩
  intro hreach
  rcases Relation.ReflTransGen.cases_head hreach with e | ⟨c, ⟨l, hl, hc⟩, _⟩
  · exact absurd e (by decide)
  · rw [hP.2] at hl
    cases hl
    simp at hc

/-- The amended C13: in every reachable state, the root id and every id reachable
from it along owning edges (the edges `get_children` shows) exist; and when no id
is reachable from itself along one or more owning edges, an id exists if and only
if it is the root id or reachable from the root id along owning edges. -/
theorem exists_iff_reachable_when_acyclic (s : CitationGraph ι) (r id : ι) (hs : Reachable s)
    (hr : get_root_id s = some r) :
    (Relation.ReflTransGen (ChildOf s) r id → s.exists id = true) ∧
    ((∀ x, ¬ Relation.TransGen (ChildOf s) x x) →
      (s.exists id = true ↔ Relation.ReflTransGen (ChildOf s) r id)) := by
  have h := hs.inv
  obtain ⟨r2, hr2, hex, hmap⟩ := h.root_exists
  rw [hr] at hr2
  cases hr2
  have hfwd : Relation.ReflTransGen (ChildOf s) r id → s.exists id = true :=
    fun hp => h.reach_exists hex hp
  refine ⟨hfwd, fun hac => ⟨?_, hfwd⟩⟩
  intro he
  obtain ⟨a, ha⟩ := (h.exists_iff_entry id).1 he
  obtain ⟨n, hn, hid⟩ := h.entry id a ha
  obtain ⟨nr, hnr, hrid⟩ := h.entry r s.root hmap
  obtain ⟨n2, hn2, hp⟩ := h.reach_childOf hnr (reach_of_acyclic h hs.sym hac a n hn)
  rw [hn] at hn2; cases hn2
  rwa [hrid, hid] at hp

theorem exists_iff_reachable_when_acyclic_witness :
    ∃ s : CitationGraph Nat, Reachable s ∧ get_root_id s = some 0 ∧
      (∀ x, ¬ Relation.TransGen (ChildOf s) x x) ∧
      (Relation.ReflTransGen (ChildOf s) 0 1 → s.exists 1 = true) ∧
      (s.exists 1 = true ↔ Relation.ReflTransGen (ChildOf s) 0 1) := by
  obtain ⟨s, hs, hP⟩ := runCalls_test [.create 1 [0]] (new (0 : Nat))
    (fun s => decide (get_root_id s = some 0) && decide (get_children s 1 = .ok []) &&
      decide (get_children s 0 = .ok [1])) (by decide)
  simp only [Bool.and_eq_true, decide_eq_true_iff] at hP
  obtain ⟨⟨h0, h1⟩, h2⟩ := hP
  have hR := (Reachable.new 0).runCalls _ hs
  have hac : ∀ x, ¬ Relation.TransGen (ChildOf s) x x := by
    intro x hx
    -- the only owning edge goes from `0` to `1`
    have hedge : ∀ a b, ChildOf s a b → a = 0 ∧ b = 1 := by
      rintro a b ⟨l, hl, hb⟩
      by_cases ha0 : a = 0
      · subst ha0
        rw [h2] at hl; cases hl
        exact ⟨rfl, by simpa using hb⟩
      · by_cases ha1 : a = 1
        · subst ha1
          rw [h1] at hl; cases hl
          simp at hb
        · exfalso
          obtain ⟨c, n, hc, hn, hid, _⟩ := hR.inv.get_children_ok hl
          have hlt := hR.inv.bound c n hn
          have hnext : s.next = 2 := by
            have : (runCalls [.create 1 [0]] (new (0 : Nat))).map (fun s => s.next) = some 2 := by
              decide
            rw [hs] at this
            simpa using this
          have hc01 : c = 0 ∨ c = 1 := by omega
          obtain ⟨l0, hl0⟩ : ∃ l0, get_children s 0 = .ok l0 := ⟨_, h2⟩
          obtain ⟨c0, n0, hc0, hn0, hid0, _⟩ := hR.inv.get_children_ok hl0
          obtain ⟨l1, hl1⟩ : ∃ l1, get_children s 1 = .ok l1 := ⟨_, h1⟩
          obtain ⟨c1, n1, hc1, hn1, hid1, _⟩ := hR.inv.get_children_ok hl1
          have hc0lt := hR.inv.bound c0 n0 hn0
          have hc1lt := hR.inv.bound c1 n1 hn1
          have hne : c0 ≠ c1 := by
            intro e
            rw [e, hn1] at hn0
            cases hn0
            rw [hid1] at hid0
            cases hid0
          rcases hc01 with e | e
          · by_cases e0 : c0 = c
            · rw [e0, hn] at hn0; cases hn0
              exact ha0 (hid.symm.trans hid0)
            · have : c1 = c := by omega
              rw [this, hn] at hn1; cases hn1
              exact ha1 (hid.symm.trans hid1)
          · by_cases e0 : c0 = c
            · rw [e0, hn] at hn0; cases hn0
              exact ha0 (hid.symm.trans hid0)
            · have : c1 = c := by omega
              rw [this, hn] at hn1; cases hn1
              exact ha1 (hid.symm.trans hid1)
    rcases Relation.TransGen.head'_iff.1 hx with ⟨c, hxc, hcx⟩
    obtain ⟨e1, e2⟩ := hedge x c hxc
    subst e1 e2
    rcases Relation.ReflTransGen.cases_head hcx with e | ⟨d, hd, _⟩
    · exact absurd e (by decide)
    · exact absurd (hedge 1 d hd).1 (by decide)
  exact ⟨s, hR, h0, hac, (exists_iff_reachable_when_acyclic s 0 1 hR h0).1,
    (exists_iff_reachable_when_acyclic s 0 1 hR h0).2 hac⟩

/-- C14: in every reachable state (reached through calls that returned or threw),
for all ids `a` and `b`, `b` is in the list `get_children(a)` returns if and only if
`a` is in the list `get_parents(b)` returns, and every id in a list returned by
`get_children` or `get_parents` exists. -/
theorem edges_symmetric_and_live (s : CitationGraph ι) (hs : Reachable s) :
    (∀ a b, (∃ l, get_children s a = .ok l ∧ b ∈ l) ↔ (∃ l, get_parents s b = .ok l ∧ a ∈ l)) ∧
    (∀ a l x, get_children s a = .ok l → x ∈ l → s.exists x = true) ∧
    (∀ a l x, get_parents s a = .ok l → x ∈ l → s.exists x = true) :=
  ⟨fun a b => childOf_iff_parentOf hs.inv hs.sym a b,
    fun a l _ hl hx => hs.inv.childOf_exists (a := a) ⟨l, hl, hx⟩,
    fun a l _ hl hx => hs.inv.parentOf_exists (b := a) ⟨l, hl, hx⟩⟩

theorem edges_symmetric_and_live_witness :
    ∃ s : CitationGraph Nat, Reachable s ∧
      get_children s 1 = .ok [3] ∧ get_parents s 3 = .ok [1, 2] ∧ get_parents s 1 = .ok [0] ∧
      ((∃ l, get_children s 1 = .ok l ∧ 3 ∈ l) ↔ (∃ l, get_parents s 3 = .ok l ∧ 1 ∈ l)) ∧
      s.exists 3 = true ∧ s.exists 0 = true := by
  obtain ⟨s, hs, hP⟩ := runCalls_test [.create 1 [0], .create 2 [0], .create 3 [1, 2]]
    (new (0 : Nat))
    (fun s => decide (get_children s 1 = .ok [3]) && decide (get_parents s 3 = .ok [1, 2]) &&
      decide (get_parents s 1 = .ok [0])) (by decide)
  simp only [Bool.and_eq_true, decide_eq_true_iff] at hP
  have hR := (Reachable.new 0).runCalls _ hs
  exact ⟨s, hR, hP.1.1, hP.1.2, hP.2, (edges_symmetric_and_live s hR).1 1 3,
    (edges_symmetric_and_live s hR).2.1 1 [3] 3 hP.1.1 (by decide),
    (edges_symmetric_and_live s hR).2.2 1 [0] 0 hP.2 (by decide)⟩

/-- C15 fails as stated: after `create(1,[0])` and `add_citation(0,1)` on the graph
with root `0`, `get_parents` of the root id returns `[1]`. -/
theorem add_citation_gives_root_a_parent :
    ∃ s : CitationGraph Nat,
      runCalls [.create 1 [0], .add_citation 0 1] (new 0) = some s ∧ Reachable s ∧
      get_root_id s = some 0 ∧ get_parents s 0 = .ok [1] := by
  obtain ⟨s, hs, hP⟩ := runCalls_test [.create 1 [0], .add_citation 0 1] (new (0 : Nat))
    (fun s => decide (get_root_id s = some 0) && decide (get_parents s 0 = .ok [1]))
    (by decide)
  simp only [Bool.and_eq_true, decide_eq_true_iff] at hP
  exact ⟨s, hs, (Reachable.new 0).runCalls _ hs, hP.1, hP.2⟩

/-- The amended C15: after any list of `create`, `add_citation` and `remove` calls
(returning or throwing) on a graph constructed with `stem_id`, none of them an
`add_citation` with `stem_id` as child, `get_parents` of the root id returns the
empty list. -/
theorem root_has_no_parents (stem_id : ι) (cs : List (Call ι)) (s : CitationGraph ι)
    (hno : ∀ c ∈ cs, ∀ p, c ≠ .add_citation stem_id p)
    (hc : runCalls cs (new stem_id) = some s) :
    get_root_id s = some stem_id ∧ get_parents s stem_id = .ok [] := by
  have hR := (Reachable.new stem_id).runCalls cs hc
  have h := hR.inv
  have hn : (new stem_id).heap (new stem_id).root =
      some { publication := ⟨stem_id⟩, parents := [], children := [],
             myMapIterator := some stem_id } := by
    simp [new]
  obtain ⟨m, hm, e1, e2⟩ := runCalls_root cs (Reachable.new stem_id) hc hn
  have hpar : m.parents = [] := e2 hno
  have hid : m.publication.get_id = stem_id := by rw [e1]
  have hreg := h.registered _ m hm
  rw [hid] at hreg
  refine ⟨by simp [get_root_id, hm, hid], ?_⟩
  rw [h.get_parents_eq hreg hm, hpar]
  rfl

theorem root_has_no_parents_witness :
    ∃ s : CitationGraph Nat,
      (∀ c ∈ [Call.create 1 [0], Call.add_citation 1 0, Call.create 2 [1], Call.remove 1],
        ∀ p, c ≠ .add_citation 0 p) ∧
      runCalls [.create 1 [0], .add_citation 1 0, .create 2 [1], .remove 1] (new 0) = some s ∧
      get_root_id s = some 0 ∧ get_parents s 0 = .ok [] := by
  obtain ⟨s, hs, _⟩ := runCalls_test
    [.create 1 [0], .add_citation 1 0, .create 2 [1], .remove 1] (new (0 : Nat))
    (fun _ => true) (by decide)
  have hno : ∀ c ∈ [Call.create 1 [0], Call.add_citation 1 0, Call.create 2 [1], Call.remove 1],
      ∀ p, c ≠ .add_citation (0 : Nat) p := by
    intro c hc p
    simp only [List.mem_cons, List.mem_singleton, List.not_mem_nil, or_false] at hc
    rcases hc with e | e | e | e <;> subst e <;> simp
  exact ⟨s, hno, hs, root_has_no_parents 0 _ s hno hs⟩

/-- C16: after any list of `create`, `add_citation` and `remove` calls, returning or
throwing, on a graph constructed with `stem_id`, `get_root_id()` returns `stem_id`
and `exists(stem_id)` is true. -/
theorem root_id_kept (stem_id : ι) (cs : List (Call ι)) (s : CitationGraph ι)
    (hc : runCalls cs (new stem_id) = some s) :
    get_root_id s = some stem_id ∧ s.exists stem_id = true := by
  have hR := (Reachable.new stem_id).runCalls cs hc
  have hn : (new stem_id).heap (new stem_id).root =
      some { publication := ⟨stem_id⟩, parents := [], children := [],
             myMapIterator := some stem_id } := by
    simp [new]
  obtain ⟨m, hm, e1, _⟩ := runCalls_root cs (Reachable.new stem_id) hc hn
  have hid : m.publication.get_id = stem_id := by rw [e1]
  obtain ⟨r, hr, hex, _⟩ := hR.inv.root_exists
  have hrs : r = stem_id := by
    simp only [get_root_id, hm, Option.map_some', Option.some.injEq] at hr
    rw [← hr, hid]
  subst hrs
  exact ⟨hr, hex⟩

theorem root_id_kept_witness :
    ∃ s : CitationGraph Nat,
      runCalls [.create 1 [0], .remove 0, .add_citation 0 1, .create 1 [0], .add_citation 5 0,
        .remove 1, .remove 7] (new 0) = some s ∧
      get_root_id s = some 0 ∧ s.exists 0 = true := by
  obtain ⟨s, hs, _⟩ := runCalls_test
    [.create 1 [0], .remove 0, .add_citation 0 1, .create 1 [0], .add_citation 5 0,
      .remove 1, .remove 7] (new (0 : Nat)) (fun _ => true) (by decide)
  exact ⟨s, hs, root_id_kept 0 _ s hs⟩

/-- C17, the code at a failing input: on the graph with root `0` after
`create(1,[0])` and `create(2,[0])`, the call `create(3,[1,2])` returns when nothing
fails; when `addChild` throws for the second parent (the link from `1` to the new
node is already made), the call has undefined behaviour instead of reporting the
failure with the graph as before. -/
theorem create_link_failure_at_second_parent :
    ∃ s : CitationGraph Nat,
      runCalls [.create 1 [0], .create 2 [0]] (new 0) = some s ∧ Reachable s ∧
      s.exists 3 = false ∧ s.exists 1 = true ∧ s.exists 2 = true ∧
      (create s 3 [1, 2]).isOk = true ∧ create_failing s 3 [1, 2] 1 = .undefined := by
  obtain ⟨s, hs, hP⟩ := runCalls_test [.create 1 [0], .create 2 [0]] (new (0 : Nat))
    (fun s => !s.exists 3 && s.exists 1 && s.exists 2 && (create s 3 [1, 2]).isOk &&
      (create_failing s 3 [1, 2] 1).isUndefined) (by decide)
  simp only [Bool.and_eq_true, Bool.not_eq_true', isUndefined_iff] at hP
  exact ⟨s, hs, (Reachable.new 0).runCalls _ hs, hP.1.1.1.1, hP.1.1.1.2, hP.1.1.2, hP.1.2, hP.2⟩

/-- C18 fails as stated: after `create(1,[0])` and `create(2,[0])` on the graph with
root `0`, the ids `2` and `1` exist and `3` does not; `create(3,[2,1])` returns, and
`get_parents(3)` returns `[1, 2]`, not `[2, 1]`: the parent set is ordered by
`owner_less`, not by the order of the list. -/
theorem create_parents_in_address_order :
    ∃ s t : CitationGraph Nat,
      runCalls [.create 1 [0], .create 2 [0]] (new 0) = some s ∧ Reachable s ∧
      s.exists 3 = false ∧ s.exists 2 = true ∧ s.exists 1 = true ∧
      create s 3 [2, 1] = .ok t ∧ get_parents t 3 = .ok [1, 2] := by
  obtain ⟨s, hs, hP⟩ := runCalls_test [.create 1 [0], .create 2 [0]] (new (0 : Nat))
    (fun s => !s.exists 3 && s.exists 2 && s.exists 1 &&
      (match create s 3 [2, 1] with
        | .ok t => decide (get_parents t 3 = .ok [1, 2])
        | _ => false)) (by decide)
  simp only [Bool.and_eq_true, decide_eq_true_iff, Bool.not_eq_true'] at hP
  obtain ⟨⟨⟨h1, h2⟩, h3⟩, h4⟩ := hP
  cases hr : create s 3 [2, 1] with
  | ok t =>
    rw [hr] at h4
    exact ⟨s, t, hs, (Reachable.new 0).runCalls _ hs, h1, h2, h3, hr,
      by simpa using h4⟩
  | threw e t => rw [hr] at h4; cases h4
  | undefined => rw [hr] at h4; cases h4
  | outOfFuel => rw [hr] at h4; cases h4

/-- The amended C18: in every reachable state, for a new id and a non-empty list of
distinct existing parents, `create` returns and `get_parents(id)` then returns the
given parents, each once, in an order that does not depend on the order of the
list: `create` with any reordering of the list returns in the same state. -/
theorem create_parents_any_order (s : CitationGraph ι) (id : ι) (ps : List ι)
    (hs : Reachable s) (hid : s.exists id = false) (hne : ps ≠ []) (hnd : ps.Nodup)
    (hps : ∀ p ∈ ps, s.exists p = true) :
    ∃ t l, create s id ps = .ok t ∧ get_parents t id = .ok l ∧ l.Perm ps ∧
      ∀ qs, qs.Perm ps → create s id qs = .ok t := by
  have h := hs.inv
  have ht := createdState_inv h id ps hid
  have hmapid : (createdState s id ps).publicationNodes id = some s.next := by
    simp [createdState]
  have hnew : (createdState s id ps).heap s.next =
      some { publication := ⟨id⟩
             parents := insertAll (ps.filterMap s.publicationNodes) []
             children := []
             myMapIterator := some id } := by
    simp [createdState]
  have hok : ∀ qs, qs.Perm ps → create s id qs = .ok (createdState s id ps) := by
    intro qs hq
    have hqne : qs ≠ [] := by
      intro e
      rw [e] at hq
      exact hne hq.symm.eq_nil
    have hqs : ∀ p ∈ qs, s.exists p = true := fun p hp => hps p (hq.mem_iff.1 hp)
    have hown := createdState_owned h id hqne hqs
    rw [create_eq h id qs hid hqs]
    rw [createdState_perm s id hq] at hown ⊢
    simp only [release, hown, if_true]
  refine ⟨createdState s id ps, _, hok ps (List.Perm.refl ps),
    ht.get_parents_eq hmapid hnew, ?_, hok⟩
  have hmem : ∀ x, x ∈ (insertAll (ps.filterMap s.publicationNodes) []).filterMap
      (fun c => ((createdState s id ps).heap c).map (fun m => m.publication.get_id)) ↔
      x ∈ ps := by
    intro x
    simp only [List.mem_filterMap, mem_insertAll, List.not_mem_nil, or_false,
      Option.map_eq_some']
    constructor
    · rintro ⟨a, ⟨pid, hpid, hpa⟩, m, hm, hx⟩
      obtain ⟨m2, hm2, hx2⟩ := ht.entry pid a (by
        have hne2 : pid ≠ id := by
          intro e; rw [e, h.not_exists hid] at hpa; cases hpa
        simpa [createdState, hne2] using hpa)
      rw [hm] at hm2; cases hm2
      rw [← hx, hx2]; exact hpid
    · intro hx
      obtain ⟨a, n, h1, h2⟩ := (CitationGraph.exists_iff s x).1 (hps x hx)
      have hne2 : x ≠ id := by
        intro e; rw [e, h.not_exists hid] at h1; cases h1
      obtain ⟨m2, hm2, hx2⟩ := ht.entry x a (by simpa [createdState, hne2] using h1)
      exact ⟨a, ⟨x, hx, h1⟩, m2, hm2, hx2⟩
  have hnodup := ht.nodup_ids
    (sorted_nodup (sorted_insertAll (ps.filterMap s.publicationNodes) [] List.sorted_nil))
  exact (List.perm_ext_iff_of_nodup hnodup hnd).2 hmem

theorem create_parents_any_order_witness :
    ∃ s t : CitationGraph Nat,
      runCalls [.create 1 [0], .create 2 [0]] (new 0) = some s ∧
      create s 3 [2, 1] = .ok t ∧ create s 3 [1, 2] = .ok t ∧
      ∃ l, get_parents t 3 = .ok l ∧ l.Perm [2, 1] := by
  obtain ⟨s, hs, hP⟩ := runCalls_test [.create 1 [0], .create 2 [0]] (new (0 : Nat))
    (fun s => !s.exists 3 && s.exists 2 && s.exists 1) (by decide)
  simp only [Bool.and_eq_true, Bool.not_eq_true'] at hP
  obtain ⟨t, l, h1, h2, h3, h4⟩ := create_parents_any_order s 3 [2, 1]
    ((Reachable.new 0).runCalls _ hs) hP.1.1 (by decide) (by decide)
    (by
      intro p hp
      simp only [List.mem_cons, List.mem_singleton, List.not_mem_nil, or_false] at hp
      rcases hp with e | e
      · rw [e]; exact hP.1.2
      · rw [e]; exact hP.2)
  exact ⟨s, t, hs, h1, h4 [1, 2] (List.Perm.swap 2 1 []), l, h2, h3⟩

/-- C29, the code at the failing input the claim names: after `create(1,[0])`,
`create(2,[0])`, `create(3,[1,2])` and `remove(1)` on the graph with root `0`, the id
`3` exists and is not the root id, and `1` does not exist; the parent set of the
node of `3` still holds the address of the destroyed node of `1` (the destructor
did not drop it), and `remove(3)` has undefined behaviour: it locks that expired
`weak_ptr` and dereferences the null pointer. -/
theorem remove_after_one_parent_removed :
    ∃ s : CitationGraph Nat,
      runCalls [.create 1 [0], .create 2 [0], .create 3 [1, 2], .remove 1] (new 0) = some s ∧
      Reachable s ∧ s.exists 3 = true ∧ get_root_id s = some 0 ∧ s.exists 1 = false ∧
      (∃ a n p, s.publicationNodes 3 = some a ∧ s.heap a = some n ∧ p ∈ n.parents ∧
        s.heap p = none) ∧
      remove s 3 = .undefined := by
  obtain ⟨s, hs, hP⟩ := runCalls_test
    [.create 1 [0], .create 2 [0], .create 3 [1, 2], .remove 1] (new (0 : Nat))
    (fun s => s.exists 3 && decide (get_root_id s = some 0) && !s.exists 1 &&
      (match s.publicationNodes 3 with
        | some a =>
          match s.heap a with
          | some n => decide (a = 3 ∧ n.parents = [1, 2]) && (s.heap 1).isNone
          | none => false
        | none => false) &&
      (remove s 3).isUndefined) (by decide)
  simp only [Bool.and_eq_true, decide_eq_true_iff, isUndefined_iff, Bool.not_eq_true'] at hP
  obtain ⟨⟨⟨⟨h1, h2⟩, h3⟩, h4⟩, h5⟩ := hP
  refine ⟨s, hs, (Reachable.new 0).runCalls _ hs, h1, h2, h3, ?_, h5⟩
  cases ha : s.publicationNodes 3 with
  | none => rw [ha] at h4; cases h4
  | some a =>
    rw [ha] at h4
    cases hn : s.heap a with
    | none => simp [hn] at h4
    | some n =>
      simp only [hn, Bool.and_eq_true, decide_eq_true_iff, Option.isNone_iff_eq_none] at h4
      exact ⟨a, n, 1, rfl, hn, by rw [h4.1.2]; decide, h4.2⟩

/-- C30: in every reachable state, when `remove(id)` returns, every id that exists
afterwards existed before, `get_children` of it returns the list it returned before
without `id`, and `get_parents` of it returns the list it returned before without
the ids that no longer exist; and every id that existed before and does not exist
afterwards is `id` or was reachable from `id` along owning edges. -/
theorem remove_leaves_survivors (s t : CitationGraph ι) (id : ι) (hs : Reachable s)
    (hr : remove s id = .ok t) :
    (∀ x, t.exists x = true →
      s.exists x = true ∧
      (∃ l, get_children s x = .ok l ∧ get_children t x = .ok (l.filter (fun y => y != id))) ∧
      (∃ l, get_parents s x = .ok l ∧
        get_parents t x = .ok (l.filter (fun y => t.exists y)))) ∧
    (∀ y, s.exists y = true → t.exists y = false →
      Relation.ReflTransGen (ChildOf s) id y) := by
  have hI := hs.inv
  have hIt : Inv t := (Reachable.remove id hs (by rw [hr]; rfl)).inv
  obtain ⟨a, n, ha, hn, hroot, hall, hc⟩ := remove_ok_cases hI hs.sym hr
  obtain ⟨a2, n2, ha2, hn2, hta, _, _, _, hdead, hpres⟩ := remove_frame hI hs.sym hr
  rw [ha] at ha2; cases ha2
  rw [hn] at hn2; cases hn2
  obtain ⟨n3, hn3, hnid⟩ := hI.entry id a ha
  rw [hn] at hn3; cases hn3
  have hpres2 : ∀ b m, t.heap b = some m →
      ∃ k, s.heap b = some k ∧ m.publication = k.publication := by
    intro b m hb
    obtain ⟨k, hk, e, _⟩ := hpres b m hb
    exact ⟨k, hk, e⟩
  constructor
  · intro x hx
    obtain ⟨b, hb⟩ := (hIt.exists_iff_entry x).1 hx
    obtain ⟨m, hm, hmid⟩ := hIt.entry x b hb
    obtain ⟨k, hk, epub, epar, hch⟩ := hpres b m hm
    have hkid : k.publication.get_id = x := by rw [← epub, hmid]
    have hreg : s.publicationNodes x = some b := by
      have := hI.registered b k hk
      rwa [hkid] at this
    refine ⟨(hI.exists_iff_entry x).2 ⟨b, hreg⟩, ?_, ?_⟩
    · refine ⟨_, hI.get_children_eq hreg hk, ?_⟩
      rw [hIt.get_children_eq hb hm]
      have hmch : m.children = k.children.filter (fun y => y != a) := by
        refine List.eq_of_perm_of_sorted ?_ (hIt.sorted b m hm).1
          ((hI.sorted b k hk).1.filter _)
        refine (List.perm_ext_iff_of_nodup (sorted_nodup (hIt.sorted b m hm).1)
          ((sorted_nodup (hI.sorted b k hk).1).filter _)).2 ?_
        intro c
        rw [hch c]
        simp
      have hsame : m.children.filterMap
          (fun c => (t.heap c).map (fun m => m.publication.get_id)) =
          m.children.filterMap (fun c => (s.heap c).map (fun m => m.publication.get_id)) := by
        apply List.filterMap_congr
        intro c hc2
        obtain ⟨mc, hmc⟩ := hIt.childLive b m c hm hc2
        obtain ⟨kc, hkc, e⟩ := hpres2 c mc hmc
        simp [hmc, hkc, e]
      rw [hsame, hmch, filterMap_ids_filter s hI hn k.children
        (fun c hc2 => hI.childLive b k c hk hc2), hnid]
    · refine ⟨_, hI.get_parents_eq hreg hk, ?_⟩
      rw [hIt.get_parents_eq hb hm, epar, parents_after hI hIt hdead hpres2]
  · intro y hy hty
    obtain ⟨b, hb⟩ := (hI.exists_iff_entry y).1 hy
    obtain ⟨k, hk, hkid⟩ := hI.entry y b hb
    have hgone : t.heap b = none := by
      cases htb : t.heap b with
      | none => rfl
      | some m =>
        have := (exists_after hI hIt hpres2 hk).2 ⟨m, htb⟩
        rw [hkid, hty] at this
        cases this
    have hlive : ∃ m, (eraseEntry (unlinkAll s a n.parents) id).heap b = some m := by
      simp only [eraseEntry_heap, unlinkAll_heap, hk, Option.map_some']
      split
      · exact ⟨_, rfl⟩
      · exact ⟨_, rfl⟩
    obtain ⟨m, hm⟩ := hlive
    obtain ⟨x, hx, hp⟩ := cascade_reach _ _ _ _ hc b m hm hgone
    simp only [List.mem_singleton] at hx
    subst hx
    have hp2 : Relation.ReflTransGen (Edge s) x b := by
      refine Relation.ReflTransGen.mono ?_ hp
      rintro p q ⟨k2, hk2, hq⟩
      simp only [eraseEntry_heap, unlinkAll_heap] at hk2
      cases hkp : s.heap p with
      | none => simp [hkp] at hk2
      | some kp =>
        simp only [hkp, Option.map_some'] at hk2
        split at hk2
        · cases hk2
          simp only [Node.removeChild, mem_setErase] at hq
          exact ⟨kp, hkp, hq.1⟩
        · cases hk2
          exact ⟨k2, hkp, hq⟩
    obtain ⟨ny, hny, hpath⟩ := hI.reach_childOf hn hp2
    rw [hk] at hny; cases hny
    rwa [hnid, hkid] at hpath

theorem remove_leaves_survivors_witness :
    ∃ s t : CitationGraph Nat,
      runCalls [.create 1 [0], .create 2 [1], .create 3 [0, 1]] (new 0) = some s ∧
      remove s 1 = .ok t ∧ t.exists 3 = true ∧ t.exists 2 = false ∧
      get_children t 0 = .ok [3] ∧ get_parents t 3 = .ok [0] ∧
      (∀ x, t.exists x = true →
        s.exists x = true ∧
        (∃ l, get_children s x = .ok l ∧
          get_children t x = .ok (l.filter (fun y => y != 1))) ∧
        (∃ l, get_parents s x = .ok l ∧
          get_parents t x = .ok (l.filter (fun y => t.exists y)))) ∧
      (∀ y, s.exists y = true → t.exists y = false →
        Relation.ReflTransGen (ChildOf s) 1 y) := by
  obtain ⟨s, hs, hP⟩ := runCalls_test [.create 1 [0], .create 2 [1], .create 3 [0, 1]]
    (new (0 : Nat))
    (fun s =>
      match remove s 1 with
      | .ok t => t.exists 3 && !t.exists 2 && decide (get_children t 0 = .ok [3]) &&
          decide (get_parents t 3 = .ok [0])
      | _ => false) (by decide)
  cases hr : remove s 1 with
  | ok t =>
    rw [hr] at hP
    simp only [Bool.and_eq_true, decide_eq_true_iff, Bool.not_eq_true'] at hP
    obtain ⟨⟨⟨h1, h2⟩, h3⟩, h4⟩ := hP
    exact ⟨s, t, hs, hr, h1, h2, h3, h4,
      remove_leaves_survivors s t 1 ((Reachable.new 0).runCalls _ hs) hr⟩
  | threw e t => rw [hr] at hP; cases hP
  | undefined => rw [hr] at hP; cases hP
  | outOfFuel => rw [hr] at hP; cases hP

/-- C31 fails as stated for the empty parent list: `create(1, [])` on the graph
with root `0` returns normally, but the id `1` does not exist afterwards. -/
theorem empty_parent_list_registers_nothing :
    ∃ t, create (new (0 : Nat)) 1 [] = .ok t ∧ t.exists 1 = false ∧
      ∀ x, t.exists x = (new (0 : Nat)).exists x :=
  ⟨_, create_nil_eq (new 0) 1 (Reachable.new 0) (by decide), by decide, fun _ => rfl⟩

/-- The amended C31: in every reachable state, a call `create(id, [p1..pk])` with a
parent list that is not empty and that returns normally changes nothing but the
new node and its links: an id exists afterwards if and only if it existed before
or is `id`, `get_children(id)` is empty, `get_children` of every named parent is
the old list with `id`, which was not in it, put in at one place (the set is
ordered by address, so the place is the one the address of the new node gives it,
and the old children keep their order), `get_children` of every other id and
`get_parents` of every id other than `id` answer as before. -/
theorem create_changes_only_new_links (s t : CitationGraph ι) (id : ι) (ps : List ι)
    (hs : Reachable s) (hne : ps ≠ []) (hc : create s id ps = .ok t) :
    (∀ x, t.exists x = (s.exists x || decide (x = id))) ∧
    get_children t id = .ok [] ∧
    (∀ p ∈ ps, ∃ l1 l2, get_children s p = .ok (l1 ++ l2) ∧
      get_children t p = .ok (l1 ++ id :: l2) ∧ id ∉ l1 ++ l2) ∧
    (∀ x, x ≠ id → x ∉ ps → get_children t x = get_children s x) ∧
    (∀ x, x ≠ id → get_parents t x = get_parents s x) := by
  obtain ⟨hid, hps, e⟩ := create_ok_eq hs.inv hne hc
  subst e
  obtain ⟨h1, h2, h3, h4, h5⟩ := createdState_frame hs.inv id ps hid hps
  refine ⟨h1, h2, fun p hp => ?_, h4, h5⟩
  obtain ⟨l, hl, hl2⟩ := h3 p hp
  refine ⟨l, [], by rw [List.append_nil]; exact hl, hl2, ?_⟩
  rw [List.append_nil]
  intro hmem
  have := hs.inv.childOf_exists ⟨l, hl, hmem⟩
  rw [hid] at this
  cases this

theorem create_changes_only_new_links_witness :
    ∃ s t : CitationGraph Nat, Reachable s ∧ [(0 : Nat)] ≠ [] ∧ create s 3 [0] = .ok t ∧
      get_children s 0 = .ok [2] ∧
      (∀ x, t.exists x = (s.exists x || decide (x = 3))) ∧
      get_children t 3 = .ok [] ∧
      (∀ p ∈ [(0 : Nat)], ∃ l1 l2, get_children s p = .ok (l1 ++ l2) ∧
        get_children t p = .ok (l1 ++ 3 :: l2) ∧ 3 ∉ l1 ++ l2) ∧
      (∀ x, x ≠ 3 → x ∉ [(0 : Nat)] → get_children t x = get_children s x) ∧
      (∀ x, x ≠ 3 → get_parents t x = get_parents s x) := by
  obtain ⟨s, hs, hP⟩ := runCalls_test [.create 1 [0], .create 2 [0], .remove 1]
    (new (0 : Nat))
    (fun s => !s.exists 3 && s.exists 0 && decide (get_children s 0 = .ok [2])) (by decide)
  simp only [Bool.and_eq_true, Bool.not_eq_true', decide_eq_true_iff] at hP
  obtain ⟨⟨h3, h0⟩, hch⟩ := hP
  have hR := (Reachable.new 0).runCalls _ hs
  have hc : create s 3 [0] = .ok (createdState s 3 [0]) :=
    create_returns hR.inv 3 (by decide) h3 (by simpa using h0)
  exact ⟨s, _, hR, by decide, hc, hch,
    create_changes_only_new_links s _ 3 [0] hR (by decide) hc⟩

/-- C32: `create` and `remove` keep the owning edges acyclic.  A call of one of them
on a reachable state in which no id is reachable from itself along one or more
owning edges leaves such a state, whether it returns or throws; and in every state
reached from a freshly constructed graph by calls of `create` and `remove` only, no
id is reachable from itself along one or more owning edges. -/
theorem create_remove_keep_acyclic (r : ι) (cs : List (Call ι)) (s : CitationGraph ι)
    (hcs : ∀ c ∈ cs, c.isAddCitation = false) (hrun : runCalls cs (new r) = some s) :
    (∀ x, ¬ Relation.TransGen (ChildOf s) x x) ∧
    ∀ (c : Call ι) (t : CitationGraph ι), c.isAddCitation = false → (c.run s).state = some t →
      ∀ x, ¬ Relation.TransGen (ChildOf t) x x := by
  have hs : Reachable s := (Reachable.new r).runCalls cs hrun
  have hac := runCalls_acyclic cs (Reachable.new r) hcs hrun
    (fun x hx => by
      rcases Relation.TransGen.head'_iff.1 hx with ⟨c, hc, _⟩
      exact new_childOf r x c hc)
  exact ⟨hac, fun c t hc hrun2 => run_acyclic c hs hc hrun2 hac⟩

theorem create_remove_keep_acyclic_witness :
    ∃ s : CitationGraph Nat,
      (∀ c ∈ [Call.create 1 [0], .create 2 [0, 1], .create 3 [2], .remove 1, .remove 0],
        c.isAddCitation = false) ∧
      runCalls [.create 1 [0], .create 2 [0, 1], .create 3 [2], .remove 1, .remove 0]
        (new (0 : Nat)) = some s ∧
      (∀ x, ¬ Relation.TransGen (ChildOf s) x x) ∧
      ∀ (c : Call Nat) (t : CitationGraph Nat), c.isAddCitation = false →
        (c.run s).state = some t → ∀ x, ¬ Relation.TransGen (ChildOf t) x x := by
  obtain ⟨s, hs, _⟩ := runCalls_test
    [.create 1 [0], .create 2 [0, 1], .create 3 [2], .remove 1, .remove 0] (new (0 : Nat))
    (fun _ => true) (by decide)
  exact ⟨s, by decide, hs, create_remove_keep_acyclic 0 _ s (by decide) hs⟩

/-- C33: in every reachable state in which no id is reachable from itself along one
or more owning edges, every id that exists is the root id or reachable from the
root id along owning edges; and this is so again after every call of `remove` that
returns, whatever it has reclaimed. -/
theorem existing_ids_hang_on_root (s : CitationGraph ι) (r : ι) (hs : Reachable s)
    (hr : get_root_id s = some r) (hac : ∀ x, ¬ Relation.TransGen (ChildOf s) x x) :
    (∀ id, s.exists id = true → Relation.ReflTransGen (ChildOf s) r id) ∧
    ∀ t x, remove s x = .ok t →
      get_root_id t = some r ∧
        ∀ id, t.exists id = true → Relation.ReflTransGen (ChildOf t) r id := by
  refine ⟨fun id he => hs.reach_of_exists hr hac he, fun t x hrm => ?_⟩
  have ht : Reachable t := Reachable.remove x hs (by rw [hrm]; rfl)
  have hrt : get_root_id t = some r := by rw [remove_root_id hs hrm]; exact hr
  have hact : ∀ y, ¬ Relation.TransGen (ChildOf t) y y :=
    fun y hy => hac y (Relation.TransGen.mono (remove_childOf hs hrm) hy)
  exact ⟨hrt, fun id he => ht.reach_of_exists hrt hact he⟩

theorem existing_ids_hang_on_root_witness :
    ∃ s u : CitationGraph Nat, Reachable s ∧ get_root_id s = some 0 ∧
      (∀ x, ¬ Relation.TransGen (ChildOf s) x x) ∧
      remove s 1 = .ok u ∧ u.exists 2 = false ∧ u.exists 3 = false ∧ u.exists 4 = true ∧
      (∀ id, s.exists id = true → Relation.ReflTransGen (ChildOf s) 0 id) ∧
      ∀ t x, remove s x = .ok t →
        get_root_id t = some 0 ∧
          ∀ id, t.exists id = true → Relation.ReflTransGen (ChildOf t) 0 id := by
  obtain ⟨s, hs, hP⟩ := runCalls_test
    [.create 1 [0], .create 2 [1], .create 3 [2], .create 4 [0]] (new (0 : Nat))
    (fun s => decide (get_root_id s = some 0) &&
      (match remove s 1 with
        | .ok u => !u.exists 2 && !u.exists 3 && u.exists 4
        | _ => false)) (by decide)
  simp only [Bool.and_eq_true, decide_eq_true_iff] at hP
  obtain ⟨h0, h1⟩ := hP
  have hR := (Reachable.new 0).runCalls _ hs
  have hac : ∀ x, ¬ Relation.TransGen (ChildOf s) x x :=
    runCalls_acyclic _ (Reachable.new 0) (by decide) hs
      (fun x hx => by
        rcases Relation.TransGen.head'_iff.1 hx with ⟨c, hc, _⟩
        exact new_childOf 0 x c hc)
  cases hu : remove s 1 with
  | ok u =>
    rw [hu] at h1
    simp only [Bool.and_eq_true, Bool.not_eq_true'] at h1
    exact ⟨s, u, hR, h0, hac, hu, h1.1.1, h1.1.2, h1.2,
      existing_ids_hang_on_root s 0 hR h0 hac⟩
  | threw e t => rw [hu] at h1; cases h1
  | undefined => rw [hu] at h1; cases h1
  | outOfFuel => rw [hu] at h1; cases h1

/-- C34: in every reachable state (with or without a cycle of owning edges) and for
every existing id other than the root id, the reclamation that `remove(id)` starts
terminates.  When the loop of `remove` has taken the node out of the `children` set
of its parents, the release of the local `toRemove` returns within the number of
steps given to it, `remove` returns what it returns, and the nodes destroyed on the
way are finitely many, each destroyed once: they are listed without repetition, and
they are the nodes that are on the heap before the call and not after it.  The only
other case is that the loop meets an expired element of the parent set; then
`remove` dereferences a null pointer before any destructor has run. -/
theorem remove_cascade_terminates (s : CitationGraph ι) (id : ι) (hs : Reachable s)
    (hid : s.exists id = true) (hroot : get_root_id s ≠ some id) :
    ∃ a n, s.publicationNodes id = some a ∧ s.heap a = some n ∧
      (removeFromParents a n.parents s = none → remove s id = .undefined) ∧
      ∀ s1, removeFromParents a n.parents s = some s1 →
        ∃ t, release s1 a = .ok t ∧ remove s id = .ok t ∧
          (releaseLog s1 a).Nodup ∧
          ∀ b, b ∈ releaseLog s1 a ↔ ((s.heap b).isSome = true ∧ t.heap b = none) := by
  have h := hs.inv
  obtain ⟨a, n, ha, hn⟩ := (CitationGraph.exists_iff s id).1 hid
  refine ⟨a, n, ha, hn, ?_, ?_⟩
  · intro hnone
    rw [removeFromParents_eq] at hnone
    rw [remove_eq h ha hn hroot]
    split at hnone
    · cases hnone
    · rename_i hall
      simp only [hall, Bool.false_eq_true, if_false]
  · intro s1 hs1
    rw [removeFromParents_eq] at hs1
    split at hs1
    · rename_i hall
      simp only [Option.some.injEq] at hs1
      subst hs1
      have hI1 := unlinkAll_inv h a n.parents
      have hn1 : ∃ m, (unlinkAll s a n.parents).heap a = some m := by
        simp only [unlinkAll_heap, hn]
        split
        · exact ⟨_, rfl⟩
        · exact ⟨_, rfl⟩
      obtain ⟨m, hm⟩ := hn1
      obtain ⟨t, ht⟩ := release_returns hI1 hm
      obtain ⟨hnd, hmem⟩ := releaseLog_spec ht
      refine ⟨t, ht, ?_, hnd, fun b => ?_⟩
      · rw [remove_eq h ha hn hroot]
        simp only [hall, if_true]
        exact ht
      · rw [hmem b]
        have : ((unlinkAll s a n.parents).heap b).isSome = (s.heap b).isSome := by
          simp only [unlinkAll_heap]
          split <;> cases s.heap b <;> rfl
        rw [this]
    · cases hs1

theorem remove_cascade_terminates_witness :
    ∃ s : CitationGraph Nat, Reachable s ∧ s.exists 1 = true ∧ get_root_id s ≠ some 1 ∧
      (∃ s1 t, removeFromParents 1 [0] s = some s1 ∧ release s1 1 = .ok t ∧
        releaseLog s1 1 = [3, 2, 1]) ∧
      ∃ a n, s.publicationNodes 1 = some a ∧ s.heap a = some n ∧
        (removeFromParents a n.parents s = none → remove s 1 = .undefined) ∧
        ∀ s1, removeFromParents a n.parents s = some s1 →
          ∃ t, release s1 a = .ok t ∧ remove s 1 = .ok t ∧
            (releaseLog s1 a).Nodup ∧
            ∀ b, b ∈ releaseLog s1 a ↔ ((s.heap b).isSome = true ∧ t.heap b = none) := by
  obtain ⟨s, hs, hP⟩ := runCalls_test
    [.create 1 [0], .create 2 [1], .create 3 [2], .create 4 [0]] (new (0 : Nat))
    (fun s => s.exists 1 && decide (get_root_id s ≠ some 1) &&
      (match removeFromParents 1 [0] s with
        | some s1 => (release s1 1).isOk && decide (releaseLog s1 1 = [3, 2, 1])
        | none => false)) (by decide)
  simp only [Bool.and_eq_true, decide_eq_true_iff] at hP
  obtain ⟨⟨h0, h1⟩, h2⟩ := hP
  have hR := (Reachable.new 0).runCalls _ hs
  refine ⟨s, hR, h0, h1, ?_, remove_cascade_terminates s 1 hR h0 h1⟩
  cases hrm : removeFromParents 1 [0] s with
  | none => rw [hrm] at h2; cases h2
  | some s1 =>
    rw [hrm] at h2
    simp only [Bool.and_eq_true, decide_eq_true_iff] at h2
    cases hrel : release s1 1 with
    | ok t => exact ⟨s1, t, rfl, hrel, h2.2⟩
    | threw e t => rw [hrel] at h2; simp [Outcome.isOk] at h2
    | undefined => rw [hrel] at h2; simp [Outcome.isOk] at h2
    | outOfFuel => rw [hrel] at h2; simp [Outcome.isOk] at h2

/-- C35: in every reachable state, `get_parents` of an existing id other than the
root id returns a list that is not empty, and every id in it exists. -/
theorem non_root_has_live_parent (s : CitationGraph ι) (id : ι) (hs : Reachable s)
    (hid : s.exists id = true) (hroot : get_root_id s ≠ some id) :
    ∃ l, get_parents s id = .ok l ∧ l ≠ [] ∧ ∀ p ∈ l, s.exists p = true := by
  have h := hs.inv
  have hsym := hs.sym
  obtain ⟨a, n, ha, hn⟩ := (CitationGraph.exists_iff s id).1 hid
  have hne : a ≠ s.root := fun e => h.root_ne ha hroot e.symm
  obtain ⟨p, k, hk, hak⟩ := hsym.owner a n hn (List.not_mem_nil a) hne
  obtain ⟨m, hm, hpm⟩ := hsym.childParent p k a hk hak
  rw [hn] at hm; cases hm
  refine ⟨_, h.get_parents_eq ha hn, ?_, ?_⟩
  · intro e
    have : k.publication.get_id ∈ n.parents.filterMap
        (fun c => (s.heap c).map (fun m => m.publication.get_id)) := by
      simp only [List.mem_filterMap, Option.map_eq_some']
      exact ⟨p, hpm, k, hk, rfl⟩
    rw [e] at this
    exact List.not_mem_nil _ this
  · intro q hq
    exact h.parentOf_exists ⟨_, h.get_parents_eq ha hn, hq⟩

theorem non_root_has_live_parent_witness :
    ∃ s : CitationGraph Nat, Reachable s ∧ s.exists 2 = true ∧ get_root_id s ≠ some 2 ∧
      ∃ l, get_parents s 2 = .ok l ∧ l ≠ [] ∧ ∀ p ∈ l, s.exists p = true := by
  obtain ⟨s, hs, hP⟩ := runCalls_test [.create 1 [0], .create 2 [1, 0], .remove 1]
    (new (0 : Nat)) (fun s => s.exists 2 && decide (get_root_id s ≠ some 2)) (by decide)
  simp only [Bool.and_eq_true, decide_eq_true_iff] at hP
  have hR := (Reachable.new 0).runCalls _ hs
  exact ⟨s, hR, hP.1, hP.2, non_root_has_live_parent s 2 hR hP.1 hP.2⟩

/-- C36: in every reachable state, `create(id, [])` with an id that does not exist
returns normally and leaves the graph as it was: the id does not exist afterwards,
and `exists`, `get_children`, `get_parents` and `get_root_id` answer as before for
every id. -/
theorem create_without_parents (s : CitationGraph ι) (id : ι) (hs : Reachable s)
    (hid : s.exists id = false) :
    ∃ t, create s id [] = .ok t ∧ t.exists id = false ∧
      (∀ x, t.exists x = s.exists x) ∧
      (∀ x, get_children t x = get_children s x) ∧
      (∀ x, get_parents t x = get_parents s x) ∧
      get_root_id t = get_root_id s := by
  refine ⟨_, create_nil_eq s id hs hid, hid, fun _ => rfl, fun x => ?_, fun _ => rfl, rfl⟩
  have hi : ∀ l, idsOf { s with next := s.next + 1 } l = idsOf s l :=
    idsOf_congr (fun _ => rfl)
  simp only [get_children, find, hi]

theorem create_without_parents_witness :
    Reachable (new (0 : Nat)) ∧ (new (0 : Nat)).exists 1 = false ∧
      ∃ t, create (new (0 : Nat)) 1 [] = .ok t ∧ t.exists 1 = false ∧
        (∀ x, t.exists x = (new (0 : Nat)).exists x) ∧
        (∀ x, get_children t x = get_children (new (0 : Nat)) x) ∧
        (∀ x, get_parents t x = get_parents (new (0 : Nat)) x) ∧
        get_root_id t = get_root_id (new (0 : Nat)) :=
  ⟨Reachable.new 0, by decide,
    create_without_parents (new 0) 1 (Reachable.new 0) (by decide)⟩

/-- C37: `add_citation` makes no cycle check.  In every reachable state and for
every existing id `x`, the root id included, `add_citation(x, x)` returns
normally; afterwards `get_children(x)` and `get_parents(x)` both contain `x`, so
`x` is reachable from itself along an owning edge. -/
theorem add_citation_self_loop (s : CitationGraph ι) (x : ι) (hs : Reachable s)
    (hx : s.exists x = true) :
    ∃ t, add_citation s x x = .ok t ∧
      (∃ l, get_children t x = .ok l ∧ x ∈ l) ∧
      (∃ l, get_parents t x = .ok l ∧ x ∈ l) ∧
      Relation.TransGen (ChildOf t) x x := by
  have h := hs.inv
  obtain ⟨a, n, ha, hn⟩ := (CitationGraph.exists_iff s x).1 hx
  obtain ⟨n2, hn2, hid⟩ := h.entry x a ha
  rw [hn] at hn2; cases hn2
  have ht := citedState_inv h hn hn
  have hmap : (citedState s a a).publicationNodes x = some a := by
    simpa [citedState] using ha
  have hnode : (citedState s a a).heap a =
      some { n with parents := setInsert a n.parents, children := setInsert a n.children } := by
    rw [citedState_heap, hn]; simp
  have hc : ∃ l, get_children (citedState s a a) x = .ok l ∧ x ∈ l := by
    refine ⟨_, ht.get_children_eq hmap hnode, ?_⟩
    simp only [List.mem_filterMap, Option.map_eq_some']
    exact ⟨a, by simp [mem_setInsert], _, hnode, hid⟩
  refine ⟨citedState s a a, add_citation_eq h ha ha, hc, ?_, Relation.TransGen.single hc⟩
  refine ⟨_, ht.get_parents_eq hmap hnode, ?_⟩
  simp only [List.mem_filterMap, Option.map_eq_some']
  exact ⟨a, by simp [mem_setInsert], _, hnode, hid⟩

theorem add_citation_self_loop_witness :
    Reachable (new (0 : Nat)) ∧ (new (0 : Nat)).exists 0 = true ∧
      ∃ t, add_citation (new (0 : Nat)) 0 0 = .ok t ∧
        (∃ l, get_children t 0 = .ok l ∧ 0 ∈ l) ∧
        (∃ l, get_parents t 0 = .ok l ∧ 0 ∈ l) ∧
        Relation.TransGen (ChildOf t) 0 0 :=
  ⟨Reachable.new 0, by decide,
    add_citation_self_loop (new 0) 0 (Reachable.new 0) (by decide)⟩

end CitationGraph

/-! ## Lemmas about the ternary search tree -/

namespace TST

variable {C : Type} [DecidableEq C] [Zero C] [LT C] [DecidableRel ((· < ·) : C → C → Prop)]
set_option linter.unusedSectionVars false

@[simp] theorem charAt_nil (i : Nat) : charAt ([] : List C) i = 0 := by
  simp [charAt]

@[simp] theorem charAt_cons_zero (c : C) (rest : List C) : charAt (c :: rest) 0 = c := by
  simp [charAt]

@[simp] theorem charAt_cons_succ (c : C) (rest : List C) (i : Nat) :
    charAt (c :: rest) (i + 1) = charAt rest i := by
  simp [charAt]

/-- The tree built from a non-empty string holds it. -/
theorem exist_new : ∀ (s : List C), charAt s 0 ≠ 0 → exist (new s) s = true
  | [], h => absurd (charAt_nil 0) h
  | c :: rest, h => by
    have hc : c ≠ 0 := by simpa using h
    by_cases hr : charAt rest 0 = 0
    · simp [new, exist, hc, hr]
    · simp [new, exist, hc, hr, exist_new rest hr]

/-- The word just added is in the tree. -/
theorem exist_add (t : TST C) : ∀ (s : List C), charAt s 0 ≠ 0 → exist (add t s) s = true := by
  induction t with
  | dflt => intro s h; exact exist_new s h
  | node l c r e d ihl ihc ihr =>
    intro s h
    by_cases hd : d = 0
    · simp only [add, hd, if_true]
      exact exist_new s h
    · by_cases heq : charAt s 0 = d
      · by_cases h1 : charAt s 1 = 0
        · simp [add, exist, hd, h, heq, h1]
        · have ht : charAt s.tail 0 ≠ 0 := by
            cases s with
            | nil => simp at h
            | cons a rest => simpa using h1
          simp [add, exist, hd, h, heq, h1, ihc s.tail ht]
      · by_cases hlt : charAt s 0 < d
        · simp [add, exist, hd, h, heq, hlt, ihl s h]
        · simp [add, exist, hd, h, heq, hlt, ihr s h]

/-- A tree built from a proper extension of a word does not hold the word. -/
theorem exist_new_extension : ∀ (w : List C) (c : C) (rest : List C), w ≠ [] →
    (∀ x ∈ w, x ≠ 0) → c ≠ 0 → exist (new (w ++ c :: rest)) w = false
  | [], _, _, h, _, _ => absurd rfl h
  | [a], c, rest, _, h0, hc => by
    have ha : a ≠ 0 := h0 a (List.mem_singleton_self a)
    simp [new, exist, ha, hc]
  | a :: b :: w, c, rest, _, h0, hc => by
    have ha : a ≠ 0 := h0 a (List.mem_cons_self _ _)
    have hb : b ≠ 0 := h0 b (List.mem_cons_of_mem _ (List.mem_cons_self _ _))
    have ih := exist_new_extension (b :: w) c rest (List.cons_ne_nil _ _)
      (fun x hx => h0 x (List.mem_cons_of_mem _ hx)) hc
    simp only [List.cons_append] at ih ⊢
    rw [new]
    simp [exist, ha, hb, ih]

/-- Adding a proper extension of a word takes the word out of the tree, whether it
was there or not: the node of the last character of the word is rebuilt with
`isEndOfWord` false. -/
theorem exist_add_extension (t : TST C) : ∀ (w : List C) (c : C) (rest : List C), w ≠ [] →
    (∀ x ∈ w, x ≠ 0) → c ≠ 0 → exist (add t (w ++ c :: rest)) w = false := by
  induction t with
  | dflt => intro w c rest h h0 hc; exact exist_new_extension w c rest h h0 hc
  | node l cn r e d ihl ihc ihr =>
    intro w c rest h h0 hc
    by_cases hd : d = 0
    · simp only [add, hd, if_true]
      exact exist_new_extension w c rest h h0 hc
    · match w, h, h0 with
      | [a], _, h0 =>
        have ha : a ≠ 0 := h0 a (List.mem_singleton_self a)
        by_cases heq : a = d
        · simp [add, exist, hd, ha, heq, hc]
        · by_cases hlt : a < d
          · have := ihl [a] c rest (List.cons_ne_nil _ _) h0 hc
            simp only [List.cons_append, List.nil_append] at this
            simp [add, exist, hd, ha, heq, hlt, this]
          · have := ihr [a] c rest (List.cons_ne_nil _ _) h0 hc
            simp only [List.cons_append, List.nil_append] at this
            simp [add, exist, hd, ha, heq, hlt, this]
      | a :: b :: w, _, h0 =>
        have ha : a ≠ 0 := h0 a (List.mem_cons_self _ _)
        have hb : b ≠ 0 := h0 b (List.mem_cons_of_mem _ (List.mem_cons_self _ _))
        by_cases heq : a = d
        · have := ihc (b :: w) c rest (List.cons_ne_nil _ _)
            (fun x hx => h0 x (List.mem_cons_of_mem _ hx)) hc
          simp only [List.cons_append] at this
          simp [add, exist, hd, ha, hb, heq, this]
        · by_cases hlt : a < d
          · have := ihl (a :: b :: w) c rest (List.cons_ne_nil _ _) h0 hc
            simp only [List.cons_append] at this
            simp [add, exist, hd, ha, hb, heq, hlt, this]
          · have := ihr (a :: b :: w) c rest (List.cons_ne_nil _ _) h0 hc
            simp only [List.cons_append] at this
            simp [add, exist, hd, ha, hb, heq, hlt, this]

theorem prefixHelper_nil (t : TST C) : prefixHelper t [] = 0 := by
  cases t <;> simp [prefixHelper]

/-- A tree that is `empty()` spells nothing. -/
theorem prefixHelper_empty (l c r : TST C) (e : Bool) (s : List C) :
    prefixHelper (node l c r e 0) s = 0 := by
  simp [prefixHelper]

/-- The tree of the empty string spells nothing. -/
theorem prefixHelper_new_empty (w s : List C) (hw : charAt w 0 = 0) :
    prefixHelper (new w) s = 0 := by
  cases w with
  | nil => simp [new, prefixHelper]
  | cons a w =>
    have ha : a = 0 := by simpa using hw
    subst ha
    simp [new, prefixHelper]

/-- The tree of one word, read along a string that starts with the first
character of the word. -/
theorem prefixHelper_new_cons (a : C) (w s : List C) (ha : a ≠ 0) :
    prefixHelper (new (a :: w)) (a :: s) = 1 + prefixHelper (new w) s := by
  rw [new]
  by_cases hw : charAt w 0 = 0
  · simp [prefixHelper, ha, hw, prefixHelper_new_empty w s hw]
  · simp [prefixHelper, ha, hw]

/-- The tree of one word, read along a string that starts with another
character. -/
theorem prefixHelper_new_ne (a b : C) (w s : List C) (hab : a ≠ b) :
    prefixHelper (new (a :: w)) (b :: s) = 0 := by
  rw [new]
  by_cases hb : b = 0
  · simp [prefixHelper, hb]
  · by_cases ha : a = 0
    · simp [prefixHelper, ha]
    · by_cases hlt : b < a <;> simp [prefixHelper, ha, hb, hab, hlt]

/-- The tree `t + w` spells what `t` spells and what the tree of `w` spells. -/
theorem prefixHelper_add (t : TST C) : ∀ (w s : List C),
    prefixHelper (add t w) s = max (prefixHelper t s) (prefixHelper (new w) s) := by
  induction t with
  | dflt => intro w s; simp [add, prefixHelper]
  | node l c r e d ihl ihc ihr =>
    intro w s
    by_cases hd : d = 0
    · subst hd
      simp [add, prefixHelper]
    · by_cases hw : charAt w 0 = 0
      · simp [add, hd, hw, prefixHelper_new_empty w s hw]
      · cases w with
        | nil => simp at hw
        | cons a w =>
          have ha : a ≠ 0 := by simpa using hw
          cases s with
          | nil => simp [prefixHelper_nil]
          | cons b s =>
            by_cases hb : b = 0
            · subst hb
              have h1 : ∀ u : TST C, prefixHelper u (0 :: s) = 0 := by
                intro u; cases u <;> simp [prefixHelper]
              simp [h1]
            · by_cases had : a = d
              · subst had
                by_cases hba : b = a
                · subst hba
                  rw [prefixHelper_new_cons b w s hb]
                  simp only [add, hd, if_false, charAt_cons_zero, ha, if_true, List.tail_cons]
                  simp [prefixHelper, hb, ihc w s, Nat.add_max_add_left]
                · have hab : a ≠ b := fun e => hba e.symm
                  rw [prefixHelper_new_ne a b w s hab]
                  simp only [add, hd, if_false, charAt_cons_zero, ha, if_true, List.tail_cons]
                  by_cases hlt : b < a <;> simp [prefixHelper, hb, hd, hab, hlt]
              · by_cases hlt : a < d
                · simp only [add, hd, if_false, charAt_cons_zero, ha, had, hlt, if_true]
                  by_cases hbd : d = b
                  · subst hbd
                    rw [prefixHelper_new_ne a d w s had]
                    simp [prefixHelper, hb]
                  · by_cases hlt2 : b < d
                    · simp [prefixHelper, hb, hd, hbd, hlt2, ihl (a :: w) (b :: s)]
                    · have hab : a ≠ b := by
                        intro e; subst e; exact hlt2 hlt
                      rw [prefixHelper_new_ne a b w s hab]
                      simp [prefixHelper, hb, hd, hbd, hlt2]
                · simp only [add, hd, if_false, charAt_cons_zero, ha, had, hlt]
                  by_cases hbd : d = b
                  · subst hbd
                    rw [prefixHelper_new_ne a d w s had]
                    simp [prefixHelper, hb]
                  · by_cases hlt2 : b < d
                    · have hab : a ≠ b := by
                        intro e; subst e; exact hlt hlt2
                      rw [prefixHelper_new_ne a b w s hab]
                      simp [prefixHelper, hb, hd, hbd, hlt2]
                    · simp [prefixHelper, hb, hd, hbd, hlt2, ihr (a :: w) (b :: s)]

/-- The function `prefixHelper` never counts past the end of the string. -/
theorem prefixHelper_le (t : TST C) : ∀ s : List C, prefixHelper t s ≤ s.length := by
  induction t with
  | dflt => intro s; simp [prefixHelper]
  | node l c r e d ihl ihc ihr =>
    intro s
    cases s with
    | nil => simp [prefixHelper_nil]
    | cons b s =>
      simp only [prefixHelper, charAt_cons_zero, List.tail_cons, List.length_cons]
      split
      · exact Nat.zero_le _
      · split
        · have := ihc s; omega
        · split
          · exact ihl (b :: s)
          · exact ihr (b :: s)

/-- What the tree of one word spells along a string is a prefix of the word. -/
theorem take_prefixHelper_new : ∀ (w s : List C), s.take (prefixHelper (new w) s) <+: w
  | [], s => by simp [prefixHelper_new_empty [] s (charAt_nil 0)]
  | a :: w, [] => by simp
  | a :: w, b :: s => by
    by_cases ha : a = 0
    · rw [prefixHelper_new_empty (a :: w) (b :: s) (by simpa using ha)]
      simp
    · by_cases hab : a = b
      · subst hab
        rw [prefixHelper_new_cons a w s ha, Nat.add_comm, List.take_succ_cons]
        exact (List.prefix_cons_inj a).2 (take_prefixHelper_new w s)
      · rw [prefixHelper_new_ne a b w s hab]
        simp

/-- The tree of one word spells every common prefix of the word and a string. -/
theorem length_le_prefixHelper_new : ∀ (p w s : List C), (0 : C) ∉ p → p <+: s → p <+: w →
    p.length ≤ prefixHelper (new w) s
  | [], _, _, _, _, _ => Nat.zero_le _
  | x :: p, w, s, h0, hs, hw => by
    obtain ⟨s2, rfl⟩ := hs
    obtain ⟨w2, rfl⟩ := hw
    have hx : x ≠ 0 := fun e => h0 (by rw [e]; exact List.mem_cons_self _ _)
    have h0p : (0 : C) ∉ p := fun h => h0 (List.mem_cons_of_mem _ h)
    have ih := length_le_prefixHelper_new p (p ++ w2) (p ++ s2) h0p
      (List.prefix_append _ _) (List.prefix_append _ _)
    simp only [List.cons_append, List.length_cons]
    rw [prefixHelper_new_cons x _ _ hx]
    omega

/-- After adding words, the tree spells at least what it spelled and what the tree
of each added word spells. -/
theorem prefixHelper_foldl_ge (s : List C) : ∀ (ws : List (List C)) (t : TST C),
    prefixHelper t s ≤ prefixHelper (ws.foldl add t) s ∧
      ∀ w ∈ ws, prefixHelper (new w) s ≤ prefixHelper (ws.foldl add t) s
  | [], t => ⟨Nat.le_refl _, fun w hw => absurd hw (List.not_mem_nil w)⟩
  | v :: ws, t => by
    obtain ⟨h1, h2⟩ := prefixHelper_foldl_ge s ws (add t v)
    rw [prefixHelper_add] at h1
    refine ⟨le_trans (le_max_left _ _) h1, ?_⟩
    intro w hw
    rcases List.mem_cons.1 hw with e | hw2
    · rw [e]; exact le_trans (le_max_right _ _) h1
    · exact h2 w hw2

/-- After adding words, the tree spells what it spelled or what the tree of one of
the added words spells. -/
theorem prefixHelper_foldl_eq (s : List C) : ∀ (ws : List (List C)) (t : TST C),
    prefixHelper (ws.foldl add t) s = prefixHelper t s ∨
      ∃ w ∈ ws, prefixHelper (ws.foldl add t) s = prefixHelper (new w) s
  | [], t => Or.inl rfl
  | v :: ws, t => by
    rcases prefixHelper_foldl_eq s ws (add t v) with h | ⟨w, hw, h⟩
    · rw [prefixHelper_add] at h
      rcases max_choice (prefixHelper t s) (prefixHelper (new v) s) with e | e
      · left; rw [List.foldl_cons, h, e]
      · right; exact ⟨v, List.mem_cons_self _ _, by rw [List.foldl_cons, h, e]⟩
    · right; exact ⟨w, List.mem_cons_of_mem _ hw, h⟩

/-! ## The claims about the ternary search tree -/


/-- C19: for every tree `t` and every non-empty string `s` (its first character
is not `'\0'`), `(t + s).exist(s)` is true, and `TST(s).exist(s)` is true. -/
theorem exist_after_add (t : TST C) (s : List C) (hs : charAt s 0 ≠ 0) :
    exist (add t s) s = true ∧ exist (new s) s = true :=
  ⟨exist_add t s hs, exist_new s hs⟩

theorem exist_after_add_witness :
    charAt [97, 98] 0 ≠ (0 : Nat) ∧
      exist (add (add (new [98, 97]) [97]) [97, 98]) [97, 98] = true ∧
      exist (new [97, 98]) [97, 98] = true :=
  ⟨by decide, exist_after_add (add (new [98, 97]) [97]) [97, 98] (by decide)⟩

/-- C20, the code at a failing input: `TST<char> t("a")` holds `"a"`, and `t + "ab"`
holds `"ab"` but not `"a"` (characters as their codes, `'a'` is `97`). -/
theorem add_longer_word_drops_shorter :
    exist (new [97]) [(97 : Nat)] = true ∧
      exist (add (new [97]) [97, 98]) [(97 : Nat)] = false ∧
      exist (add (new [97]) [97, 98]) [(97 : Nat), 98] = true := by
  decide

/-- C21: for the tree `TST() + w1 + ... + wn` (which is `TST(w1) + w2 + ... + wn`
when there is a first word) and every string `s` without `'\0'` in it, `prefix(s)`
is a prefix of `s`; it is empty when there is no word and a prefix of one of the
words otherwise; and no prefix of `s` that is a prefix of one of the words is
longer. -/
theorem prefixOf_is_longest (ws : List (List C)) (s : List C) (hs : (0 : C) ∉ s) :
    prefixOf (ws.foldl add dflt) s <+: s ∧
    (ws = [] → prefixOf (ws.foldl add dflt) s = []) ∧
    (ws ≠ [] → ∃ w ∈ ws, prefixOf (ws.foldl add dflt) s <+: w) ∧
    (∀ p, p <+: s → (∃ w ∈ ws, p <+: w) →
      p.length ≤ (prefixOf (ws.foldl add dflt) s).length) := by
  refine ⟨List.take_prefix _ _, ?_, ?_, ?_⟩
  · intro e
    subst e
    simp [prefixOf, prefixHelper]
  · intro hne
    rcases prefixHelper_foldl_eq s ws dflt with h | ⟨w, hw, h⟩
    · obtain ⟨w, hw⟩ := List.exists_mem_of_ne_nil ws hne
      refine ⟨w, hw, ?_⟩
      simp [prefixOf, h, prefixHelper]
    · refine ⟨w, hw, ?_⟩
      rw [prefixOf, h]
      exact take_prefixHelper_new w s
  · rintro p hp ⟨w, hw, hpw⟩
    have h0 : (0 : C) ∉ p := fun h => hs (hp.subset h)
    have h1 := length_le_prefixHelper_new p w s h0 hp hpw
    have h2 := (prefixHelper_foldl_ge s ws dflt).2 w hw
    have h3 := prefixHelper_le (ws.foldl add dflt) s
    rw [prefixOf, List.length_take]
    omega

theorem prefixOf_is_longest_witness :
    (0 : Nat) ∉ [97, 98, 120] ∧
      prefixOf ([[97, 98, 99], [97, 100]].foldl add dflt) [97, 98, 120] = [97, 98] ∧
      (prefixOf ([[97, 98, 99], [97, 100]].foldl add dflt) [97, 98, 120] <+: [97, 98, 120] ∧
      (([[97, 98, 99], [97, 100]] : List (List Nat)) = [] →
        prefixOf ([[97, 98, 99], [97, 100]].foldl add dflt) [97, 98, 120] = []) ∧
      (([[97, 98, 99], [97, 100]] : List (List Nat)) ≠ [] →
        ∃ w ∈ [[97, 98, 99], [97, 100]],
          prefixOf ([[97, 98, 99], [97, 100]].foldl add dflt) [97, 98, 120] <+: w) ∧
      (∀ p, p <+: [97, 98, 120] → (∃ w ∈ [[97, 98, 99], [97, 100]], p <+: w) →
        p.length ≤
          (prefixOf ([[97, 98, 99], [97, 100]].foldl add dflt) [97, 98, 120]).length)) :=
  ⟨by decide, by decide, prefixOf_is_longest [[97, 98, 99], [97, 100]] [97, 98, 120] (by decide)⟩

end TST

/-! ## Lemmas about the string sets -/

namespace Strset

theorem mem_insertStr (x z : Str) : ∀ l : List Str, z ∈ insertStr x l ↔ z = x ∨ z ∈ l
  | [] => by simp [insertStr]
  | y :: ys => by
    simp only [insertStr]
    split
    · simp
    · split
      · subst_vars; simp
      · simp [mem_insertStr x z ys]; tauto

theorem length_insertStr (x : Str) : ∀ l : List Str, x ∉ l →
    (insertStr x l).length = l.length + 1
  | [], _ => by simp [insertStr]
  | y :: ys, h => by
    have hxy : x ≠ y := fun e => h (by rw [e]; exact List.mem_cons_self _ _)
    have hys : x ∉ ys := fun hm => h (List.mem_cons_of_mem _ hm)
    simp only [insertStr, hxy, if_false]
    split
    · simp
    · simp [length_insertStr x ys hys]

theorem nodup_insertStr (x : Str) : ∀ l : List Str, x ∉ l → l.Nodup → (insertStr x l).Nodup
  | [], _, _ => by simp [insertStr]
  | y :: ys, h, hn => by
    have hxy : x ≠ y := fun e => h (by rw [e]; exact List.mem_cons_self _ _)
    have hys : x ∉ ys := fun hm => h (List.mem_cons_of_mem _ hm)
    simp only [insertStr, hxy, if_false]
    split
    · exact List.nodup_cons.2 ⟨h, hn⟩
    · rw [List.nodup_cons] at hn ⊢
      refine ⟨?_, nodup_insertStr x ys hys hn.2⟩
      rw [mem_insertStr]
      rintro (e | hm)
      · exact hxy e.symm
      · exact hn.1 hm

theorem mem_eraseStr (x z : Str) (l : List Str) : z ∈ eraseStr x l ↔ z ∈ l ∧ z ≠ x := by
  simp [eraseStr]

theorem nodup_eraseStr (x : Str) (l : List Str) (h : l.Nodup) : (eraseStr x l).Nodup :=
  h.filter _

theorem length_eraseStr (x : Str) : ∀ l : List Str, l.Nodup → x ∈ l →
    (eraseStr x l).length + 1 = l.length
  | [], _, h => absurd h (List.not_mem_nil x)
  | y :: ys, hn, h => by
    rw [List.nodup_cons] at hn
    by_cases hyx : y = x
    · subst hyx
      have : eraseStr y ys = ys := by
        simp only [eraseStr, List.filter_eq_self]
        intro a ha
        simp only [bne_iff_ne, ne_eq]
        intro e; subst e; exact hn.1 ha
      simp only [eraseStr] at this ⊢
      simp [List.filter_cons, this]
    · have hx : x ∈ ys := by
        rcases List.mem_cons.1 h with e | hm
        · exact absurd e.symm hyx
        · exact hm
      have ih := length_eraseStr x ys hn.2 hx
      simp only [eraseStr] at ih ⊢
      simp [List.filter_cons, hyx, ih]

/-- The function `strset42` in closed form: the first call makes a new set, puts
`"42"` into it and remembers its id. -/
theorem strset42_eq (s : State) :
    strset42 s =
      if s.was_it_created then (s.id42, s)
      else (s.next_id,
        { next_id := (s.next_id + 1) % 2 ^ 64
          stored_sets := fun k => if k = s.next_id then some [str42] else s.stored_sets k
          was_it_created := true
          id42 := s.next_id }) := by
  cases hc : s.was_it_created with
  | true => simp [strset42, strset42_using, hc]
  | false =>
    simp only [strset42, strset42_using, hc, strset_new, strset_insert_using, State.put,
      Bool.not_false, if_true, Bool.false_eq_true, if_false]
    simp [insertStr]
    funext k
    split <;> rfl

theorem strset_inv_init : Inv init :=
  ⟨fun _ _ h => by simp [init] at h, fun _ _ h => by simp [init] at h⟩

/-- A write to a set that exists keeps the invariant. -/
theorem Inv.put {s : State} (h : Inv s) {id : Nat} {old set : List Str}
    (hid : s.stored_sets id = some old) (hn : set.Nodup) : Inv (s.put id set) := by
  constructor
  · intro k l hk
    simp only [State.put] at hk
    split at hk
    · cases hk; exact hn
    · exact h.nodup k l hk
  · intro k l hk
    simp only [State.put] at hk
    split at hk
    · subst_vars; exact h.below _ old hid
    · exact h.below k l hk

theorem Inv.drop {s : State} (h : Inv s) (id : Nat) : Inv (s.drop id) := by
  constructor
  · intro k l hk
    simp only [State.drop] at hk
    split at hk
    · cases hk
    · exact h.nodup k l hk
  · intro k l hk
    simp only [State.drop] at hk
    split at hk
    · cases hk
    · exact h.below k l hk

/-- The function `strset_new` keeps the invariant as long as `next_id` does not
wrap around. -/
theorem Inv.strset_new {s : State} (h : Inv s) (hb : s.next_id + 1 < 2 ^ 64) :
    Inv (strset_new s).2 ∧ (strset_new s).2.next_id = s.next_id + 1 := by
  have hmod : (s.next_id + 1) % 2 ^ 64 = s.next_id + 1 := Nat.mod_eq_of_lt hb
  refine ⟨⟨?_, ?_⟩, ?_⟩
  · intro k l hk
    simp only [Strset.strset_new, State.put] at hk
    split at hk
    · cases hk; exact List.nodup_nil
    · exact h.nodup k l hk
  · intro k l hk
    simp only [Strset.strset_new, State.put] at hk ⊢
    rw [hmod]
    split at hk
    · subst_vars; exact Nat.lt_succ_self _
    · exact Nat.lt_succ_of_lt (h.below k l hk)
  · simp only [Strset.strset_new, State.put, hmod]

/-- The function `strset42` keeps the invariant and the sets that exist. -/
theorem Inv.strset42 {s : State} (h : Inv s) (hb : s.next_id + 1 < 2 ^ 64) :
    Inv (strset42 s).2 ∧ (strset42 s).2.next_id ≤ s.next_id + 1 := by
  rw [strset42_eq]
  cases hc : s.was_it_created with
  | true => exact ⟨by simpa using h, by simp⟩
  | false =>
    have hmod : (s.next_id + 1) % 2 ^ 64 = s.next_id + 1 := Nat.mod_eq_of_lt hb
    simp only [Bool.false_eq_true, if_false, hmod]
    refine ⟨⟨?_, ?_⟩, Nat.le_refl _⟩
    · intro k l hk
      simp only at hk
      split at hk
      · cases hk; simp
      · exact h.nodup k l hk
    · intro k l hk
      simp only at hk ⊢
      split at hk
      · subst_vars; exact Nat.lt_succ_self _
      · exact Nat.lt_succ_of_lt (h.below k l hk)

/-- Every call keeps the invariant as long as `next_id` does not wrap around. -/
theorem Inv.after_call {s : State} (h : Inv s) (hb : s.next_id + 1 < 2 ^ 64) (c : Call) :
    Inv (c.run s) ∧ (c.run s).next_id ≤ s.next_id + 1 := by
  obtain ⟨h42, hn42⟩ := h.strset42 hb
  cases c with
  | strset_new =>
    obtain ⟨h1, h2⟩ := h.strset_new hb
    exact ⟨h1, by simp [Call.run, h2]⟩
  | strset42 => exact ⟨h42, hn42⟩
  | strset_delete id =>
    simp only [Call.run, Strset.strset_delete]
    split
    · exact ⟨h, Nat.le_succ _⟩
    · split
      · exact ⟨h42, hn42⟩
      · exact ⟨h42.drop id, hn42⟩
  | strset_clear id =>
    simp only [Call.run, Strset.strset_clear]
    split
    · exact ⟨h, Nat.le_succ _⟩
    · split
      · exact ⟨h42, hn42⟩
      · constructor
        · constructor
          · intro k l hk
            simp only [State.put] at hk
            split at hk
            · cases hk; exact List.nodup_nil
            · exact h42.nodup k l hk
          · intro k l hk
            simp only [State.put] at hk ⊢
            split at hk
            · subst_vars
              rename_i old hold _
              have hlt := h.below _ old hold
              have hge : s.next_id ≤ (Strset.strset42 s).2.next_id := by
                rw [strset42_eq]
                have hmod : (s.next_id + 1) % 2 ^ 64 = s.next_id + 1 := Nat.mod_eq_of_lt hb
                cases hc : s.was_it_created
                · simp only [Bool.false_eq_true, if_false, hmod]
                  exact Nat.le_succ _
                · simp
              omega
            · exact h42.below k l hk
        · exact hn42
  | strset_insert id value =>
    simp only [Call.run, Strset.strset_insert, strset_insert_using]
    cases value with
    | none => exact ⟨h, Nat.le_succ _⟩
    | some element =>
      simp only
      split
      · exact ⟨h, Nat.le_succ _⟩
      · change Inv (match (Strset.strset42 s).2.stored_sets id with
          | none => _ | some our_set => _) ∧ _
        cases hs : (Strset.strset42 s).2.stored_sets id with
        | none => exact ⟨h42, hn42⟩
        | some our_set =>
          simp only
          split
          · exact ⟨h42, hn42⟩
          · split
            · exact ⟨h42, hn42⟩
            · rename_i hmem
              exact ⟨h42.put hs (nodup_insertStr _ _ hmem (h42.nodup id our_set hs)), hn42⟩
  | strset_remove id value =>
    simp only [Call.run, Strset.strset_remove]
    cases value with
    | none => exact ⟨h, Nat.le_succ _⟩
    | some element =>
      simp only
      split
      · exact ⟨h, Nat.le_succ _⟩
      · split
        · exact ⟨h42, hn42⟩
        · cases hs : (Strset.strset42 s).2.stored_sets id with
          | none => exact ⟨h42, hn42⟩
          | some our_set =>
            simp only
            split
            · exact ⟨h42.put hs (nodup_eraseStr _ _ (h42.nodup id our_set hs)), hn42⟩
            · exact ⟨h42, hn42⟩

/-- The invariant holds after every list of fewer than `2 ^ 64` calls from the
start of the program. -/
theorem strset_inv_runCalls : ∀ (cs : List Call) (s : State), Inv s →
    s.next_id + cs.length < 2 ^ 64 → Inv (runCalls cs s)
  | [], s, h, _ => h
  | c :: cs, s, h, hb => by
    simp only [List.length_cons] at hb
    obtain ⟨h1, h2⟩ := h.after_call (by omega) c
    exact strset_inv_runCalls cs (c.run s) h1 (by omega)

/-- The call of `strset42()` inside another function leaves every set that exists
as it is, and a set that exists and is not the 42 Set has another id than the one
the call returns. -/
theorem strset42_frame {s : State} (h : Inv s) :
    (∀ j l, s.stored_sets j = some l → (strset42 s).2.stored_sets j = some l) ∧
    (∀ id l, s.stored_sets id = some l → (s.was_it_created = true → id ≠ s.id42) →
      id ≠ (strset42 s).1) := by
  rw [strset42_eq]
  cases hc : s.was_it_created with
  | true =>
    simp only [if_true]
    exact ⟨fun _ _ hj => hj, fun id l _ h42 => h42 trivial⟩
  | false =>
    simp only [Bool.false_eq_true, if_false]
    refine ⟨fun j l hj => ?_, fun id l hid _ => ne_of_lt (h.below id l hid)⟩
    have : j ≠ s.next_id := ne_of_lt (h.below j l hj)
    simp [this, hj]

/-- The read through `end()` at work.  After `strset_new()` twice and
`strset_insert(0, "a")` the set `0` has one element and the set `1` is empty, and
`strset_comp(0, 1)` compares the element of the first set with
`*second_set.begin()`, which is `*second_set.end()`.  When that comparison yields
`false` the call returns `1`; when the read does not return (checked iterators) the
call does not return either.  The same holds when the second id has no set (`7`),
and when the second set is a proper prefix of the first one.  In the other
direction nothing is read through `end()`, and `strset_comp(1, 0)` returns `-1`. -/
theorem strset_comp_reads_past_end :
    strset_size (runCalls [.strset_new, .strset_new, .strset_insert 0 (some [97])] init) 0 = 1 ∧
    strset_size (runCalls [.strset_new, .strset_new, .strset_insert 0 (some [97])] init) 1 = 0 ∧
    strset_comp (fun _ => some false)
      (runCalls [.strset_new, .strset_new, .strset_insert 0 (some [97])] init) 0 1 = some 1 ∧
    strset_comp (fun _ => none)
      (runCalls [.strset_new, .strset_new, .strset_insert 0 (some [97])] init) 0 1 = none ∧
    strset_comp (fun _ => none)
      (runCalls [.strset_new, .strset_new, .strset_insert 0 (some [97])] init) 0 7 = none ∧
    strset_comp (fun _ => none)
      (runCalls [.strset_new, .strset_new, .strset_insert 0 (some [97])] init) 1 0
      = some (-1) ∧
    strset_comp (fun _ => none)
      (runCalls [.strset_new, .strset_new, .strset_insert 0 (some [97]),
        .strset_insert 0 (some [98]), .strset_insert 1 (some [97])] init) 0 1 = none := by
  decide

/-! ## The claims about the string sets -/

/-- C23: in a state with the invariant, for a set `id` that exists and is not the
42 Set and a string `v`: after `strset_insert(id, v)`, `strset_test(id, v)` returns
`1` and `strset_size(id)` is the old size if `v` was in the set and one more
otherwise; after `strset_remove(id, v)`, `strset_test(id, v)` returns `0` and
`strset_size(id)` is one less than the old size if `v` was in the set and the old
size otherwise; in both cases every other set that existed has the contents it
had. -/
theorem insert_remove_test_size (s : State) (id : Nat) (v : Str) (old : List Str)
    (h : Inv s) (hid : s.stored_sets id = some old)
    (h42 : s.was_it_created = true → id ≠ s.id42) :
    (strset_test (strset_insert s id (some v)) id (some v) = 1 ∧
      strset_size (strset_insert s id (some v)) id =
        strset_size s id + (if strset_test s id (some v) = 1 then 0 else 1) ∧
      ∀ j l, j ≠ id → s.stored_sets j = some l →
        (strset_insert s id (some v)).stored_sets j = some l) ∧
    (strset_test (strset_remove s id (some v)) id (some v) = 0 ∧
      strset_size (strset_remove s id (some v)) id +
        (if strset_test s id (some v) = 1 then 1 else 0) = strset_size s id ∧
      ∀ j l, j ≠ id → s.stored_sets j = some l →
        (strset_remove s id (some v)).stored_sets j = some l) := by
  obtain ⟨hkeep, hne⟩ := strset42_frame h
  have hne2 : id ≠ (strset42 s).1 := hne id old hid h42
  have hold : (strset42 s).2.stored_sets id = some old := hkeep id old hid
  have hnd : old.Nodup := h.nodup id old hid
  have htest : strset_test s id (some v) = if v ∈ old then 1 else 0 := by
    simp [strset_test, hid]
  have hsize : strset_size s id = old.length := by simp [strset_size, hid]
  constructor
  · have hins : strset_insert s id (some v) =
        if v ∈ old then (strset42 s).2 else (strset42 s).2.put id (insertStr v old) := by
      simp only [strset_insert, strset_insert_using, hid]
      change (match (strset42 s).2.stored_sets id with
        | none => _ | some our_set => _) = _
      simp only [hold, hne2, false_and, if_false]
    rw [hins, htest, hsize]
    by_cases hv : v ∈ old
    · simp only [hv, if_true]
      refine ⟨by simp [strset_test, hold, hv], by simp [strset_size, hold], ?_⟩
      intro j l _ hj
      exact hkeep j l hj
    · simp only [hv, if_false]
      refine ⟨by simp [strset_test, State.put, mem_insertStr],
        by simp [strset_size, State.put, length_insertStr v old hv], ?_⟩
      intro j l hji hj
      simp [State.put, hji, hkeep j l hj]
  · have hrem : strset_remove s id (some v) =
        if v ∈ old then (strset42 s).2.put id (eraseStr v old) else (strset42 s).2 := by
      simp only [strset_remove, hid, hne2, if_false, hold]
    rw [hrem, htest, hsize]
    by_cases hv : v ∈ old
    · simp only [hv, if_true]
      refine ⟨by simp [strset_test, State.put, mem_eraseStr],
        by simp [strset_size, State.put, length_eraseStr v old hnd hv], ?_⟩
      intro j l hji hj
      simp [State.put, hji, hkeep j l hj]
    · simp only [hv, if_false]
      refine ⟨by simp [strset_test, hold, hv], by simp [strset_size, hold], ?_⟩
      intro j l _ hj
      exact hkeep j l hj

theorem insert_remove_test_size_witness :
    Inv (runCalls [.strset_new, .strset_new, .strset_insert 0 (some [97])] init) ∧
    (runCalls [.strset_new, .strset_new, .strset_insert 0 (some [97])] init).stored_sets 0
      = some [[97]] ∧
    (strset_size (strset_insert
        (runCalls [.strset_new, .strset_new, .strset_insert 0 (some [97])] init) 0 (some [98])) 0
      = 2) ∧
    ((strset_test (strset_insert
        (runCalls [.strset_new, .strset_new, .strset_insert 0 (some [97])] init) 0 (some [98]))
        0 (some [98]) = 1 ∧
      strset_size (strset_insert
        (runCalls [.strset_new, .strset_new, .strset_insert 0 (some [97])] init) 0 (some [98])) 0 =
        strset_size (runCalls [.strset_new, .strset_new, .strset_insert 0 (some [97])] init) 0 +
          (if strset_test (runCalls [.strset_new, .strset_new, .strset_insert 0 (some [97])] init)
            0 (some [98]) = 1 then 0 else 1) ∧
      ∀ j l, j ≠ 0 →
        (runCalls [.strset_new, .strset_new, .strset_insert 0 (some [97])] init).stored_sets j
          = some l →
        (strset_insert (runCalls [.strset_new, .strset_new, .strset_insert 0 (some [97])] init)
          0 (some [98])).stored_sets j = some l) ∧
    (strset_test (strset_remove
        (runCalls [.strset_new, .strset_new, .strset_insert 0 (some [97])] init) 0 (some [98]))
        0 (some [98]) = 0 ∧
      strset_size (strset_remove
        (runCalls [.strset_new, .strset_new, .strset_insert 0 (some [97])] init) 0 (some [98])) 0 +
          (if strset_test (runCalls [.strset_new, .strset_new, .strset_insert 0 (some [97])] init)
            0 (some [98]) = 1 then 1 else 0) =
        strset_size (runCalls [.strset_new, .strset_new, .strset_insert 0 (some [97])] init) 0 ∧
      ∀ j l, j ≠ 0 →
        (runCalls [.strset_new, .strset_new, .strset_insert 0 (some [97])] init).stored_sets j
          = some l →
        (strset_remove (runCalls [.strset_new, .strset_new, .strset_insert 0 (some [97])] init)
          0 (some [98])).stored_sets j = some l)) :=
  ⟨strset_inv_runCalls _ init strset_inv_init (by decide), by decide, by decide,
    insert_remove_test_size _ 0 [98] [[97]]
      (strset_inv_runCalls _ init strset_inv_init (by decide)) (by decide) (by decide)⟩

end Strset

/-! ## Lemmas about the wallets -/

namespace Wallet

/-- A test on the state after a list of calls. -/
theorem wallet_runCalls_test (cs : List Call) (s0 : State) (P : State → Bool)
    (h : (match runCalls cs s0 with
      | some s => P s
      | none => false) = true) : ∃ s, runCalls cs s0 = some s ∧ P s = true := by
  cases hr : runCalls cs s0 with
  | none => rw [hr] at h; cases h
  | some s => rw [hr] at h; exact ⟨s, rfl, h⟩

theorem length_merge : ∀ l1 l2 : List Operation, (merge l1 l2).length = l1.length + l2.length
  | [], l2 => by simp [merge]
  | x :: l1, l2 => by
    have h := List.takeWhile_append_dropWhile
      (fun y => decide (y.time_of_operation < x.time_of_operation)) l2
    have hl := congrArg List.length h
    rw [List.length_append] at hl
    simp only [merge, List.length_append, List.length_cons, length_merge l1]
    omega

/-- The constructor `Wallet(Wallet &&w1, Wallet &&w2)` on two objects that are
alive: it writes past the end of the vector exactly when the history of `w2` is
longer than that of `w1`, and otherwise the new history has twice the length of
the history of `w1`, plus one. -/
theorem ctor_move2_opSize (s : State) (w1 w2 now : Nat) (h1 : s.alive w1 = true)
    (h2 : s.alive w2 = true) (hnew : s.alive s.next = false) :
    (opSize s w1 < opSize s w2 → ctor_move2 s w1 w2 now = .undefined) ∧
    (opSize s w2 ≤ opSize s w1 → ∃ t, ctor_move2 s w1 w2 now = .ok t ∧
      opSize t s.next = 2 * opSize s w1 + 1) := by
  have hne1 : w1 ≠ s.next := by
    intro e; rw [e, hnew] at h1; cases h1
  have hne2 : w2 ≠ s.next := by
    intro e; rw [e, hnew] at h2; cases h2
  have ho1 : (s.construct (add64 (s.units w1) (s.units w2)) []).operations w1 =
      s.operations w1 := by
    simp [State.construct, hne1]
  have ho2 : (s.construct (add64 (s.units w1) (s.units w2)) []).operations w2 =
      s.operations w2 := by
    simp [State.construct, hne2]
  constructor
  · intro hlt
    simp only [opSize] at hlt
    simp only [ctor_move2, h1, h2, Bool.and_self, if_true, ho1, ho2, length_merge]
    rw [if_pos (by omega)]
  · intro hle
    simp only [opSize] at hle
    simp only [ctor_move2, h1, h2, Bool.and_self, if_true, ho1, ho2, length_merge]
    rw [if_neg (by omega)]
    refine ⟨_, rfl, ?_⟩
    simp [opSize, State.setUnits, State.emplace_back, State.setOperations,
      State.construct, length_merge]
    omega

theorem add64_eq (a b : Nat) (h : a + b < 2 ^ 64) : add64 a b = a + b :=
  Nat.mod_eq_of_lt h

theorem sub64_eq (a b : Nat) (hb : b ≤ a) (ha : a < 2 ^ 64) : sub64 a b = a - b := by
  unfold sub64
  have hb2 : b % 2 ^ 64 = b := Nat.mod_eq_of_lt (by omega)
  rw [hb2]
  have : a + (2 ^ 64 - b) = (a - b) + 2 ^ 64 := by omega
  rw [this, Nat.add_mod_right]
  exact Nat.mod_eq_of_lt (by omega)

theorem mul64_eq (a b : Nat) (h : a * b < 2 ^ 64) : mul64 a b = a * b :=
  Nat.mod_eq_of_lt h

theorem max_lt : MAX_UNITS_IN_CIRCULATION < 2 ^ 63 := by decide

theorem max_eq : MAX_UNITS_IN_CIRCULATION = 2100000000000000 := by decide

/-- The sum that `liveUnits` takes, after a change of one address. -/
theorem sum_update (f g : Nat → Nat) (a : Nat) (hfg : ∀ b, b ≠ a → f b = g b) :
    ∀ N, a < N → ((List.range N).map f).sum + g a = ((List.range N).map g).sum + f a := by
  have hsame : ∀ N, N ≤ a → ((List.range N).map f).sum = ((List.range N).map g).sum := by
    intro N
    induction N with
    | zero => intro _; rfl
    | succ N ih =>
      intro hN
      rw [List.range_succ, List.map_append, List.map_append, List.sum_append, List.sum_append,
        ih (by omega), List.map_singleton, List.map_singleton, hfg N (by omega)]
  intro N
  induction N with
  | zero => intro h; omega
  | succ N ih =>
    intro hN
    rw [List.range_succ, List.map_append, List.map_append, List.sum_append, List.sum_append,
      List.map_singleton, List.map_singleton, List.sum_singleton, List.sum_singleton]
    by_cases e : a = N
    · subst e
      rw [hsame a (le_refl a)]
      omega
    · have := ih (by omega)
      rw [hfg N (fun h => e h.symm)]
      omega

theorem liveUnits_setUnits (s : State) (w u : Nat) (hw : w < s.next) (ha : s.alive w = true) :
    liveUnits (s.setUnits w u) + s.units w = liveUnits s + u := by
  have := sum_update (fun a => if s.alive a then s.units a else 0)
    (fun a => if (s.setUnits w u).alive a then (s.setUnits w u).units a else 0) w
    (by intro b hb; simp [State.setUnits, hb]) s.next hw
  simp only [State.setUnits, ha, if_true] at this
  simp only [liveUnits, State.setUnits]
  omega

theorem liveUnits_setOperations (s : State) (w : Nat) (ops : List Operation) :
    liveUnits (s.setOperations w ops) = liveUnits s := rfl

theorem liveUnits_emplace_back (s : State) (w u now : Nat) :
    liveUnits (s.emplace_back w u now) = liveUnits s := rfl

theorem liveUnits_setExisting (s : State) (u : Nat) :
    liveUnits (s.setExisting u) = liveUnits s := rfl

theorem liveUnits_construct (s : State) (u : Nat) (ops : List Operation) :
    liveUnits (s.construct u ops) = liveUnits s + u := by
  simp only [liveUnits, State.construct, List.range_succ, List.map_append, List.sum_append,
    List.map_singleton, List.sum_singleton, if_true]
  congr 2
  apply List.map_congr_left
  intro a ha
  have : a ≠ s.next := ne_of_lt (List.mem_range.1 ha)
  simp [this]

theorem liveUnits_destroy (s : State) (w : Nat) (hw : w < s.next) (ha : s.alive w = true) :
    liveUnits (s.destroy w) + s.units w = liveUnits s := by
  have := sum_update (fun a => if s.alive a then s.units a else 0)
    (fun a => if (s.destroy w).alive a then (s.destroy w).units a else 0) w
    (by intro b hb; simp [State.destroy, hb]) s.next hw
  simp only [State.destroy, ha, if_true] at this
  simp only [liveUnits, State.destroy]
  simp only [if_true, Bool.false_eq_true, if_false] at this
  omega

/-- A wallet that is alive holds at most the units of all of them. -/
theorem units_le_liveUnits (s : State) (w : Nat) (hw : w < s.next) (ha : s.alive w = true) :
    s.units w ≤ liveUnits s := by
  have := liveUnits_setUnits s w 0 hw ha
  omega

/-- Two wallets that are alive hold at most the units of all of them. -/
theorem units_add_le_liveUnits (s : State) (w1 w2 : Nat) (h : w1 ≠ w2) (hw1 : w1 < s.next)
    (ha1 : s.alive w1 = true) (hw2 : w2 < s.next) (ha2 : s.alive w2 = true) :
    s.units w1 + s.units w2 ≤ liveUnits s := by
  have h1 := liveUnits_setUnits s w1 0 hw1 ha1
  have h2 := units_le_liveUnits (s.setUnits w1 0) w2 hw2 ha2
  have h3 : (s.setUnits w1 0).units w2 = s.units w2 := by
    simp [State.setUnits, h.symm]
  omega

theorem Inv.lt_next {s : State} (h : Inv s) {w : Nat} (ha : s.alive w = true) : w < s.next := by
  by_contra hge
  rw [h.fresh w (Nat.le_of_not_lt hge)] at ha
  cases ha

@[simp] theorem setUnits_next (s : State) (w u : Nat) : (s.setUnits w u).next = s.next := rfl
@[simp] theorem setUnits_existing (s : State) (w u : Nat) :
    (s.setUnits w u).existing_units = s.existing_units := rfl
@[simp] theorem setUnits_alive (s : State) (w u : Nat) (a : Nat) :
    (s.setUnits w u).alive a = (s.alive a) := rfl
@[simp] theorem setUnits_units (s : State) (w u : Nat) (a : Nat) :
    (s.setUnits w u).units a = (if a = w then u else s.units a) := rfl
@[simp] theorem setOperations_next (s : State) (w : Nat) (ops : List Operation) : (s.setOperations w ops).next = s.next := rfl
@[simp] theorem setOperations_existing (s : State) (w : Nat) (ops : List Operation) :
    (s.setOperations w ops).existing_units = s.existing_units := rfl
@[simp] theorem setOperations_alive (s : State) (w : Nat) (ops : List Operation) (a : Nat) :
    (s.setOperations w ops).alive a = (s.alive a) := rfl
@[simp] theorem setOperations_units (s : State) (w : Nat) (ops : List Operation) (a : Nat) :
    (s.setOperations w ops).units a = (s.units a) := rfl
@[simp] theorem emplace_back_next (s : State) (w u now : Nat) : (s.emplace_back w u now).next = s.next := rfl
@[simp] theorem emplace_back_existing (s : State) (w u now : Nat) :
    (s.emplace_back w u now).existing_units = s.existing_units := rfl
@[simp] theorem emplace_back_alive (s : State) (w u now : Nat) (a : Nat) :
    (s.emplace_back w u now).alive a = (s.alive a) := rfl
@[simp] theorem emplace_back_units (s : State) (w u now : Nat) (a : Nat) :
    (s.emplace_back w u now).units a = (s.units a) := rfl
@[simp] theorem setExisting_next (s : State) (e : Nat) : (s.setExisting e).next = s.next := rfl
@[simp] theorem setExisting_existing (s : State) (e : Nat) :
    (s.setExisting e).existing_units = e := rfl
@[simp] theorem setExisting_alive (s : State) (e : Nat) (a : Nat) :
    (s.setExisting e).alive a = (s.alive a) := rfl
@[simp] theorem setExisting_units (s : State) (e : Nat) (a : Nat) :
    (s.setExisting e).units a = (s.units a) := rfl
@[simp] theorem construct_next (s : State) (u : Nat) (ops : List Operation) : (s.construct u ops).next = s.next + 1 := rfl
@[simp] theorem construct_existing (s : State) (u : Nat) (ops : List Operation) :
    (s.construct u ops).existing_units = s.existing_units := rfl
@[simp] theorem construct_alive (s : State) (u : Nat) (ops : List Operation) (a : Nat) :
    (s.construct u ops).alive a = (if a = s.next then true else s.alive a) := rfl
@[simp] theorem construct_units (s : State) (u : Nat) (ops : List Operation) (a : Nat) :
    (s.construct u ops).units a = (if a = s.next then u else s.units a) := rfl
@[simp] theorem destroy_next (s : State) (w : Nat) : (s.destroy w).next = s.next := rfl
@[simp] theorem destroy_existing (s : State) (w : Nat) :
    (s.destroy w).existing_units = s.existing_units := rfl
@[simp] theorem destroy_alive (s : State) (w : Nat) (a : Nat) :
    (s.destroy w).alive a = (if a = w then false else s.alive a) := rfl
@[simp] theorem destroy_units (s : State) (w : Nat) (a : Nat) :
    (s.destroy w).units a = (s.units a) := rfl

@[simp] theorem ctor_default_next (s : State) (now : Nat) :
    (ctor_default s now).next = s.next + 1 := rfl
@[simp] theorem ctor_default_existing (s : State) (now : Nat) :
    (ctor_default s now).existing_units = s.existing_units := rfl
@[simp] theorem ctor_default_alive (s : State) (now : Nat) (a : Nat) :
    (ctor_default s now).alive a = (if a = s.next then true else s.alive a) := rfl
@[simp] theorem ctor_default_units (s : State) (now : Nat) (a : Nat) :
    (ctor_default s now).units a = (if a = s.next then 0 else s.units a) := rfl

/-- The units of the live wallets after an assignment to the units of one. -/
theorem liveUnits_setUnits_sub (s : State) (w u : Nat) (hw : w < s.next)
    (ha : s.alive w = true) :
    liveUnits (s.setUnits w u) = liveUnits s - s.units w + u := by
  have h1 := liveUnits_setUnits s w u hw ha
  have h2 := units_le_liveUnits s w hw ha
  omega

theorem liveUnits_destroy_sub (s : State) (w : Nat) (hw : w < s.next)
    (ha : s.alive w = true) :
    liveUnits (s.destroy w) = liveUnits s - s.units w := by
  have h1 := liveUnits_destroy s w hw ha
  omega

theorem liveUnits_ctor_default (s : State) (now : Nat) :
    liveUnits (ctor_default s now) = liveUnits s := by
  show liveUnits (s.construct 0 []) = liveUnits s
  rw [liveUnits_construct]; rfl

theorem inv_init_wallet : Inv init :=
  ⟨fun _ _ => rfl, by simp [liveUnits, init], by simp [init]⟩

theorem ctor_default_inv {s : State} (h : Inv s) (now : Nat) :
    Inv (ctor_default s now) ∧
      liveUnits (ctor_default s now) + s.existing_units =
        liveUnits s + (ctor_default s now).existing_units := by
  have hl : liveUnits (ctor_default s now) = liveUnits s := by
    show liveUnits (s.construct 0 []) = liveUnits s
    rw [liveUnits_construct]; rfl
  refine ⟨⟨?_, ?_, h.limit⟩, ?_⟩
  · intro a ha
    have ha2 : s.next + 1 ≤ a := ha
    show (if a = s.next then true else s.alive a) = false
    rw [if_neg (by omega)]
    exact h.fresh a (by omega)
  · rw [hl]; exact h.sum
  · rw [hl]; rfl

theorem ctor_int_inv {s : State} (h : Inv s) (n : Int) (now : Nat)
    (hn : INT_MIN ≤ n ∧ n < 2147483648) :
    (ctor_int s n now = .invalid_argument s ∧
      (n < 0 ∨ MAX_UNITS_IN_CIRCULATION < s.existing_units + n.toNat * UNITS_IN_B)) ∨
    (∃ t, ctor_int s n now = .ok t ∧ 0 ≤ n ∧
      t.existing_units = s.existing_units + n.toNat * UNITS_IN_B ∧
      t.existing_units ≤ MAX_UNITS_IN_CIRCULATION ∧ Inv t ∧
      liveUnits t + s.existing_units = liveUnits s + t.existing_units) := by
  have hlim := h.limit
  have hmax := max_eq
  by_cases h0 : n < 0
  · left
    exact ⟨by simp [ctor_int, h0], Or.inl h0⟩
  · have hn0 : 0 ≤ n := le_of_not_lt h0
    have hto : toU64 n = n.toNat := by
      unfold toU64
      rw [Int.emod_eq_of_lt hn0 (by omega)]
    have hnat : n.toNat < 2147483648 := by omega
    have hsub : sub64 MAX_UNITS_IN_CIRCULATION s.existing_units =
        MAX_UNITS_IN_CIRCULATION - s.existing_units :=
      sub64_eq _ _ hlim (by rw [hmax]; decide)
    by_cases hc : (MAX_UNITS_IN_CIRCULATION - s.existing_units) / UNITS_IN_B < n.toNat
    · left
      refine ⟨by simp [ctor_int, h0, hto, hsub, hc], Or.inr ?_⟩
      rw [Nat.div_lt_iff_lt_mul (by decide)] at hc
      omega
    · right
      have hle : n.toNat * UNITS_IN_B ≤ MAX_UNITS_IN_CIRCULATION - s.existing_units := by
        have := Nat.le_div_iff_mul_le (k := UNITS_IN_B) (x := n.toNat)
          (y := MAX_UNITS_IN_CIRCULATION - s.existing_units) (by decide)
        exact this.1 (Nat.le_of_not_lt hc)
      have hmul : mul64 n.toNat UNITS_IN_B = n.toNat * UNITS_IN_B :=
        mul64_eq _ _ (by rw [hmax] at hle; omega)
      have hadd : add64 s.existing_units (n.toNat * UNITS_IN_B) =
          s.existing_units + n.toNat * UNITS_IN_B :=
        add64_eq _ _ (by rw [hmax] at hle hlim; omega)
      refine ⟨_, by simp only [ctor_int, h0, if_false, hto, hsub, hc]; rfl, hn0, ?_, ?_, ?_, ?_⟩
      · simp [State.emplace_back, State.setOperations, State.setExisting, State.construct,
          hmul, hadd]
      · simp only [State.emplace_back, State.setOperations, State.setExisting,
          State.construct, if_true, hmul, hadd]
        omega
      · refine ⟨?_, ?_, ?_⟩
        · intro a ha
          have ha2 : s.next + 1 ≤ a := ha
          show (if a = s.next then true else s.alive a) = false
          rw [if_neg (by omega)]
          exact h.fresh a (by omega)
        · show liveUnits (s.construct (mul64 n.toNat UNITS_IN_B) []) ≤ _
          rw [liveUnits_construct]
          simp only [State.emplace_back, State.setOperations, State.setExisting,
            State.construct, if_true, hmul, hadd]
          have := h.sum
          omega
        · simp only [State.emplace_back, State.setOperations, State.setExisting,
            State.construct, if_true, hmul, hadd]
          omega
      · show liveUnits (s.construct (mul64 n.toNat UNITS_IN_B) []) + _ = _
        rw [liveUnits_construct]
        simp only [State.emplace_back, State.setOperations, State.setExisting,
          State.construct, if_true, hmul, hadd]
        omega

/-- The invariant after a call, from what the call does to `next`, to the objects
that are alive and to the two sums. -/
theorem Inv.of_sums {s t : State} (h : Inv s)
    (hfresh : ∀ a, t.next ≤ a → t.alive a = false)
    (hsum : liveUnits t + s.existing_units = liveUnits s + t.existing_units)
    (hlim : t.existing_units ≤ MAX_UNITS_IN_CIRCULATION) : Inv t :=
  ⟨hfresh, by have := h.sum; omega, hlim⟩

theorem fresh_construct {s : State} (h : Inv s) (a : Nat) (ha : s.next + 1 ≤ a) :
    (if a = s.next then true else s.alive a) = false := by
  rw [if_neg (by omega)]
  exact h.fresh a (by omega)

theorem ctor_units_inv {s : State} (h : Inv s) (units now : Nat) (hu : units < 10 ^ 16) :
    (ctor_units s units now = .invalid_argument s ∧
      MAX_UNITS_IN_CIRCULATION < s.existing_units + units) ∨
    (∃ t, ctor_units s units now = .ok t ∧
      t.existing_units = s.existing_units + units ∧
      t.existing_units ≤ MAX_UNITS_IN_CIRCULATION ∧ Inv t ∧
      liveUnits t + s.existing_units = liveUnits s + t.existing_units) := by
  have hlim := h.limit
  have hmax := max_eq
  have hsub : sub64 MAX_UNITS_IN_CIRCULATION s.existing_units =
      MAX_UNITS_IN_CIRCULATION - s.existing_units :=
    sub64_eq _ _ hlim (by rw [hmax]; decide)
  by_cases hc : MAX_UNITS_IN_CIRCULATION - s.existing_units < units
  · left
    exact ⟨by simp [ctor_units, hsub, hc], by omega⟩
  · right
    have hadd : add64 s.existing_units units = s.existing_units + units :=
      add64_eq _ _ (by rw [hmax] at hc hlim; omega)
    refine ⟨_, by simp only [ctor_units, hsub, hc, if_false]; rfl, ?_, ?_, ?_⟩
    · change add64 s.existing_units (if s.next = s.next then units else s.units s.next) = _
      rw [if_pos rfl, hadd]
    · change add64 s.existing_units (if s.next = s.next then units else s.units s.next) ≤ _
      rw [if_pos rfl, hadd]; omega
    · have hsum : liveUnits (s.construct units []) + s.existing_units =
          liveUnits s + add64 s.existing_units
            (if s.next = s.next then units else s.units s.next) := by
        rw [liveUnits_construct, if_pos rfl, hadd]; omega
      refine ⟨h.of_sums (fun a ha => fresh_construct h a ha) hsum ?_, hsum⟩
      change add64 s.existing_units (if s.next = s.next then units else s.units s.next) ≤ _
      rw [if_pos rfl, hadd]; omega

theorem ctor_move_inv {s : State} (h : Inv s) (w now : Nat) :
    ∀ t, ctor_move s w now = .ok t →
      Inv t ∧ liveUnits t + s.existing_units = liveUnits s + t.existing_units := by
  intro t ht
  by_cases ha : s.alive w = true
  · have hw := h.lt_next ha
    have hne : w ≠ s.next := ne_of_lt hw
    simp only [ctor_move, ha, if_true, Outcome.ok.injEq] at ht
    subst ht
    have h1 := liveUnits_construct s (s.units w) (s.operations w)
    have h2 := liveUnits_setUnits (s.construct (s.units w) (s.operations w)) w 0
      (by show w < s.next + 1; omega)
      (by show (if w = s.next then true else s.alive w) = true; rw [if_neg hne]; exact ha)
    have h3 : (s.construct (s.units w) (s.operations w)).units w = s.units w := by
      show (if w = s.next then _ else s.units w) = _
      rw [if_neg hne]
    have hsum : liveUnits ((s.construct (s.units w) (s.operations w)).setUnits w 0) +
        s.existing_units = liveUnits s + s.existing_units := by
      omega
    exact ⟨h.of_sums (fun a ha2 => fresh_construct h a ha2) hsum h.limit, hsum⟩
  · simp [ctor_move, ha] at ht

theorem dtor_inv {s : State} (h : Inv s) (w : Nat) :
    ∀ t, dtor s w = .ok t →
      Inv t ∧ liveUnits t + s.existing_units = liveUnits s + t.existing_units := by
  intro t ht
  by_cases ha : s.alive w = true
  · have hw := h.lt_next ha
    have hu := units_le_liveUnits s w hw ha
    have hsum0 := h.sum
    have hlim := h.limit
    have hmax := max_eq
    simp only [dtor, ha, if_true, Outcome.ok.injEq] at ht
    subst ht
    have hsub : sub64 s.existing_units (s.units w) = s.existing_units - s.units w :=
      sub64_eq _ _ (by omega) (by rw [hmax] at hlim; omega)
    have hE : ((s.setExisting (sub64 s.existing_units (s.units w))).destroy w).existing_units =
        s.existing_units - s.units w := by
      simp [State.destroy, State.setExisting, hsub]
    have hL := liveUnits_destroy (s.setExisting (sub64 s.existing_units (s.units w))) w hw ha
    have hL2 : liveUnits (s.setExisting (sub64 s.existing_units (s.units w))) = liveUnits s :=
      rfl
    have hU : (s.setExisting (sub64 s.existing_units (s.units w))).units w = s.units w := rfl
    rw [hL2, hU] at hL
    have hsum : liveUnits ((s.setExisting (sub64 s.existing_units (s.units w))).destroy w) +
        s.existing_units = liveUnits s +
          ((s.setExisting (sub64 s.existing_units (s.units w))).destroy w).existing_units := by
      rw [hE]; omega
    refine ⟨h.of_sums ?_ hsum (by rw [hE]; omega), hsum⟩
    intro a ha2
    show (if a = w then false else s.alive a) = false
    split
    · rfl
    · exact h.fresh a ha2
  · simp [dtor, ha] at ht

theorem plus_rvalue_inv {s : State} (h : Inv s) (lhs rhs now : Nat) (hne : lhs ≠ rhs) :
    ∀ t, plus_rvalue s lhs rhs now = .ok t →
      Inv t ∧ liveUnits t + s.existing_units = liveUnits s + t.existing_units := by
  intro t ht
  by_cases hal : s.alive lhs = true
  · by_cases har : s.alive rhs = true
    · have hl := h.lt_next hal
      have hr := h.lt_next har
      have hl1 : lhs < s.next + 1 := by omega
      have hr1 : rhs < s.next + 1 := by omega
      have hnl : lhs ≠ s.next := by omega
      have hnr : rhs ≠ s.next := by omega
      have hb := units_add_le_liveUnits s lhs rhs hne hl hal hr har
      have hsum0 := h.sum
      have hlim := h.limit
      have hmax := max_eq
      have hadd : add64 (s.units lhs) (s.units rhs) = s.units lhs + s.units rhs :=
        add64_eq _ _ (by omega)
      simp only [plus_rvalue, hal, har, Bool.and_self, if_true, Outcome.ok.injEq] at ht
      have hsum : liveUnits t + s.existing_units = liveUnits s + t.existing_units := by
        rw [← ht]
        simp [liveUnits_setUnits_sub, liveUnits_emplace_back, liveUnits_ctor_default, hl, hr,
          hal, har, hl1, hr1, hnl, hnr, hne, hne.symm, hadd]
        omega
      have hfresh : ∀ a, t.next ≤ a → t.alive a = false := by
        rw [← ht]
        intro a ha
        have ha2 : s.next + 1 ≤ a := by simpa using ha
        have := h.fresh a (by omega)
        have hne2 : a ≠ s.next := by omega
        simpa [hne2] using this
      have hlim2 : t.existing_units ≤ MAX_UNITS_IN_CIRCULATION := by
        rw [← ht]
        simpa using hlim
      exact ⟨h.of_sums hfresh hsum hlim2, hsum⟩
    · simp [plus_rvalue, hal, har] at ht
  · simp [plus_rvalue, hal] at ht

theorem plus_lvalue_inv {s : State} (h : Inv s) (lhs rhs now : Nat) (hne : lhs ≠ rhs) :
    ∀ t, plus_lvalue s lhs rhs now = .ok t →
      Inv t ∧ liveUnits t + s.existing_units = liveUnits s + t.existing_units := by
  intro t ht
  by_cases hal : s.alive lhs = true
  · by_cases har : s.alive rhs = true
    · have hl := h.lt_next hal
      have hr := h.lt_next har
      have hl1 : lhs < s.next + 1 := by omega
      have hr1 : rhs < s.next + 1 := by omega
      have hnl : lhs ≠ s.next := by omega
      have hnr : rhs ≠ s.next := by omega
      have hb := units_add_le_liveUnits s lhs rhs hne hl hal hr har
      have hsum0 := h.sum
      have hlim := h.limit
      have hmax := max_eq
      have hadd : add64 (s.units lhs) (s.units rhs) = s.units lhs + s.units rhs :=
        add64_eq _ _ (by omega)
      simp only [plus_lvalue, hal, har, Bool.and_self, if_true, Outcome.ok.injEq] at ht
      have hsum : liveUnits t + s.existing_units = liveUnits s + t.existing_units := by
        rw [← ht]
        simp [liveUnits_setUnits_sub, liveUnits_emplace_back, liveUnits_ctor_default, hl, hr,
          hal, har, hl1, hr1, hnl, hnr, hne, hne.symm, hadd]
        omega
      have hfresh : ∀ a, t.next ≤ a → t.alive a = false := by
        rw [← ht]
        intro a ha
        have ha2 : s.next + 1 ≤ a := by simpa using ha
        have := h.fresh a (by omega)
        have hne2 : a ≠ s.next := by omega
        simpa [hne2] using this
      have hlim2 : t.existing_units ≤ MAX_UNITS_IN_CIRCULATION := by
        rw [← ht]
        simpa using hlim
      exact ⟨h.of_sums hfresh hsum hlim2, hsum⟩
    · simp [plus_lvalue, hal, har] at ht
  · simp [plus_lvalue, hal] at ht

theorem minus_rvalue_inv {s : State} (h : Inv s) (lhs rhs now : Nat) (hne : lhs ≠ rhs) :
    ∀ t, minus_rvalue s lhs rhs now = .ok t →
      Inv t ∧ liveUnits t + s.existing_units = liveUnits s + t.existing_units := by
  intro t ht
  by_cases hal : s.alive lhs = true
  · by_cases har : s.alive rhs = true
    · have hl := h.lt_next hal
      have hr := h.lt_next har
      have hl1 : lhs < s.next + 1 := by omega
      have hr1 : rhs < s.next + 1 := by omega
      have hnl : lhs ≠ s.next := by omega
      have hnr : rhs ≠ s.next := by omega
      have hb := units_add_le_liveUnits s lhs rhs hne hl hal hr har
      have hsum0 := h.sum
      have hlim := h.limit
      have hmax := max_eq
      by_cases hlt : s.units lhs < s.units rhs
      · simp [minus_rvalue, hal, har, hlt] at ht
      have hsub : sub64 (s.units lhs) (s.units rhs) = s.units lhs - s.units rhs :=
        sub64_eq _ _ (by omega) (by omega)
      have hmul : mul64 2 (s.units rhs) = 2 * s.units rhs :=
        mul64_eq _ _ (by omega)
      simp only [minus_rvalue, hal, har, Bool.and_self, if_true, hlt, if_false,
        Outcome.ok.injEq] at ht
      have hsum : liveUnits t + s.existing_units = liveUnits s + t.existing_units := by
        rw [← ht]
        simp [liveUnits_setUnits_sub, liveUnits_emplace_back, liveUnits_ctor_default, hl, hr,
          hal, har, hl1, hr1, hnl, hnr, hne, hne.symm, hsub, hmul]
        omega
      have hfresh : ∀ a, t.next ≤ a → t.alive a = false := by
        rw [← ht]
        intro a ha
        have ha2 : s.next + 1 ≤ a := by simpa using ha
        have := h.fresh a (by omega)
        have hne2 : a ≠ s.next := by omega
        simpa [hne2] using this
      have hlim2 : t.existing_units ≤ MAX_UNITS_IN_CIRCULATION := by
        rw [← ht]
        simpa using hlim
      exact ⟨h.of_sums hfresh hsum hlim2, hsum⟩
    · simp [minus_rvalue, hal, har] at ht
  · simp [minus_rvalue, hal] at ht

theorem minus_lvalue_inv {s : State} (h : Inv s) (lhs rhs now : Nat) (hne : lhs ≠ rhs) :
    ∀ t, minus_lvalue s lhs rhs now = .ok t →
      Inv t ∧ liveUnits t + s.existing_units = liveUnits s + t.existing_units := by
  intro t ht
  by_cases hal : s.alive lhs = true
  · by_cases har : s.alive rhs = true
    · have hl := h.lt_next hal
      have hr := h.lt_next har
      have hl1 : lhs < s.next + 1 := by omega
      have hr1 : rhs < s.next + 1 := by omega
      have hnl : lhs ≠ s.next := by omega
      have hnr : rhs ≠ s.next := by omega
      have hb := units_add_le_liveUnits s lhs rhs hne hl hal hr har
      have hsum0 := h.sum
      have hlim := h.limit
      have hmax := max_eq
      by_cases hlt : s.units lhs < s.units rhs
      · simp [minus_lvalue, hal, har, hlt] at ht
      have hsub : sub64 (s.units lhs) (s.units rhs) = s.units lhs - s.units rhs :=
        sub64_eq _ _ (by omega) (by omega)
      have hmul : mul64 2 (s.units rhs) = 2 * s.units rhs :=
        mul64_eq _ _ (by omega)
      simp only [minus_lvalue, hal, har, Bool.and_self, if_true, hlt, if_false,
        Outcome.ok.injEq] at ht
      have hsum : liveUnits t + s.existing_units = liveUnits s + t.existing_units := by
        rw [← ht]
        simp [liveUnits_setUnits_sub, liveUnits_emplace_back, liveUnits_ctor_default, hl, hr,
          hal, har, hl1, hr1, hnl, hnr, hne, hne.symm, hsub, hmul]
        omega
      have hfresh : ∀ a, t.next ≤ a → t.alive a = false := by
        rw [← ht]
        intro a ha
        have ha2 : s.next + 1 ≤ a := by simpa using ha
        have := h.fresh a (by omega)
        have hne2 : a ≠ s.next := by omega
        simpa [hne2] using this
      have hlim2 : t.existing_units ≤ MAX_UNITS_IN_CIRCULATION := by
        rw [← ht]
        simpa using hlim
      exact ⟨h.of_sums hfresh hsum hlim2, hsum⟩
    · simp [minus_lvalue, hal, har] at ht
  · simp [minus_lvalue, hal] at ht

theorem plus_assign_inv {s : State} (h : Inv s) (lhs rhs now : Nat) (hne : lhs ≠ rhs) :
    ∀ t, plus_assign s lhs rhs now = .ok t →
      Inv t ∧ liveUnits t + s.existing_units = liveUnits s + t.existing_units := by
  intro t ht
  by_cases hal : s.alive lhs = true
  · by_cases har : s.alive rhs = true
    · have hl := h.lt_next hal
      have hr := h.lt_next har
      have hl1 : lhs < s.next + 1 := by omega
      have hr1 : rhs < s.next + 1 := by omega
      have hnl : lhs ≠ s.next := by omega
      have hnr : rhs ≠ s.next := by omega
      have hb := units_add_le_liveUnits s lhs rhs hne hl hal hr har
      have hsum0 := h.sum
      have hlim := h.limit
      have hmax := max_eq
      have hadd : add64 (s.units lhs) (s.units rhs) = s.units lhs + s.units rhs :=
        add64_eq _ _ (by omega)
      simp only [plus_assign, hal, har, Bool.and_self, if_true, Outcome.ok.injEq] at ht
      have hsum : liveUnits t + s.existing_units = liveUnits s + t.existing_units := by
        rw [← ht]
        simp [liveUnits_setUnits_sub, liveUnits_emplace_back, liveUnits_ctor_default, hl, hr,
          hal, har, hl1, hr1, hnl, hnr, hne, hne.symm, hadd]
        omega
      have hfresh : ∀ a, t.next ≤ a → t.alive a = false := by
        rw [← ht]
        intro a ha
        simpa using h.fresh a (by simpa using ha)
      have hlim2 : t.existing_units ≤ MAX_UNITS_IN_CIRCULATION := by
        rw [← ht]
        simpa using hlim
      exact ⟨h.of_sums hfresh hsum hlim2, hsum⟩
    · simp [plus_assign, hal, har] at ht
  · simp [plus_assign, hal] at ht

theorem minus_assign_inv {s : State} (h : Inv s) (lhs rhs now : Nat) (hne : lhs ≠ rhs) :
    ∀ t, minus_assign s lhs rhs now = .ok t →
      Inv t ∧ liveUnits t + s.existing_units = liveUnits s + t.existing_units := by
  intro t ht
  by_cases hal : s.alive lhs = true
  · by_cases har : s.alive rhs = true
    · have hl := h.lt_next hal
      have hr := h.lt_next har
      have hl1 : lhs < s.next + 1 := by omega
      have hr1 : rhs < s.next + 1 := by omega
      have hnl : lhs ≠ s.next := by omega
      have hnr : rhs ≠ s.next := by omega
      have hb := units_add_le_liveUnits s lhs rhs hne hl hal hr har
      have hsum0 := h.sum
      have hlim := h.limit
      have hmax := max_eq
      by_cases hlt : s.units lhs < s.units rhs
      · simp [minus_assign, hal, har, hlt] at ht
      have hsub : sub64 (s.units lhs) (s.units rhs) = s.units lhs - s.units rhs :=
        sub64_eq _ _ (by omega) (by omega)
      have hmul : mul64 2 (s.units rhs) = 2 * s.units rhs :=
        mul64_eq _ _ (by omega)
      simp only [minus_assign, hal, har, Bool.and_self, if_true, hlt, if_false,
        Outcome.ok.injEq] at ht
      have hsum : liveUnits t + s.existing_units = liveUnits s + t.existing_units := by
        rw [← ht]
        simp [liveUnits_setUnits_sub, liveUnits_emplace_back, liveUnits_ctor_default, hl, hr,
          hal, har, hl1, hr1, hnl, hnr, hne, hne.symm, hsub, hmul]
        omega
      have hfresh : ∀ a, t.next ≤ a → t.alive a = false := by
        rw [← ht]
        intro a ha
        simpa using h.fresh a (by simpa using ha)
      have hlim2 : t.existing_units ≤ MAX_UNITS_IN_CIRCULATION := by
        rw [← ht]
        simpa using hlim
      exact ⟨h.of_sums hfresh hsum hlim2, hsum⟩
    · simp [minus_assign, hal, har] at ht
  · simp [minus_assign, hal] at ht

theorem ctor_move2_inv {s : State} (h : Inv s) (w1 w2 now : Nat) (hne : w1 ≠ w2) :
    ∀ t, ctor_move2 s w1 w2 now = .ok t →
      Inv t ∧ liveUnits t + s.existing_units = liveUnits s + t.existing_units := by
  intro t ht
  by_cases hal : s.alive w1 = true
  · by_cases har : s.alive w2 = true
    · have hl := h.lt_next hal
      have hr := h.lt_next har
      have hl1 : w1 < s.next + 1 := by omega
      have hr1 : w2 < s.next + 1 := by omega
      have hnl : w1 ≠ s.next := by omega
      have hnr : w2 ≠ s.next := by omega
      have hb := units_add_le_liveUnits s w1 w2 hne hl hal hr har
      have hsum0 := h.sum
      have hlim := h.limit
      have hmax := max_eq
      have hadd : add64 (s.units w1) (s.units w2) = s.units w1 + s.units w2 :=
        add64_eq _ _ (by omega)
      simp only [ctor_move2, hal, har, Bool.and_self, if_true] at ht
      split at ht
      · cases ht
      · simp only [Outcome.ok.injEq] at ht
        have hsum : liveUnits t + s.existing_units = liveUnits s + t.existing_units := by
          rw [← ht]
          simp [liveUnits_setUnits_sub, liveUnits_emplace_back, liveUnits_setOperations,
            liveUnits_construct, hl, hr, hal, har, hl1, hr1, hnl, hnr, hne, hne.symm, hadd]
          omega
        have hfresh : ∀ a, t.next ≤ a → t.alive a = false := by
          rw [← ht]
          intro a ha
          have ha2 : s.next + 1 ≤ a := by simpa using ha
          have := h.fresh a (by omega)
          have hne2 : a ≠ s.next := by omega
          simpa [hne2] using this
        have hlim2 : t.existing_units ≤ MAX_UNITS_IN_CIRCULATION := by
          rw [← ht]
          simpa using hlim
        exact ⟨h.of_sums hfresh hsum hlim2, hsum⟩
    · simp [ctor_move2, hal, har] at ht
  · simp [ctor_move2, hal] at ht

/-- The move assignment keeps the invariant; the units of the wallets that are
alive go down by the units the assigned-to wallet held, and `existing_units`
stays. -/
theorem move_assign_inv {s : State} (h : Inv s) (this rhs now : Nat) :
    ∀ t, move_assign s this rhs now = .ok t →
      Inv t ∧ t.existing_units = s.existing_units ∧
        liveUnits t + (if this = rhs then 0 else s.units this) = liveUnits s := by
  intro t ht
  by_cases hal : s.alive this = true
  · by_cases har : s.alive rhs = true
    · by_cases hne : this = rhs
      · simp only [move_assign, hal, har, Bool.and_self, if_true, hne, ne_eq,
          not_true_eq_false, if_false, Outcome.ok.injEq] at ht
        subst ht
        exact ⟨h, rfl, by simp [hne]⟩
      · have hl := h.lt_next hal
        have hr := h.lt_next har
        have hb := units_add_le_liveUnits s this rhs hne hl hal hr har
        have hsum0 := h.sum
        simp only [move_assign, hal, har, Bool.and_self, if_true, ne_eq, hne,
          not_false_eq_true, Outcome.ok.injEq] at ht
        have hE : t.existing_units = s.existing_units := by
          rw [← ht]; simp
        have hsum : liveUnits t + (if this = rhs then 0 else s.units this) = liveUnits s := by
          rw [← ht]
          simp [liveUnits_setUnits_sub, liveUnits_emplace_back, liveUnits_setOperations, hl,
            hr, hal, har, hne, Ne.symm hne]
          omega
        have hfresh : ∀ a, t.next ≤ a → t.alive a = false := by
          rw [← ht]
          intro a ha
          simpa using h.fresh a (by simpa using ha)
        refine ⟨⟨hfresh, ?_, by rw [hE]; exact h.limit⟩, hE, hsum⟩
        rw [hE]
        omega
    · simp [move_assign, hal, har] at ht
  · simp [move_assign, hal] at ht

theorem times_inv {s : State} (h : Inv s) (w n now : Nat) (hn : n < 2 ^ 64) :
    (times s w n now = .undefined ∧ s.alive w = false) ∨
    (times s w n now = .invalid_argument s ∧
      MAX_UNITS_IN_CIRCULATION < s.existing_units + s.units w * n) ∨
    (∃ t, times s w n now = .ok t ∧
      t.existing_units = s.existing_units + s.units w * n ∧
      t.existing_units ≤ MAX_UNITS_IN_CIRCULATION ∧ Inv t ∧
      liveUnits t + s.existing_units = liveUnits s + t.existing_units) := by
  by_cases ha : s.alive w = true
  · right
    have hw := h.lt_next ha
    have hw1 : w < s.next + 1 := by omega
    have hnw : w ≠ s.next := by omega
    have hu := units_le_liveUnits s w hw ha
    have hsum0 := h.sum
    have hlim := h.limit
    have hmax := max_eq
    have hsub : sub64 MAX_UNITS_IN_CIRCULATION s.existing_units =
        MAX_UNITS_IN_CIRCULATION - s.existing_units :=
      sub64_eq _ _ hlim (by rw [hmax]; decide)
    by_cases hc : n ≠ 0 ∧ (MAX_UNITS_IN_CIRCULATION - s.existing_units) / n < s.units w
    · left
      refine ⟨by simp only [times, ha, if_true, hsub, hc, and_self, ne_eq, not_false_eq_true],
        ?_⟩
      have hpos : 0 < n := Nat.pos_of_ne_zero hc.1
      have := (Nat.div_lt_iff_lt_mul hpos).1 hc.2
      omega
    · right
      have hle : s.units w * n ≤ MAX_UNITS_IN_CIRCULATION - s.existing_units := by
        by_cases hn0 : n = 0
        · simp [hn0]
        · have hpos : 0 < n := Nat.pos_of_ne_zero hn0
          have hnot : ¬ (MAX_UNITS_IN_CIRCULATION - s.existing_units) / n < s.units w :=
            fun hlt => hc ⟨hn0, hlt⟩
          exact (Nat.le_div_iff_mul_le hpos).1 (Nat.le_of_not_lt hnot)
      have hmul : mul64 (s.units w) n = s.units w * n := mul64_eq _ _ (by omega)
      have hadd : add64 s.existing_units (s.units w * n) = s.existing_units + s.units w * n :=
        add64_eq _ _ (by omega)
      have hrun : ∃ t, times s w n now = .ok t := by
        simp only [times, ha, if_true, hsub, hc, if_false]
        exact ⟨_, rfl⟩
      obtain ⟨t, ht⟩ := hrun
      have ht2 := ht
      simp only [times, ha, if_true, hsub, hc, if_false, Outcome.ok.injEq] at ht2
      have hE : t.existing_units = s.existing_units + s.units w * n := by
        rw [← ht2]
        simp [hnw, hmul, hadd]
      have hsum : liveUnits t + s.existing_units = liveUnits s + t.existing_units := by
        rw [hE, ← ht2]
        simp [liveUnits_setUnits_sub, liveUnits_emplace_back, liveUnits_setExisting,
          liveUnits_ctor_default, hw, hw1, hnw, ha, hmul]
        omega
      have hfresh : ∀ a, t.next ≤ a → t.alive a = false := by
        rw [← ht2]
        intro a ha3
        have ha2 : s.next + 1 ≤ a := by simpa using ha3
        have := h.fresh a (by omega)
        have hne2 : a ≠ s.next := by omega
        simpa [hne2] using this
      exact ⟨t, ht, hE, by omega, h.of_sums hfresh hsum (by omega), hsum⟩
  · left
    have ha2 : s.alive w = false := by simpa using ha
    exact ⟨by simp [times, ha2], ha2⟩

theorem toU64_nonneg (n : Int) (h0 : 0 ≤ n) (hn : n < 2 ^ 64) : toU64 n = n.toNat := by
  unfold toU64
  rw [Int.emod_eq_of_lt h0 hn]

theorem toU64_neg (n : Int) (h0 : n < 0) (hn : -(2 ^ 64) ≤ n) :
    toU64 n = (n + 2 ^ 64).toNat := by
  unfold toU64
  have : n % 2 ^ 64 = (n + 2 ^ 64) % 2 ^ 64 := by
    rw [Int.add_emod_self]
  rw [this, Int.emod_eq_of_lt (by omega) (by omega)]

/-- The function `operator*=` on a wallet that is alive, for an `int` other than
the least one: it throws exactly when the product would take `existing_units`
over the limit (for a negative `n`: when the wallet holds units), and otherwise
`existing_units` moves with the units of the wallet. -/
theorem times_assign_inv {s : State} (h : Inv s) (w : Nat) (n : Int) (now : Nat)
    (hn : INT_MIN < n ∧ n < 2147483648) (ha : s.alive w = true) :
    (times_assign s w n now = .invalid_argument s ∧
      ((0 ≤ n ∧ MAX_UNITS_IN_CIRCULATION < s.existing_units - s.units w + s.units w * n.toNat) ∨
        (n < 0 ∧ 0 < s.units w))) ∨
    (∃ t, times_assign s w n now = .ok t ∧
      t.existing_units = s.existing_units - s.units w + s.units w * n.toNat ∧
      t.existing_units ≤ MAX_UNITS_IN_CIRCULATION ∧ Inv t ∧
      liveUnits t + s.existing_units = liveUnits s + t.existing_units) := by
  have hw := h.lt_next ha
  have hu := units_le_liveUnits s w hw ha
  have hsum0 := h.sum
  have hlim := h.limit
  have hmax := max_eq
  have hmin : INT_MIN = -2147483648 := rfl
  have hsubE : sub64 s.existing_units (s.units w) = s.existing_units - s.units w :=
    sub64_eq _ _ (by omega) (by omega)
  have hsub : sub64 MAX_UNITS_IN_CIRCULATION s.existing_units =
      MAX_UNITS_IN_CIRCULATION - s.existing_units :=
    sub64_eq _ _ hlim (by rw [hmax]; decide)
  -- what the body does, for a product that fits
  have body : ∀ k : Nat, toU64 n = k → s.units w * k ≤ MAX_UNITS_IN_CIRCULATION →
      s.existing_units - s.units w + s.units w * k ≤ MAX_UNITS_IN_CIRCULATION →
      ∀ t, Outcome.ok
        ((((s.setExisting (sub64 s.existing_units (s.units w))).setUnits w
          (mul64 ((s.setExisting (sub64 s.existing_units (s.units w))).units w)
            (toU64 n))).setExisting
          (add64 ((s.setExisting (sub64 s.existing_units (s.units w))).setUnits w
            (mul64 ((s.setExisting (sub64 s.existing_units (s.units w))).units w)
              (toU64 n))).existing_units
            (((s.setExisting (sub64 s.existing_units (s.units w))).setUnits w
              (mul64 ((s.setExisting (sub64 s.existing_units (s.units w))).units w)
                (toU64 n))).units w))).emplace_back w
          ((((s.setExisting (sub64 s.existing_units (s.units w))).setUnits w
            (mul64 ((s.setExisting (sub64 s.existing_units (s.units w))).units w)
              (toU64 n))).setExisting
            (add64 ((s.setExisting (sub64 s.existing_units (s.units w))).setUnits w
              (mul64 ((s.setExisting (sub64 s.existing_units (s.units w))).units w)
                (toU64 n))).existing_units
              (((s.setExisting (sub64 s.existing_units (s.units w))).setUnits w
                (mul64 ((s.setExisting (sub64 s.existing_units (s.units w))).units w)
                  (toU64 n))).units w))).units w) now) = Outcome.ok t →
        t.existing_units = s.existing_units - s.units w + s.units w * k ∧
        t.existing_units ≤ MAX_UNITS_IN_CIRCULATION ∧ Inv t ∧
        liveUnits t + s.existing_units = liveUnits s + t.existing_units := by
    intro k hk hfit hfit2 t ht
    simp only [Outcome.ok.injEq] at ht
    have hmul : mul64 (s.units w) k = s.units w * k := mul64_eq _ _ (by omega)
    have hadd : add64 (s.existing_units - s.units w) (s.units w * k) =
        s.existing_units - s.units w + s.units w * k := add64_eq _ _ (by omega)
    have hE : t.existing_units = s.existing_units - s.units w + s.units w * k := by
      rw [← ht]
      simp [hk, hmul, hadd, hsubE]
    have hsum : liveUnits t + s.existing_units = liveUnits s + t.existing_units := by
      rw [hE, ← ht]
      simp [liveUnits_setUnits_sub, liveUnits_emplace_back, liveUnits_setExisting, hw, ha,
        hk, hmul]
      omega
    have hfresh : ∀ a, t.next ≤ a → t.alive a = false := by
      rw [← ht]
      intro a ha3
      simpa using h.fresh a (by simpa using ha3)
    exact ⟨hE, by omega, h.of_sums hfresh hsum (by omega), hsum⟩
  by_cases h01 : n = 0 ∨ n = 1
  · right
    have hk : toU64 n = n.toNat := toU64_nonneg n (by omega) (by omega)
    have hfit : s.units w * n.toNat ≤ MAX_UNITS_IN_CIRCULATION := by
      rcases h01 with e | e
      · subst e; simp
      · subst e; simp; omega
    have hfit2 : s.existing_units - s.units w + s.units w * n.toNat ≤
        MAX_UNITS_IN_CIRCULATION := by
      rcases h01 with e | e
      · subst e; simp; omega
      · subst e; simp; omega
    have hrun : ∃ t, times_assign s w n now = .ok t := by
      have : ¬ (n ≠ 0 ∧ n ≠ 1) := by omega
      simp only [times_assign, ha, if_true, this, if_false]
      exact ⟨_, rfl⟩
    obtain ⟨t, ht⟩ := hrun
    have ht2 := ht
    have : ¬ (n ≠ 0 ∧ n ≠ 1) := by omega
    simp only [times_assign, ha, if_true, this, if_false] at ht2
    exact ⟨t, ht, body n.toNat hk hfit hfit2 t ht2⟩
  · have hne : n ≠ 0 ∧ n ≠ 1 := by omega
    have hnm : n ≠ INT_MIN := by omega
    by_cases hpos : 0 ≤ n
    · have hk : toU64 n = n.toNat := toU64_nonneg n hpos (by omega)
      have hk1 : toU64 (n - 1) = n.toNat - 1 := by
        rw [toU64_nonneg (n - 1) (by omega) (by omega)]
        omega
      have hpos1 : 0 < n.toNat - 1 := by omega
      have hprod : s.units w * n.toNat = s.units w * (n.toNat - 1) + s.units w := by
        have : n.toNat = (n.toNat - 1) + 1 := by omega
        rw [this, Nat.mul_succ]
        simp
      by_cases hc : (MAX_UNITS_IN_CIRCULATION - s.existing_units) / (n.toNat - 1) < s.units w
      · left
        refine ⟨by simp [times_assign, times_assign_test, ha, hne, hnm, hk1, hsub, hc],
          Or.inl ⟨hpos, ?_⟩⟩
        have := (Nat.div_lt_iff_lt_mul hpos1).1 hc
        omega
      · right
        have hle := (Nat.le_div_iff_mul_le hpos1).1 (Nat.le_of_not_lt hc)
        have hrun : ∃ t, times_assign s w n now = .ok t := by
          simp only [times_assign, times_assign_test, ha, if_true, hne, and_self, ne_eq,
            not_false_eq_true, hnm, if_false, hk1, hsub, hc, decide_False]
          exact ⟨_, rfl⟩
        obtain ⟨t, ht⟩ := hrun
        have ht2 := ht
        simp only [times_assign, times_assign_test, ha, if_true, hne, and_self, ne_eq,
          not_false_eq_true, hnm, if_false, hk1, hsub, hc, decide_False] at ht2
        exact ⟨t, ht, body n.toNat hk (by omega) (by omega) t ht2⟩
    · have hneg : n < 0 := lt_of_not_ge hpos
      have hk1 : toU64 (n - 1) = (n - 1 + 18446744073709551616).toNat := by
        have := toU64_neg (n - 1) (by omega) (by omega)
        norm_num at this
        exact this
      have hbig : MAX_UNITS_IN_CIRCULATION - s.existing_units <
          (n - 1 + 18446744073709551616).toNat := by
        omega
      have hq : (MAX_UNITS_IN_CIRCULATION - s.existing_units) /
          (n - 1 + 18446744073709551616).toNat = 0 :=
        Nat.div_eq_of_lt hbig
      have htn : n.toNat = 0 := by omega
      by_cases hu0 : 0 < s.units w
      · left
        exact ⟨by simp [times_assign, times_assign_test, ha, hne, hnm, hk1, hsub, hq, hu0],
          Or.inr ⟨hneg, hu0⟩⟩
      · right
        have hz : s.units w = 0 := by omega
        have hrun : ∃ t, times_assign s w n now = .ok t := by
          simp only [times_assign, times_assign_test, ha, if_true, hne, and_self, ne_eq,
            not_false_eq_true, hnm, if_false, hk1, hsub, hq, hu0, decide_False]
          exact ⟨_, rfl⟩
        obtain ⟨t, ht⟩ := hrun
        have ht2 := ht
        simp only [times_assign, times_assign_test, ha, if_true, hne, and_self, ne_eq,
          not_false_eq_true, hnm, if_false, hk1, hsub, hq, hu0, decide_False] at ht2
        have hb := body (toU64 n) rfl (by rw [hz]; simp) (by rw [hz]; simp; omega) t ht2
        rw [hz] at hb ⊢
        rw [htn]
        exact ⟨t, ht, by simpa using hb⟩

/-- A call that throws leaves the state as it was. -/
theorem throws_same (c : Call) (s t : State) (h : c.run s = .invalid_argument t) : t = s := by
  cases c <;> simp only [Call.run, ctor_int, ctor_units, ctor_move, ctor_move2, dtor,
    move_assign, plus_rvalue, plus_lvalue, minus_rvalue, minus_lvalue, plus_assign,
    minus_assign, times, times_assign] at h
  all_goals repeat' (split at h)
  all_goals first
    | (cases h; rfl)
    | cases h

/-- A call on distinct wallets keeps the invariant; and unless it is a move
assignment, `existing_units` moves with the units of the wallets that are alive. -/
theorem Inv.step {s t : State} (h : Inv s) (c : Call) (hd : c.distinct = true)
    (hr : c.inRange = true) (ht : c.run s = .ok t) :
    Inv t ∧ (c.isMoveAssign = false →
      liveUnits t + s.existing_units = liveUnits s + t.existing_units) := by
  cases c with
  | ctor_default now =>
    simp only [Call.run, Outcome.ok.injEq] at ht
    subst ht
    exact ⟨(ctor_default_inv h now).1, fun _ => (ctor_default_inv h now).2⟩
  | ctor_int n now =>
    simp only [Call.inRange, decide_eq_true_eq] at hr
    rcases ctor_int_inv h n now hr with ⟨e, _⟩ | ⟨t2, e, _, _, _, hI, hs⟩
    · simp only [Call.run] at ht; rw [e] at ht; cases ht
    · simp only [Call.run] at ht; rw [e] at ht; cases ht
      exact ⟨hI, fun _ => hs⟩
  | ctor_units units now =>
    simp only [Call.inRange, decide_eq_true_eq] at hr
    rcases ctor_units_inv h units now hr with ⟨e, _⟩ | ⟨t2, e, _, _, hI, hs⟩
    · simp only [Call.run] at ht; rw [e] at ht; cases ht
    · simp only [Call.run] at ht; rw [e] at ht; cases ht
      exact ⟨hI, fun _ => hs⟩
  | ctor_move w now =>
    obtain ⟨hI, hs⟩ := ctor_move_inv h w now t ht
    exact ⟨hI, fun _ => hs⟩
  | ctor_move2 w1 w2 now =>
    simp only [Call.distinct, decide_eq_true_eq] at hd
    obtain ⟨hI, hs⟩ := ctor_move2_inv h w1 w2 now hd t ht
    exact ⟨hI, fun _ => hs⟩
  | dtor w =>
    obtain ⟨hI, hs⟩ := dtor_inv h w t ht
    exact ⟨hI, fun _ => hs⟩
  | move_assign this rhs now =>
    obtain ⟨hI, _, _⟩ := move_assign_inv h this rhs now t ht
    exact ⟨hI, fun hm => by simp [Call.isMoveAssign] at hm⟩
  | plus_rvalue lhs rhs now =>
    simp only [Call.distinct, decide_eq_true_eq] at hd
    obtain ⟨hI, hs⟩ := plus_rvalue_inv h lhs rhs now hd t ht
    exact ⟨hI, fun _ => hs⟩
  | plus_lvalue lhs rhs now =>
    simp only [Call.distinct, decide_eq_true_eq] at hd
    obtain ⟨hI, hs⟩ := plus_lvalue_inv h lhs rhs now hd t ht
    exact ⟨hI, fun _ => hs⟩
  | minus_rvalue lhs rhs now =>
    simp only [Call.distinct, decide_eq_true_eq] at hd
    obtain ⟨hI, hs⟩ := minus_rvalue_inv h lhs rhs now hd t ht
    exact ⟨hI, fun _ => hs⟩
  | minus_lvalue lhs rhs now =>
    simp only [Call.distinct, decide_eq_true_eq] at hd
    obtain ⟨hI, hs⟩ := minus_lvalue_inv h lhs rhs now hd t ht
    exact ⟨hI, fun _ => hs⟩
  | plus_assign lhs rhs now =>
    simp only [Call.distinct, decide_eq_true_eq] at hd
    obtain ⟨hI, hs⟩ := plus_assign_inv h lhs rhs now hd t ht
    exact ⟨hI, fun _ => hs⟩
  | minus_assign lhs rhs now =>
    simp only [Call.distinct, decide_eq_true_eq] at hd
    obtain ⟨hI, hs⟩ := minus_assign_inv h lhs rhs now hd t ht
    exact ⟨hI, fun _ => hs⟩
  | times w n now =>
    simp only [Call.inRange, decide_eq_true_eq] at hr
    rcases times_inv h w n now hr with ⟨e, _⟩ | ⟨e, _⟩ | ⟨t2, e, _, _, hI, hs⟩
    · simp only [Call.run] at ht; rw [e] at ht; cases ht
    · simp only [Call.run] at ht; rw [e] at ht; cases ht
    · simp only [Call.run] at ht; rw [e] at ht; cases ht
      exact ⟨hI, fun _ => hs⟩
  | times_assign w n now =>
    simp only [Call.inRange, decide_eq_true_eq] at hr
    simp only [Call.run] at ht
    by_cases ha : s.alive w = true
    · by_cases hmin : n = INT_MIN
      · subst hmin
        have h01 : INT_MIN ≠ 0 ∧ INT_MIN ≠ 1 := by decide
        simp [times_assign, times_assign_test, ha, h01] at ht
      · have hlt : INT_MIN < n := lt_of_le_of_ne hr.1 (Ne.symm hmin)
        rcases times_assign_inv h w n now ⟨hlt, hr.2⟩ ha with ⟨e, _⟩ | ⟨t2, e, _, _, hI, hs⟩
        · rw [e] at ht; cases ht
        · rw [e] at ht; cases ht
          exact ⟨hI, fun _ => hs⟩
    · simp [times_assign, ha] at ht

/-- Every list of calls on distinct wallets from the start of the program keeps
`existing_units` within the limit and at least the units of the wallets that are
alive; without a move assignment the two are equal. -/
theorem wallet_inv_runCalls : ∀ (cs : List Call) (s0 s : State), Inv s0 →
    (∀ c ∈ cs, c.distinct = true ∧ c.inRange = true) → runCalls cs s0 = some s →
    Inv s ∧ ((∀ c ∈ cs, c.isMoveAssign = false) →
      liveUnits s + s0.existing_units = liveUnits s0 + s.existing_units)
  | [], s0, s, h, _, hrun => by
    simp only [runCalls, Option.some.injEq] at hrun
    subst hrun
    exact ⟨h, fun _ => rfl⟩
  | c :: cs, s0, s, h, hcs, hrun => by
    obtain ⟨hd, hr⟩ := hcs c (List.mem_cons_self _ _)
    have hrest : ∀ c2 ∈ cs, c2.distinct = true ∧ c2.inRange = true :=
      fun c2 hc2 => hcs c2 (List.mem_cons_of_mem _ hc2)
    simp only [runCalls] at hrun
    cases hc : c.run s0 with
    | ok t =>
      rw [hc] at hrun
      obtain ⟨hI, hs⟩ := h.step c hd hr hc
      obtain ⟨hI2, hs2⟩ := wallet_inv_runCalls cs t s hI hrest hrun
      refine ⟨hI2, fun hm => ?_⟩
      have e1 := hs (hm c (List.mem_cons_self _ _))
      have e2 := hs2 (fun c2 hc2 => hm c2 (List.mem_cons_of_mem _ hc2))
      omega
    | invalid_argument t =>
      rw [hc] at hrun
      have e := throws_same c s0 t hc
      subst e
      obtain ⟨hI2, hs2⟩ := wallet_inv_runCalls cs t s h hrest hrun
      exact ⟨hI2, fun hm => hs2 (fun c2 hc2 => hm c2 (List.mem_cons_of_mem _ hc2))⟩
    | undefined => rw [hc] at hrun; cases hrun

/-- The bound on the units in circulation for calls on distinct wallets: after every
list of such calls from the start of the program, `existing_units` is at most the
limit and at least the units of the wallets that are alive, and it is equal to them
when no call is a move assignment. -/
theorem distinct_wallets_keep_limit (cs : List Call) (s : State)
    (hcs : ∀ c ∈ cs, c.distinct = true ∧ c.inRange = true)
    (hrun : runCalls cs init = some s) :
    s.existing_units ≤ MAX_UNITS_IN_CIRCULATION ∧ liveUnits s ≤ s.existing_units ∧
      ((∀ c ∈ cs, c.isMoveAssign = false) → liveUnits s = s.existing_units) := by
  obtain ⟨hI, hs⟩ := wallet_inv_runCalls cs init s inv_init_wallet hcs hrun
  refine ⟨hI.limit, hI.sum, fun hm => ?_⟩
  have := hs hm
  have h0 : liveUnits init = 0 := by simp [liveUnits, init]
  have h1 : init.existing_units = 0 := rfl
  omega

/-! ## The claims about the wallets -/

/-- C24, the code at a failing input: `Wallet a(1); Wallet b(2); a = std::move(b);`.
The three calls return; afterwards `a` holds `200000000` units and `b` none, so the
wallets that are alive hold `200000000` units, and `existing_units` is
`300000000`: the move assignment overwrites the units of `a` without taking them
off `existing_units`. -/
theorem move_assign_keeps_existing_units :
    ∃ s, runCalls [.ctor_int 1 10, .ctor_int 2 11, .move_assign 0 1 12] init = some s ∧
      getUnits s 0 = 200000000 ∧ getUnits s 1 = 0 ∧ s.next = 2 ∧
      liveUnits s = 200000000 ∧ s.existing_units = 300000000 := by
  obtain ⟨s, hs, hP⟩ := wallet_runCalls_test
    [.ctor_int 1 10, .ctor_int 2 11, .move_assign 0 1 12] init
    (fun s => decide (getUnits s 0 = 200000000 ∧ getUnits s 1 = 0 ∧ s.next = 2 ∧
      liveUnits s = 200000000 ∧ s.existing_units = 300000000)) (by decide)
  exact ⟨s, hs, of_decide_eq_true hP⟩

/-- C25, the code at a failing input: `Wallet a(21000000);
Wallet w(std::move(a), std::move(a));`.  Both calls return; `existing_units` is
at the limit, and `w` holds twice the limit.  When `w` is destroyed,
`existing_units` wraps around to `2 ^ 64 - 2100000000000000`, above the limit. -/
theorem same_wallet_twice_passes_limit :
    ∃ s t, runCalls [.ctor_int 21000000 10, .ctor_move2 0 0 11] init = some s ∧
      s.existing_units = MAX_UNITS_IN_CIRCULATION ∧
      getUnits s 1 = 2 * MAX_UNITS_IN_CIRCULATION ∧
      MAX_UNITS_IN_CIRCULATION < liveUnits s ∧
      runCalls [.dtor 1] s = some t ∧
      t.existing_units = 2 ^ 64 - MAX_UNITS_IN_CIRCULATION ∧
      MAX_UNITS_IN_CIRCULATION < t.existing_units := by
  obtain ⟨s, hs, hP⟩ := wallet_runCalls_test [.ctor_int 21000000 10, .ctor_move2 0 0 11] init
    (fun s => decide (s.existing_units = MAX_UNITS_IN_CIRCULATION ∧
      getUnits s 1 = 2 * MAX_UNITS_IN_CIRCULATION ∧
      MAX_UNITS_IN_CIRCULATION < liveUnits s) &&
      (match runCalls [.dtor 1] s with
        | some t => decide (t.existing_units = 2 ^ 64 - MAX_UNITS_IN_CIRCULATION ∧
            MAX_UNITS_IN_CIRCULATION < t.existing_units)
        | none => false)) (by decide)
  rw [Bool.and_eq_true] at hP
  obtain ⟨t, ht, hQ⟩ := wallet_runCalls_test [.dtor 1] s
    (fun t => decide (t.existing_units = 2 ^ 64 - MAX_UNITS_IN_CIRCULATION ∧
      MAX_UNITS_IN_CIRCULATION < t.existing_units)) hP.2
  have h1 := of_decide_eq_true hP.1
  have h2 := of_decide_eq_true hQ
  exact ⟨s, t, hs, h1.1, h1.2.1, h1.2.2, ht, h2.1, h2.2⟩

/-- C26, the code at a failing input: `Wallet w1(1); w1 *= 2; Wallet w2(1);
Wallet w3(std::move(w1), std::move(w2));`.  The history of `w1` has two entries and
that of `w2` one; the constructor returns, `w3` holds the units of both and `w1`
and `w2` none, but the history of `w3` has five entries, not four: the vector is
made with `w1.operations.size() + w1.operations.size()` elements.  With the
arguments the other way round, `Wallet w3(std::move(w2), std::move(w1))`, the
vector has two elements and `std::merge` writes three: undefined behaviour. -/
theorem merged_history_has_wrong_size :
    ∃ s t, runCalls [.ctor_int 1 10, .times_assign 0 2 11, .ctor_int 1 12] init = some s ∧
      opSize s 0 = 2 ∧ opSize s 1 = 1 ∧ getUnits s 0 = 200000000 ∧ getUnits s 1 = 100000000 ∧
      runCalls [.ctor_move2 0 1 13] s = some t ∧
      getUnits t 2 = 300000000 ∧ getUnits t 0 = 0 ∧ getUnits t 1 = 0 ∧ opSize t 2 = 5 ∧
      (ctor_move2 s 0 1 13).isUndefined = false ∧
      (ctor_move2 s 1 0 13).isUndefined = true := by
  obtain ⟨s, hs, hP⟩ := wallet_runCalls_test
    [.ctor_int 1 10, .times_assign 0 2 11, .ctor_int 1 12] init
    (fun s => decide (opSize s 0 = 2 ∧ opSize s 1 = 1 ∧ getUnits s 0 = 200000000 ∧
      getUnits s 1 = 100000000 ∧ (ctor_move2 s 0 1 13).isUndefined = false ∧
      (ctor_move2 s 1 0 13).isUndefined = true) &&
      (match runCalls [.ctor_move2 0 1 13] s with
        | some t => decide (getUnits t 2 = 300000000 ∧ getUnits t 0 = 0 ∧ getUnits t 1 = 0 ∧
            opSize t 2 = 5)
        | none => false)) (by decide)
  rw [Bool.and_eq_true] at hP
  obtain ⟨t, ht, hQ⟩ := wallet_runCalls_test [.ctor_move2 0 1 13] s
    (fun t => decide (getUnits t 2 = 300000000 ∧ getUnits t 0 = 0 ∧ getUnits t 1 = 0 ∧
      opSize t 2 = 5)) hP.2
  have h1 := of_decide_eq_true hP.1
  have h2 := of_decide_eq_true hQ
  exact ⟨s, t, hs, h1.1, h1.2.1, h1.2.2.1, h1.2.2.2.1, ht, h2.1, h2.2.1, h2.2.2.1, h2.2.2.2,
    h1.2.2.2.2.1, h1.2.2.2.2.2⟩

end Wallet

/-! ## Lemmas about the space battle -/

namespace SpaceBattle

/-- What the instantiations of `howMuchSquares` arrive at: the least `n` from the
start with `n * n >= t1`. -/
theorem howMuchSquaresFrom_spec (t1 : Int) : ∀ (steps n : Nat),
    (∀ m : Nat, m < n → (m : Int) * m < t1) → ((n + steps : Nat) : Int) * (n + steps : Nat) ≥ t1 →
    ((howMuchSquaresFrom t1 steps n : Nat) : Int) * (howMuchSquaresFrom t1 steps n : Nat) ≥ t1 ∧
      ∀ m : Nat, m < howMuchSquaresFrom t1 steps n → (m : Int) * m < t1
  | 0, n, hlow, hhigh => by
    simp only [howMuchSquaresFrom]
    exact ⟨by simpa using hhigh, hlow⟩
  | steps + 1, n, hlow, hhigh => by
    simp only [howMuchSquaresFrom]
    split
    · rename_i h
      exact ⟨h, hlow⟩
    · rename_i h
      apply howMuchSquaresFrom_spec t1 steps (n + 1)
      · intro m hm
        rcases Nat.lt_succ_iff_lt_or_eq.1 hm with h1 | h1
        · exact hlow m h1
        · subst h1; exact lt_of_not_ge h
      · have : n + 1 + steps = n + (steps + 1) := by omega
        rw [this]; exact hhigh

/-- The table `squaresTable()` holds the squares below `t1`, and only them: the
square `t1` itself is left out. -/
theorem mem_squaresTable (t1 : Int) (h : 0 < t1) (x : Int) :
    x ∈ squaresTable t1 ↔ ∃ k : Nat, x = (k : Int) * k ∧ (k : Int) * k < t1 := by
  have hspec := howMuchSquaresFrom_spec t1 t1.toNat 0 (fun m hm => absurd hm (Nat.not_lt_zero m))
    (by
      have h1 : ((0 + t1.toNat : Nat) : Int) = t1 := by
        simp only [Nat.zero_add]
        exact Int.toNat_of_nonneg (le_of_lt h)
      rw [h1]
      nlinarith)
  unfold squaresTable howMuchSquares
  rw [List.mem_map]
  constructor
  · rintro ⟨i, hi, rfl⟩
    exact ⟨i, rfl, hspec.2 i (List.mem_range.1 hi)⟩
  · rintro ⟨k, rfl, hk⟩
    refine ⟨k, List.mem_range.2 ?_, rfl⟩
    by_contra hge
    have hge2 : howMuchSquaresFrom t1 t1.toNat 0 ≤ k := Nat.le_of_not_lt hge
    have h1 : ((howMuchSquaresFrom t1 t1.toNat 0 : Nat) : Int) ≤ (k : Int) := by exact_mod_cast hge2
    have h2 : (0 : Int) ≤ (howMuchSquaresFrom t1 t1.toNat 0 : Nat) := Int.natCast_nonneg _
    have := hspec.1
    nlinarith

/-! ## The claims about the space battle -/

/-- C27, the code at a failing input: a `DeathStar` with shield `1` and attack
power `1` and two `XWing`s with shield `10` and attack power `1`, `t0 = 0` and
`t1 = 10`.  After the constructor the counters are right.  The first `tick` is at
time `0`, an attack time: the first `XWing` answers the attack and takes the shield
of the `DeathStar` to `0`, which decrements the counter to `0`; the `DeathStar`
then attacks the second `XWing` as well, and the counter is decremented again, to
`2 ^ 64 - 1`, while no imperial ship has a shield other than `0`. -/
theorem imperial_counter_decremented_twice :
    countImperialFleet (new 0 10 [.ImperialStarship 1 1, .RebelStarship .XWING 10 300000 1,
      .RebelStarship .XWING 10 300000 1]) = 1 ∧
    imperialShipsLeft (new 0 10 [.ImperialStarship 1 1, .RebelStarship .XWING 10 300000 1,
      .RebelStarship .XWING 10 300000 1]) = 1 ∧
    countImperialFleet (tick (new 0 10 [.ImperialStarship 1 1,
      .RebelStarship .XWING 10 300000 1, .RebelStarship .XWING 10 300000 1]) 1) = 2 ^ 64 - 1 ∧
    imperialShipsLeft (tick (new 0 10 [.ImperialStarship 1 1,
      .RebelStarship .XWING 10 300000 1, .RebelStarship .XWING 10 300000 1]) 1) = 0 ∧
    countRebelFleet (tick (new 0 10 [.ImperialStarship 1 1,
      .RebelStarship .XWING 10 300000 1, .RebelStarship .XWING 10 300000 1]) 1) = 2 ∧
    rebelShipsLeft (tick (new 0 10 [.ImperialStarship 1 1,
      .RebelStarship .XWING 10 300000 1, .RebelStarship .XWING 10 300000 1]) 1) = 2 := by
  decide

/-- C28, the code at a failing input: for `t1 = 4` the table is `[0, 1]`, without
the square `4`, so `std::binary_search` does not find the time `4`; in a battle of a
`DeathStar` and an `Explorer` with `t0 = 0` and `t1 = 4`, the tick at time `0`
attacks (the shield of the `Explorer` goes from `10` to `9`) and takes the time to
`4`, and the tick at time `4` attacks nobody.  For `t1 = 5` the table is
`[0, 1, 4]`. -/
theorem squares_table_leaves_out_t1 :
    squaresTable 4 = [0, 1] ∧ binary_search (squaresTable 4) 4 = false ∧
    squaresTable 5 = [0, 1, 4] ∧
    (tick (new 0 4 [.ImperialStarship 10 1, .RebelStarship .EXPLORER 10 300000 0]) 4).ships =
      [.ImperialStarship 10 1, .RebelStarship .EXPLORER 9 300000 0] ∧
    (tick (new 0 4 [.ImperialStarship 10 1, .RebelStarship .EXPLORER 10 300000 0]) 4).currentTime
      = 4 ∧
    (tick (tick (new 0 4 [.ImperialStarship 10 1, .RebelStarship .EXPLORER 10 300000 0]) 4)
      1).ships = [.ImperialStarship 10 1, .RebelStarship .EXPLORER 9 300000 0] := by
  decide

end SpaceBattle
